import Mathlib

/-! The lock manager of herodb (`Kernel/Source/Utility/Lock.cpp`).

A shallow embedding of `vl::database::LockManager` and of the
`DeadlockDetection` helper class, followed by theorems about them.

Conventions of the embedding

* `vint` values are `Int`, container sizes and indices into containers are
  `Nat`; the per-mode holder counters never leave the range of a 64-bit
  integer because each unit is backed by one entry of a transaction's list.
* A `Ptr<T>` stored in a container is modelled by the value stored under its
  key: a mutation through the pointer is a store under that key, which has
  no effect once the key has been removed from the container.
* `CHECK_ERROR` failures (fatal internal errors) make an operation return
  `none` (`Outcome.error` for the scheduler).
-/

namespace herodb

/-! ## Handles and lock targets -/

/-- Modelled from the spec: handles are opaque and validity-checkable; a table
handle "has a dense non-negative index and a validity bit".  The header that
declares them is not part of the sources.  `none` is `Invalid()`. -/
abbrev BufferTable := Option Nat

/-- Modelled from the spec: opaque transaction handle. -/
abbrev BufferTransaction := Option Nat

/-- Modelled from the spec: opaque page handle. -/
abbrev BufferPage := Option Nat

/-- Modelled from the spec: opaque row address, decodable by the buffer manager. -/
abbrev BufferPointer := Option Nat

/-- Modelled from the spec: opaque source handle used when a table is registered. -/
abbrev BufferSource := Option Nat

/-- Validity test shared by all handles (`IsValid()`). -/
def Handle.IsValid (h : Option Nat) : Bool := h.isSome

/-- The `index` member of a (valid) table handle. -/
def BufferTable.index (t : BufferTable) : Nat := t.getD 0

/-- The macro `LOCK_TYPES`: `(vint)LockTargetAccess::NumbersOfLockTypes`. -/
abbrev LOCK_TYPES : Nat := 6

/-- The enum `LockTargetAccess` by position `0..5`. -/
abbrev LockTargetAccess := Fin LOCK_TYPES

/-- The enum `LockTargetType` together with the union member it selects. -/
inductive LockTargetObject where
  | Table
  | Page (page : BufferPage)
  | Row (address : BufferPointer)
  deriving DecidableEq, Repr

/-- Modelled from the spec: `LockTarget` is "a tagged union over
Table(table), Page(table,page), Row(table,address) plus an access mode";
equality ignores no field. -/
structure LockTarget where
  access : LockTargetAccess
  table : BufferTable
  object : LockTargetObject
  deriving DecidableEq, Repr

/-- The default-constructed `LockTarget()`: an invalid target. -/
def LockTarget.Invalid : LockTarget := ⟨0, none, LockTargetObject.Table⟩

/-- Modelled from the spec: a target is valid when it names a table
(`pendingLock` is "invalid when none"). -/
def LockTarget.IsValid (t : LockTarget) : Bool := Handle.IsValid t.table

/-- `LockResult` carries the single field `blocked`. -/
structure LockResult where
  blocked : Bool
  deriving DecidableEq, Repr

/-- Modelled from the spec: the buffer manager collaborator, reduced to the two
calls the lock manager makes. -/
structure BufferManager where
  GetIndexPage : BufferSource → BufferPage
  DecodePointer : BufferPointer → Option (BufferPage × Nat)

/-! ## Compatibility matrix -/

/-- The literal rows of `lockCompatibility` (request row, existing column). -/
def lockCompatibilityRows : List (List Bool) :=
  [ [true,  true,  true,  true,  true,  false],
    [true,  true,  true,  false, false, false],
    [true,  true,  false, false, false, false],
    [true,  false, false, true,  false, false],
    [true,  false, false, false, false, false],
    [false, false, false, false, false, false] ]

/-- The array `lockCompatibility[request][existing]`. -/
def lockCompatibility (request existing : LockTargetAccess) : Bool :=
  (lockCompatibilityRows.getD request.val []).getD existing.val false

/-- The index range `0 .. LOCK_TYPES - 1` of the loop in `AcquireObjectLockUnsafe`. -/
def lockTypes : List LockTargetAccess := [0, 1, 2, 3, 4, 5]

/-! ## Containers -/

/-- A `Dictionary<K, V>` used only through key lookup, insertion and removal:
an association list with distinct keys. -/
abbrev Dict (K V : Type) := List (K × V)

/-- The pattern `Keys().IndexOf(k)` followed by `Values()[index]`. -/
def Dict.find {K V : Type} [DecidableEq K] : Dict K V → K → Option V
  | [], _ => none
  | (k, v) :: m, x => if k = x then some v else Dict.find m x

/-- The call `Keys().Contains(k)`. -/
def Dict.Contains {K V : Type} [DecidableEq K] (m : Dict K V) (k : K) : Bool :=
  (Dict.find m k).isSome

/-- The call `Add(k, v)` for a key that is not present. -/
def Dict.Add {K V : Type} (m : Dict K V) (k : K) (v : V) : Dict K V := m ++ [(k, v)]

/-- The call `Remove(k)`: afterwards `k` is not a key. -/
def Dict.Remove {K V : Type} [DecidableEq K] : Dict K V → K → Dict K V
  | [], _ => []
  | (k, v) :: m, x => if k = x then Dict.Remove m x else (k, v) :: Dict.Remove m x

/-- A mutation through the pointer stored under `k`: the value under `k` is
replaced; nothing happens when `k` is no longer a key. -/
def Dict.Store {K V : Type} [DecidableEq K] : Dict K V → K → V → Dict K V
  | [], _, _ => []
  | (k, v) :: m, x, w => if k = x then (k, w) :: m else (k, v) :: Dict.Store m x w

/-- The call `IndexOf(x)` of a list: the first position of `x`, the length of
the list when `x` is absent (where the source returns `-1`). -/
def IndexOf {α : Type} [DecidableEq α] : List α → α → Nat
  | [], _ => 0
  | y :: l, x => if y = x then 0 else IndexOf l x + 1

/-- The call `Remove(x)` of a list (`RemoveAt(IndexOf(x))`): the list without
the first occurrence of `x`. -/
def removeFirst {α : Type} [DecidableEq α] : List α → α → List α
  | [], _ => []
  | y :: l, x => if y = x then l else y :: removeFirst l x

/-! ## Lock state -/

/-- The array `acquiredLocks[LOCK_TYPES]` of a lock info. -/
abbrev LockCounts := LockTargetAccess → Int

/-- A fresh counter array. -/
def LockCounts.zero : LockCounts := fun _ => 0

/-- All six counters are zero. -/
def LockCounts.IsZero (c : LockCounts) : Bool := lockTypes.all (fun i => decide (c i = 0))

/-- The struct `RowLockInfo`. -/
structure RowLockInfo where
  object : Nat
  acquiredLocks : LockCounts

/-- The struct `PageLockInfo`. -/
structure PageLockInfo where
  object : BufferPage
  acquiredLocks : LockCounts
  rowLocks : Dict Nat RowLockInfo

/-- The struct `TableLockInfo`. -/
structure TableLockInfo where
  object : BufferTable
  acquiredLocks : LockCounts
  pageLocks : Dict BufferPage PageLockInfo

/-- Modelled from the spec: `isEmpty()` is "all counts zero AND no child state". -/
def RowLockInfo.IsEmpty (r : RowLockInfo) : Bool := r.acquiredLocks.IsZero

/-- Modelled from the spec: `isEmpty()` is "all counts zero AND no child state". -/
def PageLockInfo.IsEmpty (p : PageLockInfo) : Bool :=
  p.acquiredLocks.IsZero && p.rowLocks.isEmpty

/-- Modelled from the spec: `isEmpty()` is "all counts zero AND no child state". -/
def TableLockInfo.IsEmpty (t : TableLockInfo) : Bool :=
  t.acquiredLocks.IsZero && t.pageLocks.isEmpty

/-- The struct `TransInfo`. -/
structure TransInfo where
  trans : BufferTransaction
  importance : Nat
  acquiredLocks : List LockTarget
  pendingLock : LockTarget
  deriving DecidableEq, Repr

/-- The struct `PendingInfo`; `lastTryIndex` starts at `-1`. -/
structure PendingInfo where
  transactions : List BufferTransaction
  lastTryIndex : Int
  deriving DecidableEq, Repr

/-- The struct `TableInfo`. -/
structure TableInfo where
  table : BufferTable
  source : BufferSource
  deriving DecidableEq, Repr

/-- The map `pendings`, kept sorted by ascending importance. -/
abbrev Pendings := List (Nat × PendingInfo)

/-- The call `pendings.Add(key, info)`: insertion at the sorted position. -/
def Pendings.Add : Pendings → Nat → PendingInfo → Pendings
  | [], k, v => [(k, v)]
  | (k0, v0) :: m, k, v => if k < k0 then (k, v) :: (k0, v0) :: m else (k0, v0) :: Pendings.Add m k v

/-- The data members of `LockManager`. -/
structure LockManager where
  tables : Dict BufferTable TableInfo
  transactions : Dict BufferTransaction TransInfo
  tableLocks : List (Option TableLockInfo)
  pendings : Pendings

/-- The freshly constructed manager. -/
def LockManager.empty : LockManager := ⟨[], [], [], []⟩

/-! ## Object locks -/

/-- The template `LockManager::AcquireObjectLockUnsafe`, on the counter array
of the lock info and the owner. -/
def AcquireObjectLockUnsafe (lockInfo : LockCounts) (owner : TransInfo) (target : LockTarget) :
    Bool × LockCounts × TransInfo :=
  if lockTypes.any (fun i => !lockCompatibility target.access i && decide (0 < lockInfo i)) then
    (false, lockInfo, owner)
  else
    (true, Function.update lockInfo target.access (lockInfo target.access + 1),
      { owner with acquiredLocks := owner.acquiredLocks ++ [target] })

/-- The template `LockManager::ReleaseObjectLockUnsafe`; `none` is the fatal
error "TInfo::acquiredLocks is corrupted". -/
def ReleaseObjectLockUnsafe (lockInfo : LockCounts) (owner : TransInfo) (target : LockTarget) :
    Option (Bool × LockCounts × TransInfo) :=
  let index := IndexOf owner.acquiredLocks target
  if owner.acquiredLocks.length ≤ index then
    some (false, lockInfo, owner)
  else
    let result := lockInfo target.access - 1
    if result < 0 then none
    else
      some (true, Function.update lockInfo target.access result,
        { owner with acquiredLocks := owner.acquiredLocks.eraseIdx index })

/-! ## Input check and pending queue -/

/-- The method `LockManager::CheckInputUnsafe`; `none` is `nullptr`. -/
def LockManager.CheckInputUnsafe (lm : LockManager) (owner : BufferTransaction)
    (target : LockTarget) : Option TransInfo :=
  if !Handle.IsValid owner then none
  else if !Handle.IsValid target.table then none
  else if (match target.object with
      | LockTargetObject.Page page => !Handle.IsValid page
      | LockTargetObject.Row address => !Handle.IsValid address
      | LockTargetObject.Table => false) then none
  else if !lm.tables.Contains target.table then none
  else lm.transactions.find owner

/-- What a lock handler may touch besides the lock infos: the pending queue of
the manager, the owner's `TransInfo` and the caller's `LockResult`. -/
structure HandlerState where
  pendings : Pendings
  owner : TransInfo
  result : LockResult

/-- The method `LockManager::AddPendingLockUnsafe`. -/
def AddPendingLockUnsafe (h : HandlerState) (target : LockTarget) : Bool × HandlerState :=
  if h.owner.pendingLock.IsValid then (false, h)
  else
    let pendings1 :=
      match Dict.find h.pendings h.owner.importance with
      | none => Pendings.Add h.pendings h.owner.importance ⟨[], -1⟩
      | some _ => h.pendings
    let pendingInfo := (Dict.find pendings1 h.owner.importance).getD ⟨[], -1⟩
    let index := IndexOf pendingInfo.transactions h.owner.trans
    if index < pendingInfo.transactions.length then (false, { h with pendings := pendings1 })
    else
      (true,
        { h with
          pendings := Dict.Store pendings1 h.owner.importance
            { pendingInfo with transactions := pendingInfo.transactions ++ [h.owner.trans] }
          owner := { h.owner with pendingLock := target } })

/-- The method `LockManager::RemovePendingLockUnsafe`. -/
def RemovePendingLockUnsafe (h : HandlerState) (target : LockTarget) : Bool × HandlerState :=
  if !h.owner.pendingLock.IsValid || h.owner.pendingLock ≠ target then (false, h)
  else
    match Dict.find h.pendings h.owner.importance with
    | none => (false, h)
    | some pendingInfo =>
      let index := IndexOf pendingInfo.transactions h.owner.trans
      if pendingInfo.transactions.length ≤ index then (false, h)
      else
        (true,
          { h with
            pendings := Dict.Store h.pendings h.owner.importance
              { pendingInfo with transactions := pendingInfo.transactions.eraseIdx index }
            owner := { h.owner with pendingLock := LockTarget.Invalid } })

/-! ## The dispatcher -/

/-- The type `PreLockHandler<TArgs>`: returns `(success, stopped)`. -/
abbrev PreLockHandler (TArgs : Type) := HandlerState → TArgs → (Bool × Bool) × HandlerState

/-- The type `TableLockHandler<TArgs>`; `none` is a fatal error. -/
abbrev TableLockHandler (TArgs : Type) :=
  HandlerState → TArgs → TableLockInfo → Option (Bool × HandlerState × TableLockInfo)

/-- The type `PageLockHandler<TArgs>`; `none` is a fatal error. -/
abbrev PageLockHandler (TArgs : Type) :=
  HandlerState → TArgs → TableLockInfo → PageLockInfo →
    Option (Bool × HandlerState × TableLockInfo × PageLockInfo)

/-- The type `RowLockHandler<TArgs>`; `none` is a fatal error. -/
abbrev RowLockHandler (TArgs : Type) :=
  HandlerState → TArgs → TableLockInfo → PageLockInfo → RowLockInfo →
    Option (Bool × HandlerState × TableLockInfo × PageLockInfo × RowLockInfo)

/-- The call `tableLocks.Resize(n)` for `n` above the current size. -/
def resizeTableLocks (tl : List (Option TableLockInfo)) (n : Nat) : List (Option TableLockInfo) :=
  tl ++ List.replicate (n - tl.length) none

/-- Writes the handler state back into the manager: the pending queue and the
owner's `TransInfo` (shared through `Ptr<TransInfo>`). -/
def LockManager.commit (lm : LockManager) (owner : BufferTransaction) (h : HandlerState) :
    LockManager :=
  { lm with pendings := h.pendings, transactions := Dict.Store lm.transactions owner h.owner }

/-- After a page handler: the page info it worked on is the one stored under
`targetPage`, so its new value is stored there (if the key is still present). -/
def writeBackPage (targetPage : BufferPage)
    (x : Bool × HandlerState × TableLockInfo × PageLockInfo) :
    Bool × HandlerState × TableLockInfo :=
  (x.1, x.2.1, { x.2.2.1 with pageLocks := Dict.Store x.2.2.1.pageLocks targetPage x.2.2.2 })

/-- After a row handler: the row info it worked on is the one stored under
`targetOffset` in the page info stored under `targetPage`, so the new values
are stored there (if the keys are still present). -/
def writeBackRow (targetPage : BufferPage) (targetOffset : Nat)
    (x : Bool × HandlerState × TableLockInfo × PageLockInfo × RowLockInfo) :
    Bool × HandlerState × TableLockInfo :=
  writeBackPage targetPage
    (x.1, x.2.1, x.2.2.1,
      { x.2.2.2.1 with rowLocks := Dict.Store x.2.2.2.1.rowLocks targetOffset x.2.2.2.2 })

/-- The row part of `OperateObjectLock` ("Find RowLock", "Process RowLock"). -/
def operateRow {TArgs : Type} (h : HandlerState) (arguments : TArgs)
    (rowLockHandler : RowLockHandler TArgs) (createLockInfo : Bool)
    (tableLockInfo : TableLockInfo) (pageLockInfo : PageLockInfo) (targetPage : BufferPage)
    (targetOffset : Nat) : Option (Bool × HandlerState × TableLockInfo) :=
  match Dict.find pageLockInfo.rowLocks targetOffset with
  | none =>
    if !createLockInfo then some (false, h, tableLockInfo)
    else
      let rowLockInfo : RowLockInfo := ⟨targetOffset, LockCounts.zero⟩
      let pageLockInfo1 :=
        { pageLockInfo with rowLocks := Dict.Add pageLockInfo.rowLocks targetOffset rowLockInfo }
      let tableLockInfo1 :=
        { tableLockInfo with
          pageLocks := Dict.Store tableLockInfo.pageLocks targetPage pageLockInfo1 }
      (rowLockHandler h arguments tableLockInfo1 pageLockInfo1 rowLockInfo).map
        (writeBackRow targetPage targetOffset)
  | some rowLockInfo =>
    (rowLockHandler h arguments tableLockInfo pageLockInfo rowLockInfo).map
      (writeBackRow targetPage targetOffset)

/-- The page part of `OperateObjectLock` ("Find PageLock", "Process PageLock",
then the row part); `targetOffset` is `none` for a page target. -/
def operatePage {TArgs : Type} (h : HandlerState) (arguments : TArgs)
    (pageLockHandler : PageLockHandler TArgs) (rowLockHandler : RowLockHandler TArgs)
    (createLockInfo : Bool) (tableLockInfo : TableLockInfo) (targetPage : BufferPage)
    (targetOffset : Option Nat) : Option (Bool × HandlerState × TableLockInfo) :=
  let found : Option (TableLockInfo × PageLockInfo) :=
    match Dict.find tableLockInfo.pageLocks targetPage with
    | none =>
      if !createLockInfo then none
      else
        let pageLockInfo : PageLockInfo := ⟨targetPage, LockCounts.zero, []⟩
        some ({ tableLockInfo with
                pageLocks := Dict.Add tableLockInfo.pageLocks targetPage pageLockInfo },
              pageLockInfo)
    | some pageLockInfo => some (tableLockInfo, pageLockInfo)
  match found with
  | none => some (false, h, tableLockInfo)
  | some (tableLockInfo1, pageLockInfo) =>
    match targetOffset with
    | none =>
      (pageLockHandler h arguments tableLockInfo1 pageLockInfo).map (writeBackPage targetPage)
    | some offset =>
      operateRow h arguments rowLockHandler createLockInfo tableLockInfo1 pageLockInfo
        targetPage offset

/-- The part of `OperateObjectLock` from "Find TableLock" on, as a function of
the array `tableLocks`: the returned flag, the handler state and the array
afterwards; `none` is a fatal error. -/
def operateTableLocks {TArgs : Type} (bm : BufferManager)
    (tableLocks : List (Option TableLockInfo)) (h : HandlerState) (arguments : TArgs)
    (target : LockTarget)
    (tableLockHandler : TableLockHandler TArgs)
    (pageLockHandler : PageLockHandler TArgs)
    (rowLockHandler : RowLockHandler TArgs)
    (createLockInfo : Bool) : Option (Bool × HandlerState × List (Option TableLockInfo)) :=
  let index := BufferTable.index target.table
  if tableLocks.length ≤ index && !createLockInfo then some (false, h, tableLocks)
  else
    let tableLocks1 :=
      if tableLocks.length ≤ index then resizeTableLocks tableLocks (index + 1) else tableLocks
    match tableLocks1.getD index none, createLockInfo with
    | none, false => some (false, h, tableLocks1)
    | slot, _ =>
      let tableLockInfo : TableLockInfo := slot.getD ⟨target.table, LockCounts.zero, []⟩
      let outcome : Option (Bool × HandlerState × TableLockInfo) :=
        match target.object with
        | LockTargetObject.Table => tableLockHandler h arguments tableLockInfo
        | LockTargetObject.Page page =>
          operatePage h arguments pageLockHandler rowLockHandler createLockInfo
            tableLockInfo page none
        | LockTargetObject.Row address =>
          match bm.DecodePointer address with
          | none => none
          | some (targetPage, targetOffset) =>
            operatePage h arguments pageLockHandler rowLockHandler createLockInfo
              tableLockInfo targetPage (some targetOffset)
      outcome.map fun (r, h2, t2) => (r, h2, tableLocks1.set index (some t2))

/-- The template `LockManager::OperateObjectLock`.  `target` is
`GetLockTarget(arguments)`; the result is `none` on a fatal error, otherwise
the returned flag, the manager and the caller's `LockResult`. -/
def LockManager.OperateObjectLock {TArgs : Type} (bm : BufferManager) (lm : LockManager)
    (owner : BufferTransaction) (arguments : TArgs) (target : LockTarget) (result : LockResult)
    (preLockHandler : Option (PreLockHandler TArgs))
    (tableLockHandler : TableLockHandler TArgs)
    (pageLockHandler : PageLockHandler TArgs)
    (rowLockHandler : RowLockHandler TArgs)
    (createLockInfo checkPendingLock : Bool) : Option (Bool × LockManager × LockResult) :=
  match lm.CheckInputUnsafe owner target with
  | none => some (false, lm, result)
  | some transInfo =>
    if checkPendingLock && transInfo.pendingLock.IsValid then some (false, lm, result)
    else
      let h0 : HandlerState := ⟨lm.pendings, transInfo, result⟩
      let pre : (Option Bool) × HandlerState :=
        match preLockHandler with
        | none => (none, h0)
        | some handler =>
          let ((success, stopped), h1) := handler h0 arguments
          (if stopped then some success else none, h1)
      match pre with
      | (some success, h1) => some (success, lm.commit owner h1, h1.result)
      | (none, h1) =>
        (operateTableLocks bm lm.tableLocks h1 arguments target tableLockHandler
          pageLockHandler rowLockHandler createLockInfo).map
          fun (r, h2, tableLocks2) =>
            (r, ({ lm with tableLocks := tableLocks2 }).commit owner h2, h2.result)

/-! ## Acquire, release, upgrade -/

/-- The tuple `AcquireLockArgs` without its `LockResult&` (kept in the handler
state): the target and the flag `addPendingLock`. -/
abbrev AcquireLockArgs := LockTarget × Bool

/-- The type `ReleaseLockArgs`. -/
abbrev ReleaseLockArgs := LockTarget

/-- The tuple `UpgradeLockArgs` without its `LockResult&`: the old target and
the new access. -/
abbrev UpgradeLockArgs := LockTarget × LockTargetAccess

/-- The template `LockManager::AcquireGeneralLock`, on the counters of the lock info. -/
def AcquireGeneralLock (h : HandlerState) (arguments : AcquireLockArgs) (lockInfo : LockCounts) :
    Bool × HandlerState × LockCounts :=
  let target := arguments.1
  let addPendingLock := arguments.2
  let (acquired, lockInfo1, owner1) := AcquireObjectLockUnsafe lockInfo h.owner target
  let h1 : HandlerState := { h with owner := owner1, result := ⟨!acquired⟩ }
  if !acquired then
    if !addPendingLock then (true, h1, lockInfo1)
    else
      let (added, h2) := AddPendingLockUnsafe h1 target
      (added, h2, lockInfo1)
  else (true, h1, lockInfo1)

/-- The method `LockManager::AcquireTableLock`. -/
def AcquireTableLock : TableLockHandler AcquireLockArgs := fun h arguments tableLockInfo =>
  let (r, h1, c) := AcquireGeneralLock h arguments tableLockInfo.acquiredLocks
  some (r, h1, { tableLockInfo with acquiredLocks := c })

/-- The method `LockManager::AcquirePageLock`. -/
def AcquirePageLock : PageLockHandler AcquireLockArgs :=
  fun h arguments tableLockInfo pageLockInfo =>
    let (r, h1, c) := AcquireGeneralLock h arguments pageLockInfo.acquiredLocks
    some (r, h1, tableLockInfo, { pageLockInfo with acquiredLocks := c })

/-- The method `LockManager::AcquireRowLock`. -/
def AcquireRowLock : RowLockHandler AcquireLockArgs :=
  fun h arguments tableLockInfo pageLockInfo rowLockInfo =>
    let (r, h1, c) := AcquireGeneralLock h arguments rowLockInfo.acquiredLocks
    some (r, h1, tableLockInfo, pageLockInfo, { rowLockInfo with acquiredLocks := c })

/-- The method `LockManager::ReleasePreLock`. -/
def ReleasePreLock : PreLockHandler ReleaseLockArgs := fun h arguments =>
  let (stopped, h1) := RemovePendingLockUnsafe h arguments
  ((true, stopped), h1)

/-- The method `LockManager::ReleaseTableLock`. -/
def ReleaseTableLock : TableLockHandler ReleaseLockArgs := fun h arguments tableLockInfo =>
  (ReleaseObjectLockUnsafe tableLockInfo.acquiredLocks h.owner arguments).map
    fun (r, c, owner1) =>
      (r, { h with owner := owner1 }, { tableLockInfo with acquiredLocks := c })

/-- The method `LockManager::ReleasePageLock`. -/
def ReleasePageLock : PageLockHandler ReleaseLockArgs :=
  fun h arguments tableLockInfo pageLockInfo =>
    (ReleaseObjectLockUnsafe pageLockInfo.acquiredLocks h.owner arguments).map
      fun (r, c, owner1) =>
        let pageLockInfo1 := { pageLockInfo with acquiredLocks := c }
        if r then
          if pageLockInfo1.IsEmpty then
            (true, { h with owner := owner1 },
              { tableLockInfo with
                pageLocks := Dict.Remove tableLockInfo.pageLocks pageLockInfo1.object },
              pageLockInfo1)
          else (true, { h with owner := owner1 }, tableLockInfo, pageLockInfo1)
        else (false, { h with owner := owner1 }, tableLockInfo, pageLockInfo1)

/-- The method `LockManager::ReleaseRowLock`. -/
def ReleaseRowLock : RowLockHandler ReleaseLockArgs :=
  fun h arguments tableLockInfo pageLockInfo rowLockInfo =>
    (ReleaseObjectLockUnsafe rowLockInfo.acquiredLocks h.owner arguments).map
      fun (r, c, owner1) =>
        let rowLockInfo1 := { rowLockInfo with acquiredLocks := c }
        if r then
          if rowLockInfo1.IsEmpty then
            let pageLockInfo1 :=
              { pageLockInfo with
                rowLocks := Dict.Remove pageLockInfo.rowLocks rowLockInfo1.object }
            if pageLockInfo1.IsEmpty then
              (true, { h with owner := owner1 },
                { tableLockInfo with
                  pageLocks := Dict.Remove tableLockInfo.pageLocks pageLockInfo1.object },
                pageLockInfo1, rowLockInfo1)
            else (true, { h with owner := owner1 }, tableLockInfo, pageLockInfo1, rowLockInfo1)
          else (true, { h with owner := owner1 }, tableLockInfo, pageLockInfo, rowLockInfo1)
        else (false, { h with owner := owner1 }, tableLockInfo, pageLockInfo, rowLockInfo1)

/-- The template `LockManager::UpgradeGeneralLock`, on the counters of the lock info. -/
def UpgradeGeneralLock (h : HandlerState) (arguments : UpgradeLockArgs) (lockInfo : LockCounts) :
    Option (Bool × HandlerState × LockCounts) :=
  let oldTarget := arguments.1
  let newAccess := arguments.2
  (ReleaseObjectLockUnsafe lockInfo h.owner oldTarget).map
    fun (released, c, owner1) =>
      if !released then (false, { h with owner := owner1 }, c)
      else
        let newTarget : LockTarget := { oldTarget with access := newAccess }
        AcquireGeneralLock { h with owner := owner1 } (newTarget, true) c

/-- The method `LockManager::UpgradeTableLock`. -/
def UpgradeTableLock : TableLockHandler UpgradeLockArgs := fun h arguments tableLockInfo =>
  (UpgradeGeneralLock h arguments tableLockInfo.acquiredLocks).map
    fun (r, h1, c) => (r, h1, { tableLockInfo with acquiredLocks := c })

/-- The method `LockManager::UpgradePageLock`. -/
def UpgradePageLock : PageLockHandler UpgradeLockArgs :=
  fun h arguments tableLockInfo pageLockInfo =>
    (UpgradeGeneralLock h arguments pageLockInfo.acquiredLocks).map
      fun (r, h1, c) => (r, h1, tableLockInfo, { pageLockInfo with acquiredLocks := c })

/-- The method `LockManager::UpgradeRowLock`. -/
def UpgradeRowLock : RowLockHandler UpgradeLockArgs :=
  fun h arguments tableLockInfo pageLockInfo rowLockInfo =>
    (UpgradeGeneralLock h arguments rowLockInfo.acquiredLocks).map
      fun (r, h1, c) =>
        (r, h1, tableLockInfo, pageLockInfo, { rowLockInfo with acquiredLocks := c })

/-- The method `LockManager::AcquireLockUnsafe`. -/
def LockManager.AcquireLockUnsafe (bm : BufferManager) (lm : LockManager)
    (owner : BufferTransaction) (target : LockTarget) (result : LockResult)
    (processPendingLock : Bool) : Option (Bool × LockManager × LockResult) :=
  lm.OperateObjectLock bm owner (target, processPendingLock) target result none
    AcquireTableLock AcquirePageLock AcquireRowLock true processPendingLock

/-- The method `LockManager::ReleaseLockUnsafe`. -/
def LockManager.ReleaseLockUnsafe (bm : BufferManager) (lm : LockManager)
    (owner : BufferTransaction) (target : LockTarget) : Option (Bool × LockManager) :=
  (lm.OperateObjectLock bm owner target target ⟨false⟩ (some ReleasePreLock)
    ReleaseTableLock ReleasePageLock ReleaseRowLock false false).map
    fun (r, lm1, _) => (r, lm1)

/-- The method `LockManager::UpgradeLockUnsafe`. -/
def LockManager.UpgradeLockUnsafe (bm : BufferManager) (lm : LockManager)
    (owner : BufferTransaction) (oldTarget : LockTarget) (newAccess : LockTargetAccess)
    (result : LockResult) : Option (Bool × LockManager × LockResult) :=
  lm.OperateObjectLock bm owner (oldTarget, newAccess) oldTarget result none
    UpgradeTableLock UpgradePageLock UpgradeRowLock false true

/-! ## Registration -/

/-- The method `LockManager::RegisterTable`. -/
def LockManager.RegisterTable (bm : BufferManager) (lm : LockManager) (table : BufferTable)
    (source : BufferSource) : Bool × LockManager :=
  if lm.tables.Contains table then (false, lm)
  else if !Handle.IsValid (bm.GetIndexPage source) then (false, lm)
  else (true, { lm with tables := Dict.Add lm.tables table ⟨table, source⟩ })

/-- The method `LockManager::UnregisterTable`. -/
def LockManager.UnregisterTable (lm : LockManager) (table : BufferTable) : Bool × LockManager :=
  if !lm.tables.Contains table then (false, lm)
  else (true, { lm with tables := Dict.Remove lm.tables table })

/-- The method `LockManager::RegisterTransaction`. -/
def LockManager.RegisterTransaction (lm : LockManager) (trans : BufferTransaction)
    (importance : Nat) : Bool × LockManager :=
  if lm.transactions.Contains trans then (false, lm)
  else
    (true,
      { lm with
        transactions := Dict.Add lm.transactions trans ⟨trans, importance, [], LockTarget.Invalid⟩ })

/-- The method `LockManager::UnregisterTransaction`. -/
def LockManager.UnregisterTransaction (lm : LockManager) (trans : BufferTransaction) :
    Bool × LockManager :=
  match lm.transactions.find trans with
  | none => (false, lm)
  | some transInfo =>
    if 0 < transInfo.acquiredLocks.length || transInfo.pendingLock.IsValid then (false, lm)
    else if !lm.transactions.Contains trans then (false, lm)
    else (true, { lm with transactions := Dict.Remove lm.transactions trans })

/-! ## Public lock operations -/

/-- The method `LockManager::AcquireLock`. -/
def LockManager.AcquireLock (bm : BufferManager) (lm : LockManager) (owner : BufferTransaction)
    (target : LockTarget) (result : LockResult) : Option (Bool × LockManager × LockResult) :=
  lm.AcquireLockUnsafe bm owner target result true

/-- The method `LockManager::ReleaseLock`. -/
def LockManager.ReleaseLock (bm : BufferManager) (lm : LockManager) (owner : BufferTransaction)
    (target : LockTarget) : Option (Bool × LockManager) :=
  lm.ReleaseLockUnsafe bm owner target

/-- The method `LockManager::UpgradeLock`. -/
def LockManager.UpgradeLock (bm : BufferManager) (lm : LockManager) (owner : BufferTransaction)
    (oldTarget : LockTarget) (newAccess : LockTargetAccess) (result : LockResult) :
    Option (Bool × LockManager × LockResult) :=
  lm.UpgradeLockUnsafe bm owner oldTarget newAccess result

/-- The method `LockManager::TableHasLocks`. -/
def LockManager.TableHasLocks (lm : LockManager) (table : BufferTable) : Bool :=
  if !Handle.IsValid table then false
  else if lm.tableLocks.length ≤ BufferTable.index table then false
  else
    match lm.tableLocks.getD (BufferTable.index table) none with
    | none => false
    | some tableLockInfo => !tableLockInfo.IsEmpty

/-! ## Scheduler -/

/-- How a call with an unbounded loop ends: it returns, it raises a fatal
internal error (or divides by zero), or the step budget ran out first. -/
inductive Outcome (α : Type) where
  | ok (a : α)
  | error
  | timeout

/-- The `do ... while (pendingInfo->lastTryIndex != stopIndex)` loop of
`PickTransaction` for the bucket at position `i`.  The result `some trans`
is the `return transInfo->trans`; `none` is the normal end of the loop. -/
def pickInBucket (bm : BufferManager) (i : Nat) (stopIndex : Int) :
    Nat → LockManager → LockResult → Outcome (LockManager × LockResult × Option BufferTransaction)
  | 0, _, _ => Outcome.timeout
  | fuel + 1, lm, result =>
    match lm.pendings.get? i with
    | none => Outcome.error
    | some (key, pendingInfo) =>
      if pendingInfo.transactions.length = 0 then Outcome.error
      else
        let lastTryIndex := Int.tmod (pendingInfo.lastTryIndex + 1) pendingInfo.transactions.length
        let lm1 : LockManager :=
          { lm with pendings := lm.pendings.set i (key, { pendingInfo with lastTryIndex := lastTryIndex }) }
        if lastTryIndex < 0 then Outcome.error
        else
          match pendingInfo.transactions.get? lastTryIndex.toNat with
          | none => Outcome.error
          | some queued =>
            match lm1.transactions.find queued with
            | none => Outcome.error
            | some transInfo =>
              if !transInfo.pendingLock.IsValid then Outcome.error
              else
                match lm1.AcquireLockUnsafe bm transInfo.trans transInfo.pendingLock result false with
                | none => Outcome.error
                | some (success, lm2, result2) =>
                  if !success then Outcome.error
                  else if !result2.blocked then
                    let transactions3 :=
                      match lm2.transactions.find queued with
                      | none => lm2.transactions
                      | some transInfo2 =>
                        Dict.Store lm2.transactions queued
                          { transInfo2 with pendingLock := LockTarget.Invalid }
                    let remaining := pendingInfo.transactions.eraseIdx lastTryIndex.toNat
                    let pendings3 :=
                      lm2.pendings.set i (key, ⟨remaining, lastTryIndex - 1⟩)
                    let pendings4 :=
                      if remaining.length = 0 then Dict.Remove pendings3 key else pendings3
                    Outcome.ok
                      ({ lm2 with transactions := transactions3, pendings := pendings4 },
                        result2, some transInfo.trans)
                  else if lastTryIndex ≠ stopIndex then
                    pickInBucket bm i stopIndex fuel lm2 result2
                  else Outcome.ok (lm2, result2, none)

/-- The `for (vint i = pendings.Count() - 1; i >= 0; i--)` loop of
`PickTransaction`; the first argument is `i + 1`. -/
def pickFromBuckets (bm : BufferManager) (fuel : Nat) :
    Nat → LockManager → LockResult → Outcome (LockManager × LockResult × BufferTransaction)
  | 0, lm, result => Outcome.ok (lm, result, none)
  | i + 1, lm, result =>
    match lm.pendings.get? i with
    | none => Outcome.error
    | some (_, pendingInfo) =>
      let stopIndex : Int :=
        if pendingInfo.lastTryIndex = -1 then (pendingInfo.transactions.length : Int) - 1
        else pendingInfo.lastTryIndex
      match pickInBucket bm i stopIndex fuel lm result with
      | Outcome.ok (lm1, result1, some picked) => Outcome.ok (lm1, result1, picked)
      | Outcome.ok (lm1, result1, none) => pickFromBuckets bm fuel i lm1 result1
      | Outcome.error => Outcome.error
      | Outcome.timeout => Outcome.timeout

/-- The method `LockManager::PickTransaction`; `fuel` bounds the number of
iterations of the inner loop per bucket. -/
def LockManager.PickTransaction (bm : BufferManager) (fuel : Nat) (lm : LockManager)
    (result : LockResult) : Outcome (LockManager × LockResult × BufferTransaction) :=
  pickFromBuckets bm fuel lm.pendings.length lm result

/-! ## Rollback -/

/-- The loop `for (vint i = Count() - 1; i >= 0; i--)` of `Rollback`; the
second argument is `i + 1`.  `none` is the fatal error "Failed to rollback a
transaction". -/
def rollbackLocks (bm : BufferManager) (trans : BufferTransaction) :
    Nat → LockManager → Option LockManager
  | 0, lm => some lm
  | i + 1, lm =>
    match lm.transactions.find trans with
    | none => none
    | some transInfo =>
      match transInfo.acquiredLocks.get? i with
      | none => none
      | some target =>
        match lm.ReleaseLockUnsafe bm trans target with
        | none => none
        | some (success, lm1) => if !success then none else rollbackLocks bm trans i lm1

/-- The method `LockManager::Rollback`; `none` is a fatal error. -/
def LockManager.Rollback (bm : BufferManager) (lm : LockManager) (trans : BufferTransaction) :
    Option (Bool × LockManager) :=
  match lm.transactions.find trans with
  | none => some (false, lm)
  | some transInfo =>
    if !transInfo.pendingLock.IsValid then some (false, lm)
    else
      match lm.ReleaseLockUnsafe bm trans transInfo.pendingLock with
      | none => none
      | some (success, lm1) =>
        if !success then none
        else
          match lm1.transactions.find trans with
          | none => none
          | some transInfo1 =>
            (rollbackLocks bm trans transInfo1.acquiredLocks.length lm1).map
              fun lm2 => (true, lm2)

/-! ## Deadlock detection

`Node*` and `Edge*` are positions in two arenas; a `SortedList` of pointers
is a list of positions in ascending order. -/

/-- The struct `DeadlockDetection::Edge`. -/
structure Edge where
  fromNode : Nat
  toNode : Nat
  toNodeAcquired : List Nat
  deriving DecidableEq, Repr

/-- The struct `DeadlockDetection::Node`; `previous = none` is `nullptr`. -/
structure Node where
  transInfo : TransInfo
  ins : List Nat
  outs : List Nat
  previous : Option Nat
  next : Int
  touched : Bool
  deriving DecidableEq, Repr

/-- The objects allocated by `BuildGraph`: all nodes and all edges. -/
structure Graph where
  nodes : List Node
  edges : List Edge
  deriving DecidableEq, Repr

/-- The struct `DeadlockInfo`. -/
structure DeadlockInfo where
  rollbacks : List BufferTransaction
  pending : Dict BufferTransaction LockTarget
  acquired : List (BufferTransaction × LockTarget)
  deriving DecidableEq, Repr

/-- A `new Node` before its `transInfo` is assigned; also what a position
outside the arena reads as. -/
def Node.fresh : Node := ⟨⟨none, 0, [], LockTarget.Invalid⟩, [], [], none, -1, false⟩

/-- Dereference of a `Node*`. -/
def Graph.node (g : Graph) (p : Nat) : Node := g.nodes.getD p Node.fresh

/-- Dereference of an `Edge*`. -/
def Graph.edge (g : Graph) (e : Nat) : Edge := g.edges.getD e ⟨0, 0, []⟩

/-- A write through a `Node*`. -/
def Graph.setNode (g : Graph) (p : Nat) (n : Node) : Graph := { g with nodes := g.nodes.set p n }

/-- The call `SortedList::Add`. -/
def sortedAdd (x : Nat) : List Nat → List Nat
  | [] => [x]
  | y :: l => if x ≤ y then x :: y :: l else y :: sortedAdd x l

/-- The justification of an edge `from -> to` in `BuildGraph`: the indices `i`
of `to->transInfo->acquiredLocks` that conflict with the pending lock. -/
def edgeJustification (pending : LockTarget) (acquiredLocks : List LockTarget) : List Nat :=
  (List.range acquiredLocks.length).filter fun i =>
    match acquiredLocks.get? i with
    | none => false
    | some acquired =>
      decide ({ pending with access := acquired.access } = acquired) &&
        !lockCompatibility pending.access acquired.access

/-- The call `edges.Add(to, edge)` on the `Group<Node*, Edge*>`. -/
def groupAdd (m : Dict Nat (List Nat)) (k : Nat) (e : Nat) : Dict Nat (List Nat) :=
  match Dict.find m k with
  | none => Dict.Add m k [e]
  | some l => Dict.Store m k (l ++ [e])

/-- The body of the inner `FOREACH(Node*, to, nodes)` loop of `BuildGraph`. -/
def buildEdge (pending : LockTarget) (fromNode : Nat) (acc : Graph × Dict Nat (List Nat))
    (toNode : Nat) : Graph × Dict Nat (List Nat) :=
  let g := acc.1
  let justification := edgeJustification pending (g.node toNode).transInfo.acquiredLocks
  if justification.isEmpty then acc
  else
    let edge := g.edges.length
    let g1 : Graph := { g with edges := g.edges ++ [⟨fromNode, toNode, justification⟩] }
    let g2 := g1.setNode fromNode { g1.node fromNode with outs := sortedAdd edge (g1.node fromNode).outs }
    let g3 := g2.setNode toNode { g2.node toNode with ins := sortedAdd edge (g2.node toNode).ins }
    (g3, groupAdd acc.2 toNode edge)

/-- The outer `FOREACH(Node*, from, nodes)` loop of `BuildGraph`; `none` is
the fatal error "Field pendings is corrupted". -/
def buildEdges (all : List Nat) :
    List Nat → Graph × Dict Nat (List Nat) → Option (Graph × Dict Nat (List Nat))
  | [], acc => some acc
  | fromNode :: rest, acc =>
    let pending := (acc.1.node fromNode).transInfo.pendingLock
    if !pending.IsValid then none
    else buildEdges all rest (all.foldl (buildEdge pending fromNode) acc)

/-- The function `DeadlockDetection::BuildGraph`: the arenas and the group
`edges`; `none` is a fatal error. -/
def BuildGraph (lm : LockManager) : Option (Graph × Dict Nat (List Nat)) :=
  let queued := lm.pendings.flatMap fun b => b.2.transactions
  match queued.mapM fun t => lm.transactions.find t with
  | none => none
  | some infos =>
    let g : Graph := ⟨infos.map fun ti => { Node.fresh with transInfo := ti }, []⟩
    buildEdges (List.range infos.length) (List.range infos.length) (g, [])

/-- The function `DeadlockDetection::TestReducableNode`. -/
def TestReducableNode (g : Graph) (affected : List Nat) (node : Nat) : Bool × List Nat :=
  if (g.node node).ins.length * (g.node node).outs.length = 0 then
    (true, if node ∈ affected then affected else sortedAdd node affected)
  else (false, affected)

/-- The first `FOREACH` of the worklist step: detach the incoming edges of the removed node. -/
def detachIns (acc : Graph × List Nat) (e : Nat) : Graph × List Nat :=
  let g := acc.1
  let source := (g.edge e).fromNode
  let g1 := g.setNode source { g.node source with outs := removeFirst (g.node source).outs e }
  (g1, (TestReducableNode g1 acc.2 source).2)

/-- The second `FOREACH` of the worklist step: detach the outgoing edges of the removed node. -/
def detachOuts (acc : Graph × List Nat) (e : Nat) : Graph × List Nat :=
  let g := acc.1
  let target := (g.edge e).toNode
  let g1 := g.setNode target { g.node target with ins := removeFirst (g.node target).ins e }
  (g1, (TestReducableNode g1 acc.2 target).2)

/-- The loop `while (affected.Count() > 0)` of `ReduceGraph`; the state is the
arena, the list `nodes`, `index` and `affected`.  `Outcome.error` is the fatal
error of `ReduceNode` ("Deadlock graph corrupted"). -/
def reduceAffected : Nat → Graph → List Nat → Nat → List Nat → Outcome (Graph × List Nat × Nat)
  | 0, _, _, _, _ => Outcome.timeout
  | fuel + 1, g, nodes, index, affected =>
    match affected.getLast? with
    | none => Outcome.ok (g, nodes, index)
    | some node =>
      let position := IndexOf nodes node
      if nodes.length ≤ position then Outcome.error
      else
        let nodes1 := nodes.eraseIdx position
        let index1 := if position < index then index - 1 else index
        let affected1 := affected.dropLast
        let s1 := (g.node node).ins.foldl detachIns (g, affected1)
        let s2 := (s1.1.node node).outs.foldl detachOuts s1
        reduceAffected fuel s2.1 nodes1 index1 s2.2

/-- The loop `while (index < nodes.Count())` of `ReduceGraph`. -/
def reduceFrom : Nat → Graph → List Nat → Nat → Outcome (Graph × List Nat)
  | 0, _, _, _ => Outcome.timeout
  | fuel + 1, g, nodes, index =>
    match nodes.get? index with
    | none => Outcome.ok (g, nodes)
    | some node =>
      match TestReducableNode g [] node with
      | (true, affected) =>
        match reduceAffected (fuel + 1) g nodes (index + 1) affected with
        | Outcome.ok (g1, nodes1, index1) => reduceFrom fuel g1 nodes1 index1
        | Outcome.error => Outcome.error
        | Outcome.timeout => Outcome.timeout
      | (false, _) => reduceFrom fuel g nodes (index + 1)

/-- The function `DeadlockDetection::ReduceGraph`. -/
def ReduceGraph (fuel : Nat) (g : Graph) (nodes : List Nat) : Outcome (Graph × List Nat) :=
  reduceFrom fuel g nodes 0

/-- The `while (true)` loop of `FindCycle`; `Outcome.error` is the fatal error
"Failed to find a cycle". -/
def findCycleFrom : Nat → Graph → Option Nat → Outcome (Graph × Nat)
  | 0, _, _ => Outcome.timeout
  | _ + 1, _, none => Outcome.error
  | fuel + 1, g, some current =>
    let c := g.node current
    let next1 := c.next + 1
    let g1 := g.setNode current { c with touched := true, next := next1 }
    if next1 < (c.outs.length : Int) then
      let target := (g1.edge (c.outs.getD next1.toNat 0)).toNode
      if (g1.node target).next ≠ -1 then
        Outcome.ok (g1.setNode target { g1.node target with previous := some current }, target)
      else if !(g1.node target).touched then
        findCycleFrom fuel (g1.setNode target { g1.node target with previous := some current })
          (some target)
      else findCycleFrom fuel g1 (some current)
    else
      findCycleFrom fuel (g1.setNode current { g1.node current with previous := none }) c.previous

/-- The function `DeadlockDetection::FindCycle`; the result `none` is `nullptr`. -/
def FindCycle (fuel : Nat) (g : Graph) (nodes : List Nat) : Outcome (Graph × Option Nat) :=
  match nodes with
  | [] => Outcome.ok (g, none)
  | first :: _ =>
    let g1 := nodes.foldl
      (fun acc n => acc.setNode n { acc.node n with previous := none, next := -1, touched := false })
      g
    match findCycleFrom fuel g1 (some first) with
    | Outcome.ok (g2, cycle) => Outcome.ok (g2, some cycle)
    | Outcome.error => Outcome.error
    | Outcome.timeout => Outcome.timeout

/-- The `do ... while (current != cycle)` loop of `SaveCycle`; following a
null `previous` is an error. -/
def saveCycleFrom (g : Graph) (cycle : Nat) : Nat → List Nat → Nat → Outcome (List Nat)
  | 0, _, _ => Outcome.timeout
  | fuel + 1, involved, current =>
    let involved1 := if current ∈ involved then involved else sortedAdd current involved
    match (g.node current).previous with
    | none => Outcome.error
    | some previous =>
      if previous ≠ cycle then saveCycleFrom g cycle fuel involved1 previous
      else Outcome.ok involved1

/-- The function `DeadlockDetection::SaveCycle`. -/
def SaveCycle (fuel : Nat) (g : Graph) (involved : List Nat) (cycle : Nat) : Outcome (List Nat) :=
  saveCycleFrom g cycle fuel involved cycle

/-- The function `DeadlockDetection::ChooseVictim`: the arena and `nodes`
after the victim `cycle` has been cut out. -/
def ChooseVictim (g : Graph) (nodes : List Nat) (cycle : Nat) : Graph × List Nat :=
  let g1 := (g.node cycle).ins.foldl
    (fun acc e =>
      let source := (acc.edge e).fromNode
      acc.setNode source { acc.node source with outs := removeFirst (acc.node source).outs e })
    g
  let g2 := (g1.node cycle).outs.foldl
    (fun acc e =>
      let target := (acc.edge e).toNode
      acc.setNode target { acc.node target with ins := removeFirst (acc.node target).ins e })
    g1
  (g2, removeFirst nodes cycle)

/-- The `while (true)` loop of `DeadlockDetection::DetectDeadlock`: reduce,
find a cycle, save it, cut the victim out and record its transaction. -/
def detectLoop : Nat → Graph → List Nat → List Nat → List BufferTransaction →
    Outcome (Graph × List Nat × List Nat × List BufferTransaction)
  | 0, _, _, _, _ => Outcome.timeout
  | fuel + 1, g, nodes, involved, rollbacks =>
    match ReduceGraph (fuel + 1) g nodes with
    | Outcome.error => Outcome.error
    | Outcome.timeout => Outcome.timeout
    | Outcome.ok (g1, nodes1) =>
      match FindCycle (fuel + 1) g1 nodes1 with
      | Outcome.error => Outcome.error
      | Outcome.timeout => Outcome.timeout
      | Outcome.ok (g2, none) => Outcome.ok (g2, nodes1, involved, rollbacks)
      | Outcome.ok (g2, some cycle) =>
        match SaveCycle (fuel + 1) g2 involved cycle with
        | Outcome.error => Outcome.error
        | Outcome.timeout => Outcome.timeout
        | Outcome.ok involved1 =>
          let (g3, nodes3) := ChooseVictim g2 nodes1 cycle
          detectLoop fuel g3 nodes3 involved1
            (rollbacks ++ [(g3.node cycle).transInfo.trans])

/-- The justification indices gathered for one involved node in the output
loop of `DetectDeadlock`: the body of `FOREACH(Edge*, in, allEdges[node])`. -/
def gatherAcquired (g : Graph) (involved : List Nat) (acquiredLocks : List Nat) (e : Nat) :
    List Nat :=
  if (g.edge e).fromNode ∈ involved then
    (g.edge e).toNodeAcquired.foldl
      (fun acc i => if i ∈ acc then acc else sortedAdd i acc) acquiredLocks
  else acquiredLocks

/-- The output loop `FOREACH(Node*, node, involved)` of `DetectDeadlock`;
`none` is a fatal error of a container (a missing group key, a repeated
dictionary key, an index out of range). -/
def reportInvolved (g : Graph) (allEdges : Dict Nat (List Nat)) (involved : List Nat) :
    List Nat → DeadlockInfo → Option DeadlockInfo
  | [], info => some info
  | node :: rest, info =>
    let transInfo := (g.node node).transInfo
    if Dict.Contains info.pending transInfo.trans then none
    else
      match Dict.find allEdges node with
      | none => none
      | some incoming =>
        let acquiredLocks := incoming.foldl (gatherAcquired g involved) []
        match acquiredLocks.mapM fun i => transInfo.acquiredLocks.get? i with
        | none => none
        | some targets =>
          reportInvolved g allEdges involved rest
            { info with
              pending := Dict.Add info.pending transInfo.trans transInfo.pendingLock
              acquired := info.acquired ++ targets.map fun a => (transInfo.trans, a) }

/-- The function `DeadlockDetection::DetectDeadlock` (and the method
`LockManager::DetectDeadlock` that calls it under the lock). -/
def LockManager.DetectDeadlock (fuel : Nat) (lm : LockManager) (info : DeadlockInfo) :
    Outcome DeadlockInfo :=
  match BuildGraph lm with
  | none => Outcome.error
  | some (g, allEdges) =>
    match detectLoop fuel g (List.range g.nodes.length) [] info.rollbacks with
    | Outcome.error => Outcome.error
    | Outcome.timeout => Outcome.timeout
    | Outcome.ok (g1, _, involved, rollbacks) =>
      match reportInvolved g1 allEdges involved involved { info with rollbacks := rollbacks } with
      | none => Outcome.error
      | some info1 => Outcome.ok info1

/-! ## Reachable states -/

/-- A call of a public operation of `LockManager`. -/
inductive Op where
  | RegisterTable (table : BufferTable) (source : BufferSource)
  | UnregisterTable (table : BufferTable)
  | RegisterTransaction (t : BufferTransaction) (importance : Nat)
  | UnregisterTransaction (t : BufferTransaction)
  | AcquireLock (owner : BufferTransaction) (target : LockTarget)
  | ReleaseLock (owner : BufferTransaction) (target : LockTarget)
  | UpgradeLock (owner : BufferTransaction) (oldTarget : LockTarget) (newAccess : LockTargetAccess)
  | PickTransaction (fuel : Nat)
  | DetectDeadlock (fuel : Nat)
  | Rollback (t : BufferTransaction)

/-- The manager after a public call that returned (with any return value);
`none` when the call raised a fatal error or did not return within its fuel. -/
def LockManager.step (bm : BufferManager) (lm : LockManager) : Op → Option LockManager
  | Op.RegisterTable table source => some (lm.RegisterTable bm table source).2
  | Op.UnregisterTable table => some (lm.UnregisterTable table).2
  | Op.RegisterTransaction t importance => some (lm.RegisterTransaction t importance).2
  | Op.UnregisterTransaction t => some (lm.UnregisterTransaction t).2
  | Op.AcquireLock owner target => (lm.AcquireLock bm owner target ⟨false⟩).map fun r => r.2.1
  | Op.ReleaseLock owner target => (lm.ReleaseLock bm owner target).map fun r => r.2
  | Op.UpgradeLock owner oldTarget newAccess =>
    (lm.UpgradeLock bm owner oldTarget newAccess ⟨false⟩).map fun r => r.2.1
  | Op.PickTransaction fuel =>
    match lm.PickTransaction bm fuel ⟨false⟩ with
    | Outcome.ok r => some r.1
    | _ => none
  | Op.DetectDeadlock fuel =>
    match lm.DetectDeadlock fuel ⟨[], [], []⟩ with
    | Outcome.ok _ => some lm
    | _ => none
  | Op.Rollback t => (lm.Rollback bm t).map fun r => r.2

/-- The manager after a sequence of public calls, each of which returned. -/
def LockManager.run (bm : BufferManager) : LockManager → List Op → Option LockManager
  | lm, [] => some lm
  | lm, op :: ops =>
    match lm.step bm op with
    | none => none
    | some lm1 => LockManager.run bm lm1 ops

/-- The states reachable from the empty manager by public operations. -/
def Reachable (bm : BufferManager) (lm : LockManager) : Prop :=
  ∃ ops : List Op, LockManager.run bm LockManager.empty ops = some lm

/-! ## Notions used by the statements -/

/-- A lockable object: a table (by the index of its handle), a page of a
table, or a row of a page (by its decoded offset). -/
inductive LockObject where
  | Table (index : Nat)
  | Page (index : Nat) (page : BufferPage)
  | Row (index : Nat) (page : BufferPage) (offset : Nat)
  deriving DecidableEq, Repr

/-- The object a target designates, as `OperateObjectLock` resolves it;
`none` when the row address cannot be decoded. -/
def objectOf (bm : BufferManager) (target : LockTarget) : Option LockObject :=
  match target.object with
  | LockTargetObject.Table => some (LockObject.Table (BufferTable.index target.table))
  | LockTargetObject.Page page => some (LockObject.Page (BufferTable.index target.table) page)
  | LockTargetObject.Row address =>
    (bm.DecodePointer address).map fun d =>
      LockObject.Row (BufferTable.index target.table) d.1 d.2

/-- The counters of a row of a page, all zero when the row has no lock state. -/
def PageLockInfo.holders (p : PageLockInfo) (offset : Nat) : LockCounts :=
  ((Dict.find p.rowLocks offset).map fun r => r.acquiredLocks).getD LockCounts.zero

/-- The counters of an object below a table (`none`: the table itself), all
zero when the object has no lock state. -/
def TableLockInfo.holders (t : TableLockInfo) : Option (BufferPage × Option Nat) → LockCounts
  | none => t.acquiredLocks
  | some (page, none) =>
    ((Dict.find t.pageLocks page).map fun p => p.acquiredLocks).getD LockCounts.zero
  | some (page, some offset) =>
    ((Dict.find t.pageLocks page).map fun p => p.holders offset).getD LockCounts.zero

/-- The index of the table of an object and its position below the table. -/
def LockObject.path : LockObject → Nat × Option (BufferPage × Option Nat)
  | LockObject.Table i => (i, none)
  | LockObject.Page i page => (i, some (page, none))
  | LockObject.Row i page offset => (i, some (page, some offset))

/-- The counters `acquiredLocks` of an object, taken as zero when the object
has no lock state. -/
def holders (tableLocks : List (Option TableLockInfo)) (o : LockObject) : LockCounts :=
  match tableLocks.getD o.path.1 none with
  | none => LockCounts.zero
  | some t => t.holders o.path.2

/-- Whether an object below a table (`none`: the table itself) has a lock state. -/
def TableLockInfo.has (t : TableLockInfo) : Option (BufferPage × Option Nat) → Bool
  | none => true
  | some (page, none) => (Dict.find t.pageLocks page).isSome
  | some (page, some offset) =>
    match Dict.find t.pageLocks page with
    | none => false
    | some p => (Dict.find p.rowLocks offset).isSome

/-- Whether the object has a lock state in the tree below `tableLocks`. -/
def hasLockInfo (tableLocks : List (Option TableLockInfo)) (o : LockObject) : Bool :=
  match tableLocks.getD o.path.1 none with
  | none => false
  | some t => t.has o.path.2

/-- The number of entries of a list of held locks that designate object `o`
with access `a`. -/
def heldIn (bm : BufferManager) (o : LockObject) (a : LockTargetAccess)
    (acquiredLocks : List LockTarget) : Nat :=
  acquiredLocks.countP fun e => decide (objectOf bm e = some o) && decide (e.access = a)

/-- The number of entries, over the `acquiredLocks` of all transactions of a
registry, that designate object `o` with access `a`. -/
def heldAll (bm : BufferManager) (transactions : Dict BufferTransaction TransInfo)
    (o : LockObject) (a : LockTargetAccess) : Nat :=
  (transactions.map fun kv => heldIn bm o a kv.2.acquiredLocks).sum

/-- The number of entries, over the `acquiredLocks` of all registered
transactions, that designate object `o` with access `a`. -/
def heldBy (bm : BufferManager) (lm : LockManager) (o : LockObject) (a : LockTargetAccess) : Nat :=
  heldAll bm lm.transactions o a

/-- The registry of transactions has distinct keys, and every `TransInfo` is
stored under its own handle. -/
def TransInv (transactions : Dict BufferTransaction TransInfo) : Prop :=
  (transactions.map Prod.fst).Nodup ∧
  ∀ k ti, Dict.find transactions k = some ti → ti.trans = k

/-- The counters agree with the lists of held locks, and the modes held on an
object are compatible with each other. -/
def CountsInv (bm : BufferManager) (H : LockObject → LockCounts)
    (transactions : Dict BufferTransaction TransInfo) : Prop :=
  (∀ o a, H o a = (heldAll bm transactions o a : Int)) ∧
  ∀ o a b, 0 < H o a → 0 < H o b → (a ≠ b ∨ 2 ≤ H o a) → lockCompatibility a b = true

/-- The queue of the bucket of an importance, `none` when there is no such bucket. -/
def queueOf (pendings : Pendings) (key : Nat) : Option (List BufferTransaction) :=
  (Dict.find pendings key).map fun b => b.transactions

/-- The pending queue agrees with the pending locks of the transactions: the
buckets are sorted by importance, a bucket holds registered transactions of
its importance that have a valid pending lock, each once, and every
transaction with a valid pending lock is in the bucket of its importance. -/
def PendInv (transactions : Dict BufferTransaction TransInfo) (pendings : Pendings) : Prop :=
  (pendings.map Prod.fst).Pairwise (fun x y => x < y) ∧
  (∀ key q x, queueOf pendings key = some q → x ∈ q →
    ∃ ti, Dict.find transactions x = some ti ∧ ti.pendingLock.IsValid = true ∧
      ti.importance = key) ∧
  (∀ key q, queueOf pendings key = some q → q.Nodup) ∧
  ∀ k ti, Dict.find transactions k = some ti → ti.pendingLock.IsValid = true →
    ∃ q, queueOf pendings ti.importance = some q ∧ k ∈ q

/-- A counter-level operation: what a handler does to the handler state and to
the counters of the lock info it is given; `none` is a fatal error. -/
abbrev CountsOp (TArgs : Type) :=
  HandlerState → TArgs → LockCounts → Option (Bool × HandlerState × LockCounts)

/-- The table handler that applies a counter-level operation to the table. -/
def liftTable {TArgs : Type} (F : CountsOp TArgs) : TableLockHandler TArgs :=
  fun h a t => (F h a t.acquiredLocks).map fun x => (x.1, x.2.1, { t with acquiredLocks := x.2.2 })

/-- The page handler that applies a counter-level operation to the page and,
when `prune` is set and the operation succeeded, removes the page from its
table once it is empty. -/
def liftPage {TArgs : Type} (F : CountsOp TArgs) (prune : Bool) : PageLockHandler TArgs :=
  fun h a t p => (F h a p.acquiredLocks).map fun x =>
    let p1 : PageLockInfo := { p with acquiredLocks := x.2.2 }
    (x.1, x.2.1,
      if prune && x.1 && p1.IsEmpty then
        { t with pageLocks := Dict.Remove t.pageLocks p1.object }
      else t,
      p1)

/-- The row handler that applies a counter-level operation to the row and,
when `prune` is set and the operation succeeded, removes the row from its
page once it is empty, and then the page from its table once it is empty. -/
def liftRow {TArgs : Type} (F : CountsOp TArgs) (prune : Bool) : RowLockHandler TArgs :=
  fun h a t p w => (F h a w.acquiredLocks).map fun x =>
    let w1 : RowLockInfo := { w with acquiredLocks := x.2.2 }
    if prune && x.1 && w1.IsEmpty then
      let p1 : PageLockInfo := { p with rowLocks := Dict.Remove p.rowLocks w1.object }
      (x.1, x.2.1,
        if p1.IsEmpty then { t with pageLocks := Dict.Remove t.pageLocks p1.object } else t,
        p1, w1)
    else (x.1, x.2.1, t, p, w1)

/-- The counter-level operation of the acquire handlers. -/
def acquireOp : CountsOp AcquireLockArgs := fun h a c => some (AcquireGeneralLock h a c)

/-- The counter-level operation of the release handlers. -/
def releaseOp : CountsOp ReleaseLockArgs := fun h a c =>
  (ReleaseObjectLockUnsafe c h.owner a).map fun x => (x.1, { h with owner := x.2.2 }, x.2.1)

/-- In a page, every row info is stored under its own offset. -/
def PageLockInfo.WF (p : PageLockInfo) : Prop :=
  ∀ k w, Dict.find p.rowLocks k = some w → w.object = k

/-- In a table, every page info is stored under its own handle, and so are its rows. -/
def TableLockInfo.WF (t : TableLockInfo) : Prop :=
  ∀ k p, Dict.find t.pageLocks k = some p → p.object = k ∧ p.WF

/-- Every lock info of the tree is stored under its own key. -/
def LocksWF (tableLocks : List (Option TableLockInfo)) : Prop :=
  ∀ i t, tableLocks.getD i none = some t → t.WF

/-- The dispatcher below a table: the table handler for the table itself,
`operatePage` for a page or a row, with the handlers of a counter-level operation. -/
def operateSub {TArgs : Type} (F : CountsOp TArgs) (prune : Bool) (h : HandlerState) (a : TArgs)
    (create : Bool) (t : TableLockInfo) :
    Option (BufferPage × Option Nat) → Option (Bool × HandlerState × TableLockInfo)
  | none => liftTable F h a t
  | some (page, off) => operatePage h a (liftPage F prune) (liftRow F prune) create t page off

/-- The compatibility test of `AcquireObjectLockUnsafe`: the requested access is
compatible with every mode that has a holder. -/
def Grantable (c : LockCounts) (access : LockTargetAccess) : Prop :=
  ∀ m : LockTargetAccess, 0 < c m → lockCompatibility access m = true

/-- The manager `lm2` is `lm` after `target` (on object `o`) was granted to
`owner`, whose `TransInfo` was `ti`. -/
def Granted (lm lm2 : LockManager) (owner : BufferTransaction) (ti : TransInfo)
    (target : LockTarget) (o : LockObject) : Prop :=
  lm2.tables = lm.tables ∧ lm2.pendings = lm.pendings ∧
  lm2.transactions =
    Dict.Store lm.transactions owner { ti with acquiredLocks := ti.acquiredLocks ++ [target] } ∧
  LocksWF lm2.tableLocks ∧
  ∀ o2 m, holders lm2.tableLocks o2 m =
    if o2 = o ∧ m = target.access then holders lm.tableLocks o2 m + 1
    else holders lm.tableLocks o2 m

/-- The manager `lm2` is `lm` after `owner` (with `TransInfo` `ti`) was
appended to the bucket of its importance with pending lock `target`. -/
def Enqueued (lm lm2 : LockManager) (owner : BufferTransaction) (ti : TransInfo)
    (target : LockTarget) : Prop :=
  lm2.tables = lm.tables ∧
  lm2.transactions = Dict.Store lm.transactions owner { ti with pendingLock := target } ∧
  LocksWF lm2.tableLocks ∧
  (∀ o2, holders lm2.tableLocks o2 = holders lm.tableLocks o2) ∧
  (lm2.pendings.map Prod.fst).Pairwise (fun x y => x < y) ∧
  ∀ key, queueOf lm2.pendings key =
    if key = ti.importance then some ((queueOf lm.pendings ti.importance).getD [] ++ [owner])
    else queueOf lm.pendings key

/-- The manager `lm2` is `lm` after `owner` (with `TransInfo` `ti`) was taken
out of the bucket of its importance, whose queue was `q0`, and its pending
lock cleared; the lock tree is untouched. -/
def Dequeued (lm lm2 : LockManager) (owner : BufferTransaction) (ti : TransInfo)
    (q0 : List BufferTransaction) : Prop :=
  lm2.tables = lm.tables ∧ lm2.tableLocks = lm.tableLocks ∧
  lm2.transactions =
    Dict.Store lm.transactions owner { ti with pendingLock := LockTarget.Invalid } ∧
  (lm2.pendings.map Prod.fst).Pairwise (fun x y => x < y) ∧
  ∀ key, queueOf lm2.pendings key =
    if key = ti.importance then some (removeFirst q0 owner) else queueOf lm.pendings key

/-- The manager `lm2` is `lm` after one entry `target` (on object `o`) of the
held locks of `owner` was released. -/
def Released (lm lm2 : LockManager) (owner : BufferTransaction) (ti : TransInfo)
    (target : LockTarget) (o : LockObject) : Prop :=
  lm2.tables = lm.tables ∧ lm2.pendings = lm.pendings ∧
  lm2.transactions =
    Dict.Store lm.transactions owner
      { ti with acquiredLocks := removeFirst ti.acquiredLocks target } ∧
  LocksWF lm2.tableLocks ∧
  ∀ o2 m, holders lm2.tableLocks o2 m =
    if o2 = o ∧ m = target.access then holders lm.tableLocks o2 m - 1
    else holders lm.tableLocks o2 m

/-- The manager `lm2` is `lm` after `owner` traded one entry `old` (on object
`o`) for the granted target `old` with access `newAccess`. -/
def Upgraded (lm lm2 : LockManager) (owner : BufferTransaction) (ti : TransInfo)
    (old : LockTarget) (newAccess : LockTargetAccess) (o : LockObject) : Prop :=
  lm2.tables = lm.tables ∧ lm2.pendings = lm.pendings ∧
  lm2.transactions =
    Dict.Store lm.transactions owner
      { ti with
        acquiredLocks := removeFirst ti.acquiredLocks old ++ [{ old with access := newAccess }] } ∧
  LocksWF lm2.tableLocks ∧
  ∀ o2 m, holders lm2.tableLocks o2 m =
    if o2 = o then
      (if m = old.access then holders lm.tableLocks o2 m - 1 else holders lm.tableLocks o2 m) +
        (if m = newAccess then 1 else 0)
    else holders lm.tableLocks o2 m

/-- The manager `lm2` is `lm` after `owner` gave up one entry `old` (on object
`o`) and was queued for the target `old` with access `newAccess`. -/
def UpgradeBlocked (lm lm2 : LockManager) (owner : BufferTransaction) (ti : TransInfo)
    (old : LockTarget) (newAccess : LockTargetAccess) (o : LockObject) : Prop :=
  lm2.tables = lm.tables ∧
  lm2.transactions =
    Dict.Store lm.transactions owner
      { ti with
        acquiredLocks := removeFirst ti.acquiredLocks old
        pendingLock := { old with access := newAccess } } ∧
  LocksWF lm2.tableLocks ∧
  (∀ o2 m, holders lm2.tableLocks o2 m =
    if o2 = o ∧ m = old.access then holders lm.tableLocks o2 m - 1
    else holders lm.tableLocks o2 m) ∧
  (lm2.pendings.map Prod.fst).Pairwise (fun x y => x < y) ∧
  ∀ key, queueOf lm2.pendings key =
    if key = ti.importance then some ((queueOf lm.pendings ti.importance).getD [] ++ [owner])
    else queueOf lm.pendings key

/-- The counters of an object after one holder of mode `access` left. -/
def afterRelease (c : LockCounts) (access : LockTargetAccess) : LockCounts :=
  fun m => if m = access then c m - 1 else c m

/-- Only the shape of the lock tree and the round-robin indices may differ:
the registries, the counters and the queues are the same. -/
def SameLocks (lm lm2 : LockManager) : Prop :=
  lm2.tables = lm.tables ∧ lm2.transactions = lm.transactions ∧
  LocksWF lm2.tableLocks ∧
  (∀ o2, holders lm2.tableLocks o2 = holders lm.tableLocks o2) ∧
  (lm2.pendings.map Prod.fst).Pairwise (fun x y => x < y) ∧
  ∀ key, queueOf lm2.pendings key = queueOf lm.pendings key

/-- The buckets of the pending queue in order, each with its importance and
its queue (without the round-robin index). -/
def queues (lm : LockManager) : List (Nat × List BufferTransaction) :=
  lm.pendings.map fun kb => (kb.1, kb.2.transactions)

/-- The registries, the counters and the buckets with their queues are the
same in `lm2` as in `lm`; only round-robin indices and the shape of the lock
tree may differ. -/
def Quiet (lm lm2 : LockManager) : Prop :=
  lm2.tables = lm.tables ∧ lm2.transactions = lm.transactions ∧
  LocksWF lm2.tableLocks ∧
  (∀ o2, holders lm2.tableLocks o2 = holders lm.tableLocks o2) ∧
  queues lm2 = queues lm

/-- The transaction `x` is registered with a valid pending lock that is
compatible with every mode held on its object: acquiring it would succeed
without blocking. -/
def PendingGrantable (bm : BufferManager) (lm : LockManager) (x : BufferTransaction) : Prop :=
  ∃ ti o, Dict.find lm.transactions x = some ti ∧ ti.pendingLock.IsValid = true ∧
    objectOf bm ti.pendingLock = some o ∧
    Grantable (holders lm.tableLocks o) ti.pendingLock.access

/-- Index `idx` of a bucket of `n` transactions is reached by the round robin
that starts after `l` before it has passed `stop`. -/
def Between (n : Nat) (l stop : Int) (idx : Nat) : Prop :=
  ∃ j : Nat, 1 ≤ j ∧ (idx : Int) = (l + j) % (n : Int) ∧
    ∀ j2 : Nat, 1 ≤ j2 → j2 < j → (l + j2) % (n : Int) ≠ stop

/-- The manager `lm3` is `lm` after the scheduler handed the pending lock of
`t`, queued in the bucket of importance `key`, over to `t`. -/
def PickedFrom (bm : BufferManager) (lm lm3 : LockManager) (t : BufferTransaction)
    (key : Nat) : Prop :=
  ∃ ti o q, Dict.find lm.transactions t = some ti ∧ ti.pendingLock.IsValid = true ∧
    ti.importance = key ∧ objectOf bm ti.pendingLock = some o ∧
    Grantable (holders lm.tableLocks o) ti.pendingLock.access ∧
    queueOf lm.pendings key = some q ∧ t ∈ q ∧
    lm3.tables = lm.tables ∧
    lm3.transactions =
      Dict.Store lm.transactions t
        { ti with
          acquiredLocks := ti.acquiredLocks ++ [ti.pendingLock]
          pendingLock := LockTarget.Invalid } ∧
    LocksWF lm3.tableLocks ∧
    (∀ o2 m, holders lm3.tableLocks o2 m =
      if o2 = o ∧ m = ti.pendingLock.access then holders lm.tableLocks o2 m + 1
      else holders lm.tableLocks o2 m) ∧
    (lm3.pendings.map Prod.fst).Pairwise (fun x y => x < y) ∧
    ∀ key2, queueOf lm3.pendings key2 =
      if key2 = key then (if (removeFirst q t).length = 0 then none else some (removeFirst q t))
      else queueOf lm.pendings key2

/-- The invariant of the manager between public calls. -/
def Inv (bm : BufferManager) (lm : LockManager) : Prop :=
  LocksWF lm.tableLocks ∧ TransInv lm.transactions ∧
  CountsInv bm (holders lm.tableLocks) lm.transactions ∧
  PendInv lm.transactions lm.pendings

/-! ## Sample managers -/

/-- A buffer manager in which the index page of a source is the source itself
and a row address `n` decodes to page `n / 1000` and offset `n % 1000`. -/
def sampleBuffers : BufferManager :=
  ⟨fun s => s, fun a => a.map fun n => (some (n / 1000), n % 1000)⟩

/-- A lock of the given access on a whole table. -/
def tableTarget (access : LockTargetAccess) (table : Nat) : LockTarget :=
  ⟨access, some table, LockTargetObject.Table⟩

/-- The manager after a sequence of public calls on the empty manager over
`sampleBuffers` (the empty manager when a call does not return). -/
def stateAfter (ops : List Op) : LockManager :=
  (LockManager.run sampleBuffers LockManager.empty ops).getD LockManager.empty

/-- Two transactions read-lock (mode 3) the same table. -/
def twoReaders : List Op :=
  [Op.RegisterTable (some 0) (some 1),
   Op.RegisterTransaction (some 1) 1, Op.RegisterTransaction (some 2) 1,
   Op.AcquireLock (some 1) (tableTarget 3 0), Op.AcquireLock (some 2) (tableTarget 3 0)]

/-- The handles of a target are valid: the table and, for a page or a row,
the page handle or the row address (the checks of `CheckInputUnsafe` on the
target alone). -/
def LockTarget.HandlesValid (target : LockTarget) : Bool :=
  Handle.IsValid target.table &&
    match target.object with
    | LockTargetObject.Table => true
    | LockTargetObject.Page page => Handle.IsValid page
    | LockTargetObject.Row address => Handle.IsValid address

/-- A table, a transaction that holds its exclusive lock (mode 5), and a second
transaction of the same importance. -/
def oneWriter : List Op :=
  [Op.RegisterTable (some 0) (some 1),
   Op.RegisterTransaction (some 1) 1, Op.RegisterTransaction (some 2) 1,
   Op.AcquireLock (some 1) (tableTarget 5 0)]

/-- After `oneWriter`, the second transaction asks for mode 0 and is queued. -/
def writerAndWaiter : List Op :=
  oneWriter ++ [Op.AcquireLock (some 2) (tableTarget 0 0)]

/-- One transaction takes the mode 3 lock of a table twice. -/
def heldTwice : List Op :=
  [Op.RegisterTable (some 0) (some 1), Op.RegisterTransaction (some 1) 1,
   Op.AcquireLock (some 1) (tableTarget 3 0), Op.AcquireLock (some 1) (tableTarget 3 0)]

/-- One transaction takes the mode 3 lock of a table, then the table is unregistered. -/
def heldThenUnregistered : List Op :=
  [Op.RegisterTable (some 0) (some 1), Op.RegisterTransaction (some 1) 1,
   Op.AcquireLock (some 1) (tableTarget 3 0), Op.UnregisterTable (some 0)]

/-- What a caller observes of an `UpgradeLock` call by `t`: the return value,
`result.blocked`, and the held locks and the pending lock of `t` afterwards. -/
def upgradeOutcome (r : Option (Bool × LockManager × LockResult)) (t : BufferTransaction) :
    Option (Bool × Bool × Option (List LockTarget × LockTarget)) :=
  r.map fun x =>
    (x.1, x.2.2.blocked,
      (Dict.find x.2.1.transactions t).map fun ti => (ti.acquiredLocks, ti.pendingLock))

/-- After `writerAndWaiter`, the writer releases its lock. -/
def writerLeft : List Op :=
  writerAndWaiter ++ [Op.ReleaseLock (some 1) (tableTarget 5 0)]

/-- The manager a call of `PickTransaction` leaves behind (the empty manager
when the call does not return). -/
def managerOf (r : Outcome (LockManager × LockResult × BufferTransaction)) : LockManager :=
  match r with
  | Outcome.ok x => x.1
  | _ => LockManager.empty

/-- A writer holds the exclusive lock of a table, two transactions of the same
importance wait for mode 0, the scheduler is run once (nobody can be granted,
the round-robin index of the bucket stays at 1), and then the second waiter
withdraws its pending request. -/
def staleIndex : List Op :=
  [Op.RegisterTable (some 0) (some 1),
   Op.RegisterTransaction (some 1) 1, Op.RegisterTransaction (some 2) 1,
   Op.RegisterTransaction (some 3) 1,
   Op.AcquireLock (some 1) (tableTarget 5 0), Op.AcquireLock (some 2) (tableTarget 0 0),
   Op.AcquireLock (some 3) (tableTarget 0 0),
   Op.PickTransaction 5, Op.ReleaseLock (some 3) (tableTarget 0 0)]

/-- After `writerAndWaiter`, the waiter withdraws its pending request: its
bucket stays in the queue, empty. -/
def emptyBucket : List Op :=
  writerAndWaiter ++ [Op.ReleaseLock (some 2) (tableTarget 0 0)]

/-! ## Notions for the deadlock detector -/

/-- The wait-for relation of a graph: some allocated edge leads from node `a`
to node `b`. -/
def Graph.Arc (g : Graph) (a b : Nat) : Prop :=
  ∃ e, e < g.edges.length ∧ (g.edge e).fromNode = a ∧ (g.edge e).toNode = b

/-- The wait-for relation restricted to the nodes that satisfy `keep`. -/
def Graph.ArcOn (g : Graph) (keep : Nat → Prop) (a b : Nat) : Prop :=
  keep a ∧ keep b ∧ g.Arc a b

/-- The relation has a directed cycle (a self-loop counts). -/
def HasCycle {α : Type} (r : α → α → Prop) : Prop := ∃ a, Relation.TransGen r a a

/-- The write of the first loop of `ChooseVictim` (and of the worklist step of
`ReduceGraph`): the source of edge `e` forgets it. -/
def cutIn (g : Graph) (e : Nat) : Graph :=
  g.setNode (g.edge e).fromNode
    { g.node (g.edge e).fromNode with
      outs := removeFirst (g.node (g.edge e).fromNode).outs e }

/-- The write of the second loop of `ChooseVictim`: the target of edge `e`
forgets it. -/
def cutOut (g : Graph) (e : Nat) : Graph :=
  g.setNode (g.edge e).toNode
    { g.node (g.edge e).toNode with
      ins := removeFirst (g.node (g.edge e).toNode).ins e }

/-- The arena after node `n` was cut out of the graph. -/
def cutNode (g : Graph) (n : Nat) : Graph :=
  ((g.node n).ins.foldl cutIn g |>.node n).outs.foldl cutOut ((g.node n).ins.foldl cutIn g)

/-- The test of `TestReducableNode`: the node has no incoming or no outgoing edge. -/
def Reducible (g : Graph) (n : Nat) : Prop :=
  (g.node n).ins.length * (g.node n).outs.length = 0

/-- The lists `ins` and `outs` of the nodes in `nodes` describe the subgraph
that the allocated edges induce on `nodes`: the list `nodes` has distinct
valid positions, every listed edge is an allocated edge between nodes of the
list, every allocated edge between nodes of the list is listed at both ends,
and no edge is listed twice. -/
structure GInv (g : Graph) (nodes : List Nat) : Prop where
  nodup : nodes.Nodup
  lt : ∀ n ∈ nodes, n < g.nodes.length
  outs_ok : ∀ n ∈ nodes, ∀ e ∈ (g.node n).outs,
    e < g.edges.length ∧ (g.edge e).fromNode = n ∧ (g.edge e).toNode ∈ nodes
  ins_ok : ∀ n ∈ nodes, ∀ e ∈ (g.node n).ins,
    e < g.edges.length ∧ (g.edge e).toNode = n ∧ (g.edge e).fromNode ∈ nodes
  present : ∀ e, e < g.edges.length → (g.edge e).fromNode ∈ nodes → (g.edge e).toNode ∈ nodes →
    e ∈ (g.node (g.edge e).fromNode).outs ∧ e ∈ (g.node (g.edge e).toNode).ins
  outs_nodup : ∀ n ∈ nodes, (g.node n).outs.Nodup
  ins_nodup : ∀ n ∈ nodes, (g.node n).ins.Nodup

/-- The graph `g2` has the edges of `g` and the same `transInfo`, `ins` and
`outs` at every node; only the marks of `FindCycle` may differ. -/
def SameLinks (g g2 : Graph) : Prop :=
  g2.edges = g.edges ∧ g2.nodes.length = g.nodes.length ∧
  ∀ n, (g2.node n).ins = (g.node n).ins ∧ (g2.node n).outs = (g.node n).outs ∧
    (g2.node n).transInfo = (g.node n).transInfo

/-- Every node of the set has a successor and a predecessor in the set along
allocated edges: the set is a union of cycles and of paths between them. -/
def Graph.Closed (g : Graph) (S : Nat → Prop) : Prop :=
  ∀ x, S x → (∃ y, S y ∧ g.Arc x y) ∧ (∃ y, S y ∧ g.Arc y x)

/-- The marks of `FindCycle` at a node are in their initial state. -/
def MarksReset (g : Graph) (m : Nat) : Prop :=
  (g.node m).previous = none ∧ (g.node m).next = -1 ∧ (g.node m).touched = false

/-- The link that `FindCycle` leaves between a node `x` and the node `y` it
was entered from: `previous` of `x` is `y`, and an allocated edge leads from
`y` to `x`. -/
def EnteredFrom (g : Graph) (x y : Nat) : Prop :=
  (g.node x).previous = some y ∧ g.Arc y x

/-- The state of the walk of `FindCycle`: `current` is the node under
exploration and `rest` the nodes entered before it, the latest first.  The
walk is a simple path of nodes of `nodes`, exactly the nodes of `rest` have
been advanced (`next` is not -1), a node that was not advanced is not
touched, and each node of the walk was entered from the one before it. -/
structure FindInv (g : Graph) (nodes : List Nat) (current : Nat) (rest : List Nat) : Prop where
  nodup : (current :: rest).Nodup
  sub : ∀ x ∈ current :: rest, x ∈ nodes
  fresh : ∀ m ∈ nodes, m ∉ rest → (g.node m).next = -1
  advanced : ∀ m ∈ rest, (g.node m).next ≠ -1
  untouched : ∀ m ∈ nodes, (g.node m).next = -1 → (g.node m).touched = false
  chain : List.Chain' (EnteredFrom g) (current :: rest)

/-- The state of `BuildGraph` after the pairs `(from, to)` in `D` have been
examined, starting from the arena `g0` of fresh nodes: the nodes keep their
`transInfo`; every allocated edge joins an examined pair of nodes, carries the
justification of that pair (which is not empty), and is listed at both ends;
the lists `outs` and `ins` hold allocated edges of their node, each once;
every examined pair with a justification has an edge; and the group `grp`
lists under each key the edges into that node. -/
structure BuildInv (g0 g : Graph) (grp : Dict Nat (List Nat)) (D : Nat → Nat → Prop) : Prop where
  length : g.nodes.length = g0.nodes.length
  info : ∀ m, (g.node m).transInfo = (g0.node m).transInfo
  edge_ok : ∀ e, e < g.edges.length →
    D (g.edge e).fromNode (g.edge e).toNode ∧
    (g.edge e).fromNode < g0.nodes.length ∧ (g.edge e).toNode < g0.nodes.length ∧
    (g.edge e).toNodeAcquired =
      edgeJustification (g0.node (g.edge e).fromNode).transInfo.pendingLock
        (g0.node (g.edge e).toNode).transInfo.acquiredLocks ∧
    (g.edge e).toNodeAcquired ≠ [] ∧
    e ∈ (g.node (g.edge e).fromNode).outs ∧ e ∈ (g.node (g.edge e).toNode).ins
  outs_ok : ∀ m e, e ∈ (g.node m).outs → e < g.edges.length ∧ (g.edge e).fromNode = m
  ins_ok : ∀ m e, e ∈ (g.node m).ins → e < g.edges.length ∧ (g.edge e).toNode = m
  outs_nodup : ∀ m, (g.node m).outs.Nodup
  ins_nodup : ∀ m, (g.node m).ins.Nodup
  complete : ∀ a b, D a b →
    edgeJustification (g0.node a).transInfo.pendingLock (g0.node b).transInfo.acquiredLocks ≠ [] →
    ∃ e, e < g.edges.length ∧ (g.edge e).fromNode = a ∧ (g.edge e).toNode = b
  group_some : ∀ t l, Dict.find grp t = some l →
    l.Nodup ∧ ∀ e, e ∈ l ↔ e < g.edges.length ∧ (g.edge e).toNode = t
  group_none : ∀ t, Dict.find grp t = none → ∀ e, e < g.edges.length → (g.edge e).toNode ≠ t

/-- The transactions in the pending queue, bucket by bucket: the nodes of the
graph of `BuildGraph`, in the order of their allocation. -/
def LockManager.queued (lm : LockManager) : List BufferTransaction :=
  lm.pendings.flatMap fun b => b.2.transactions

/-- A held lock blocks a pending lock, as `BuildGraph` tests it: the targets
agree up to the access, and the accesses are not compatible. -/
def Blocks (pending acquired : LockTarget) : Prop :=
  { pending with access := acquired.access } = acquired ∧
    lockCompatibility pending.access acquired.access = false

/-- The wait-for relation of the manager over its pending transactions: `t1`
and `t2` are in the pending queue, and a lock held by `t2` blocks the pending
lock of `t1`. -/
def WaitsFor (lm : LockManager) (t1 t2 : BufferTransaction) : Prop :=
  t1 ∈ lm.queued ∧ t2 ∈ lm.queued ∧
  ∃ ti1 ti2, Dict.find lm.transactions t1 = some ti1 ∧ Dict.find lm.transactions t2 = some ti2 ∧
    ∃ acquired, acquired ∈ ti2.acquiredLocks ∧ Blocks ti1.pendingLock acquired

/-- The wait-for relation among the transactions that satisfy `keep`. -/
def WaitsForOn (lm : LockManager) (keep : BufferTransaction → Prop)
    (t1 t2 : BufferTransaction) : Prop :=
  keep t1 ∧ keep t2 ∧ WaitsFor lm t1 t2

/-- The arena of `BuildGraph` before any edge is allocated. -/
def freshGraph (infos : List TransInfo) : Graph :=
  ⟨infos.map fun ti => { Node.fresh with transInfo := ti }, []⟩

/-- Two transactions each hold the exclusive lock of one table and wait for
the table of the other. -/
def crossWaiters : List Op :=
  [Op.RegisterTable (some 0) (some 1), Op.RegisterTable (some 1) (some 1),
   Op.RegisterTransaction (some 1) 1, Op.RegisterTransaction (some 2) 1,
   Op.AcquireLock (some 1) (tableTarget 5 0), Op.AcquireLock (some 2) (tableTarget 5 1),
   Op.AcquireLock (some 1) (tableTarget 5 1), Op.AcquireLock (some 2) (tableTarget 5 0)]

/-- A graph of two nodes that wait for each other. -/
def twoCycle : Graph :=
  ⟨[{ Node.fresh with ins := [1], outs := [0] }, { Node.fresh with ins := [0], outs := [1] }],
    [⟨0, 1, []⟩, ⟨1, 0, []⟩]⟩

/-- Transactions 0 and 2 hold the mode 3 lock of table 0 and transaction 1 the
exclusive lock of table 1; then 0 asks for the exclusive lock of table 1, 1
for the exclusive lock of table 0, and 2 for the exclusive lock of table 1.
Transaction 1 waits for 0 and 2, and both wait for 1. -/
def threeWaiters : List Op :=
  [Op.RegisterTable (some 0) (some 1), Op.RegisterTable (some 1) (some 1),
   Op.RegisterTransaction (some 0) 1, Op.RegisterTransaction (some 1) 1,
   Op.RegisterTransaction (some 2) 1,
   Op.AcquireLock (some 0) (tableTarget 3 0), Op.AcquireLock (some 2) (tableTarget 3 0),
   Op.AcquireLock (some 1) (tableTarget 5 1),
   Op.AcquireLock (some 0) (tableTarget 5 1), Op.AcquireLock (some 1) (tableTarget 5 0),
   Op.AcquireLock (some 2) (tableTarget 5 1)]

/-- The list `rollbacks` that `DetectDeadlock` reports (`none` when the call
does not return). -/
def rollbacksOf (r : Outcome DeadlockInfo) : Option (List BufferTransaction) :=
  match r with
  | Outcome.ok info => some info.rollbacks
  | _ => none

/-! ## The compatibility table of the specification and further situations -/

/-- The table of section 4.A of the specification, read row by row: the
existing modes a request of each mode may coexist with. -/
def specCompatibility (request existing : LockTargetAccess) : Bool :=
  match request.val with
  | 0 => decide (existing.val ≠ 5)
  | 1 => decide (existing.val ≤ 2)
  | 2 => decide (existing.val ≤ 1)
  | 3 => decide (existing.val = 0 ∨ existing.val = 3)
  | 4 => decide (existing.val = 0)
  | _ => false

/-- After `writerAndWaiter`, the table the waiter waits for is unregistered. -/
def orphanedWaiter : List Op :=
  writerAndWaiter ++ [Op.UnregisterTable (some 0)]

/-- After `writerAndWaiter`, the waiter is rolled back. -/
def rolledBackWaiter : List Op :=
  writerAndWaiter ++ [Op.Rollback (some 2)]

/-- After `writerLeft`, the scheduler hands the free table to the waiter. -/
def pickedWaiter : List Op :=
  writerLeft ++ [Op.PickTransaction 5]

/-- No two allocated edges of the graph join the same ordered pair of nodes. -/
def EdgeUnique (g : Graph) : Prop :=
  ∀ e1 e2, e1 < g.edges.length → e2 < g.edges.length →
    (g.edge e1).fromNode = (g.edge e2).fromNode → (g.edge e1).toNode = (g.edge e2).toNode →
    e1 = e2

/-! ## Pruning of the lock tree -/

/-- No counter is negative. -/
def LockCounts.NonNeg (c : LockCounts) : Prop := ∀ m, 0 ≤ c m

/-- Every row info of the page has a holder (and no negative counter). -/
def PageLockInfo.Pruned (p : PageLockInfo) : Prop :=
  ∀ k w, Dict.find p.rowLocks k = some w →
    w.acquiredLocks.NonNeg ∧ w.acquiredLocks.IsZero = false

/-- The page info is not empty (it has a holder or a row info), has no
negative counter, and each of its row infos has a holder. -/
def PageLockInfo.Kept (p : PageLockInfo) : Prop :=
  p.acquiredLocks.NonNeg ∧ p.IsEmpty = false ∧ p.Pruned

/-- Every page info of the table is not empty, and every row info has a holder. -/
def TableLockInfo.Pruned (t : TableLockInfo) : Prop :=
  ∀ k p, Dict.find t.pageLocks k = some p → p.Kept

/-- The lock tree holds no empty page info and no empty row info. -/
def Pruned (tableLocks : List (Option TableLockInfo)) : Prop :=
  ∀ i t, tableLocks.getD i none = some t → t.Pruned

/-- A counter-level operation keeps counters non-negative, and leaves all
counters zero only where they were zero before or where the handler prunes
(`prune`, and the operation succeeded). -/
def Keeps {TArgs : Type} (F : CountsOp TArgs) (prune : Bool) : Prop :=
  ∀ h a c r h1 c1, F h a c = some (r, h1, c1) → LockCounts.NonNeg c →
    LockCounts.NonNeg c1 ∧ (c1.IsZero = true → (prune && r) = true ∨ c.IsZero = true)

/-- A counter-level operation applied to fresh counters leaves a holder. -/
def Fills {TArgs : Type} (F : CountsOp TArgs) : Prop :=
  ∀ h a r h1 c1, F h a LockCounts.zero = some (r, h1, c1) → c1.IsZero = false

/-- The target "page `page` of table `table`" with the given access. -/
def pageTarget (access : LockTargetAccess) (table page : Nat) : LockTarget :=
  ⟨access, some table, LockTargetObject.Page (some page)⟩

/-- The target "row at `address` of table `table`" with the given access. -/
def rowTarget (access : LockTargetAccess) (table address : Nat) : LockTarget :=
  ⟨access, some table, LockTargetObject.Row (some address)⟩

/-- One transaction holds the mode 0 lock of page 7 of a table and the mode 0
lock of the row at offset 5 of that page. -/
def pageAndRow : List Op :=
  [Op.RegisterTable (some 0) (some 1), Op.RegisterTransaction (some 1) 1,
   Op.AcquireLock (some 1) (pageTarget 0 0 7), Op.AcquireLock (some 1) (rowTarget 0 0 7005)]

/-- One transaction holds the mode 0 lock of the row at offset 5 of page 7 of a table. -/
def rowOnly : List Op :=
  [Op.RegisterTable (some 0) (some 1), Op.RegisterTransaction (some 1) 1,
   Op.AcquireLock (some 1) (rowTarget 0 0 7005)]

/-- Every held lock of every registered transaction designates an object:
the address of a held row lock can be decoded. -/
def HeldDecodable (bm : BufferManager) (transactions : Dict BufferTransaction TransInfo) : Prop :=
  ∀ t ti, Dict.find transactions t = some ti →
    ∀ e, e ∈ ti.acquiredLocks → (objectOf bm e).isSome = true

/-- One transaction holds the mode 3 lock of a table twice and asks to upgrade
one of the two to the exclusive lock: its other lock blocks it, and it waits
for itself. -/
def selfWait : List Op :=
  heldTwice ++ [Op.UpgradeLock (some 1) (tableTarget 3 0) 5]

/-! # Theorems -/

/-! ## Dictionaries -/

section DictLemmas

variable {K V : Type} [DecidableEq K]

theorem Dict.find_Store (m : Dict K V) (k k' : K) (v : V) :
    Dict.find (Dict.Store m k v) k' =
      if k' = k then (Dict.find m k).map (fun _ => v) else Dict.find m k' := by
  induction m with
  | nil => simp [Dict.Store, Dict.find]
  | cons kv m ih =>
    obtain ⟨k0, v0⟩ := kv
    by_cases h0 : k0 = k
    · subst h0
      by_cases h1 : k' = k0
      · subst h1; simp [Dict.Store, Dict.find]
      · have h2 : ¬ k0 = k' := fun h => h1 h.symm
        simp [Dict.Store, Dict.find, h1, h2]
    · by_cases h1 : k' = k
      · subst h1
        simp [Dict.Store, Dict.find, h0, ih]
      · by_cases h2 : k0 = k'
        · simp [Dict.Store, Dict.find, h0, h1, h2]
        · simp [Dict.Store, Dict.find, h0, h1, h2, ih]

theorem Dict.find_Add (m : Dict K V) (k k' : K) (v : V) :
    Dict.find (Dict.Add m k v) k' =
      match Dict.find m k' with
      | some x => some x
      | none => if k = k' then some v else none := by
  induction m with
  | nil => simp [Dict.Add, Dict.find]
  | cons kv m ih =>
    obtain ⟨k0, v0⟩ := kv
    by_cases h0 : k0 = k'
    · simp [Dict.Add, Dict.find, h0]
    · have := ih
      simp only [Dict.Add] at this
      simp [Dict.Add, Dict.find, h0, this]

theorem Dict.find_Remove (m : Dict K V) (k k' : K) :
    Dict.find (Dict.Remove m k) k' = if k' = k then none else Dict.find m k' := by
  induction m with
  | nil => simp [Dict.Remove, Dict.find]
  | cons kv m ih =>
    obtain ⟨k0, v0⟩ := kv
    by_cases h0 : k0 = k
    · subst h0
      by_cases h1 : k' = k0
      · subst h1; simp [Dict.Remove, Dict.find, ih]
      · have h2 : ¬ k0 = k' := fun h => h1 h.symm
        simp [Dict.Remove, Dict.find, h1, h2, ih]
    · by_cases h1 : k0 = k'
      · subst h1
        simp [Dict.Remove, Dict.find, h0]
      · simp [Dict.Remove, Dict.find, h0, h1, ih]

theorem Dict.Store_self (m : Dict K V) (k : K) (v : V) (h : Dict.find m k = some v) :
    Dict.Store m k v = m := by
  induction m with
  | nil => rfl
  | cons kv m ih =>
    obtain ⟨k0, v0⟩ := kv
    by_cases h0 : k0 = k
    · subst h0
      simp [Dict.find] at h
      simp [Dict.Store, h]
    · simp [Dict.find, h0] at h
      simp [Dict.Store, h0, ih h]

theorem Dict.find_nil (k : K) : Dict.find ([] : Dict K V) k = none := rfl

end DictLemmas

/-! ## Object locks -/

theorem mem_lockTypes (m : LockTargetAccess) : m ∈ lockTypes := by
  revert m
  decide

theorem AcquireObjectLockUnsafe_any (lockInfo : LockCounts) (target : LockTarget) :
    (lockTypes.any fun i =>
      !lockCompatibility target.access i && decide (0 < lockInfo i)) = true ↔
      ¬ Grantable lockInfo target.access := by
  unfold Grantable
  simp only [List.any_eq_true, Bool.and_eq_true, Bool.not_eq_true', decide_eq_true_eq]
  constructor
  · rintro ⟨m, -, hc, hpos⟩ hall
    rw [hall m hpos] at hc
    exact Bool.noConfusion hc
  · intro h
    push_neg at h
    obtain ⟨m, hpos, hc⟩ := h
    exact ⟨m, mem_lockTypes m, by simpa using hc, hpos⟩

theorem AcquireObjectLockUnsafe_grant (lockInfo : LockCounts) (owner : TransInfo)
    (target : LockTarget) (h : Grantable lockInfo target.access) :
    AcquireObjectLockUnsafe lockInfo owner target =
      (true, Function.update lockInfo target.access (lockInfo target.access + 1),
        { owner with acquiredLocks := owner.acquiredLocks ++ [target] }) := by
  unfold AcquireObjectLockUnsafe
  rw [if_neg (fun hany => (AcquireObjectLockUnsafe_any lockInfo target).mp hany h)]

theorem AcquireObjectLockUnsafe_block (lockInfo : LockCounts) (owner : TransInfo)
    (target : LockTarget) (h : ¬ Grantable lockInfo target.access) :
    AcquireObjectLockUnsafe lockInfo owner target = (false, lockInfo, owner) := by
  unfold AcquireObjectLockUnsafe
  rw [if_pos ((AcquireObjectLockUnsafe_any lockInfo target).mpr h)]

/-- C1.  `AcquireObjectLockUnsafe` returns true exactly when the requested
access is compatible with every mode whose holder count is positive; on
success exactly the counter of the requested access grows by one and the
target is appended to the owner's list, on failure nothing changes. -/
theorem acquireObjectLockUnsafe_spec (lockInfo : LockCounts) (owner : TransInfo)
    (target : LockTarget) :
    ((AcquireObjectLockUnsafe lockInfo owner target).1 = true ↔
        ∀ m : LockTargetAccess, 0 < lockInfo m → lockCompatibility target.access m = true) ∧
    ((AcquireObjectLockUnsafe lockInfo owner target).1 = true →
        (∀ m : LockTargetAccess, (AcquireObjectLockUnsafe lockInfo owner target).2.1 m =
            if m = target.access then lockInfo m + 1 else lockInfo m) ∧
        (AcquireObjectLockUnsafe lockInfo owner target).2.2 =
          { owner with acquiredLocks := owner.acquiredLocks ++ [target] }) ∧
    ((AcquireObjectLockUnsafe lockInfo owner target).1 = false →
        (AcquireObjectLockUnsafe lockInfo owner target).2.1 = lockInfo ∧
        (AcquireObjectLockUnsafe lockInfo owner target).2.2 = owner) := by
  by_cases hall : Grantable lockInfo target.access
  · rw [AcquireObjectLockUnsafe_grant lockInfo owner target hall]
    refine ⟨⟨fun _ => hall, fun _ => rfl⟩, fun _ => ⟨fun m => ?_, rfl⟩, fun h => (by cases h)⟩
    by_cases hm : m = target.access
    · subst hm
      simp
    · simp [Function.update_noteq hm, hm]
  · rw [AcquireObjectLockUnsafe_block lockInfo owner target hall]
    exact ⟨⟨fun h => (by cases h), fun h => absurd h hall⟩, fun h => (by cases h),
      fun _ => ⟨rfl, rfl⟩⟩

/-! ## Handlers -/

theorem LockCounts.isZero_iff (c : LockCounts) : c.IsZero = true ↔ c = LockCounts.zero := by
  unfold LockCounts.IsZero
  simp only [List.all_eq_true, decide_eq_true_eq]
  constructor
  · intro h
    funext m
    exact h m (mem_lockTypes m)
  · intro h m _
    rw [h]
    rfl

theorem Dict.isEmpty_find {K V : Type} [DecidableEq K] (m : Dict K V) (h : m.isEmpty = true)
    (k : K) : Dict.find m k = none := by
  cases m with
  | nil => rfl
  | cons a m => simp at h

theorem AcquireTableLock_eq : AcquireTableLock = liftTable acquireOp := by
  funext h a t
  simp [AcquireTableLock, liftTable, acquireOp]

theorem AcquirePageLock_eq : AcquirePageLock = liftPage acquireOp false := by
  funext h a t p
  simp [AcquirePageLock, liftPage, acquireOp]

theorem AcquireRowLock_eq : AcquireRowLock = liftRow acquireOp false := by
  funext h a t p w
  simp [AcquireRowLock, liftRow, acquireOp]

theorem ReleaseTableLock_eq : ReleaseTableLock = liftTable releaseOp := by
  funext h a t
  simp only [ReleaseTableLock, liftTable, releaseOp, Option.map_map]
  rfl

theorem ReleasePageLock_eq : ReleasePageLock = liftPage releaseOp true := by
  funext h a t p
  simp only [ReleasePageLock, liftPage, releaseOp, Option.map_map]
  congr 1
  funext x
  obtain ⟨r, c, o⟩ := x
  cases r <;> simp [Function.comp]
  split <;> simp_all

theorem ReleaseRowLock_eq : ReleaseRowLock = liftRow releaseOp true := by
  funext h a t p w
  simp only [ReleaseRowLock, liftRow, releaseOp, Option.map_map]
  congr 1
  funext x
  obtain ⟨r, c, o⟩ := x
  cases r <;> simp [Function.comp]
  split
  · split <;> simp_all
  · simp_all

theorem UpgradeTableLock_eq : UpgradeTableLock = liftTable UpgradeGeneralLock := by
  funext h a t
  simp [UpgradeTableLock, liftTable]

theorem UpgradePageLock_eq : UpgradePageLock = liftPage UpgradeGeneralLock false := by
  funext h a t p
  simp [UpgradePageLock, liftPage]

theorem UpgradeRowLock_eq : UpgradeRowLock = liftRow UpgradeGeneralLock false := by
  funext h a t p w
  simp [UpgradeRowLock, liftRow]

/-! ## Effect of the dispatcher on one table -/

theorem Dict.Store_none {K V : Type} [DecidableEq K] (m : Dict K V) (k : K) (v : V)
    (h : Dict.find m k = none) : Dict.Store m k v = m := by
  induction m with
  | nil => rfl
  | cons kv m ih =>
    obtain ⟨k0, v0⟩ := kv
    by_cases h0 : k0 = k
    · simp [Dict.find, h0] at h
    · simp [Dict.find, h0] at h
      simp [Dict.Store, h0, ih h]

theorem pageCore {TArgs : Type} (F : CountsOp TArgs) (prune : Bool) (h : HandlerState) (a : TArgs)
    (t : TableLockInfo) (p : PageLockInfo) (page : BufferPage) (hwf : t.WF)
    (hp : Dict.find t.pageLocks page = some p) :
    (F h a p.acquiredLocks = none ∧
      (liftPage F prune h a t p).map (writeBackPage page) = none) ∨
    ∃ r h1 c1 t1, F h a p.acquiredLocks = some (r, h1, c1) ∧
      (liftPage F prune h a t p).map (writeBackPage page) = some (r, h1, t1) ∧
      t1.WF ∧ t1.object = t.object ∧
      (∀ sub, t1.holders sub = if sub = some (page, none) then c1 else t.holders sub) ∧
      ((prune && r) = false → c1 = p.acquiredLocks → t1 = t) := by
  cases hF : F h a p.acquiredLocks with
  | none => left; simp [liftPage, hF]
  | some x =>
    obtain ⟨r, h1, c1⟩ := x
    right
    have hobj : p.object = page := (hwf page p hp).1
    have hpwf : p.WF := (hwf page p hp).2
    by_cases hprune : (prune && r && ({ p with acquiredLocks := c1 } : PageLockInfo).IsEmpty) = true
    · -- the page is removed
      have hrm : Dict.find (Dict.Remove t.pageLocks page) page = none := by
        simp [Dict.find_Remove]
      simp only [Bool.and_eq_true, PageLockInfo.IsEmpty, LockCounts.isZero_iff] at hprune
      obtain ⟨⟨hpr, hr⟩, hc1, hrows⟩ := hprune
      refine ⟨r, h1, c1, { t with pageLocks := Dict.Remove t.pageLocks page }, rfl, ?_, ?_, rfl, ?_, ?_⟩
      · simp [liftPage, hF, writeBackPage, hpr, hr, hc1, hrows, PageLockInfo.IsEmpty, hobj,
          Dict.Store_none _ _ _ hrm, (LockCounts.isZero_iff _).mpr rfl]
      · intro k q hk
        simp only [Dict.find_Remove] at hk
        split at hk
        · cases hk
        · exact hwf k q hk
      · intro sub
        rcases sub with _ | ⟨pg, _ | o⟩
        · simp [TableLockInfo.holders]
        · by_cases hpg : pg = page
          · subst hpg
            simp [TableLockInfo.holders, Dict.find_Remove, hc1]
          · simp [TableLockInfo.holders, Dict.find_Remove, hpg]
        · by_cases hpg : pg = page
          · subst hpg
            simp [TableLockInfo.holders, Dict.find_Remove, hp, PageLockInfo.holders,
              Dict.isEmpty_find _ hrows]
          · simp [TableLockInfo.holders, Dict.find_Remove, hpg]
      · intro hb
        simp [hpr, hr] at hb
    · have hres : (liftPage F prune h a t p).map (writeBackPage page) =
          some (r, h1,
            { t with pageLocks := Dict.Store t.pageLocks page { p with acquiredLocks := c1 } }) := by
        simp only [liftPage, hF, Option.map_some', writeBackPage]
        rw [if_neg hprune]
      refine ⟨r, h1, c1, _, rfl, hres, ?_, rfl, ?_, ?_⟩
      · intro k q hk
        simp only [Dict.find_Store, hp, Option.map_some'] at hk
        split at hk
        · next hkp =>
          cases hk
          exact ⟨hkp ▸ hobj, hpwf⟩
        · exact hwf k q hk
      · intro sub
        rcases sub with _ | ⟨pg, _ | o⟩
        · simp [TableLockInfo.holders]
        · by_cases hpg : pg = page
          · subst hpg
            simp [TableLockInfo.holders, Dict.find_Store, hp]
          · simp [TableLockInfo.holders, Dict.find_Store, hpg]
        · by_cases hpg : pg = page
          · subst hpg
            simp [TableLockInfo.holders, Dict.find_Store, hp, PageLockInfo.holders]
          · simp [TableLockInfo.holders, Dict.find_Store, hpg]
      · intro _ hc
        subst hc
        simp [Dict.Store_self _ _ _ hp]

theorem rowCore {TArgs : Type} (F : CountsOp TArgs) (prune : Bool) (h : HandlerState) (a : TArgs)
    (t : TableLockInfo) (p : PageLockInfo) (w : RowLockInfo) (page : BufferPage) (o : Nat)
    (hwf : t.WF) (hp : Dict.find t.pageLocks page = some p)
    (hw : Dict.find p.rowLocks o = some w) :
    (F h a w.acquiredLocks = none ∧
      (liftRow F prune h a t p w).map (writeBackRow page o) = none) ∨
    ∃ r h1 c1 t1, F h a w.acquiredLocks = some (r, h1, c1) ∧
      (liftRow F prune h a t p w).map (writeBackRow page o) = some (r, h1, t1) ∧
      t1.WF ∧ t1.object = t.object ∧
      (∀ sub, t1.holders sub = if sub = some (page, some o) then c1 else t.holders sub) ∧
      ((prune && r) = false → c1 = w.acquiredLocks → t1 = t) := by
  cases hF : F h a w.acquiredLocks with
  | none => left; simp [liftRow, hF]
  | some x =>
    obtain ⟨r, h1, c1⟩ := x
    right
    have hobj : p.object = page := (hwf page p hp).1
    have hpwf : p.WF := (hwf page p hp).2
    have hwobj : w.object = o := hpwf o w hw
    subst hobj
    subst hwobj
    by_cases hprune : (prune && r && ({ w with acquiredLocks := c1 } : RowLockInfo).IsEmpty) = true
    · have hprune0 := hprune
      simp only [Bool.and_eq_true, RowLockInfo.IsEmpty, LockCounts.isZero_iff] at hprune
      obtain ⟨⟨hpr, hr⟩, hc1⟩ := hprune
      have hrmo : Dict.find (Dict.Remove p.rowLocks w.object) w.object = none := by simp [Dict.find_Remove]
      by_cases hpe : ({ p with rowLocks := Dict.Remove p.rowLocks w.object } : PageLockInfo).IsEmpty = true
      · -- row and p.object are removed
        have hrm : Dict.find (Dict.Remove t.pageLocks p.object) p.object = none := by
          simp [Dict.find_Remove]
        have hres : (liftRow F prune h a t p w).map (writeBackRow p.object w.object) =
            some (r, h1, { t with pageLocks := Dict.Remove t.pageLocks p.object }) := by
          simp only [liftRow, hF, Option.map_some', hprune0, if_true, hpe,
            writeBackRow, writeBackPage, Dict.Store_none _ _ _ hrm]
        simp only [PageLockInfo.IsEmpty, Bool.and_eq_true, LockCounts.isZero_iff] at hpe
        obtain ⟨hpc, hrows⟩ := hpe
        refine ⟨r, h1, c1, _, rfl, hres, ?_, rfl, ?_, ?_⟩
        · intro k q hk
          simp only [Dict.find_Remove] at hk
          split at hk
          · cases hk
          · exact hwf k q hk
        · intro sub
          rcases sub with _ | ⟨pg, _ | o2⟩
          · simp [TableLockInfo.holders]
          · by_cases hpg : pg = p.object
            · subst hpg
              simp [TableLockInfo.holders, Dict.find_Remove, hp, hpc]
            · simp [TableLockInfo.holders, Dict.find_Remove, hpg]
          · by_cases hpg : pg = p.object
            · subst hpg
              by_cases ho : o2 = w.object
              · subst ho
                simp [TableLockInfo.holders, Dict.find_Remove, hc1]
              · have := Dict.isEmpty_find _ hrows o2
                simp only [Dict.find_Remove, if_neg ho] at this
                simp [TableLockInfo.holders, Dict.find_Remove, hp, PageLockInfo.holders, this, ho]
            · simp [TableLockInfo.holders, Dict.find_Remove, hpg]
        · intro hb
          simp [hpr, hr] at hb
      · -- only the row is removed
        have hres : (liftRow F prune h a t p w).map (writeBackRow p.object w.object) =
            some (r, h1,
              { t with pageLocks := (Dict.Store t.pageLocks p.object
                  { p with rowLocks := Dict.Remove p.rowLocks w.object }) }) := by
          simp only [liftRow, hF, Option.map_some', hprune0, if_true, hpe,
            writeBackRow, writeBackPage, Dict.Store_none _ _ _ hrmo]
          simp
        refine ⟨r, h1, c1, _, rfl, hres, ?_, rfl, ?_, ?_⟩
        · intro k q hk
          simp only [Dict.find_Store, hp, Option.map_some'] at hk
          split at hk
          · next hkp =>
            cases hk
            refine ⟨hkp ▸ rfl, ?_⟩
            intro k2 w2 hk2
            simp only [Dict.find_Remove] at hk2
            split at hk2
            · cases hk2
            · exact hpwf k2 w2 hk2
          · exact hwf k q hk
        · intro sub
          rcases sub with _ | ⟨pg, _ | o2⟩
          · simp [TableLockInfo.holders]
          · by_cases hpg : pg = p.object
            · subst hpg
              simp [TableLockInfo.holders, Dict.find_Store, hp]
            · simp [TableLockInfo.holders, Dict.find_Store, hpg]
          · by_cases hpg : pg = p.object
            · subst hpg
              by_cases ho : o2 = w.object
              · subst ho
                simp [TableLockInfo.holders, Dict.find_Store, hp, PageLockInfo.holders,
                  Dict.find_Remove, hc1]
              · simp [TableLockInfo.holders, Dict.find_Store, hp, PageLockInfo.holders,
                  Dict.find_Remove, ho]
            · simp [TableLockInfo.holders, Dict.find_Store, hpg]
        · intro hb
          simp [hpr, hr] at hb
    · have hres : (liftRow F prune h a t p w).map (writeBackRow p.object w.object) =
          some (r, h1,
            { t with pageLocks := (Dict.Store t.pageLocks p.object
                { p with rowLocks := Dict.Store p.rowLocks w.object { w with acquiredLocks := c1 } }) }) := by
        simp only [liftRow, hF, Option.map_some', writeBackRow, writeBackPage]
        rw [if_neg hprune]
      refine ⟨r, h1, c1, _, rfl, hres, ?_, rfl, ?_, ?_⟩
      · intro k q hk
        simp only [Dict.find_Store, hp, Option.map_some'] at hk
        split at hk
        · next hkp =>
          cases hk
          refine ⟨hkp ▸ rfl, ?_⟩
          intro k2 w2 hk2
          simp only [Dict.find_Store, hw, Option.map_some'] at hk2
          split at hk2
          · next hk2o =>
            cases hk2
            exact hk2o ▸ rfl
          · exact hpwf k2 w2 hk2
        · exact hwf k q hk
      · intro sub
        rcases sub with _ | ⟨pg, _ | o2⟩
        · simp [TableLockInfo.holders]
        · by_cases hpg : pg = p.object
          · subst hpg
            simp [TableLockInfo.holders, Dict.find_Store, hp]
          · simp [TableLockInfo.holders, Dict.find_Store, hpg]
        · by_cases hpg : pg = p.object
          · subst hpg
            by_cases ho : o2 = w.object
            · subst ho
              simp [TableLockInfo.holders, Dict.find_Store, hp, PageLockInfo.holders, hw]
            · simp [TableLockInfo.holders, Dict.find_Store, hp, PageLockInfo.holders, ho]
          · simp [TableLockInfo.holders, Dict.find_Store, hpg]
      · intro _ hc
        subst hc
        simp [Dict.Store_self _ _ _ hp, Dict.Store_self _ _ _ hw]

theorem addPage_props (t : TableLockInfo) (page : BufferPage)
    (hwf : t.WF) (hp : Dict.find t.pageLocks page = none) :
    ({ t with pageLocks := Dict.Add t.pageLocks page ⟨page, LockCounts.zero, []⟩ } :
        TableLockInfo).WF ∧
    Dict.find (Dict.Add t.pageLocks page ⟨page, LockCounts.zero, []⟩) page =
      some ⟨page, LockCounts.zero, []⟩ ∧
    ∀ sub, ({ t with pageLocks := Dict.Add t.pageLocks page ⟨page, LockCounts.zero, []⟩ } :
        TableLockInfo).holders sub = t.holders sub := by
  refine ⟨?_, ?_, ?_⟩
  · intro k q hk
    simp only [Dict.find_Add] at hk
    cases hk2 : Dict.find t.pageLocks k with
    | some x =>
      rw [hk2] at hk
      cases hk
      exact hwf k _ hk2
    | none =>
      rw [hk2] at hk
      simp only at hk
      split at hk
      · next hkp =>
        cases hk
        refine ⟨hkp, ?_⟩
        intro k2 w2 hk2
        simp [Dict.find] at hk2
      · cases hk
  · simp [Dict.find_Add, hp]
  · intro sub
    rcases sub with _ | ⟨pg, _ | o2⟩
    · simp [TableLockInfo.holders]
    · by_cases hpg : pg = page
      · subst hpg
        simp [TableLockInfo.holders, Dict.find_Add, hp]
      · have hpg2 : ¬ page = pg := fun h => hpg h.symm
        cases hk2 : Dict.find t.pageLocks pg <;>
          simp [TableLockInfo.holders, Dict.find_Add, hpg2, hk2]
    · by_cases hpg : pg = page
      · subst hpg
        simp [TableLockInfo.holders, Dict.find_Add, hp, PageLockInfo.holders, Dict.find]
      · have hpg2 : ¬ page = pg := fun h => hpg h.symm
        cases hk2 : Dict.find t.pageLocks pg <;>
          simp [TableLockInfo.holders, Dict.find_Add, hpg2, hk2]

theorem addRow_props (t : TableLockInfo) (p : PageLockInfo) (page : BufferPage) (o : Nat)
    (hwf : t.WF) (hp : Dict.find t.pageLocks page = some p)
    (hw : Dict.find p.rowLocks o = none) (p1 : PageLockInfo) (t1 : TableLockInfo)
    (hp1 : p1 = { p with rowLocks := Dict.Add p.rowLocks o ⟨o, LockCounts.zero⟩ })
    (ht1 : t1 = { t with pageLocks := Dict.Store t.pageLocks page p1 }) :
    t1.WF ∧ Dict.find t1.pageLocks page = some p1 ∧
    Dict.find p1.rowLocks o = some ⟨o, LockCounts.zero⟩ ∧
    ∀ sub, t1.holders sub = t.holders sub := by
  subst hp1
  subst ht1
  have hobj : p.object = page := (hwf page p hp).1
  have hpwf : p.WF := (hwf page p hp).2
  refine ⟨?_, ?_, ?_, ?_⟩
  · intro k q hk
    simp only [Dict.find_Store, hp, Option.map_some'] at hk
    split at hk
    · next hkp =>
      cases hk
      refine ⟨hkp ▸ hobj, ?_⟩
      intro k2 w2 hk2
      simp only [Dict.find_Add] at hk2
      cases hk3 : Dict.find p.rowLocks k2 with
      | some x =>
        rw [hk3] at hk2
        cases hk2
        exact hpwf k2 _ hk3
      | none =>
        rw [hk3] at hk2
        simp only at hk2
        split at hk2
        · next hko =>
          cases hk2
          exact hko
        · cases hk2
    · exact hwf k q hk
  · simp [Dict.find_Store, hp]
  · simp [Dict.find_Add, hw]
  · intro sub
    rcases sub with _ | ⟨pg, _ | o2⟩
    · simp [TableLockInfo.holders]
    · by_cases hpg : pg = page
      · subst hpg
        simp [TableLockInfo.holders, Dict.find_Store, hp]
      · simp [TableLockInfo.holders, Dict.find_Store, hpg]
    · by_cases hpg : pg = page
      · subst hpg
        by_cases ho : o2 = o
        · subst ho
          simp [TableLockInfo.holders, Dict.find_Store, hp, PageLockInfo.holders, Dict.find_Add,
            hw]
        · have ho2 : ¬ o = o2 := fun h => ho h.symm
          cases hk2 : Dict.find p.rowLocks o2 <;>
            simp [TableLockInfo.holders, Dict.find_Store, hp, PageLockInfo.holders,
              Dict.find_Add, ho2, hk2]
      · simp [TableLockInfo.holders, Dict.find_Store, hpg]

theorem operatePage_effect {TArgs : Type} (F : CountsOp TArgs) (prune : Bool) (h : HandlerState)
    (a : TArgs) (create : Bool) (t : TableLockInfo) (page : BufferPage) (off : Option Nat)
    (hwf : t.WF) :
    (create = false ∧ t.has (some (page, off)) = false ∧
      operatePage h a (liftPage F prune) (liftRow F prune) create t page off =
        some (false, h, t)) ∨
    ((create = true ∨ t.has (some (page, off)) = true) ∧
      ((F h a (t.holders (some (page, off))) = none ∧
        operatePage h a (liftPage F prune) (liftRow F prune) create t page off = none) ∨
      ∃ r h1 c1 t1, F h a (t.holders (some (page, off))) = some (r, h1, c1) ∧
        operatePage h a (liftPage F prune) (liftRow F prune) create t page off =
          some (r, h1, t1) ∧
        t1.WF ∧ t1.object = t.object ∧
        (∀ sub, t1.holders sub = if sub = some (page, off) then c1 else t.holders sub) ∧
        (create = false → (prune && r) = false → c1 = t.holders (some (page, off)) →
          t1 = t))) := by
  cases hp : Dict.find t.pageLocks page with
  | none =>
    cases create with
    | false =>
      left
      refine ⟨rfl, ?_, ?_⟩
      · cases off <;> simp [TableLockInfo.has, hp]
      · simp [operatePage, hp]
    | true =>
      right
      refine ⟨Or.inl rfl, ?_⟩
      obtain ⟨hwfA, hpA, hsame⟩ := addPage_props t page hwf hp
      cases off with
      | none =>
        have hR : operatePage h a (liftPage F prune) (liftRow F prune) true t page none =
            (liftPage F prune h a
              { t with pageLocks := Dict.Add t.pageLocks page ⟨page, LockCounts.zero, []⟩ }
              ⟨page, LockCounts.zero, []⟩).map (writeBackPage page) := by
          simp [operatePage, hp]
        have hh : t.holders (some (page, none)) = LockCounts.zero := by
          simp [TableLockInfo.holders, hp]
        rw [hR, hh]
        rcases pageCore F prune h a _ _ page hwfA hpA with ⟨h1, h2⟩ | ⟨r, h1, c1, t1, e1, e2, e3, e4, e5, -⟩
        · exact Or.inl ⟨h1, h2⟩
        · refine Or.inr ⟨r, h1, c1, t1, e1, e2, e3, e4, ?_, fun hc => by cases hc⟩
          intro sub
          rw [e5 sub, hsame sub]
      | some o =>
        have hw0 : Dict.find ([] : Dict Nat RowLockInfo) o = none := rfl
        obtain ⟨pB, hpBdef⟩ : ∃ pB : PageLockInfo, pB =
            { (⟨page, LockCounts.zero, []⟩ : PageLockInfo) with
              rowLocks := Dict.Add [] o ⟨o, LockCounts.zero⟩ } := ⟨_, rfl⟩
        obtain ⟨tB, htBdef⟩ : ∃ tB : TableLockInfo, tB =
            { t with
              pageLocks := Dict.Store
                (Dict.Add t.pageLocks page ⟨page, LockCounts.zero, []⟩) page pB } := ⟨_, rfl⟩
        obtain ⟨hwfB, hpB, hwB, hsameB⟩ :=
          addRow_props _ ⟨page, LockCounts.zero, []⟩ page o hwfA hpA hw0 pB tB hpBdef htBdef
        have hR : operatePage h a (liftPage F prune) (liftRow F prune) true t page (some o) =
            (liftRow F prune h a tB pB ⟨o, LockCounts.zero⟩).map (writeBackRow page o) := by
          subst htBdef
          subst hpBdef
          simp only [operatePage, hp, Bool.not_true, Bool.false_eq_true, if_false, operateRow, hw0]
        have hh : t.holders (some (page, some o)) = LockCounts.zero := by
          simp [TableLockInfo.holders, hp]
        rw [hR, hh]
        rcases rowCore F prune h a tB pB _ page o hwfB hpB hwB with ⟨h1, h2⟩ | ⟨r, h1, c1, t1, e1, e2, e3, e4, e5, -⟩
        · exact Or.inl ⟨h1, h2⟩
        · refine Or.inr ⟨r, h1, c1, t1, e1, e2, e3, by rw [e4, htBdef], ?_, fun hc => by cases hc⟩
          intro sub
          rw [e5 sub, hsameB sub, hsame sub]
  | some p =>
    cases off with
    | none =>
      right
      refine ⟨Or.inr (by simp [TableLockInfo.has, hp]), ?_⟩
      have hR : operatePage h a (liftPage F prune) (liftRow F prune) create t page none =
          (liftPage F prune h a t p).map (writeBackPage page) := by
        simp [operatePage, hp]
      have hh : t.holders (some (page, none)) = p.acquiredLocks := by
        simp [TableLockInfo.holders, hp]
      rw [hR, hh]
      rcases pageCore F prune h a t p page hwf hp with ⟨h1, h2⟩ | ⟨r, h1, c1, t1, e1, e2, e3, e4, e5, e6⟩
      · exact Or.inl ⟨h1, h2⟩
      · exact Or.inr ⟨r, h1, c1, t1, e1, e2, e3, e4, e5, fun _ => e6⟩
    | some o =>
      cases hw : Dict.find p.rowLocks o with
      | none =>
        cases create with
        | false =>
          left
          refine ⟨rfl, by simp [TableLockInfo.has, hp, hw], ?_⟩
          simp [operatePage, hp, operateRow, hw]
        | true =>
          right
          refine ⟨Or.inl rfl, ?_⟩
          obtain ⟨pB, hpBdef⟩ : ∃ pB : PageLockInfo, pB =
              { p with rowLocks := Dict.Add p.rowLocks o ⟨o, LockCounts.zero⟩ } := ⟨_, rfl⟩
          obtain ⟨tB, htBdef⟩ : ∃ tB : TableLockInfo, tB =
              { t with pageLocks := Dict.Store t.pageLocks page pB } := ⟨_, rfl⟩
          obtain ⟨hwfB, hpB, hwB, hsameB⟩ := addRow_props t p page o hwf hp hw pB tB hpBdef htBdef
          have hR : operatePage h a (liftPage F prune) (liftRow F prune) true t page (some o) =
              (liftRow F prune h a tB pB ⟨o, LockCounts.zero⟩).map (writeBackRow page o) := by
            subst htBdef
            subst hpBdef
            simp only [operatePage, hp, operateRow, hw, Bool.not_true, Bool.false_eq_true, if_false]
          have hh : t.holders (some (page, some o)) = LockCounts.zero := by
            simp [TableLockInfo.holders, hp, PageLockInfo.holders, hw]
          rw [hR, hh]
          rcases rowCore F prune h a tB pB _ page o hwfB hpB hwB with ⟨h1, h2⟩ | ⟨r, h1, c1, t1, e1, e2, e3, e4, e5, -⟩
          · exact Or.inl ⟨h1, h2⟩
          · refine Or.inr ⟨r, h1, c1, t1, e1, e2, e3, by rw [e4, htBdef], ?_, fun hc => by cases hc⟩
            intro sub
            rw [e5 sub, hsameB sub]
      | some w =>
        right
        refine ⟨Or.inr (by simp [TableLockInfo.has, hp, hw]), ?_⟩
        have hR : operatePage h a (liftPage F prune) (liftRow F prune) create t page (some o) =
            (liftRow F prune h a t p w).map (writeBackRow page o) := by
          simp [operatePage, hp, operateRow, hw]
        have hh : t.holders (some (page, some o)) = w.acquiredLocks := by
          simp [TableLockInfo.holders, hp, PageLockInfo.holders, hw]
        rw [hR, hh]
        rcases rowCore F prune h a t p w page o hwf hp hw with ⟨h1, h2⟩ | ⟨r, h1, c1, t1, e1, e2, e3, e4, e5, e6⟩
        · exact Or.inl ⟨h1, h2⟩
        · exact Or.inr ⟨r, h1, c1, t1, e1, e2, e3, e4, e5, fun _ => e6⟩

/-! ## Effect of the dispatcher on the lock tree -/

theorem operateSub_effect {TArgs : Type} (F : CountsOp TArgs) (prune : Bool) (h : HandlerState)
    (a : TArgs) (create : Bool) (t : TableLockInfo) (s : Option (BufferPage × Option Nat))
    (hwf : t.WF) :
    (create = false ∧ t.has s = false ∧ operateSub F prune h a create t s = some (false, h, t)) ∨
    ((create = true ∨ t.has s = true) ∧
      ((F h a (t.holders s) = none ∧ operateSub F prune h a create t s = none) ∨
      ∃ r h1 c1 t1, F h a (t.holders s) = some (r, h1, c1) ∧
        operateSub F prune h a create t s = some (r, h1, t1) ∧
        t1.WF ∧
        (∀ sub, t1.holders sub = if sub = s then c1 else t.holders sub) ∧
        (create = false → (prune && r) = false → c1 = t.holders s → t1 = t))) := by
  rcases s with _ | ⟨page, off⟩
  · right
    refine ⟨Or.inr rfl, ?_⟩
    cases hF : F h a t.acquiredLocks with
    | none => left; exact ⟨hF, by simp [operateSub, liftTable, hF]⟩
    | some x =>
      obtain ⟨r, h1, c1⟩ := x
      right
      refine ⟨r, h1, c1, { t with acquiredLocks := c1 }, hF, by simp [operateSub, liftTable, hF],
        hwf, ?_, ?_⟩
      · intro sub
        rcases sub with _ | ⟨pg, _ | o2⟩ <;> simp [TableLockInfo.holders]
      · intro _ _ hc
        simp only [TableLockInfo.holders] at hc
        subst hc
        rfl
  · rcases operatePage_effect F prune h a create t page off hwf with h1 | ⟨h1, h2 | ⟨r, h3, c1, t1, e1, e2, e3, -, e5, e6⟩⟩
    · exact Or.inl h1
    · exact Or.inr ⟨h1, Or.inl h2⟩
    · exact Or.inr ⟨h1, Or.inr ⟨r, h3, c1, t1, e1, e2, e3, e5, e6⟩⟩

theorem LockObject.path_inj (o1 o2 : LockObject) (h : o1.path = o2.path) : o1 = o2 := by
  cases o1 <;> cases o2 <;> simp [LockObject.path] at h <;> simp [h]

theorem getD_resize (tl : List (Option TableLockInfo)) (n i : Nat) :
    (resizeTableLocks tl n).getD i none = tl.getD i none := by
  unfold resizeTableLocks
  by_cases hi : i < tl.length
  · simp [List.getD_eq_getElem?_getD, List.getElem?_append_left hi]
  · have hi2 : tl.length ≤ i := Nat.le_of_not_lt hi
    rw [List.getD_eq_getElem?_getD, List.getD_eq_getElem?_getD, List.getElem?_append_right hi2,
      List.getElem?_eq_none hi2]
    by_cases h2 : i - tl.length < n - tl.length
    · simp [List.getElem?_replicate, h2]
    · simp [List.getElem?_replicate, h2]

theorem length_resize (tl : List (Option TableLockInfo)) (n : Nat) (h : tl.length ≤ n) :
    (resizeTableLocks tl n).length = n := by
  unfold resizeTableLocks
  simp
  omega

theorem getD_set_locks (tl : List (Option TableLockInfo)) (i j : Nat) (x : Option TableLockInfo)
    (hi : i < tl.length) :
    (tl.set i x).getD j none = if j = i then x else tl.getD j none := by
  rw [List.getD_eq_getElem?_getD, List.getD_eq_getElem?_getD, List.getElem?_set]
  by_cases hji : i = j
  · subst hji
    simp [hi]
  · have : ¬ j = i := fun h => hji h.symm
    simp [hji, this]

theorem set_getD_self (tl : List (Option TableLockInfo)) (i : Nat) (x : Option TableLockInfo)
    (h : tl.getD i none = x) : tl.set i x = tl := by
  subst h
  apply List.ext_getElem?
  intro j
  rw [List.getElem?_set]
  by_cases hji : i = j
  · subst hji
    by_cases hi : i < tl.length
    · simp [hi, List.getD_eq_getElem?_getD, List.getElem?_eq_getElem hi]
    · simp [hi, List.getElem?_eq_none (Nat.le_of_not_lt hi)]
  · simp [hji]

theorem holders_set (tl : List (Option TableLockInfo)) (i : Nat) (t : TableLockInfo)
    (hi : i < tl.length) (o : LockObject) :
    holders (tl.set i (some t)) o = if o.path.1 = i then t.holders o.path.2 else holders tl o := by
  unfold holders
  rw [getD_set_locks tl i _ _ hi]
  by_cases h : o.path.1 = i <;> simp [h]

theorem LocksWF_set (tl : List (Option TableLockInfo)) (i : Nat) (t : TableLockInfo)
    (hi : i < tl.length) (hwf : LocksWF tl) (ht : t.WF) : LocksWF (tl.set i (some t)) := by
  intro j t2 hj
  rw [getD_set_locks tl i _ _ hi] at hj
  split at hj
  · cases hj
    exact ht
  · exact hwf j t2 hj

theorem LocksWF_resize (tl : List (Option TableLockInfo)) (n : Nat) (hwf : LocksWF tl) :
    LocksWF (resizeTableLocks tl n) := by
  intro j t2 hj
  rw [getD_resize] at hj
  exact hwf j t2 hj

theorem holders_resize (tl : List (Option TableLockInfo)) (n : Nat) (o : LockObject) :
    holders (resizeTableLocks tl n) o = holders tl o := by
  unfold holders
  rw [getD_resize]

theorem objectOf_path (bm : BufferManager) (target : LockTarget) (o : LockObject)
    (ho : objectOf bm target = some o) : o.path.1 = BufferTable.index target.table := by
  unfold objectOf at ho
  cases hobj : target.object with
  | Table => rw [hobj] at ho; cases ho; rfl
  | Page page => rw [hobj] at ho; cases ho; rfl
  | Row address =>
    rw [hobj] at ho
    cases hd : bm.DecodePointer address with
    | none => simp [hd] at ho
    | some d => simp [hd] at ho; subst ho; rfl

/-- The outcome of the switch "Process TableLock" for a decodable target. -/
theorem operateTableLocks_eq {TArgs : Type} (F : CountsOp TArgs) (prune : Bool)
    (bm : BufferManager) (tl : List (Option TableLockInfo)) (h : HandlerState) (a : TArgs)
    (target : LockTarget) (create : Bool) (o : LockObject) (ho : objectOf bm target = some o) :
    operateTableLocks bm tl h a target (liftTable F) (liftPage F prune) (liftRow F prune) create =
      if tl.length ≤ o.path.1 && !create then some (false, h, tl)
      else
        let tl1 := if tl.length ≤ o.path.1 then resizeTableLocks tl (o.path.1 + 1) else tl
        match tl1.getD o.path.1 none, create with
        | none, false => some (false, h, tl1)
        | slot, _ =>
          (operateSub F prune h a create (slot.getD ⟨target.table, LockCounts.zero, []⟩)
            o.path.2).map fun x => (x.1, x.2.1, tl1.set o.path.1 (some x.2.2)) := by
  have hidx := objectOf_path bm target o ho
  unfold operateTableLocks
  rw [← hidx]
  unfold objectOf at ho
  cases hobj : target.object with
  | Table =>
    rw [hobj] at ho
    cases ho
    simp only [LockObject.path, operateSub]
  | Page page =>
    rw [hobj] at ho
    cases ho
    simp only [LockObject.path, operateSub]
  | Row address =>
    rw [hobj] at ho
    cases hd : bm.DecodePointer address with
    | none => simp [hd] at ho
    | some d =>
      obtain ⟨pg, off⟩ := d
      simp only [hd, Option.map_some', Option.some.injEq] at ho
      subst ho
      simp only [LockObject.path, operateSub, hd]

theorem slot_effect {TArgs : Type} (F : CountsOp TArgs) (prune : Bool) (h : HandlerState)
    (a : TArgs) (create : Bool) (tl1 : List (Option TableLockInfo)) (t : TableLockInfo)
    (o : LockObject) (hi : o.path.1 < tl1.length) (hwf : LocksWF tl1) (htwf : t.WF)
    (hh : ∀ o2 : LockObject, o2.path.1 = o.path.1 → t.holders o2.path.2 = holders tl1 o2)
    (hhas : create = false → t.has o.path.2 = hasLockInfo tl1 o)
    (hself : create = false → tl1.getD o.path.1 none = some t) :
    (create = false ∧ hasLockInfo tl1 o = false ∧
      (operateSub F prune h a create t o.path.2).map
        (fun x => (x.1, x.2.1, tl1.set o.path.1 (some x.2.2))) = some (false, h, tl1)) ∨
    ((create = true ∨ hasLockInfo tl1 o = true) ∧
      ((F h a (holders tl1 o) = none ∧
        (operateSub F prune h a create t o.path.2).map
          (fun x => (x.1, x.2.1, tl1.set o.path.1 (some x.2.2))) = none) ∨
      ∃ r h1 c1 tl2, F h a (holders tl1 o) = some (r, h1, c1) ∧
        (operateSub F prune h a create t o.path.2).map
          (fun x => (x.1, x.2.1, tl1.set o.path.1 (some x.2.2))) = some (r, h1, tl2) ∧
        LocksWF tl2 ∧
        (∀ o2, holders tl2 o2 = if o2 = o then c1 else holders tl1 o2) ∧
        (create = false → (prune && r) = false → c1 = holders tl1 o → tl2 = tl1))) := by
  have hho := hh o rfl
  rcases operateSub_effect F prune h a create t o.path.2 htwf with
    ⟨hc, hn, hR⟩ | ⟨hc, ⟨hF, hR⟩ | ⟨r, h1, c1, t1, hF, hR, hwf1, hfr, hun⟩⟩
  · left
    refine ⟨hc, ?_, ?_⟩
    · rw [← hhas hc]; exact hn
    · rw [hR]
      simp only [Option.map_some']
      rw [set_getD_self tl1 _ _ (hself hc)]
  · right
    refine ⟨?_, Or.inl ⟨?_, ?_⟩⟩
    · rcases hc with hc | hc
      · exact Or.inl hc
      · cases hcr : create with
        | true => exact Or.inl rfl
        | false => right; rw [← hhas hcr]; exact hc
    · rw [← hho]; exact hF
    · rw [hR]; rfl
  · right
    refine ⟨?_, Or.inr ⟨r, h1, c1, tl1.set o.path.1 (some t1), ?_, ?_, ?_, ?_, ?_⟩⟩
    · rcases hc with hc | hc
      · exact Or.inl hc
      · cases hcr : create with
        | true => exact Or.inl rfl
        | false => right; rw [← hhas hcr]; exact hc
    · rw [← hho]; exact hF
    · rw [hR]; rfl
    · exact LocksWF_set tl1 _ t1 hi hwf hwf1
    · intro o2
      rw [holders_set tl1 _ t1 hi]
      by_cases hp1 : o2.path.1 = o.path.1
      · rw [if_pos hp1, hfr]
        by_cases hp2 : o2.path.2 = o.path.2
        · have : o2 = o := LockObject.path_inj o2 o (Prod.ext hp1 hp2)
          subst this
          simp
        · have : ¬ o2 = o := fun e => hp2 (by rw [e])
          rw [if_neg hp2, if_neg this]
          exact hh o2 hp1
      · have : ¬ o2 = o := fun e => hp1 (by rw [e])
        rw [if_neg hp1, if_neg this]
    · intro hcr hpr hc1
      rw [← hho] at hc1
      rw [hun hcr hpr hc1]
      exact set_getD_self tl1 _ _ (hself hcr)

theorem fresh_table_props (table : BufferTable) :
    (⟨table, LockCounts.zero, []⟩ : TableLockInfo).WF ∧
    (∀ s, (⟨table, LockCounts.zero, []⟩ : TableLockInfo).holders s = LockCounts.zero) := by
  constructor
  · intro k p hk
    simp [Dict.find] at hk
  · intro s
    rcases s with _ | ⟨pg, _ | o2⟩ <;> simp [TableLockInfo.holders, Dict.find]

theorem holders_of_slot_none (tl : List (Option TableLockInfo)) (o : LockObject)
    (h : tl.getD o.path.1 none = none) : holders tl o = LockCounts.zero := by
  unfold holders
  rw [h]

theorem hasLockInfo_of_slot_none (tl : List (Option TableLockInfo)) (o : LockObject)
    (h : tl.getD o.path.1 none = none) : hasLockInfo tl o = false := by
  unfold hasLockInfo
  rw [h]

theorem getD_none_of_le (tl : List (Option TableLockInfo)) (i : Nat) (h : tl.length ≤ i) :
    tl.getD i none = none := by
  rw [List.getD_eq_getElem?_getD, List.getElem?_eq_none h]
  rfl

/-- The effect of the part of `OperateObjectLock` from "Find TableLock" on, for
the handlers of a counter-level operation `F` and a decodable target: either
the lock state is missing and must not be created (nothing changes), or `F`
is applied to the counters of the object and only those counters change. -/
theorem operateTableLocks_effect {TArgs : Type} (F : CountsOp TArgs) (prune : Bool)
    (bm : BufferManager) (tl : List (Option TableLockInfo)) (h : HandlerState) (a : TArgs)
    (target : LockTarget) (create : Bool) (o : LockObject) (ho : objectOf bm target = some o)
    (hwf : LocksWF tl) :
    (create = false ∧ hasLockInfo tl o = false ∧
      operateTableLocks bm tl h a target (liftTable F) (liftPage F prune) (liftRow F prune)
        create = some (false, h, tl)) ∨
    ((create = true ∨ hasLockInfo tl o = true) ∧
      ((F h a (holders tl o) = none ∧
        operateTableLocks bm tl h a target (liftTable F) (liftPage F prune) (liftRow F prune)
          create = none) ∨
      ∃ r h1 c1 tl2, F h a (holders tl o) = some (r, h1, c1) ∧
        operateTableLocks bm tl h a target (liftTable F) (liftPage F prune) (liftRow F prune)
          create = some (r, h1, tl2) ∧
        LocksWF tl2 ∧
        (∀ o2, holders tl2 o2 = if o2 = o then c1 else holders tl o2) ∧
        (create = false → (prune && r) = false → c1 = holders tl o → tl2 = tl))) := by
  rw [operateTableLocks_eq F prune bm tl h a target create o ho]
  obtain ⟨hfw, hfh⟩ := fresh_table_props target.table
  by_cases hlen : tl.length ≤ o.path.1
  · have hslot := getD_none_of_le tl _ hlen
    cases create with
    | false =>
      left
      exact ⟨rfl, hasLockInfo_of_slot_none tl o hslot, by simp [hlen]⟩
    | true =>
      have hslot1 : (resizeTableLocks tl (o.path.1 + 1)).getD o.path.1 none = none := by
        rw [getD_resize]; exact hslot
      have hi : o.path.1 < (resizeTableLocks tl (o.path.1 + 1)).length := by
        rw [length_resize tl _ (by omega)]; omega
      have hE : (if tl.length ≤ o.path.1 && !true then some (false, h, tl)
          else
            let tl1 := if tl.length ≤ o.path.1 then resizeTableLocks tl (o.path.1 + 1) else tl
            match tl1.getD o.path.1 none, true with
            | none, false => some (false, h, tl1)
            | slot, _ =>
              (operateSub F prune h a true (slot.getD ⟨target.table, LockCounts.zero, []⟩)
                o.path.2).map fun x => (x.1, x.2.1, tl1.set o.path.1 (some x.2.2))) =
          (operateSub F prune h a true ⟨target.table, LockCounts.zero, []⟩ o.path.2).map
            (fun x => (x.1, x.2.1, (resizeTableLocks tl (o.path.1 + 1)).set o.path.1 (some x.2.2))) := by
        simp only [hlen, decide_True, decide_False, Bool.false_and, Bool.true_and, Bool.not_true, Bool.not_false, Bool.and_false, Bool.and_true, if_true, if_false, Bool.false_eq_true, hslot1, Option.getD_none, Option.getD_some, ↓reduceIte]
      rw [hE]
      have key := slot_effect F prune h a true (resizeTableLocks tl (o.path.1 + 1))
        ⟨target.table, LockCounts.zero, []⟩ o hi (LocksWF_resize tl _ hwf) hfw
        (fun o2 h2 => by
          rw [hfh, holders_resize]
          exact (holders_of_slot_none tl o2 (by rw [h2]; exact hslot)).symm)
        (fun hc => by cases hc) (fun hc => by cases hc)
      simp only [holders_resize] at key
      rcases key with ⟨hc, -⟩ | ⟨-, k1 | ⟨r, h1, c1, tl2, k1, k2, k3, k4, -⟩⟩
      · cases hc
      · exact Or.inr ⟨Or.inl rfl, Or.inl k1⟩
      · exact Or.inr ⟨Or.inl rfl, Or.inr ⟨r, h1, c1, tl2, k1, k2, k3, k4, fun hc => by cases hc⟩⟩
  · have hi : o.path.1 < tl.length := Nat.lt_of_not_le hlen
    cases hslot : tl.getD o.path.1 none with
    | none =>
      cases create with
      | false =>
        left
        exact ⟨rfl, hasLockInfo_of_slot_none tl o hslot, by simp only [hlen, decide_True, decide_False, Bool.false_and, Bool.true_and, Bool.not_true, Bool.not_false, Bool.and_false, Bool.and_true, if_true, if_false, Bool.false_eq_true, hslot, Option.getD_none, Option.getD_some, ↓reduceIte]⟩
      | true =>
        have hE : (if tl.length ≤ o.path.1 && !true then some (false, h, tl)
            else
              let tl1 := if tl.length ≤ o.path.1 then resizeTableLocks tl (o.path.1 + 1) else tl
              match tl1.getD o.path.1 none, true with
              | none, false => some (false, h, tl1)
              | slot, _ =>
                (operateSub F prune h a true (slot.getD ⟨target.table, LockCounts.zero, []⟩)
                  o.path.2).map fun x => (x.1, x.2.1, tl1.set o.path.1 (some x.2.2))) =
            (operateSub F prune h a true ⟨target.table, LockCounts.zero, []⟩ o.path.2).map
              (fun x => (x.1, x.2.1, tl.set o.path.1 (some x.2.2))) := by
          simp only [hlen, decide_True, decide_False, Bool.false_and, Bool.true_and, Bool.not_true, Bool.not_false, Bool.and_false, Bool.and_true, if_true, if_false, Bool.false_eq_true, hslot, Option.getD_none, Option.getD_some, ↓reduceIte]
        rw [hE]
        have key := slot_effect F prune h a true tl
          ⟨target.table, LockCounts.zero, []⟩ o hi hwf hfw
          (fun o2 h2 => by
            rw [hfh]
            exact (holders_of_slot_none tl o2 (by rw [h2]; exact hslot)).symm)
          (fun hc => by cases hc) (fun hc => by cases hc)
        rcases key with ⟨hc, -⟩ | ⟨-, k1 | ⟨r, h1, c1, tl2, k1, k2, k3, k4, -⟩⟩
        · cases hc
        · exact Or.inr ⟨Or.inl rfl, Or.inl k1⟩
        · exact Or.inr ⟨Or.inl rfl, Or.inr ⟨r, h1, c1, tl2, k1, k2, k3, k4, fun hc => by cases hc⟩⟩
    | some t =>
      have hE : (if tl.length ≤ o.path.1 && !create then some (false, h, tl)
          else
            let tl1 := if tl.length ≤ o.path.1 then resizeTableLocks tl (o.path.1 + 1) else tl
            match tl1.getD o.path.1 none, create with
            | none, false => some (false, h, tl1)
            | slot, _ =>
              (operateSub F prune h a create (slot.getD ⟨target.table, LockCounts.zero, []⟩)
                o.path.2).map fun x => (x.1, x.2.1, tl1.set o.path.1 (some x.2.2))) =
          (operateSub F prune h a create t o.path.2).map
            (fun x => (x.1, x.2.1, tl.set o.path.1 (some x.2.2))) := by
        simp only [hlen, decide_True, decide_False, Bool.false_and, Bool.true_and, Bool.not_true, Bool.not_false, Bool.and_false, Bool.and_true, if_true, if_false, Bool.false_eq_true, hslot, Option.getD_none, Option.getD_some, ↓reduceIte]
      rw [hE]
      exact slot_effect F prune h a create tl t o hi hwf (hwf _ t hslot)
        (fun o2 h2 => by
          unfold holders
          rw [h2, hslot])
        (fun _ => by
          unfold hasLockInfo
          rw [hslot])
        (fun _ => hslot)

theorem operateTableLocks_undecodable {TArgs : Type} (bm : BufferManager)
    (tl : List (Option TableLockInfo)) (h : HandlerState) (a : TArgs) (target : LockTarget)
    (tH : TableLockHandler TArgs) (pH : PageLockHandler TArgs) (rH : RowLockHandler TArgs)
    (create : Bool) (ho : objectOf bm target = none) :
    operateTableLocks bm tl h a target tH pH rH create = none ∨
    (create = false ∧ operateTableLocks bm tl h a target tH pH rH create = some (false, h, tl)) := by
  unfold objectOf at ho
  cases hobj : target.object with
  | Table => rw [hobj] at ho; cases ho
  | Page page => rw [hobj] at ho; cases ho
  | Row address =>
    rw [hobj] at ho
    cases hd : bm.DecodePointer address with
    | some d => simp [hd] at ho
    | none =>
      unfold operateTableLocks
      cases create with
      | true =>
        left
        simp only [hobj, hd, Bool.not_true, Bool.and_false, Bool.false_eq_true, if_false]
        split <;> simp_all
      | false =>
        by_cases hlen : tl.length ≤ BufferTable.index target.table
        · right
          simp [hlen]
        · simp only [hlen, hobj, hd, decide_False, Bool.false_and, Bool.false_eq_true, if_false]
          split
          · right; simp
          · left; simp

theorem CheckInputUnsafe_find (lm : LockManager) (owner : BufferTransaction) (target : LockTarget)
    (ti : TransInfo) (h : lm.CheckInputUnsafe owner target = some ti) :
    Dict.find lm.transactions owner = some ti ∧ Handle.IsValid owner = true ∧
      Handle.IsValid target.table = true ∧ lm.tables.Contains target.table = true := by
  unfold LockManager.CheckInputUnsafe at h
  split at h
  · cases h
  · split at h
    · cases h
    · split at h
      · cases h
      · split at h
        · cases h
        · simp_all

theorem commit_self (lm : LockManager) (owner : BufferTransaction) (ti : TransInfo)
    (result : LockResult) (h : Dict.find lm.transactions owner = some ti) :
    lm.commit owner ⟨lm.pendings, ti, result⟩ = lm := by
  unfold LockManager.commit
  simp [Dict.Store_self _ _ _ h]

/-! ## Effect of the operations on the manager -/

/-- The dispatcher without pre-hook, for the handlers of a counter-level
operation and a decodable target, once the input check has passed. -/
theorem operate_char {TArgs : Type} (F : CountsOp TArgs) (prune : Bool) (bm : BufferManager)
    (lm : LockManager) (owner : BufferTransaction) (a : TArgs) (target : LockTarget)
    (result : LockResult) (create check : Bool) (ti : TransInfo) (o : LockObject)
    (hwf : LocksWF lm.tableLocks)
    (hti : lm.CheckInputUnsafe owner target = some ti)
    (hp : (check && ti.pendingLock.IsValid) = false)
    (ho : objectOf bm target = some o) :
    (create = false ∧ hasLockInfo lm.tableLocks o = false ∧
      lm.OperateObjectLock bm owner a target result none (liftTable F) (liftPage F prune)
        (liftRow F prune) create check = some (false, lm, result)) ∨
    ((create = true ∨ hasLockInfo lm.tableLocks o = true) ∧
      ((F ⟨lm.pendings, ti, result⟩ a (holders lm.tableLocks o) = none ∧
        lm.OperateObjectLock bm owner a target result none (liftTable F) (liftPage F prune)
          (liftRow F prune) create check = none) ∨
      ∃ r h1 c1 lm1, F ⟨lm.pendings, ti, result⟩ a (holders lm.tableLocks o) = some (r, h1, c1) ∧
        lm.OperateObjectLock bm owner a target result none (liftTable F) (liftPage F prune)
          (liftRow F prune) create check = some (r, lm1, h1.result) ∧
        lm1.tables = lm.tables ∧ lm1.pendings = h1.pendings ∧
        lm1.transactions = Dict.Store lm.transactions owner h1.owner ∧
        LocksWF lm1.tableLocks ∧
        (∀ o2, holders lm1.tableLocks o2 = if o2 = o then c1 else holders lm.tableLocks o2) ∧
        (create = false → (prune && r) = false → c1 = holders lm.tableLocks o →
          lm1.tableLocks = lm.tableLocks))) := by
  have hfind := (CheckInputUnsafe_find lm owner target ti hti).1
  have hE : lm.OperateObjectLock bm owner a target result none (liftTable F) (liftPage F prune)
      (liftRow F prune) create check =
      (operateTableLocks bm lm.tableLocks ⟨lm.pendings, ti, result⟩ a target (liftTable F)
        (liftPage F prune) (liftRow F prune) create).map
        (fun x => (x.1, ({ lm with tableLocks := x.2.2 }).commit owner x.2.1, x.2.1.result)) := by
    unfold LockManager.OperateObjectLock
    simp only [hti, hp, Bool.false_eq_true, if_false]
  rw [hE]
  rcases operateTableLocks_effect F prune bm lm.tableLocks ⟨lm.pendings, ti, result⟩ a target
      create o ho hwf with ⟨hc, hn, hR⟩ | ⟨hc, ⟨hF, hR⟩ | ⟨r, h1, c1, tl2, hF, hR, hwf2, hfr, hun⟩⟩
  · left
    refine ⟨hc, hn, ?_⟩
    rw [hR]
    simp only [Option.map_some']
    have := commit_self lm owner ti result hfind
    simp only [LockManager.commit] at this ⊢
    rw [this]
  · right
    exact ⟨hc, Or.inl ⟨hF, by rw [hR]; rfl⟩⟩
  · right
    refine ⟨hc, Or.inr ⟨r, h1, c1, ({ lm with tableLocks := tl2 }).commit owner h1, hF,
      by rw [hR]; rfl, rfl, rfl, rfl, hwf2, hfr, hun⟩⟩

/-! ## The counters and the lists of held locks -/

theorem lockCompatibility_symm (a b : LockTargetAccess) :
    lockCompatibility a b = lockCompatibility b a := by
  revert a b
  decide

theorem IndexOf_lt_length {α : Type} [DecidableEq α] (l : List α) (x : α) :
    IndexOf l x < l.length ↔ x ∈ l := by
  induction l with
  | nil => simp [IndexOf]
  | cons y l ih =>
    by_cases h : y = x
    · simp [IndexOf, h]
    · have h2 : ¬ x = y := fun e => h e.symm
      simp [IndexOf, h, h2, ih]

theorem eraseIdx_IndexOf {α : Type} [DecidableEq α] (l : List α) (x : α) :
    l.eraseIdx (IndexOf l x) = removeFirst l x := by
  induction l with
  | nil => rfl
  | cons y l ih =>
    by_cases h : y = x
    · simp [IndexOf, removeFirst, h]
    · simp [IndexOf, removeFirst, h, ih]

theorem mem_of_mem_removeFirst {α : Type} [DecidableEq α] (l : List α) (x y : α)
    (h : y ∈ removeFirst l x) : y ∈ l := by
  induction l with
  | nil => simp [removeFirst] at h
  | cons z l ih =>
    by_cases hz : z = x
    · simp only [removeFirst, hz, if_true] at h
      exact List.mem_cons_of_mem _ h
    · simp only [removeFirst, hz, if_false, List.mem_cons] at h
      rcases h with h | h
      · exact List.mem_cons.mpr (Or.inl h)
      · exact List.mem_cons_of_mem _ (ih h)

theorem mem_removeFirst_of_ne {α : Type} [DecidableEq α] (l : List α) (x y : α)
    (hne : y ≠ x) (h : y ∈ l) : y ∈ removeFirst l x := by
  induction l with
  | nil => cases h
  | cons z l ih =>
    by_cases hz : z = x
    · simp only [removeFirst, hz, if_true]
      rcases List.mem_cons.mp h with e | e
      · exact absurd (e.trans hz) hne
      · exact e
    · simp only [removeFirst, hz, if_false, List.mem_cons]
      rcases List.mem_cons.mp h with e | e
      · exact Or.inl e
      · exact Or.inr (ih e)

theorem nodup_removeFirst {α : Type} [DecidableEq α] (l : List α) (x : α) (h : l.Nodup) :
    (removeFirst l x).Nodup := by
  induction l with
  | nil => simp [removeFirst]
  | cons z l ih =>
    rw [List.nodup_cons] at h
    by_cases hz : z = x
    · simp only [removeFirst, hz, if_true]
      exact h.2
    · simp only [removeFirst, hz, if_false, List.nodup_cons]
      exact ⟨fun hm => h.1 (mem_of_mem_removeFirst l x z hm), ih h.2⟩

theorem not_mem_removeFirst {α : Type} [DecidableEq α] (l : List α) (x : α) (h : l.Nodup) :
    x ∉ removeFirst l x := by
  induction l with
  | nil => simp [removeFirst]
  | cons z l ih =>
    rw [List.nodup_cons] at h
    by_cases hz : z = x
    · simp only [removeFirst, hz, if_true]
      rw [← hz]
      exact h.1
    · simp only [removeFirst, hz, if_false, List.mem_cons, not_or]
      exact ⟨fun e => hz e.symm, ih h.2⟩

theorem length_removeFirst {α : Type} [DecidableEq α] (l : List α) (x : α) (h : x ∈ l) :
    (removeFirst l x).length + 1 = l.length := by
  induction l with
  | nil => cases h
  | cons z l ih =>
    by_cases hz : z = x
    · simp [removeFirst, hz]
    · have hx : x ∈ l := by
        rcases List.mem_cons.mp h with e | e
        · exact absurd e.symm hz
        · exact e
      simp [removeFirst, hz, ih hx]

theorem heldIn_append (bm : BufferManager) (o : LockObject) (a : LockTargetAccess)
    (l : List LockTarget) (t : LockTarget) :
    heldIn bm o a (l ++ [t]) =
      heldIn bm o a l + (if objectOf bm t = some o ∧ t.access = a then 1 else 0) := by
  unfold heldIn
  rw [List.countP_append]
  congr 1
  by_cases h : objectOf bm t = some o ∧ t.access = a
  · simp [List.countP_cons, h]
  · rw [if_neg h]
    simp only [List.countP_cons, List.countP_nil, zero_add]
    rw [if_neg]
    simpa using h

theorem heldIn_removeFirst (bm : BufferManager) (o : LockObject) (a : LockTargetAccess)
    (l : List LockTarget) (t : LockTarget) (ht : t ∈ l) :
    heldIn bm o a (removeFirst l t) + (if objectOf bm t = some o ∧ t.access = a then 1 else 0) =
      heldIn bm o a l := by
  induction l with
  | nil => cases ht
  | cons y l ih =>
    by_cases h : y = t
    · subst h
      simp only [removeFirst, if_true]
      unfold heldIn
      rw [List.countP_cons]
      congr 1
      by_cases h : objectOf bm y = some o ∧ y.access = a
      · simp [h]
      · rw [if_neg h, if_neg]
        simpa using h
    · have ht2 : t ∈ l := by
        rcases List.mem_cons.mp ht with e | e
        · exact absurd e.symm h
        · exact e
      have := ih ht2
      simp only [removeFirst, h, if_false]
      unfold heldIn at this ⊢
      rw [List.countP_cons, List.countP_cons]
      omega

theorem heldAll_Store (bm : BufferManager) (tr : Dict BufferTransaction TransInfo)
    (k : BufferTransaction) (ti ti2 : TransInfo) (o : LockObject) (a : LockTargetAccess)
    (h : Dict.find tr k = some ti) :
    heldAll bm (Dict.Store tr k ti2) o a + heldIn bm o a ti.acquiredLocks =
      heldAll bm tr o a + heldIn bm o a ti2.acquiredLocks := by
  induction tr with
  | nil => simp [Dict.find] at h
  | cons kv m ih =>
    obtain ⟨k0, v0⟩ := kv
    by_cases h0 : k0 = k
    · subst h0
      simp only [Dict.find, if_true, Option.some.injEq] at h
      subst h
      simp only [Dict.Store, if_true, heldAll, List.map_cons, List.sum_cons]
      omega
    · simp only [Dict.find, h0, if_false] at h
      have := ih h
      simp only [Dict.Store, h0, if_false, heldAll, List.map_cons, List.sum_cons] at this ⊢
      omega

theorem heldIn_le_heldAll (bm : BufferManager) (tr : Dict BufferTransaction TransInfo)
    (k : BufferTransaction) (ti : TransInfo) (o : LockObject) (a : LockTargetAccess)
    (h : Dict.find tr k = some ti) : heldIn bm o a ti.acquiredLocks ≤ heldAll bm tr o a := by
  induction tr with
  | nil => simp [Dict.find] at h
  | cons kv m ih =>
    obtain ⟨k0, v0⟩ := kv
    by_cases h0 : k0 = k
    · subst h0
      simp only [Dict.find, if_true, Option.some.injEq] at h
      subst h
      simp only [heldAll, List.map_cons, List.sum_cons]
      omega
    · simp only [Dict.find, h0, if_false] at h
      have := ih h
      simp only [heldAll, List.map_cons, List.sum_cons] at this ⊢
      omega

theorem heldIn_pos (bm : BufferManager) (o : LockObject) (l : List LockTarget) (t : LockTarget)
    (ht : t ∈ l) (ho : objectOf bm t = some o) : 1 ≤ heldIn bm o t.access l := by
  unfold heldIn
  exact List.countP_pos_iff.mpr ⟨t, ht, by simp [ho]⟩

theorem CountsInv_held_pos (bm : BufferManager) (H : LockObject → LockCounts)
    (tr : Dict BufferTransaction TransInfo) (k : BufferTransaction) (ti : TransInfo)
    (t : LockTarget) (o : LockObject) (hinv : CountsInv bm H tr)
    (h : Dict.find tr k = some ti) (ht : t ∈ ti.acquiredLocks) (ho : objectOf bm t = some o) :
    1 ≤ H o t.access := by
  rw [hinv.1]
  have h1 := heldIn_pos bm o _ t ht ho
  have h2 := heldIn_le_heldAll bm tr k ti o t.access h
  omega

theorem CountsInv_grant (bm : BufferManager) (H H2 : LockObject → LockCounts)
    (tr : Dict BufferTransaction TransInfo) (k : BufferTransaction) (ti ti2 : TransInfo)
    (t : LockTarget) (o : LockObject) (hinv : CountsInv bm H tr)
    (h : Dict.find tr k = some ti) (ho : objectOf bm t = some o)
    (hcheck : ∀ m, 0 < H o m → lockCompatibility t.access m = true)
    (hH2 : ∀ o2 m, H2 o2 m = if o2 = o ∧ m = t.access then H o2 m + 1 else H o2 m)
    (hti2 : ti2.acquiredLocks = ti.acquiredLocks ++ [t]) :
    CountsInv bm H2 (Dict.Store tr k ti2) := by
  obtain ⟨hc, hcompat⟩ := hinv
  constructor
  · intro o2 m
    have hs := heldAll_Store bm tr k ti ti2 o2 m h
    rw [hti2, heldIn_append] at hs
    rw [hH2, hc]
    by_cases hm : o2 = o ∧ m = t.access
    · obtain ⟨rfl, rfl⟩ := hm
      simp only [ho, and_self, if_true] at hs ⊢
      omega
    · rw [if_neg hm]
      have : ¬ (objectOf bm t = some o2 ∧ t.access = m) := by
        rintro ⟨e1, e2⟩
        rw [ho] at e1
        exact hm ⟨(Option.some.inj e1).symm, e2.symm⟩
      rw [if_neg this] at hs
      omega
  · intro o2 a b ha hb hab
    by_cases ho2 : o2 = o
    · subst ho2
      by_cases haa : a = t.access
      · subst haa
        by_cases hba : b = t.access
        · subst hba
          rcases hab with hab | hab
          · exact absurd rfl hab
          · rw [hH2] at hab
            simp only [and_self, if_true] at hab
            exact hcheck _ (by omega)
        · rw [hH2] at hb
          simp only [hba, and_false, if_false] at hb
          exact hcheck _ hb
      · rw [hH2] at ha
        simp only [haa, and_false, if_false] at ha
        by_cases hba : b = t.access
        · subst hba
          rw [lockCompatibility_symm]
          exact hcheck _ ha
        · rw [hH2] at hb
          simp only [hba, and_false, if_false] at hb
          refine hcompat o2 a b ha hb ?_
          rcases hab with hab | hab
          · exact Or.inl hab
          · rw [hH2] at hab
            simp only [haa, and_false, if_false] at hab
            exact Or.inr hab
    · rw [hH2] at ha hb
      simp only [ho2, false_and, if_false] at ha hb
      refine hcompat o2 a b ha hb ?_
      rcases hab with hab | hab
      · exact Or.inl hab
      · rw [hH2] at hab
        simp only [ho2, false_and, if_false] at hab
        exact Or.inr hab

theorem CountsInv_release (bm : BufferManager) (H H2 : LockObject → LockCounts)
    (tr : Dict BufferTransaction TransInfo) (k : BufferTransaction) (ti ti2 : TransInfo)
    (t : LockTarget) (o : LockObject) (hinv : CountsInv bm H tr)
    (h : Dict.find tr k = some ti) (ho : objectOf bm t = some o)
    (hmem : t ∈ ti.acquiredLocks)
    (hH2 : ∀ o2 m, H2 o2 m = if o2 = o ∧ m = t.access then H o2 m - 1 else H o2 m)
    (hti2 : ti2.acquiredLocks = removeFirst ti.acquiredLocks t) :
    CountsInv bm H2 (Dict.Store tr k ti2) := by
  obtain ⟨hc, hcompat⟩ := hinv
  have hle : ∀ o2 m, H2 o2 m ≤ H o2 m := by
    intro o2 m
    rw [hH2]
    split <;> omega
  constructor
  · intro o2 m
    have hs := heldAll_Store bm tr k ti ti2 o2 m h
    have he := heldIn_removeFirst bm o2 m ti.acquiredLocks t hmem
    rw [hti2] at hs
    rw [hH2, hc]
    by_cases hm : o2 = o ∧ m = t.access
    · obtain ⟨rfl, rfl⟩ := hm
      simp only [ho, and_self, if_true] at he ⊢
      omega
    · rw [if_neg hm]
      have : ¬ (objectOf bm t = some o2 ∧ t.access = m) := by
        rintro ⟨e1, e2⟩
        rw [ho] at e1
        exact hm ⟨(Option.some.inj e1).symm, e2.symm⟩
      rw [if_neg this] at he
      omega
  · intro o2 a b ha hb hab
    refine hcompat o2 a b (lt_of_lt_of_le ha (hle _ _)) (lt_of_lt_of_le hb (hle _ _)) ?_
    rcases hab with hab | hab
    · exact Or.inl hab
    · exact Or.inr (le_trans hab (hle _ _))

theorem CountsInv_same (bm : BufferManager) (H : LockObject → LockCounts)
    (tr : Dict BufferTransaction TransInfo) (k : BufferTransaction) (ti ti2 : TransInfo)
    (hinv : CountsInv bm H tr) (h : Dict.find tr k = some ti)
    (hti2 : ti2.acquiredLocks = ti.acquiredLocks) :
    CountsInv bm H (Dict.Store tr k ti2) := by
  obtain ⟨hc, hcompat⟩ := hinv
  refine ⟨fun o2 m => ?_, hcompat⟩
  have hs := heldAll_Store bm tr k ti ti2 o2 m h
  rw [hti2] at hs
  rw [hc]
  omega

theorem CountsInv_congr (bm : BufferManager) (H H2 : LockObject → LockCounts)
    (tr : Dict BufferTransaction TransInfo) (hinv : CountsInv bm H tr)
    (hH : ∀ o, H2 o = H o) : CountsInv bm H2 tr := by
  have : H2 = H := funext hH
  rw [this]
  exact hinv

/-! ## The registry and the pending queue -/

theorem Dict.keys_Store {K V : Type} [DecidableEq K] (m : Dict K V) (k : K) (v : V) :
    (Dict.Store m k v).map Prod.fst = m.map Prod.fst := by
  induction m with
  | nil => rfl
  | cons kv m ih =>
    obtain ⟨k0, v0⟩ := kv
    by_cases h0 : k0 = k
    · simp [Dict.Store, h0]
    · simp [Dict.Store, h0, ih]

theorem Dict.find_none_iff {K V : Type} [DecidableEq K] (m : Dict K V) (k : K) :
    Dict.find m k = none ↔ k ∉ m.map Prod.fst := by
  induction m with
  | nil => simp [Dict.find]
  | cons kv m ih =>
    obtain ⟨k0, v0⟩ := kv
    by_cases h0 : k0 = k
    · simp [Dict.find, h0]
    · have h1 : ¬ k = k0 := fun e => h0 e.symm
      simp [Dict.find, h0, h1, ih]

theorem Dict.keys_Remove_sublist {K V : Type} [DecidableEq K] (m : Dict K V) (k : K) :
    ((Dict.Remove m k).map Prod.fst).Sublist (m.map Prod.fst) := by
  induction m with
  | nil => simp [Dict.Remove]
  | cons kv m ih =>
    obtain ⟨k0, v0⟩ := kv
    by_cases h0 : k0 = k
    · simp only [Dict.Remove, h0, if_true, List.map_cons]
      exact List.Sublist.cons _ ih
    · simp only [Dict.Remove, h0, if_false, List.map_cons]
      exact List.Sublist.cons₂ _ ih

theorem Dict.keys_Add {K V : Type} (m : Dict K V) (k : K) (v : V) :
    (Dict.Add m k v).map Prod.fst = m.map Prod.fst ++ [k] := by
  simp [Dict.Add]

theorem TransInv_Store (tr : Dict BufferTransaction TransInfo) (k : BufferTransaction)
    (ti2 : TransInfo) (hinv : TransInv tr) (h2 : ti2.trans = k) :
    TransInv (Dict.Store tr k ti2) := by
  obtain ⟨hn, hs⟩ := hinv
  refine ⟨by rw [Dict.keys_Store]; exact hn, ?_⟩
  intro k2 x hx
  rw [Dict.find_Store] at hx
  split at hx
  · next e =>
    cases hf : Dict.find tr k with
    | none => simp [hf] at hx
    | some y =>
      simp only [hf, Option.map_some', Option.some.injEq] at hx
      rw [← hx, e]
      exact h2
  · exact hs k2 x hx

theorem Pendings.find_AddSorted (m : Pendings) (k k2 : Nat) (v : PendingInfo)
    (h : Dict.find m k = none) :
    Dict.find (Pendings.Add m k v) k2 = if k2 = k then some v else Dict.find m k2 := by
  induction m with
  | nil =>
    by_cases e : k = k2
    · simp [Pendings.Add, Dict.find, e]
    · have : ¬ k2 = k := fun x => e x.symm
      simp [Pendings.Add, Dict.find, e, this]
  | cons kv m ih =>
    obtain ⟨k0, v0⟩ := kv
    have hk0 : ¬ k0 = k := by
      intro e
      simp [Dict.find, e] at h
    have hm : Dict.find m k = none := by
      simpa [Dict.find, hk0] using h
    by_cases hlt : k < k0
    · simp only [Pendings.Add, hlt, if_true]
      by_cases e : k = k2
      · subst e
        simp [Dict.find]
      · have : ¬ k2 = k := fun x => e x.symm
        simp [Dict.find, e, this]
    · simp only [Pendings.Add, hlt, if_false]
      by_cases e0 : k0 = k2
      · subst e0
        simp [Dict.find, hk0]
      · simp [Dict.find, e0, ih hm]

theorem Pendings.keys_Add_sorted (m : Pendings) (k : Nat) (v : PendingInfo)
    (hs : (m.map Prod.fst).Pairwise (fun x y => x < y)) (h : Dict.find m k = none) :
    ((Pendings.Add m k v).map Prod.fst).Pairwise (fun x y => x < y) := by
  induction m with
  | nil => simp [Pendings.Add]
  | cons kv m ih =>
    obtain ⟨k0, v0⟩ := kv
    have hk0 : ¬ k0 = k := by
      intro e
      simp [Dict.find, e] at h
    have hm : Dict.find m k = none := by
      simpa [Dict.find, hk0] using h
    simp only [List.map_cons, List.pairwise_cons] at hs
    by_cases hlt : k < k0
    · simp only [Pendings.Add, hlt, if_true, List.map_cons, List.pairwise_cons]
      refine ⟨?_, hs.1, hs.2⟩
      intro y hy
      rcases List.mem_cons.mp hy with e | e
      · rw [e]; exact hlt
      · exact lt_trans hlt (hs.1 y e)
    · simp only [Pendings.Add, hlt, if_false, List.map_cons, List.pairwise_cons]
      refine ⟨?_, ih hs.2 hm⟩
      intro y hy
      have hk : k0 < k := by omega
      have : ∀ (m2 : Pendings), y ∈ (Pendings.Add m2 k v).map Prod.fst →
          y = k ∨ y ∈ m2.map Prod.fst := by
        intro m2
        induction m2 with
        | nil => intro hy2; simp [Pendings.Add] at hy2; exact Or.inl hy2
        | cons kv2 m2 ih2 =>
          obtain ⟨k3, v3⟩ := kv2
          intro hy2
          by_cases hlt2 : k < k3
          · simp only [Pendings.Add, hlt2, if_true, List.map_cons, List.mem_cons] at hy2
            rcases hy2 with e | e | e
            · exact Or.inl e
            · exact Or.inr (List.mem_cons.mpr (Or.inl e))
            · exact Or.inr (List.mem_cons.mpr (Or.inr e))
          · simp only [Pendings.Add, hlt2, if_false, List.map_cons, List.mem_cons] at hy2
            rcases hy2 with e | e
            · exact Or.inr (List.mem_cons.mpr (Or.inl e))
            · rcases ih2 e with e2 | e2
              · exact Or.inl e2
              · exact Or.inr (List.mem_cons.mpr (Or.inr e2))
      rcases this m hy with e | e
      · rw [e]; exact hk
      · exact hs.1 y e

theorem PendInv_store_same (tr : Dict BufferTransaction TransInfo) (pend : Pendings)
    (k : BufferTransaction) (ti ti2 : TransInfo) (hinv : PendInv tr pend)
    (h : Dict.find tr k = some ti) (hp : ti2.pendingLock = ti.pendingLock)
    (hi : ti2.importance = ti.importance) : PendInv (Dict.Store tr k ti2) pend := by
  obtain ⟨hs, hm, hn, hq⟩ := hinv
  refine ⟨hs, ?_, hn, ?_⟩
  · intro key q x hkq hx
    obtain ⟨tx, h1, h2, h3⟩ := hm key q x hkq hx
    rw [Dict.find_Store]
    by_cases e : x = k
    · subst e
      rw [h] at h1
      cases h1
      exact ⟨ti2, by simp [h], by rw [hp]; exact h2, by rw [hi]; exact h3⟩
    · exact ⟨tx, by simp [e, h1], h2, h3⟩
  · intro k2 t2 hk2 hv
    rw [Dict.find_Store] at hk2
    by_cases e : k2 = k
    · subst e
      simp only [h, Option.map_some', if_true, Option.some.injEq] at hk2
      subst hk2
      rw [hp] at hv
      rw [hi]
      exact hq k2 ti h hv
    · simp only [e, if_false] at hk2
      exact hq k2 t2 hk2 hv

theorem PendInv_congr (tr : Dict BufferTransaction TransInfo) (pend pend2 : Pendings)
    (hinv : PendInv tr pend)
    (hs2 : (pend2.map Prod.fst).Pairwise (fun x y => x < y))
    (hq2 : ∀ key, queueOf pend2 key = queueOf pend key) : PendInv tr pend2 := by
  obtain ⟨hs, hm, hn, hq⟩ := hinv
  refine ⟨hs2, ?_, ?_, ?_⟩
  · intro key q x hkq hx
    rw [hq2] at hkq
    exact hm key q x hkq hx
  · intro key q hkq
    rw [hq2] at hkq
    exact hn key q hkq
  · intro k ti hk hv
    obtain ⟨q, h1, h2⟩ := hq k ti hk hv
    exact ⟨q, by rw [hq2]; exact h1, h2⟩

theorem PendInv_enqueue (tr : Dict BufferTransaction TransInfo) (pend pend2 : Pendings)
    (k : BufferTransaction) (ti ti2 : TransInfo) (hinv : PendInv tr pend)
    (h : Dict.find tr k = some ti) (hv : ti.pendingLock.IsValid = false)
    (hv2 : ti2.pendingLock.IsValid = true) (hi : ti2.importance = ti.importance)
    (hs2 : (pend2.map Prod.fst).Pairwise (fun x y => x < y))
    (hq2 : ∀ key, queueOf pend2 key =
      if key = ti.importance then some ((queueOf pend ti.importance).getD [] ++ [k])
      else queueOf pend key) :
    PendInv (Dict.Store tr k ti2) pend2 := by
  obtain ⟨hs, hm, hn, hq⟩ := hinv
  have hnotin : ∀ key q, queueOf pend key = some q → k ∉ q := by
    intro key q hkq hk
    obtain ⟨tx, h1, h2, -⟩ := hm key q k hkq hk
    rw [h] at h1
    cases h1
    rw [hv] at h2
    cases h2
  refine ⟨hs2, ?_, ?_, ?_⟩
  · intro key q x hkq hx
    rw [hq2] at hkq
    rw [Dict.find_Store]
    by_cases e : x = k
    · subst e
      by_cases ek : key = ti.importance
      · exact ⟨ti2, by simp [h], hv2, by rw [hi, ek]⟩
      · rw [if_neg ek] at hkq
        exact absurd hx (hnotin key q hkq)
    · rw [if_neg e]
      by_cases ek : key = ti.importance
      · rw [if_pos ek] at hkq
        cases hkq
        rcases List.mem_append.mp hx with hx | hx
        · cases hold : queueOf pend ti.importance with
          | none => simp [hold] at hx
          | some qo =>
            rw [hold] at hx
            simp only [Option.getD_some] at hx
            rw [ek]
            exact hm _ qo x hold hx
        · simp at hx
          exact absurd hx e
      · rw [if_neg ek] at hkq
        exact hm key q x hkq hx
  · intro key q hkq
    rw [hq2] at hkq
    by_cases ek : key = ti.importance
    · rw [if_pos ek] at hkq
      cases hkq
      cases hold : queueOf pend ti.importance with
      | none => simp
      | some qo =>
        simp only [Option.getD_some]
        rw [List.nodup_append]
        refine ⟨hn _ qo hold, by simp, ?_⟩
        intro a ha hb
        simp at hb
        subst hb
        exact hnotin _ qo hold ha
    · rw [if_neg ek] at hkq
      exact hn key q hkq
  · intro k2 t2 hk2 hv3
    rw [Dict.find_Store] at hk2
    by_cases e : k2 = k
    · subst e
      simp only [h, Option.map_some', if_true, Option.some.injEq] at hk2
      subst hk2
      rw [hi]
      exact ⟨_, by rw [hq2, if_pos rfl], by simp⟩
    · simp only [e, if_false] at hk2
      obtain ⟨q, h1, h2⟩ := hq k2 t2 hk2 hv3
      by_cases ek : t2.importance = ti.importance
      · refine ⟨_, by rw [hq2, if_pos ek], ?_⟩
        rw [← ek, h1]
        simp [h2]
      · exact ⟨q, by rw [hq2, if_neg ek]; exact h1, h2⟩

theorem PendInv_dequeue (tr : Dict BufferTransaction TransInfo) (pend pend2 : Pendings)
    (k : BufferTransaction) (ti ti2 : TransInfo) (q0 : List BufferTransaction)
    (hinv : PendInv tr pend)
    (h : Dict.find tr k = some ti)
    (hv2 : ti2.pendingLock.IsValid = false)
    (hq0 : queueOf pend ti.importance = some q0)
    (hs2 : (pend2.map Prod.fst).Pairwise (fun x y => x < y))
    (hq2 : ∀ key, queueOf pend2 key =
      if key = ti.importance then some (removeFirst q0 k) else queueOf pend key) :
    PendInv (Dict.Store tr k ti2) pend2 := by
  obtain ⟨hs, hm, hn, hq⟩ := hinv
  have hnd := hn _ q0 hq0
  refine ⟨hs2, ?_, ?_, ?_⟩
  · intro key q x hkq hx
    rw [hq2] at hkq
    rw [Dict.find_Store]
    by_cases ek : key = ti.importance
    · rw [if_pos ek] at hkq
      cases hkq
      have hxk : x ≠ k := fun e => by
        rw [e] at hx
        exact (not_mem_removeFirst q0 k hnd) hx
      rw [if_neg hxk, ek]
      exact hm _ q0 x hq0 (mem_of_mem_removeFirst q0 k x hx)
    · rw [if_neg ek] at hkq
      obtain ⟨tx, h1, h2, h3⟩ := hm key q x hkq hx
      have hxk : x ≠ k := fun e => by
        rw [e, h] at h1
        cases h1
        exact ek h3.symm
      rw [if_neg hxk]
      exact ⟨tx, h1, h2, h3⟩
  · intro key q hkq
    rw [hq2] at hkq
    by_cases ek : key = ti.importance
    · rw [if_pos ek] at hkq
      cases hkq
      exact nodup_removeFirst q0 k hnd
    · rw [if_neg ek] at hkq
      exact hn key q hkq
  · intro k2 t2 hk2 hv3
    rw [Dict.find_Store] at hk2
    by_cases e : k2 = k
    · subst e
      simp only [h, Option.map_some', if_true, Option.some.injEq] at hk2
      subst hk2
      rw [hv2] at hv3
      cases hv3
    · simp only [e, if_false] at hk2
      obtain ⟨q, h1, h2⟩ := hq k2 t2 hk2 hv3
      by_cases ek : t2.importance = ti.importance
      · rw [ek, hq0] at h1
        cases h1
        exact ⟨_, by rw [hq2, if_pos ek], mem_removeFirst_of_ne q0 k k2 e h2⟩
      · exact ⟨q, by rw [hq2, if_neg ek]; exact h1, h2⟩

theorem PendInv_dropEmpty (tr : Dict BufferTransaction TransInfo) (pend pend2 : Pendings)
    (key0 : Nat) (hinv : PendInv tr pend) (h0 : queueOf pend key0 = some [])
    (hs2 : (pend2.map Prod.fst).Pairwise (fun x y => x < y))
    (hq2 : ∀ key, queueOf pend2 key = if key = key0 then none else queueOf pend key) :
    PendInv tr pend2 := by
  obtain ⟨hs, hm, hn, hq⟩ := hinv
  refine ⟨hs2, ?_, ?_, ?_⟩
  · intro key q x hkq hx
    rw [hq2] at hkq
    split at hkq
    · cases hkq
    · exact hm key q x hkq hx
  · intro key q hkq
    rw [hq2] at hkq
    split at hkq
    · cases hkq
    · exact hn key q hkq
  · intro k ti hk hv
    obtain ⟨q, h1, h2⟩ := hq k ti hk hv
    by_cases e : ti.importance = key0
    · rw [e, h0] at h1
      cases h1
      simp at h2
    · exact ⟨q, by rw [hq2, if_neg e]; exact h1, h2⟩

theorem queueOf_Store (pend : Pendings) (key key2 : Nat) (b : PendingInfo) :
    queueOf (Dict.Store pend key b) key2 =
      if key2 = key then (Dict.find pend key).map (fun _ => b.transactions)
      else queueOf pend key2 := by
  unfold queueOf
  rw [Dict.find_Store]
  split
  · cases Dict.find pend key <;> rfl
  · rfl

theorem LockTarget.Invalid_not_valid : LockTarget.Invalid.IsValid = false := rfl

theorem AddPendingLockUnsafe_spec (tr : Dict BufferTransaction TransInfo) (pend : Pendings)
    (k : BufferTransaction) (ti0 ti : TransInfo) (result : LockResult) (target : LockTarget)
    (hinv : PendInv tr pend) (h : Dict.find tr k = some ti0)
    (hv0 : ti0.pendingLock.IsValid = false) (hk : ti.trans = k)
    (hv : ti.pendingLock.IsValid = false) :
    ∃ pend2, AddPendingLockUnsafe ⟨pend, ti, result⟩ target =
        (true, ⟨pend2, { ti with pendingLock := target }, result⟩) ∧
      (pend2.map Prod.fst).Pairwise (fun x y => x < y) ∧
      ∀ key, queueOf pend2 key =
        if key = ti.importance then some ((queueOf pend ti.importance).getD [] ++ [k])
        else queueOf pend key := by
  obtain ⟨hs, hm, hn, hq⟩ := hinv
  have hnotin : ∀ q, queueOf pend ti.importance = some q → k ∉ q := by
    intro q hkq hkm
    obtain ⟨tx, h1, h2, -⟩ := hm _ q k hkq hkm
    rw [h] at h1
    cases h1
    rw [hv0] at h2
    cases h2
  unfold AddPendingLockUnsafe
  simp only [hv, Bool.false_eq_true, if_false]
  cases hf : Dict.find pend ti.importance with
  | none =>
    have hf1 : Dict.find (Pendings.Add pend ti.importance ⟨[], -1⟩) ti.importance =
        some ⟨[], -1⟩ := by
      rw [Pendings.find_AddSorted _ _ _ _ hf, if_pos rfl]
    simp only [hf1, Option.getD_some, IndexOf, List.length_nil, lt_irrefl, if_false,
      List.nil_append, hk]
    refine ⟨_, rfl, ?_, ?_⟩
    · rw [Dict.keys_Store]
      exact Pendings.keys_Add_sorted pend _ _ hs hf
    · intro key
      rw [queueOf_Store, hf1]
      by_cases e : key = ti.importance
      · simp [e, queueOf, hf]
      · simp only [e, if_false]
        unfold queueOf
        rw [Pendings.find_AddSorted _ _ _ _ hf, if_neg e]
  | some b =>
    have hkb : k ∉ b.transactions := hnotin b.transactions (by simp [queueOf, hf])
    have hidx : ¬ IndexOf b.transactions k < b.transactions.length := by
      rw [IndexOf_lt_length]
      exact hkb
    simp only [hf, Option.getD_some, hk, hidx, if_false]
    refine ⟨_, rfl, ?_, ?_⟩
    · rw [Dict.keys_Store]
      exact hs
    · intro key
      rw [queueOf_Store, hf]
      by_cases e : key = ti.importance
      · simp [e, queueOf, hf]
      · simp only [e, if_false]

theorem RemovePendingLockUnsafe_hit (tr : Dict BufferTransaction TransInfo) (pend : Pendings)
    (k : BufferTransaction) (ti : TransInfo) (result : LockResult) (target : LockTarget)
    (hinv : PendInv tr pend) (h : Dict.find tr k = some ti) (hk : ti.trans = k)
    (hv : ti.pendingLock.IsValid = true) (ht : ti.pendingLock = target) :
    ∃ q0 pend2, queueOf pend ti.importance = some q0 ∧ k ∈ q0 ∧
      RemovePendingLockUnsafe ⟨pend, ti, result⟩ target =
        (true, ⟨pend2, { ti with pendingLock := LockTarget.Invalid }, result⟩) ∧
      (pend2.map Prod.fst).Pairwise (fun x y => x < y) ∧
      ∀ key, queueOf pend2 key =
        if key = ti.importance then some (removeFirst q0 k) else queueOf pend key := by
  obtain ⟨hs, hm, hn, hq⟩ := hinv
  obtain ⟨q0, hq0, hk0⟩ := hq k ti h hv
  unfold queueOf at hq0
  cases hf : Dict.find pend ti.importance with
  | none => simp [hf] at hq0
  | some b =>
    simp only [hf, Option.map_some', Option.some.injEq] at hq0
    subst hq0
    have hidx : ¬ b.transactions.length ≤ IndexOf b.transactions k := by
      rw [not_le, IndexOf_lt_length]
      exact hk0
    refine ⟨b.transactions,
      Dict.Store pend ti.importance
        { b with transactions := b.transactions.eraseIdx (IndexOf b.transactions k) },
      by simp [queueOf, hf], hk0, ?_, ?_, ?_⟩
    · unfold RemovePendingLockUnsafe
      have hv2 : target.IsValid = true := ht ▸ hv
      simp [hv2, ht, hf, hk, hidx]
    · rw [Dict.keys_Store]
      exact hs
    · intro key
      rw [queueOf_Store, hf, eraseIdx_IndexOf]
      by_cases e : key = ti.importance
      · simp [e]
      · simp only [e, if_false]

theorem RemovePendingLockUnsafe_miss (h : HandlerState) (target : LockTarget)
    (hv : h.owner.pendingLock.IsValid = false ∨ h.owner.pendingLock ≠ target) :
    RemovePendingLockUnsafe h target = (false, h) := by
  unfold RemovePendingLockUnsafe
  rcases hv with hv | hv
  · simp [hv]
  · simp [hv]

/-! ## Preservation of the invariant -/

theorem Inv_Granted (bm : BufferManager) (lm lm2 : LockManager) (owner : BufferTransaction)
    (ti : TransInfo) (target : LockTarget) (o : LockObject) (hinv : Inv bm lm)
    (hfind : Dict.find lm.transactions owner = some ti) (ho : objectOf bm target = some o)
    (hg : Grantable (holders lm.tableLocks o) target.access)
    (h : Granted lm lm2 owner ti target o) : Inv bm lm2 := by
  obtain ⟨-, htr, hc, hp⟩ := hinv
  obtain ⟨-, h2, h3, h4, h5⟩ := h
  refine ⟨h4, ?_, ?_, ?_⟩
  · rw [h3]
    exact TransInv_Store _ _ _ htr (htr.2 owner ti hfind)
  · rw [h3]
    exact CountsInv_grant bm _ _ _ owner ti _ target o hc hfind ho hg h5 rfl
  · rw [h3, h2]
    exact PendInv_store_same _ _ owner ti _ hp hfind rfl rfl

theorem Inv_Released (bm : BufferManager) (lm lm2 : LockManager) (owner : BufferTransaction)
    (ti : TransInfo) (target : LockTarget) (o : LockObject) (hinv : Inv bm lm)
    (hfind : Dict.find lm.transactions owner = some ti) (ho : objectOf bm target = some o)
    (hmem : target ∈ ti.acquiredLocks)
    (h : Released lm lm2 owner ti target o) : Inv bm lm2 := by
  obtain ⟨-, htr, hc, hp⟩ := hinv
  obtain ⟨-, h2, h3, h4, h5⟩ := h
  refine ⟨h4, ?_, ?_, ?_⟩
  · rw [h3]
    exact TransInv_Store _ _ _ htr (htr.2 owner ti hfind)
  · rw [h3]
    exact CountsInv_release bm _ _ _ owner ti _ target o hc hfind ho hmem h5 rfl
  · rw [h3, h2]
    exact PendInv_store_same _ _ owner ti _ hp hfind rfl rfl

theorem Inv_Enqueued (bm : BufferManager) (lm lm2 : LockManager) (owner : BufferTransaction)
    (ti : TransInfo) (target : LockTarget) (hinv : Inv bm lm)
    (hfind : Dict.find lm.transactions owner = some ti)
    (hv : ti.pendingLock.IsValid = false) (hv2 : target.IsValid = true)
    (h : Enqueued lm lm2 owner ti target) : Inv bm lm2 := by
  obtain ⟨-, htr, hc, hp⟩ := hinv
  obtain ⟨-, h2, h3, h4, h5, h6⟩ := h
  refine ⟨h3, ?_, ?_, ?_⟩
  · rw [h2]
    exact TransInv_Store _ _ _ htr (htr.2 owner ti hfind)
  · rw [h2]
    exact CountsInv_congr bm _ _ _ (CountsInv_same bm _ _ owner ti _ hc hfind rfl) h4
  · rw [h2]
    exact PendInv_enqueue _ _ _ owner ti _ hp hfind hv hv2 rfl h5 h6

theorem Inv_Dequeued (bm : BufferManager) (lm lm2 : LockManager) (owner : BufferTransaction)
    (ti : TransInfo) (q0 : List BufferTransaction) (hinv : Inv bm lm)
    (hfind : Dict.find lm.transactions owner = some ti)
    (hq0 : queueOf lm.pendings ti.importance = some q0)
    (h : Dequeued lm lm2 owner ti q0) : Inv bm lm2 := by
  obtain ⟨hw, htr, hc, hp⟩ := hinv
  obtain ⟨-, h2, h3, h4, h5⟩ := h
  refine ⟨by rw [h2]; exact hw, ?_, ?_, ?_⟩
  · rw [h3]
    exact TransInv_Store _ _ _ htr (htr.2 owner ti hfind)
  · rw [h3, h2]
    exact CountsInv_same bm _ _ owner ti _ hc hfind rfl
  · rw [h3]
    exact PendInv_dequeue _ _ _ owner ti _ q0 hp hfind LockTarget.Invalid_not_valid hq0 h4 h5

theorem Inv_SameLocks (bm : BufferManager) (lm lm2 : LockManager) (hinv : Inv bm lm)
    (h : SameLocks lm lm2) : Inv bm lm2 := by
  obtain ⟨-, htr, hc, hp⟩ := hinv
  obtain ⟨-, h2, h3, h4, h5, h6⟩ := h
  refine ⟨h3, by rw [h2]; exact htr, ?_, ?_⟩
  · rw [h2]
    exact CountsInv_congr bm _ _ _ hc h4
  · rw [h2]
    exact PendInv_congr _ _ _ hp h5 h6

theorem SameLocks_refl (bm : BufferManager) (lm : LockManager) (hinv : Inv bm lm) :
    SameLocks lm lm :=
  ⟨rfl, rfl, hinv.1, fun _ => rfl, hinv.2.2.2.1, fun _ => rfl⟩

/-! ## Acquire -/

theorem AcquireLockUnsafe_eq (bm : BufferManager) (lm : LockManager) (owner : BufferTransaction)
    (target : LockTarget) (result : LockResult) (pp : Bool) :
    lm.AcquireLockUnsafe bm owner target result pp =
      lm.OperateObjectLock bm owner (target, pp) target result none (liftTable acquireOp)
        (liftPage acquireOp false) (liftRow acquireOp false) true pp := by
  unfold LockManager.AcquireLockUnsafe
  rw [AcquireTableLock_eq, AcquirePageLock_eq, AcquireRowLock_eq]

theorem AcquireLockUnsafe_reject (bm : BufferManager) (lm : LockManager)
    (owner : BufferTransaction) (target : LockTarget) (result : LockResult) (pp : Bool)
    (h : lm.CheckInputUnsafe owner target = none ∨
      ∃ ti, lm.CheckInputUnsafe owner target = some ti ∧ (pp && ti.pendingLock.IsValid) = true) :
    lm.AcquireLockUnsafe bm owner target result pp = some (false, lm, result) := by
  unfold LockManager.AcquireLockUnsafe LockManager.OperateObjectLock
  rcases h with h | ⟨ti, h, h2⟩
  · simp [h]
  · simp only [h, h2, if_true]

theorem AcquireLockUnsafe_undecodable (bm : BufferManager) (lm : LockManager)
    (owner : BufferTransaction) (target : LockTarget) (result : LockResult) (pp : Bool)
    (ti : TransInfo) (hti : lm.CheckInputUnsafe owner target = some ti)
    (hp : (pp && ti.pendingLock.IsValid) = false) (ho : objectOf bm target = none) :
    lm.AcquireLockUnsafe bm owner target result pp = none := by
  unfold LockManager.AcquireLockUnsafe LockManager.OperateObjectLock
  simp only [hti, hp, Bool.false_eq_true, if_false]
  rcases operateTableLocks_undecodable bm lm.tableLocks ⟨lm.pendings, ti, result⟩ (target, pp)
    target AcquireTableLock AcquirePageLock AcquireRowLock true ho with h | ⟨h, -⟩
  · rw [h]; rfl
  · cases h

/-- What `AcquireLockUnsafe` does once the input check has passed, for a
decodable target. -/
theorem AcquireLockUnsafe_spec (bm : BufferManager) (lm : LockManager)
    (owner : BufferTransaction) (target : LockTarget) (result : LockResult) (pp : Bool)
    (ti : TransInfo) (o : LockObject) (hinv : Inv bm lm)
    (hti : lm.CheckInputUnsafe owner target = some ti)
    (hp : (pp && ti.pendingLock.IsValid) = false) (ho : objectOf bm target = some o) :
    (Grantable (holders lm.tableLocks o) target.access →
      ∃ lm2, lm.AcquireLockUnsafe bm owner target result pp = some (true, lm2, ⟨false⟩) ∧
        Granted lm lm2 owner ti target o) ∧
    (¬ Grantable (holders lm.tableLocks o) target.access → pp = true →
      ∃ lm2, lm.AcquireLockUnsafe bm owner target result pp = some (true, lm2, ⟨true⟩) ∧
        Enqueued lm lm2 owner ti target) ∧
    (¬ Grantable (holders lm.tableLocks o) target.access → pp = false →
      ∃ lm2, lm.AcquireLockUnsafe bm owner target result pp = some (true, lm2, ⟨true⟩) ∧
        SameLocks lm lm2 ∧ lm2.pendings = lm.pendings) := by
  obtain ⟨hfind, -, hvt, -⟩ := CheckInputUnsafe_find lm owner target ti hti
  rw [AcquireLockUnsafe_eq]
  rcases operate_char acquireOp false bm lm owner (target, pp) target result true pp ti o
      hinv.1 hti hp ho with ⟨hc, -⟩ | ⟨-, ⟨hF, -⟩ | ⟨r, h1, c1, lm1, hF, hR, e1, e2, e3, e4, e5, -⟩⟩
  · cases hc
  · simp [acquireOp] at hF
  · simp only [acquireOp, Option.some.injEq] at hF
    rw [hR]
    refine ⟨?_, ?_, ?_⟩
    · intro hg
      unfold AcquireGeneralLock at hF
      simp only [AcquireObjectLockUnsafe_grant _ _ _ hg, Bool.not_true, Bool.false_eq_true,
        if_false, Prod.mk.injEq] at hF
      obtain ⟨rfl, rfl, rfl⟩ := hF
      refine ⟨lm1, rfl, e1, e2, e3, e4, ?_⟩
      intro o2 m
      rw [e5]
      by_cases h2 : o2 = o
      · subst h2
        by_cases hm : m = target.access
        · subst hm
          simp
        · simp [hm, Function.update_noteq hm]
      · simp [h2]
    · intro hg hpp
      subst hpp
      have hv : ti.pendingLock.IsValid = false := by simpa using hp
      obtain ⟨pend2, hadd, hs2, hq2⟩ := AddPendingLockUnsafe_spec lm.transactions lm.pendings
        owner ti ti ⟨true⟩ target hinv.2.2.2 hfind hv (hinv.2.1.2 owner ti hfind) hv
      unfold AcquireGeneralLock at hF
      simp only [AcquireObjectLockUnsafe_block _ _ _ hg, Bool.not_false, if_true,
        Bool.not_true, Bool.false_eq_true, if_false, hadd, Prod.mk.injEq] at hF
      obtain ⟨rfl, rfl, rfl⟩ := hF
      refine ⟨lm1, rfl, e1, e3, e4, ?_, by rw [e2]; exact hs2, by rw [e2]; exact hq2⟩
      intro o2
      rw [e5]
      by_cases h2 : o2 = o
      · subst h2; simp
      · simp [h2]
    · intro hg hpp
      subst hpp
      unfold AcquireGeneralLock at hF
      simp only [AcquireObjectLockUnsafe_block _ _ _ hg, Bool.not_false, if_true,
        Prod.mk.injEq] at hF
      obtain ⟨rfl, rfl, rfl⟩ := hF
      have htr : lm1.transactions = lm.transactions := by
        rw [e3]
        exact Dict.Store_self _ _ _ hfind
      refine ⟨lm1, rfl, ⟨e1, htr, e4, ?_, by rw [e2]; exact hinv.2.2.2.1, by rw [e2]; intro _; rfl⟩, e2⟩
      intro o2
      rw [e5]
      by_cases h2 : o2 = o
      · subst h2; simp
      · simp [h2]

/-! ## Release -/

theorem ReleaseObjectLockUnsafe_miss (c : LockCounts) (owner : TransInfo) (target : LockTarget)
    (h : target ∉ owner.acquiredLocks) :
    ReleaseObjectLockUnsafe c owner target = some (false, c, owner) := by
  unfold ReleaseObjectLockUnsafe
  have : owner.acquiredLocks.length ≤ IndexOf owner.acquiredLocks target := by
    rw [← not_lt, IndexOf_lt_length]
    exact h
  simp [this]

theorem ReleaseObjectLockUnsafe_hit (c : LockCounts) (owner : TransInfo) (target : LockTarget)
    (h : target ∈ owner.acquiredLocks) (hc : 1 ≤ c target.access) :
    ReleaseObjectLockUnsafe c owner target =
      some (true, Function.update c target.access (c target.access - 1),
        { owner with acquiredLocks := removeFirst owner.acquiredLocks target }) := by
  unfold ReleaseObjectLockUnsafe
  have : ¬ owner.acquiredLocks.length ≤ IndexOf owner.acquiredLocks target := by
    rw [not_le, IndexOf_lt_length]
    exact h
  have h2 : ¬ c target.access - 1 < 0 := by omega
  simp only [this, if_false, h2, eraseIdx_IndexOf]

theorem holders_of_not_has (tl : List (Option TableLockInfo)) (o : LockObject)
    (h : hasLockInfo tl o = false) : holders tl o = LockCounts.zero := by
  unfold hasLockInfo at h
  unfold holders
  cases hs : tl.getD o.path.1 none with
  | none => rfl
  | some t =>
    rw [hs] at h
    simp only at h ⊢
    rcases hp : o.path.2 with _ | ⟨pg, _ | off⟩
    · rw [hp] at h
      simp [TableLockInfo.has] at h
    · rw [hp] at h
      simp only [TableLockInfo.has] at h
      cases hpg : Dict.find t.pageLocks pg with
      | none => simp [TableLockInfo.holders, hpg]
      | some p => simp [hpg] at h
    · rw [hp] at h
      simp only [TableLockInfo.has] at h
      cases hpg : Dict.find t.pageLocks pg with
      | none => simp [TableLockInfo.holders, hpg]
      | some p =>
        rw [hpg] at h
        cases hw : Dict.find p.rowLocks off with
        | none => simp [TableLockInfo.holders, hpg, PageLockInfo.holders, hw]
        | some w => simp [hw] at h

theorem ReleaseLockUnsafe_eq (bm : BufferManager) (lm : LockManager) (owner : BufferTransaction)
    (target : LockTarget) :
    lm.ReleaseLockUnsafe bm owner target =
      (lm.OperateObjectLock bm owner target target ⟨false⟩ (some ReleasePreLock)
        (liftTable releaseOp) (liftPage releaseOp true) (liftRow releaseOp true) false false).map
        fun x => (x.1, x.2.1) := by
  unfold LockManager.ReleaseLockUnsafe
  rw [ReleaseTableLock_eq, ReleasePageLock_eq, ReleaseRowLock_eq]

theorem OperateObjectLock_pre_miss {TArgs : Type} (bm : BufferManager) (lm : LockManager)
    (owner : BufferTransaction) (a : TArgs) (target : LockTarget) (result : LockResult)
    (pre : PreLockHandler TArgs) (tH : TableLockHandler TArgs) (pH : PageLockHandler TArgs)
    (rH : RowLockHandler TArgs) (create check : Bool) (ti : TransInfo) (s : Bool)
    (hti : lm.CheckInputUnsafe owner target = some ti)
    (hpre : pre ⟨lm.pendings, ti, result⟩ a = ((s, false), ⟨lm.pendings, ti, result⟩)) :
    lm.OperateObjectLock bm owner a target result (some pre) tH pH rH create check =
      lm.OperateObjectLock bm owner a target result none tH pH rH create check := by
  unfold LockManager.OperateObjectLock
  simp only [hti, hpre]
  rfl

theorem ReleaseLockUnsafe_reject (bm : BufferManager) (lm : LockManager)
    (owner : BufferTransaction) (target : LockTarget)
    (h : lm.CheckInputUnsafe owner target = none) :
    lm.ReleaseLockUnsafe bm owner target = some (false, lm) := by
  unfold LockManager.ReleaseLockUnsafe LockManager.OperateObjectLock
  simp [h]

/-- Releasing the pending lock: the pre-hook dequeues the transaction and the
lock tree is not touched. -/
theorem ReleaseLockUnsafe_pending (bm : BufferManager) (lm : LockManager)
    (owner : BufferTransaction) (target : LockTarget) (ti : TransInfo) (hinv : Inv bm lm)
    (hti : lm.CheckInputUnsafe owner target = some ti)
    (hv : ti.pendingLock.IsValid = true) (ht : ti.pendingLock = target) :
    ∃ q0 lm2, queueOf lm.pendings ti.importance = some q0 ∧ owner ∈ q0 ∧
      lm.ReleaseLockUnsafe bm owner target = some (true, lm2) ∧
      Dequeued lm lm2 owner ti q0 := by
  obtain ⟨hfind, -⟩ := CheckInputUnsafe_find lm owner target ti hti
  obtain ⟨q0, pend2, hq0, hmem, hrm, hs2, hq2⟩ := RemovePendingLockUnsafe_hit lm.transactions
    lm.pendings owner ti ⟨false⟩ target hinv.2.2.2 hfind (hinv.2.1.2 owner ti hfind) hv ht
  refine ⟨q0, lm.commit owner
    ⟨pend2, { ti with pendingLock := LockTarget.Invalid }, ⟨false⟩⟩, hq0, hmem, ?_, ?_⟩
  · unfold LockManager.ReleaseLockUnsafe LockManager.OperateObjectLock
    simp only [hti, Bool.false_and, Bool.false_eq_true, if_false, ReleasePreLock, hrm, if_true,
      Option.map_some']
  · exact ⟨rfl, rfl, rfl, hs2, hq2⟩

/-- Releasing a target that is not the pending lock, for a decodable target. -/
theorem ReleaseLockUnsafe_spec (bm : BufferManager) (lm : LockManager)
    (owner : BufferTransaction) (target : LockTarget) (ti : TransInfo) (o : LockObject)
    (hinv : Inv bm lm) (hti : lm.CheckInputUnsafe owner target = some ti)
    (hmiss : ti.pendingLock.IsValid = false ∨ ti.pendingLock ≠ target)
    (ho : objectOf bm target = some o) :
    (target ∈ ti.acquiredLocks →
      ∃ lm2, lm.ReleaseLockUnsafe bm owner target = some (true, lm2) ∧
        Released lm lm2 owner ti target o) ∧
    (target ∉ ti.acquiredLocks → lm.ReleaseLockUnsafe bm owner target = some (false, lm)) := by
  obtain ⟨hfind, -⟩ := CheckInputUnsafe_find lm owner target ti hti
  have hpre : ReleasePreLock ⟨lm.pendings, ti, ⟨false⟩⟩ target =
      ((true, false), ⟨lm.pendings, ti, ⟨false⟩⟩) := by
    unfold ReleasePreLock
    rw [RemovePendingLockUnsafe_miss _ _ hmiss]
  rw [ReleaseLockUnsafe_eq, OperateObjectLock_pre_miss bm lm owner target target ⟨false⟩ _ _ _ _
    false false ti true hti hpre]
  have hself : lm.commit owner ⟨lm.pendings, ti, ⟨false⟩⟩ = lm := commit_self lm owner ti _ hfind
  rcases operate_char releaseOp true bm lm owner target target ⟨false⟩ false false ti o
      hinv.1 hti rfl ho with
    ⟨-, hn, hR⟩ | ⟨hc, ⟨hF, hR⟩ | ⟨r, h1, c1, lm1, hF, hR, e1, e2, e3, e4, e5, e6⟩⟩
  · rw [hR]
    have hz := holders_of_not_has _ _ hn
    refine ⟨fun hmem => ?_, fun _ => rfl⟩
    have := CountsInv_held_pos bm _ _ owner ti target o hinv.2.2.1 hfind hmem ho
    rw [hz] at this
    simp [LockCounts.zero] at this
  · rw [hR]
    refine ⟨fun hmem => ?_, fun hmem => ?_⟩
    · have hpos := CountsInv_held_pos bm _ _ owner ti target o hinv.2.2.1 hfind hmem ho
      simp [releaseOp, ReleaseObjectLockUnsafe_hit _ _ _ hmem hpos] at hF
    · simp [releaseOp, ReleaseObjectLockUnsafe_miss _ _ _ hmem] at hF
  · rw [hR]
    refine ⟨fun hmem => ?_, fun hmem => ?_⟩
    · have hpos := CountsInv_held_pos bm _ _ owner ti target o hinv.2.2.1 hfind hmem ho
      simp only [releaseOp, ReleaseObjectLockUnsafe_hit _ _ _ hmem hpos, Option.map_some',
        Option.some.injEq, Prod.mk.injEq] at hF
      obtain ⟨rfl, rfl, rfl⟩ := hF
      refine ⟨lm1, rfl, e1, e2, e3, e4, ?_⟩
      intro o2 m
      rw [e5]
      by_cases h2 : o2 = o
      · subst h2
        by_cases hm : m = target.access
        · subst hm
          simp
        · simp [hm, Function.update_noteq hm]
      · simp [h2]
    · simp only [releaseOp, ReleaseObjectLockUnsafe_miss _ _ _ hmem, Option.map_some',
        Option.some.injEq, Prod.mk.injEq] at hF
      obtain ⟨rfl, rfl, rfl⟩ := hF
      have htl := e6 rfl rfl rfl
      have htr : lm1.transactions = lm.transactions := by
        rw [e3]
        exact Dict.Store_self _ _ _ hfind
      have : lm1 = lm := by
        cases lm1
        cases lm
        simp_all
      rw [this]
      rfl

theorem ReleaseLockUnsafe_undecodable (bm : BufferManager) (lm : LockManager)
    (owner : BufferTransaction) (target : LockTarget) (ti : TransInfo)
    (hti : lm.CheckInputUnsafe owner target = some ti)
    (hmiss : ti.pendingLock.IsValid = false ∨ ti.pendingLock ≠ target)
    (ho : objectOf bm target = none) :
    lm.ReleaseLockUnsafe bm owner target = none ∨
    lm.ReleaseLockUnsafe bm owner target = some (false, lm) := by
  obtain ⟨hfind, -⟩ := CheckInputUnsafe_find lm owner target ti hti
  have hpre : ReleasePreLock ⟨lm.pendings, ti, ⟨false⟩⟩ target =
      ((true, false), ⟨lm.pendings, ti, ⟨false⟩⟩) := by
    unfold ReleasePreLock
    rw [RemovePendingLockUnsafe_miss _ _ hmiss]
  unfold LockManager.ReleaseLockUnsafe
  rw [OperateObjectLock_pre_miss bm lm owner target target ⟨false⟩ _ _ _ _
    false false ti true hti hpre]
  unfold LockManager.OperateObjectLock
  simp only [hti, Bool.false_and, Bool.false_eq_true, if_false]
  rcases operateTableLocks_undecodable bm lm.tableLocks ⟨lm.pendings, ti, ⟨false⟩⟩ target
    target ReleaseTableLock ReleasePageLock ReleaseRowLock false ho with h | ⟨-, h⟩
  · left
    rw [h]
    rfl
  · right
    rw [h]
    have hself := commit_self lm owner ti ⟨false⟩ hfind
    simp only [Option.map_some']
    rw [hself]

/-! ## Upgrade -/

theorem Dict.Store_Store {K V : Type} [DecidableEq K] (m : Dict K V) (k : K) (v w : V) :
    Dict.Store (Dict.Store m k v) k w = Dict.Store m k w := by
  induction m with
  | nil => rfl
  | cons kv m ih =>
    obtain ⟨k0, v0⟩ := kv
    by_cases h0 : k0 = k
    · simp [Dict.Store, h0]
    · simp [Dict.Store, h0, ih]

theorem objectOf_withAccess (bm : BufferManager) (t : LockTarget) (a : LockTargetAccess) :
    objectOf bm { t with access := a } = objectOf bm t := rfl

theorem Inv_Upgraded (bm : BufferManager) (lm lm2 : LockManager) (owner : BufferTransaction)
    (ti : TransInfo) (old : LockTarget) (newAccess : LockTargetAccess) (o : LockObject)
    (hinv : Inv bm lm)
    (hfind : Dict.find lm.transactions owner = some ti) (ho : objectOf bm old = some o)
    (hmem : old ∈ ti.acquiredLocks)
    (hg : Grantable (afterRelease (holders lm.tableLocks o) old.access) newAccess)
    (h : Upgraded lm lm2 owner ti old newAccess o) : Inv bm lm2 := by
  obtain ⟨-, htr, hc, hp⟩ := hinv
  obtain ⟨-, h2, h3, h4, h5⟩ := h
  refine ⟨h4, ?_, ?_, ?_⟩
  · rw [h3]
    exact TransInv_Store _ _ _ htr (htr.2 owner ti hfind)
  · rw [h3]
    have hmid := CountsInv_release bm (holders lm.tableLocks)
      (fun o2 m => if o2 = o ∧ m = old.access then holders lm.tableLocks o2 m - 1
        else holders lm.tableLocks o2 m)
      lm.transactions owner ti { ti with acquiredLocks := removeFirst ti.acquiredLocks old }
      old o hc hfind ho hmem (fun _ _ => rfl) rfl
    have hfind2 : Dict.find (Dict.Store lm.transactions owner
        { ti with acquiredLocks := removeFirst ti.acquiredLocks old }) owner =
        some { ti with acquiredLocks := removeFirst ti.acquiredLocks old } := by
      simp [Dict.find_Store, hfind]
    have hfin := CountsInv_grant bm _ (holders lm2.tableLocks) _ owner _
      { ti with
        acquiredLocks := removeFirst ti.acquiredLocks old ++ [{ old with access := newAccess }] }
      { old with access := newAccess } o hmid hfind2 ho
      (by
        intro m hm
        apply hg m
        simp only [afterRelease]
        simp only [true_and] at hm
        exact hm)
      (by
        intro o2 m
        rw [h5]
        by_cases e : o2 = o
        · subst e
          by_cases e2 : m = newAccess
          · subst e2
            simp
          · simp [e2]
        · simp [e])
      rfl
    rw [Dict.Store_Store] at hfin
    exact hfin
  · rw [h3, h2]
    exact PendInv_store_same _ _ owner ti _ hp hfind rfl rfl

theorem Inv_UpgradeBlocked (bm : BufferManager) (lm lm2 : LockManager) (owner : BufferTransaction)
    (ti : TransInfo) (old : LockTarget) (newAccess : LockTargetAccess) (o : LockObject)
    (hinv : Inv bm lm)
    (hfind : Dict.find lm.transactions owner = some ti) (ho : objectOf bm old = some o)
    (hmem : old ∈ ti.acquiredLocks) (hv : ti.pendingLock.IsValid = false)
    (hv2 : old.IsValid = true)
    (h : UpgradeBlocked lm lm2 owner ti old newAccess o) : Inv bm lm2 := by
  obtain ⟨-, htr, hc, hp⟩ := hinv
  obtain ⟨-, h2, h3, h4, h5, h6⟩ := h
  refine ⟨h3, ?_, ?_, ?_⟩
  · rw [h2]
    exact TransInv_Store _ _ _ htr (htr.2 owner ti hfind)
  · rw [h2]
    exact CountsInv_release bm _ _ _ owner ti _ old o hc hfind ho hmem h4 rfl
  · rw [h2]
    exact PendInv_enqueue _ _ _ owner ti _ hp hfind hv hv2 rfl h5 h6

theorem UpgradeLockUnsafe_eq (bm : BufferManager) (lm : LockManager) (owner : BufferTransaction)
    (old : LockTarget) (newAccess : LockTargetAccess) (result : LockResult) :
    lm.UpgradeLockUnsafe bm owner old newAccess result =
      lm.OperateObjectLock bm owner (old, newAccess) old result none
        (liftTable UpgradeGeneralLock) (liftPage UpgradeGeneralLock false)
        (liftRow UpgradeGeneralLock false) false true := by
  unfold LockManager.UpgradeLockUnsafe
  rw [UpgradeTableLock_eq, UpgradePageLock_eq, UpgradeRowLock_eq]

theorem UpgradeLockUnsafe_reject (bm : BufferManager) (lm : LockManager)
    (owner : BufferTransaction) (old : LockTarget) (newAccess : LockTargetAccess)
    (result : LockResult)
    (h : lm.CheckInputUnsafe owner old = none ∨
      ∃ ti, lm.CheckInputUnsafe owner old = some ti ∧ ti.pendingLock.IsValid = true) :
    lm.UpgradeLockUnsafe bm owner old newAccess result = some (false, lm, result) := by
  unfold LockManager.UpgradeLockUnsafe LockManager.OperateObjectLock
  rcases h with h | ⟨ti, h, h2⟩
  · simp [h]
  · simp [h, h2]

theorem UpgradeLockUnsafe_undecodable (bm : BufferManager) (lm : LockManager)
    (owner : BufferTransaction) (old : LockTarget) (newAccess : LockTargetAccess)
    (result : LockResult) (ti : TransInfo)
    (hti : lm.CheckInputUnsafe owner old = some ti)
    (hv : ti.pendingLock.IsValid = false) (ho : objectOf bm old = none) :
    lm.UpgradeLockUnsafe bm owner old newAccess result = none ∨
    lm.UpgradeLockUnsafe bm owner old newAccess result = some (false, lm, result) := by
  obtain ⟨hfind, -⟩ := CheckInputUnsafe_find lm owner old ti hti
  unfold LockManager.UpgradeLockUnsafe LockManager.OperateObjectLock
  simp only [hti, hv, Bool.and_false, Bool.false_eq_true, if_false]
  rcases operateTableLocks_undecodable bm lm.tableLocks ⟨lm.pendings, ti, result⟩
    (old, newAccess) old UpgradeTableLock UpgradePageLock UpgradeRowLock false ho with h | ⟨-, h⟩
  · left
    rw [h]
    rfl
  · right
    rw [h]
    have hself := commit_self lm owner ti result hfind
    simp only [Option.map_some']
    rw [hself]

/-- What `UpgradeLockUnsafe` does once the input check has passed, for a
decodable target. -/
theorem UpgradeLockUnsafe_spec (bm : BufferManager) (lm : LockManager)
    (owner : BufferTransaction) (old : LockTarget) (newAccess : LockTargetAccess)
    (result : LockResult) (ti : TransInfo) (o : LockObject) (hinv : Inv bm lm)
    (hti : lm.CheckInputUnsafe owner old = some ti)
    (hv : ti.pendingLock.IsValid = false) (ho : objectOf bm old = some o) :
    (old ∉ ti.acquiredLocks →
      lm.UpgradeLockUnsafe bm owner old newAccess result = some (false, lm, result)) ∧
    (old ∈ ti.acquiredLocks →
      Grantable (afterRelease (holders lm.tableLocks o) old.access) newAccess →
      ∃ lm2, lm.UpgradeLockUnsafe bm owner old newAccess result = some (true, lm2, ⟨false⟩) ∧
        Upgraded lm lm2 owner ti old newAccess o) ∧
    (old ∈ ti.acquiredLocks →
      ¬ Grantable (afterRelease (holders lm.tableLocks o) old.access) newAccess →
      ∃ lm2, lm.UpgradeLockUnsafe bm owner old newAccess result = some (true, lm2, ⟨true⟩) ∧
        UpgradeBlocked lm lm2 owner ti old newAccess o) := by
  obtain ⟨hfind, -, hvt, -⟩ := CheckInputUnsafe_find lm owner old ti hti
  rw [UpgradeLockUnsafe_eq]
  have hupd : Function.update (holders lm.tableLocks o) old.access
      (holders lm.tableLocks o old.access - 1) =
      afterRelease (holders lm.tableLocks o) old.access := by
    funext m
    by_cases e : m = old.access
    · subst e
      simp [afterRelease]
    · simp [afterRelease, e, Function.update_noteq e]
  rcases operate_char UpgradeGeneralLock false bm lm owner (old, newAccess) old result false true
      ti o hinv.1 hti (by simp [hv]) ho with
    ⟨-, hn, hR⟩ | ⟨hc, ⟨hF, hR⟩ | ⟨r, h1, c1, lm1, hF, hR, e1, e2, e3, e4, e5, e6⟩⟩
  · rw [hR]
    have hz := holders_of_not_has _ _ hn
    refine ⟨fun _ => rfl, fun hmem => ?_, fun hmem => ?_⟩ <;>
    · have := CountsInv_held_pos bm _ _ owner ti old o hinv.2.2.1 hfind hmem ho
      rw [hz] at this
      simp [LockCounts.zero] at this
  · rw [hR]
    refine ⟨fun hmem => ?_, fun hmem => ?_, fun hmem => ?_⟩
    · simp [UpgradeGeneralLock, ReleaseObjectLockUnsafe_miss _ _ _ hmem] at hF
    · have hpos := CountsInv_held_pos bm _ _ owner ti old o hinv.2.2.1 hfind hmem ho
      simp [UpgradeGeneralLock, ReleaseObjectLockUnsafe_hit _ _ _ hmem hpos] at hF
    · have hpos := CountsInv_held_pos bm _ _ owner ti old o hinv.2.2.1 hfind hmem ho
      simp [UpgradeGeneralLock, ReleaseObjectLockUnsafe_hit _ _ _ hmem hpos] at hF
  · rw [hR]
    refine ⟨fun hmem => ?_, fun hmem hg => ?_, fun hmem hg => ?_⟩
    · simp only [UpgradeGeneralLock, ReleaseObjectLockUnsafe_miss _ _ _ hmem, Option.map_some',
        Bool.not_false, if_true, Option.some.injEq, Prod.mk.injEq] at hF
      obtain ⟨rfl, rfl, rfl⟩ := hF
      have htl := e6 rfl rfl rfl
      have htr : lm1.transactions = lm.transactions := by
        rw [e3]
        exact Dict.Store_self _ _ _ hfind
      have : lm1 = lm := by
        cases lm1
        cases lm
        simp_all
      rw [this]
    · have hpos := CountsInv_held_pos bm _ _ owner ti old o hinv.2.2.1 hfind hmem ho
      simp only [UpgradeGeneralLock, ReleaseObjectLockUnsafe_hit _ _ _ hmem hpos,
        Option.map_some', Bool.not_true, Bool.false_eq_true, if_false, hupd,
        Option.some.injEq] at hF
      unfold AcquireGeneralLock at hF
      simp only [AcquireObjectLockUnsafe_grant _ _ ({ old with access := newAccess } : LockTarget) hg, Bool.not_true, Bool.false_eq_true,
        if_false, Prod.mk.injEq] at hF
      obtain ⟨rfl, rfl, rfl⟩ := hF
      refine ⟨lm1, rfl, e1, e2, e3, e4, ?_⟩
      intro o2 m
      rw [e5]
      by_cases h2 : o2 = o
      · subst h2
        by_cases hm : m = newAccess
        · subst hm
          simp [afterRelease]
        · simp [hm, Function.update_noteq hm, afterRelease]
      · simp [h2]
    · have hpos := CountsInv_held_pos bm _ _ owner ti old o hinv.2.2.1 hfind hmem ho
      simp only [UpgradeGeneralLock, ReleaseObjectLockUnsafe_hit _ _ _ hmem hpos,
        Option.map_some', Bool.not_true, Bool.false_eq_true, if_false, hupd,
        Option.some.injEq] at hF
      obtain ⟨pend2, hadd, hs2, hq2⟩ := AddPendingLockUnsafe_spec lm.transactions lm.pendings
        owner ti { ti with acquiredLocks := removeFirst ti.acquiredLocks old } ⟨true⟩
        { old with access := newAccess } hinv.2.2.2 hfind hv (hinv.2.1.2 owner ti hfind) hv
      unfold AcquireGeneralLock at hF
      simp only [AcquireObjectLockUnsafe_block _ _ ({ old with access := newAccess } : LockTarget) hg, Bool.not_false, if_true,
        Bool.not_true, Bool.false_eq_true, if_false, hadd, Prod.mk.injEq] at hF
      obtain ⟨rfl, rfl, rfl⟩ := hF
      refine ⟨lm1, rfl, e1, e3, e4, ?_, by rw [e2]; exact hs2, by rw [e2]; exact hq2⟩
      intro o2 m
      rw [e5]
      by_cases h2 : o2 = o
      · subst h2
        by_cases hm : m = old.access
        · subst hm
          simp [afterRelease]
        · simp [hm, afterRelease]
      · simp [h2]

/-! ## The invariant along the operations -/

theorem Inv_AcquireLockUnsafe (bm : BufferManager) (lm lm2 : LockManager)
    (owner : BufferTransaction) (target : LockTarget) (result res : LockResult) (pp r : Bool)
    (hinv : Inv bm lm)
    (h : lm.AcquireLockUnsafe bm owner target result pp = some (r, lm2, res)) : Inv bm lm2 := by
  cases hti : lm.CheckInputUnsafe owner target with
  | none =>
    rw [AcquireLockUnsafe_reject bm lm owner target result pp (Or.inl hti)] at h
    cases h
    exact hinv
  | some ti =>
    obtain ⟨hfind, -, hvt, -⟩ := CheckInputUnsafe_find lm owner target ti hti
    cases hp : (pp && ti.pendingLock.IsValid) with
    | true =>
      rw [AcquireLockUnsafe_reject bm lm owner target result pp (Or.inr ⟨ti, hti, hp⟩)] at h
      cases h
      exact hinv
    | false =>
      cases ho : objectOf bm target with
      | none =>
        rw [AcquireLockUnsafe_undecodable bm lm owner target result pp ti hti hp ho] at h
        cases h
      | some o =>
        obtain ⟨s1, s2, s3⟩ := AcquireLockUnsafe_spec bm lm owner target result pp ti o hinv hti hp ho
        by_cases hg : Grantable (holders lm.tableLocks o) target.access
        · obtain ⟨lm3, e, hG⟩ := s1 hg
          rw [e] at h
          cases h
          exact Inv_Granted bm lm lm2 owner ti target o hinv hfind ho hg hG
        · cases pp with
          | true =>
            obtain ⟨lm3, e, hE⟩ := s2 hg rfl
            rw [e] at h
            cases h
            exact Inv_Enqueued bm lm lm2 owner ti target hinv hfind (by simpa using hp) hvt hE
          | false =>
            obtain ⟨lm3, e, hS, -⟩ := s3 hg rfl
            rw [e] at h
            cases h
            exact Inv_SameLocks bm lm lm2 hinv hS

theorem Inv_ReleaseLockUnsafe (bm : BufferManager) (lm lm2 : LockManager)
    (owner : BufferTransaction) (target : LockTarget) (r : Bool) (hinv : Inv bm lm)
    (h : lm.ReleaseLockUnsafe bm owner target = some (r, lm2)) : Inv bm lm2 := by
  cases hti : lm.CheckInputUnsafe owner target with
  | none =>
    rw [ReleaseLockUnsafe_reject bm lm owner target hti] at h
    cases h
    exact hinv
  | some ti =>
    obtain ⟨hfind, -, hvt, -⟩ := CheckInputUnsafe_find lm owner target ti hti
    by_cases hpend : ti.pendingLock.IsValid = true ∧ ti.pendingLock = target
    · obtain ⟨q0, lm3, hq0, -, e, hD⟩ :=
        ReleaseLockUnsafe_pending bm lm owner target ti hinv hti hpend.1 hpend.2
      rw [e] at h
      cases h
      exact Inv_Dequeued bm lm lm2 owner ti q0 hinv hfind hq0 hD
    · have hmiss : ti.pendingLock.IsValid = false ∨ ti.pendingLock ≠ target := by
        by_cases hv : ti.pendingLock.IsValid = true
        · exact Or.inr (fun e => hpend ⟨hv, e⟩)
        · exact Or.inl (by simpa using hv)
      cases ho : objectOf bm target with
      | none =>
        rcases ReleaseLockUnsafe_undecodable bm lm owner target ti hti hmiss ho with e | e
        · rw [e] at h; cases h
        · rw [e] at h; cases h; exact hinv
      | some o =>
        obtain ⟨s1, s2⟩ := ReleaseLockUnsafe_spec bm lm owner target ti o hinv hti hmiss ho
        by_cases hmem : target ∈ ti.acquiredLocks
        · obtain ⟨lm3, e, hR⟩ := s1 hmem
          rw [e] at h
          cases h
          exact Inv_Released bm lm lm2 owner ti target o hinv hfind ho hmem hR
        · rw [s2 hmem] at h
          cases h
          exact hinv

theorem Inv_UpgradeLockUnsafe (bm : BufferManager) (lm lm2 : LockManager)
    (owner : BufferTransaction) (old : LockTarget) (newAccess : LockTargetAccess)
    (result res : LockResult) (r : Bool) (hinv : Inv bm lm)
    (h : lm.UpgradeLockUnsafe bm owner old newAccess result = some (r, lm2, res)) :
    Inv bm lm2 := by
  cases hti : lm.CheckInputUnsafe owner old with
  | none =>
    rw [UpgradeLockUnsafe_reject bm lm owner old newAccess result (Or.inl hti)] at h
    cases h
    exact hinv
  | some ti =>
    obtain ⟨hfind, -, hvt, -⟩ := CheckInputUnsafe_find lm owner old ti hti
    cases hv : ti.pendingLock.IsValid with
    | true =>
      rw [UpgradeLockUnsafe_reject bm lm owner old newAccess result (Or.inr ⟨ti, hti, hv⟩)] at h
      cases h
      exact hinv
    | false =>
      cases ho : objectOf bm old with
      | none =>
        rcases UpgradeLockUnsafe_undecodable bm lm owner old newAccess result ti hti hv ho
          with e | e
        · rw [e] at h; cases h
        · rw [e] at h; cases h; exact hinv
      | some o =>
        obtain ⟨s1, s2, s3⟩ :=
          UpgradeLockUnsafe_spec bm lm owner old newAccess result ti o hinv hti hv ho
        by_cases hmem : old ∈ ti.acquiredLocks
        · by_cases hg : Grantable (afterRelease (holders lm.tableLocks o) old.access) newAccess
          · obtain ⟨lm3, e, hU⟩ := s2 hmem hg
            rw [e] at h
            cases h
            exact Inv_Upgraded bm lm lm2 owner ti old newAccess o hinv hfind ho hmem hg hU
          · obtain ⟨lm3, e, hU⟩ := s3 hmem hg
            rw [e] at h
            cases h
            exact Inv_UpgradeBlocked bm lm lm2 owner ti old newAccess o hinv hfind ho hmem hv
              hvt hU
        · rw [s1 hmem] at h
          cases h
          exact hinv

theorem Inv_empty (bm : BufferManager) : Inv bm LockManager.empty := by
  refine ⟨?_, ⟨by simp [LockManager.empty], ?_⟩, ⟨?_, ?_⟩, ⟨by simp [LockManager.empty], ?_, ?_, ?_⟩⟩
  · intro i t h
    simp [LockManager.empty] at h
  · intro k ti h
    simp [LockManager.empty, Dict.find] at h
  · intro o a
    simp [LockManager.empty, holders, heldAll, LockCounts.zero]
  · intro o a b h
    simp [LockManager.empty, holders, LockCounts.zero] at h
  · intro key q x h
    simp [LockManager.empty, queueOf, Dict.find] at h
  · intro key q h
    simp [LockManager.empty, queueOf, Dict.find] at h
  · intro k ti h
    simp [LockManager.empty, Dict.find] at h

theorem Dict.Contains_false {K V : Type} [DecidableEq K] (m : Dict K V) (k : K)
    (h : ¬ Dict.Contains m k = true) : Dict.find m k = none := by
  unfold Dict.Contains at h
  cases hf : Dict.find m k with
  | none => rfl
  | some v => simp [hf] at h

theorem heldAll_Add (bm : BufferManager) (tr : Dict BufferTransaction TransInfo)
    (k : BufferTransaction) (ti : TransInfo) (o : LockObject) (a : LockTargetAccess) :
    heldAll bm (Dict.Add tr k ti) o a = heldAll bm tr o a + heldIn bm o a ti.acquiredLocks := by
  simp [heldAll, Dict.Add]

theorem heldAll_Remove (bm : BufferManager) (tr : Dict BufferTransaction TransInfo)
    (k : BufferTransaction) (ti : TransInfo) (o : LockObject) (a : LockTargetAccess)
    (hn : (tr.map Prod.fst).Nodup) (h : Dict.find tr k = some ti) :
    heldAll bm (Dict.Remove tr k) o a + heldIn bm o a ti.acquiredLocks = heldAll bm tr o a := by
  induction tr with
  | nil => simp [Dict.find] at h
  | cons kv m ih =>
    obtain ⟨k0, v0⟩ := kv
    simp only [List.map_cons, List.nodup_cons] at hn
    by_cases h0 : k0 = k
    · subst h0
      simp only [Dict.find, if_true, Option.some.injEq] at h
      subst h
      have hnone : Dict.find m k0 = none := (Dict.find_none_iff m k0).mpr hn.1
      have hrm : ∀ (m2 : Dict BufferTransaction TransInfo), Dict.find m2 k0 = none →
          Dict.Remove m2 k0 = m2 := by
        intro m2
        induction m2 with
        | nil => intro _; rfl
        | cons kv2 m2 ih2 =>
          obtain ⟨k2, v2⟩ := kv2
          intro hf
          by_cases h2 : k2 = k0
          · simp [Dict.find, h2] at hf
          · simp only [Dict.find, h2, if_false] at hf
            simp [Dict.Remove, h2, ih2 hf]
      simp only [Dict.Remove, if_true, hrm m hnone, heldAll, List.map_cons, List.sum_cons]
      omega
    · simp only [Dict.find, h0, if_false] at h
      have := ih hn.2 h
      simp only [Dict.Remove, h0, if_false, heldAll, List.map_cons, List.sum_cons] at this ⊢
      omega

theorem heldIn_nil (bm : BufferManager) (o : LockObject) (a : LockTargetAccess) :
    heldIn bm o a [] = 0 := rfl

theorem Inv_tables (bm : BufferManager) (lm : LockManager) (tables : Dict BufferTable TableInfo)
    (hinv : Inv bm lm) : Inv bm { lm with tables := tables } := hinv

theorem Inv_RegisterTable (bm : BufferManager) (lm : LockManager) (table : BufferTable)
    (source : BufferSource) (hinv : Inv bm lm) : Inv bm (lm.RegisterTable bm table source).2 := by
  unfold LockManager.RegisterTable
  split
  · exact hinv
  · split
    · exact hinv
    · exact hinv

theorem Inv_UnregisterTable (bm : BufferManager) (lm : LockManager) (table : BufferTable)
    (hinv : Inv bm lm) : Inv bm (lm.UnregisterTable table).2 := by
  unfold LockManager.UnregisterTable
  split
  · exact hinv
  · exact hinv

theorem Inv_RegisterTransaction (bm : BufferManager) (lm : LockManager) (t : BufferTransaction)
    (importance : Nat) (hinv : Inv bm lm) : Inv bm (lm.RegisterTransaction t importance).2 := by
  unfold LockManager.RegisterTransaction
  split
  · exact hinv
  · next hc =>
    have hnone := Dict.Contains_false _ _ hc
    obtain ⟨hw, ⟨hn, hs⟩, ⟨hc1, hc2⟩, ⟨hp1, hp2, hp3, hp4⟩⟩ := hinv
    have hfa : ∀ k x, Dict.find (Dict.Add lm.transactions t
        ⟨t, importance, [], LockTarget.Invalid⟩) k = some x →
        Dict.find lm.transactions k = some x ∨
          (k = t ∧ x = ⟨t, importance, [], LockTarget.Invalid⟩) := by
      intro k x hx
      rw [Dict.find_Add] at hx
      cases hf : Dict.find lm.transactions k with
      | some y =>
        rw [hf] at hx
        exact Or.inl hx
      | none =>
        rw [hf] at hx
        simp only at hx
        split at hx
        · next e =>
          cases hx
          exact Or.inr ⟨e.symm, rfl⟩
        · cases hx
    refine ⟨hw, ⟨?_, ?_⟩, ⟨?_, hc2⟩, ⟨hp1, ?_, hp3, ?_⟩⟩
    · simp only [Dict.keys_Add]
      rw [List.nodup_append]
      refine ⟨hn, by simp, ?_⟩
      intro a ha hb
      simp at hb
      subst hb
      exact ((Dict.find_none_iff _ _).mp hnone) ha
    · intro k x hx
      rcases hfa k x hx with h1 | ⟨h1, h2⟩
      · exact hs k x h1
      · rw [h2, h1]
    · intro o a
      simp only [heldAll_Add, heldIn_nil, add_zero]
      exact hc1 o a
    · intro key q x hq hx
      obtain ⟨tx, h1, h2, h3⟩ := hp2 key q x hq hx
      refine ⟨tx, ?_, h2, h3⟩
      rw [Dict.find_Add, h1]
    · intro k x hx hv
      rcases hfa k x hx with h1 | ⟨h1, h2⟩
      · exact hp4 k x h1 hv
      · rw [h2] at hv
        cases hv

theorem Inv_UnregisterTransaction (bm : BufferManager) (lm : LockManager)
    (t : BufferTransaction) (hinv : Inv bm lm) : Inv bm (lm.UnregisterTransaction t).2 := by
  unfold LockManager.UnregisterTransaction
  split
  · exact hinv
  · next ti hfind =>
    split
    · exact hinv
    · next hcond =>
      split
      · exact hinv
      · simp only [Bool.or_eq_true, decide_eq_true_eq, not_or, not_lt, Nat.le_zero,
          List.length_eq_zero, Bool.not_eq_true] at hcond
        obtain ⟨hempty, hvalid⟩ := hcond
        obtain ⟨hw, ⟨hn, hs⟩, ⟨hc1, hc2⟩, ⟨hp1, hp2, hp3, hp4⟩⟩ := hinv
        refine ⟨hw, ⟨?_, ?_⟩, ⟨?_, hc2⟩, ⟨hp1, ?_, hp3, ?_⟩⟩
        · exact List.Nodup.sublist (Dict.keys_Remove_sublist _ _) hn
        · intro k x hx
          rw [Dict.find_Remove] at hx
          split at hx
          · cases hx
          · exact hs k x hx
        · intro o a
          have := heldAll_Remove bm lm.transactions t ti o a hn hfind
          rw [hempty, heldIn_nil] at this
          simp only [add_zero] at this
          simp only [this]
          exact hc1 o a
        · intro key q x hq hx
          obtain ⟨tx, h1, h2, h3⟩ := hp2 key q x hq hx
          refine ⟨tx, ?_, h2, h3⟩
          rw [Dict.find_Remove]
          have : x ≠ t := by
            intro e
            rw [e, hfind] at h1
            cases h1
            rw [hvalid] at h2
            cases h2
          rw [if_neg this]
          exact h1
        · intro k x hx hv
          rw [Dict.find_Remove] at hx
          split at hx
          · cases hx
          · exact hp4 k x hx hv

/-! ## The scheduler -/

theorem find_of_get? {V : Type} (m : Dict Nat V) (i : Nat) (k : Nat) (v : V)
    (hs : (m.map Prod.fst).Pairwise (fun x y => x < y)) (h : m.get? i = some (k, v)) :
    Dict.find m k = some v := by
  induction m generalizing i with
  | nil => simp at h
  | cons kv m ih =>
    obtain ⟨k0, v0⟩ := kv
    simp only [List.map_cons, List.pairwise_cons] at hs
    cases i with
    | zero =>
      simp at h
      obtain ⟨rfl, rfl⟩ := h
      simp [Dict.find]
    | succ i =>
      simp only [List.get?_cons_succ] at h
      have hmem : k ∈ m.map Prod.fst := by
        have := List.get?_mem h
        exact List.mem_map.mpr ⟨(k, v), this, rfl⟩
      have hlt := hs.1 k hmem
      have hne : ¬ k0 = k := by omega
      simp only [Dict.find, hne, if_false]
      exact ih i hs.2 h

theorem set_eq_Store {V : Type} (m : Dict Nat V) (i : Nat) (k : Nat) (v w : V)
    (hs : (m.map Prod.fst).Pairwise (fun x y => x < y)) (h : m.get? i = some (k, v)) :
    m.set i (k, w) = Dict.Store m k w := by
  induction m generalizing i with
  | nil => simp at h
  | cons kv m ih =>
    obtain ⟨k0, v0⟩ := kv
    simp only [List.map_cons, List.pairwise_cons] at hs
    cases i with
    | zero =>
      simp at h
      obtain ⟨rfl, rfl⟩ := h
      simp [Dict.Store]
    | succ i =>
      simp only [List.get?_cons_succ] at h
      have hmem : k ∈ m.map Prod.fst := by
        have := List.get?_mem h
        exact List.mem_map.mpr ⟨(k, v), this, rfl⟩
      have hlt := hs.1 k hmem
      have hne : ¬ k0 = k := by omega
      simp only [List.set_cons_succ, Dict.Store, hne, if_false]
      rw [ih i hs.2 h]

theorem queueOf_Remove (pend : Pendings) (key key2 : Nat) :
    queueOf (Dict.Remove pend key) key2 = if key2 = key then none else queueOf pend key2 := by
  unfold queueOf
  rw [Dict.find_Remove]
  split <;> rfl

theorem keys_eq_of_queues (lm lm2 : LockManager) (h : queues lm2 = queues lm) :
    lm2.pendings.map Prod.fst = lm.pendings.map Prod.fst := by
  have := congrArg (List.map Prod.fst) h
  simpa [queues, List.map_map, Function.comp] using this

theorem queueOf_eq_of_queues (p p2 : Pendings)
    (h : p2.map (fun kb => (kb.1, kb.2.transactions)) =
      p.map (fun kb => (kb.1, kb.2.transactions))) (key : Nat) :
    queueOf p2 key = queueOf p key := by
  induction p generalizing p2 with
  | nil =>
    cases p2 with
    | nil => rfl
    | cons a p2 => simp at h
  | cons kv p ih =>
    cases p2 with
    | nil => simp at h
    | cons kv2 p2 =>
      obtain ⟨k0, v0⟩ := kv
      obtain ⟨k2, v2⟩ := kv2
      simp only [List.map_cons, List.cons.injEq, Prod.mk.injEq] at h
      obtain ⟨⟨rfl, hq⟩, ht⟩ := h
      have := ih p2 ht
      unfold queueOf at this ⊢
      by_cases e : k2 = key
      · simp [Dict.find, e, hq]
      · simp only [Dict.find, e, if_false]
        exact this

theorem Quiet_SameLocks (bm : BufferManager) (lm lm2 : LockManager) (hinv : Inv bm lm)
    (h : Quiet lm lm2) : SameLocks lm lm2 := by
  obtain ⟨h1, h2, h3, h4, h5⟩ := h
  refine ⟨h1, h2, h3, h4, ?_, ?_⟩
  · rw [keys_eq_of_queues lm lm2 h5]
    exact hinv.2.2.2.1
  · exact queueOf_eq_of_queues _ _ h5

theorem Quiet_refl (bm : BufferManager) (lm : LockManager) (hinv : Inv bm lm) : Quiet lm lm :=
  ⟨rfl, rfl, hinv.1, fun _ => rfl, rfl⟩

theorem Quiet_trans (lm lm2 lm3 : LockManager) (h : Quiet lm lm2) (h2 : Quiet lm2 lm3) :
    Quiet lm lm3 := by
  obtain ⟨a1, a2, a3, a4, a5⟩ := h
  obtain ⟨b1, b2, b3, b4, b5⟩ := h2
  exact ⟨b1.trans a1, b2.trans a2, b3, fun o => (b4 o).trans (a4 o), b5.trans a5⟩

theorem PendingGrantable_Quiet (bm : BufferManager) (lm lm2 : LockManager)
    (x : BufferTransaction) (h : Quiet lm lm2) :
    PendingGrantable bm lm2 x ↔ PendingGrantable bm lm x := by
  obtain ⟨-, a2, -, a4, -⟩ := h
  unfold PendingGrantable
  simp only [a2, a4]

theorem CheckInputUnsafe_some (lm : LockManager) (owner : BufferTransaction) (target : LockTarget)
    (ti ti2 : TransInfo) (h : lm.CheckInputUnsafe owner target = some ti)
    (hf : Dict.find lm.transactions owner = some ti2) : ti = ti2 := by
  have := (CheckInputUnsafe_find lm owner target ti h).1
  rw [hf] at this
  exact (Option.some.inj this).symm

theorem pick_attempt (bm : BufferManager) (lm1 : LockManager) (x : BufferTransaction)
    (ti : TransInfo) (result : LockResult) (hinv : Inv bm lm1)
    (hfind : Dict.find lm1.transactions x = some ti) :
    lm1.AcquireLockUnsafe bm ti.trans ti.pendingLock result false = none ∨
    lm1.AcquireLockUnsafe bm ti.trans ti.pendingLock result false = some (false, lm1, result) ∨
    (∃ o lm2, objectOf bm ti.pendingLock = some o ∧
      Grantable (holders lm1.tableLocks o) ti.pendingLock.access ∧
      lm1.AcquireLockUnsafe bm ti.trans ti.pendingLock result false =
        some (true, lm2, ⟨false⟩) ∧
      Granted lm1 lm2 x ti ti.pendingLock o ∧ Handle.IsValid x = true) ∨
    (∃ o lm2, objectOf bm ti.pendingLock = some o ∧
      ¬ Grantable (holders lm1.tableLocks o) ti.pendingLock.access ∧
      lm1.AcquireLockUnsafe bm ti.trans ti.pendingLock result false =
        some (true, lm2, ⟨true⟩) ∧
      SameLocks lm1 lm2 ∧ lm2.pendings = lm1.pendings) := by
  have htr : ti.trans = x := hinv.2.1.2 x ti hfind
  rw [htr]
  cases hti : lm1.CheckInputUnsafe x ti.pendingLock with
  | none =>
    right; left
    exact AcquireLockUnsafe_reject bm lm1 x _ result false (Or.inl hti)
  | some ti2 =>
    have e := CheckInputUnsafe_some lm1 x _ ti2 ti hti hfind
    subst e
    cases ho : objectOf bm ti2.pendingLock with
    | none =>
      left
      exact AcquireLockUnsafe_undecodable bm lm1 x _ result false ti2 hti rfl ho
    | some o =>
      obtain ⟨s1, -, s3⟩ := AcquireLockUnsafe_spec bm lm1 x _ result false ti2 o hinv hti rfl ho
      by_cases hg : Grantable (holders lm1.tableLocks o) ti2.pendingLock.access
      · obtain ⟨lm2, e, hG⟩ := s1 hg
        right; right; left
        exact ⟨o, lm2, rfl, hg, e, hG, (CheckInputUnsafe_find lm1 x _ ti2 hti).2.1⟩
      · obtain ⟨lm2, e, hS, hP⟩ := s3 hg rfl
        right; right; right
        exact ⟨o, lm2, rfl, hg, e, hS, hP⟩

theorem get?_set_same {α : Type} (l : List α) (i : Nat) (a b : α) (h : l.get? i = some b) :
    (l.set i a).get? i = some a := by
  have hi : i < l.length := by
    rcases Nat.lt_or_ge i l.length with h1 | h1
    · exact h1
    · rw [List.get?_eq_none.mpr h1] at h
      cases h
  simp [List.getElem?_set, hi]

theorem set_set_same {α : Type} (l : List α) (i : Nat) (a b : α) :
    (l.set i a).set i b = l.set i b := by
  simp

theorem queues_set (lm : LockManager) (i key : Nat) (b b2 : PendingInfo)
    (hb : lm.pendings.get? i = some (key, b)) (ht : b2.transactions = b.transactions) :
    (lm.pendings.set i (key, b2)).map (fun kb => (kb.1, kb.2.transactions)) = queues lm := by
  unfold queues
  rw [List.map_set]
  apply List.ext_getElem?
  intro j
  rw [List.getElem?_set]
  by_cases e : i = j
  · subst e
    have hi : i < lm.pendings.length := by
      rcases Nat.lt_or_ge i lm.pendings.length with h1 | h1
      · exact h1
      · rw [List.get?_eq_none.mpr h1] at hb
        cases hb
    have hb2 : lm.pendings[i]? = some (key, b) := by simpa using hb
    have hb3 : lm.pendings[i] = (key, b) := by
      rw [List.getElem?_eq_getElem hi] at hb2
      exact Option.some.inj hb2
    simp [hi, hb3, ht]
  · simp [e]

theorem Quiet_setLastTry (bm : BufferManager) (lm : LockManager) (i key : Nat)
    (b b2 : PendingInfo) (hinv : Inv bm lm)
    (hb : lm.pendings.get? i = some (key, b)) (ht : b2.transactions = b.transactions) :
    Quiet lm { lm with pendings := lm.pendings.set i (key, b2) } :=
  ⟨rfl, rfl, hinv.1, fun _ => rfl, queues_set lm i key b b2 hb ht⟩

theorem eraseIdx_eq_removeFirst {α : Type} [DecidableEq α] (l : List α) (i : Nat) (x : α)
    (hn : l.Nodup) (h : l.get? i = some x) : l.eraseIdx i = removeFirst l x := by
  induction l generalizing i with
  | nil => simp at h
  | cons y l ih =>
    rw [List.nodup_cons] at hn
    cases i with
    | zero =>
      simp at h
      subst h
      simp [removeFirst]
    | succ i =>
      simp only [List.get?_cons_succ] at h
      have hne : ¬ y = x := by
        intro e
        rw [e] at hn
        exact hn.1 (List.get?_mem h)
      simp [removeFirst, hne, ih i hn.2 h]

theorem tmod_nonneg_lt (a : Int) (n : Nat) (hn : 0 < n) :
    Int.tmod a n < n := by
  have := Int.tmod_lt_of_pos a (by exact_mod_cast hn : (0 : Int) < (n : Int))
  exact this

theorem tmod_eq_emod_of_nonneg (a : Int) (n : Nat) (h : 0 ≤ a) :
    Int.tmod a n = a % (n : Int) := by
  rw [Int.tmod_eq_emod h (by exact_mod_cast Nat.zero_le n)]

/-- One iteration of the inner loop of `PickTransaction` for a non-empty
bucket whose candidate is registered with a valid pending lock. -/
theorem pickInBucket_succ (bm : BufferManager) (i : Nat) (stop : Int) (fuel : Nat)
    (lm : LockManager) (result : LockResult) (key : Nat) (b : PendingInfo)
    (x : BufferTransaction) (ti : TransInfo)
    (hb : lm.pendings.get? i = some (key, b)) (hn : b.transactions.length ≠ 0)
    (hl : ¬ Int.tmod (b.lastTryIndex + 1) b.transactions.length < 0)
    (hx : b.transactions.get? (Int.tmod (b.lastTryIndex + 1) b.transactions.length).toNat =
      some x)
    (hf : Dict.find lm.transactions x = some ti) (hv : ti.pendingLock.IsValid = true) :
    pickInBucket bm i stop (fuel + 1) lm result =
      match ({ lm with
          pendings := lm.pendings.set i
            (key, { b with
              lastTryIndex := Int.tmod (b.lastTryIndex + 1) b.transactions.length }) } :
          LockManager).AcquireLockUnsafe bm ti.trans ti.pendingLock result false with
      | none => Outcome.error
      | some (success, lm2, result2) =>
        if !success then Outcome.error
        else if !result2.blocked then
          Outcome.ok
            ({ lm2 with
                transactions :=
                  (match lm2.transactions.find x with
                  | none => lm2.transactions
                  | some transInfo2 =>
                    Dict.Store lm2.transactions x
                      { transInfo2 with pendingLock := LockTarget.Invalid }),
                pendings :=
                  (if (b.transactions.eraseIdx
                      (Int.tmod (b.lastTryIndex + 1) b.transactions.length).toNat).length = 0
                  then
                    Dict.Remove
                      (lm2.pendings.set i
                        (key, ⟨b.transactions.eraseIdx
                          (Int.tmod (b.lastTryIndex + 1) b.transactions.length).toNat,
                          Int.tmod (b.lastTryIndex + 1) b.transactions.length - 1⟩)) key
                  else
                    lm2.pendings.set i
                      (key, ⟨b.transactions.eraseIdx
                        (Int.tmod (b.lastTryIndex + 1) b.transactions.length).toNat,
                        Int.tmod (b.lastTryIndex + 1) b.transactions.length - 1⟩)) },
              result2, some ti.trans)
        else if Int.tmod (b.lastTryIndex + 1) b.transactions.length ≠ stop then
          pickInBucket bm i stop fuel lm2 result2
        else Outcome.ok (lm2, result2, none) := by
  rw [pickInBucket]
  simp only [hb, hn, if_false, hl, hx, hf, hv, Bool.not_true, Bool.false_eq_true]

theorem Between_step (n : Nat) (l stop : Int) (idx : Nat) (h : Between n l stop idx) :
    (idx : Int) = (l + 1) % (n : Int) ∨
    ((l + 1) % (n : Int) ≠ stop ∧ Between n ((l + 1) % (n : Int)) stop idx) := by
  obtain ⟨j, hj1, hidx, hno⟩ := h
  by_cases hj : j = 1
  · subst hj
    left
    simpa using hidx
  · right
    have hj2 : 2 ≤ j := by omega
    refine ⟨?_, j - 1, by omega, ?_, ?_⟩
    · have := hno 1 (le_refl 1) (by omega)
      simpa using this
    · rw [hidx, Int.emod_add_emod]
      congr 1
      have : ((j - 1 : Nat) : Int) = (j : Int) - 1 := by omega
      rw [this]
      ring
    · intro j3 hj3 hlt
      have := hno (j3 + 1) (by omega) (by omega)
      rw [Int.emod_add_emod]
      have e : l + 1 + (j3 : Int) = l + ((j3 + 1 : Nat) : Int) := by
        push_cast
        ring
      rw [e]
      exact this

theorem PendInv_find_of_mem (tr : Dict BufferTransaction TransInfo) (pend : Pendings)
    (i key : Nat) (b : PendingInfo) (x : BufferTransaction) (hinv : PendInv tr pend)
    (hb : pend.get? i = some (key, b)) (hx : x ∈ b.transactions) :
    ∃ ti, Dict.find tr x = some ti ∧ ti.pendingLock.IsValid = true ∧ ti.importance = key := by
  have hf := find_of_get? pend i key b hinv.1 hb
  exact hinv.2.1 key b.transactions x (by simp [queueOf, hf]) hx

theorem not_grantable_of_blocked (bm : BufferManager) (lm : LockManager)
    (x : BufferTransaction) (ti : TransInfo) (o : LockObject)
    (hf : Dict.find lm.transactions x = some ti) (ho : objectOf bm ti.pendingLock = some o)
    (hg : ¬ Grantable (holders lm.tableLocks o) ti.pendingLock.access) :
    ¬ PendingGrantable bm lm x := by
  rintro ⟨ti2, o2, h1, -, h3, h4⟩
  rw [hf] at h1
  cases h1
  rw [ho] at h3
  cases h3
  exact hg h4

theorem PickedFrom_Quiet (bm : BufferManager) (lm lm2 lm3 : LockManager)
    (t : BufferTransaction) (key : Nat) (hq : Quiet lm lm2)
    (h : PickedFrom bm lm2 lm3 t key) : PickedFrom bm lm lm3 t key := by
  obtain ⟨a1, a2, -, a4, a5⟩ := hq
  obtain ⟨ti, o, q, h1, h2, h3, h4, h5, h6, h7, h8, h9, h10, h11, h12, h13⟩ := h
  have hqo : ∀ k, queueOf lm2.pendings k = queueOf lm.pendings k :=
    queueOf_eq_of_queues _ _ a5
  refine ⟨ti, o, q, by rw [← a2]; exact h1, h2, h3, h4, by rw [← a4]; exact h5,
    by rw [← hqo]; exact h6, h7, h8.trans a1, by rw [h9, a2], h10, ?_, h12, ?_⟩
  · intro o2 m
    rw [h11, a4]
  · intro k
    rw [h13, hqo]

theorem Quiet_of_SameLocks (lm lm2 : LockManager) (h : SameLocks lm lm2)
    (hp : lm2.pendings = lm.pendings) : Quiet lm lm2 := by
  obtain ⟨h1, h2, h3, h4, -, -⟩ := h
  exact ⟨h1, h2, h3, h4, by unfold queues; rw [hp]⟩

theorem pickInBucket_spec (bm : BufferManager) (i : Nat) (stop : Int) :
    ∀ (fuel : Nat) (lm : LockManager) (result : LockResult) (key : Nat) (b : PendingInfo),
      Inv bm lm → lm.pendings.get? i = some (key, b) →
      (∀ lm2 res, pickInBucket bm i stop fuel lm result = Outcome.ok (lm2, res, none) →
        Quiet lm lm2 ∧ 0 ≤ stop ∧ stop < (b.transactions.length : Int) ∧
        (-1 ≤ b.lastTryIndex → ∀ idx x, Between b.transactions.length b.lastTryIndex stop idx →
          b.transactions.get? idx = some x → ¬ PendingGrantable bm lm x)) ∧
      (∀ lm3 res t, pickInBucket bm i stop fuel lm result = Outcome.ok (lm3, res, some t) →
        PickedFrom bm lm lm3 t key ∧ res.blocked = false ∧ Handle.IsValid t = true) := by
  intro fuel
  induction fuel with
  | zero =>
    intro lm result key b _ _
    exact ⟨fun _ _ h => (by simp [pickInBucket] at h), fun _ _ _ h => (by simp [pickInBucket] at h)⟩
  | succ fuel ih =>
    intro lm result key b hinv hb
    by_cases hn : b.transactions.length = 0
    · have hE : pickInBucket bm i stop (fuel + 1) lm result = Outcome.error := by
        rw [pickInBucket]
        simp only [hb, hn, if_true]
      rw [hE]
      exact ⟨fun _ _ h => (by cases h), fun _ _ _ h => (by cases h)⟩
    by_cases hl : Int.tmod (b.lastTryIndex + 1) b.transactions.length < 0
    · have hE : pickInBucket bm i stop (fuel + 1) lm result = Outcome.error := by
        rw [pickInBucket]
        simp only [hb, hn, if_false, hl, if_true]
      rw [hE]
      exact ⟨fun _ _ h => (by cases h), fun _ _ _ h => (by cases h)⟩
    have hnpos : 0 < b.transactions.length := Nat.pos_of_ne_zero hn
    have hlt := tmod_nonneg_lt (b.lastTryIndex + 1) b.transactions.length hnpos
    have hl0 : 0 ≤ Int.tmod (b.lastTryIndex + 1) b.transactions.length := not_lt.mp hl
    have hidx : (Int.tmod (b.lastTryIndex + 1) b.transactions.length).toNat <
        b.transactions.length := by omega
    obtain ⟨x, hx⟩ : ∃ x, b.transactions.get? (Int.tmod (b.lastTryIndex + 1)
        b.transactions.length).toNat = some x :=
      ⟨_, List.get?_eq_get hidx⟩
    have hxmem : x ∈ b.transactions := List.get?_mem hx
    obtain ⟨ti, hf, hv, himp⟩ := PendInv_find_of_mem _ _ i key b x hinv.2.2.2 hb hxmem
    have hq1 := Quiet_setLastTry bm lm i key b
      { b with lastTryIndex := Int.tmod (b.lastTryIndex + 1) b.transactions.length } hinv hb rfl
    have hinv1 := Inv_SameLocks bm lm _ hinv (Quiet_SameLocks bm lm _ hinv hq1)
    have hb1 := get?_set_same lm.pendings i
      (key, ({ b with lastTryIndex := Int.tmod (b.lastTryIndex + 1) b.transactions.length } :
        PendingInfo)) (key, b) hb
    rw [pickInBucket_succ bm i stop fuel lm result key b x ti hb hn hl hx hf hv]
    rcases pick_attempt bm _ x ti result hinv1 hf with e | e | ⟨o, lm2, ho, hg, e, hG, hval⟩ |
        ⟨o, lm2, ho, hg, e, hS, hP⟩
    · rw [e]
      exact ⟨fun _ _ h => (by cases h), fun _ _ _ h => (by cases h)⟩
    · rw [e]
      exact ⟨fun _ _ h => (by simp at h), fun _ _ _ h => (by simp at h)⟩
    · rw [e]
      simp only [Bool.not_true, Bool.false_eq_true, if_false, Bool.not_false, if_true]
      refine ⟨fun _ _ h => (by simp at h), ?_⟩
      intro lm3 res t h
      simp only [Outcome.ok.injEq, Prod.mk.injEq, Option.some.injEq] at h
      obtain ⟨h3, hres, ht⟩ := h
      have htr : ti.trans = x := hinv.2.1.2 x ti hf
      rw [htr] at ht
      subst ht
      subst hres
      refine ⟨?_, rfl, hval⟩
      obtain ⟨g1, g2, g3, g4, g5⟩ := hG
      simp only at g1 g2 g3 g5
      have hfq := find_of_get? lm.pendings i key b hinv.2.2.2.1 hb
      have hnd : b.transactions.Nodup := hinv.2.2.2.2.2.1 key b.transactions (by simp [queueOf, hfq])
      have her := eraseIdx_eq_removeFirst b.transactions _ x hnd hx
      have hset : lm2.pendings.set i (key, ⟨removeFirst b.transactions x,
          Int.tmod (b.lastTryIndex + 1) b.transactions.length - 1⟩) =
          Dict.Store lm.pendings key ⟨removeFirst b.transactions x,
            Int.tmod (b.lastTryIndex + 1) b.transactions.length - 1⟩ := by
        rw [g2]
        simp only [List.set_set]
        exact set_eq_Store lm.pendings i key b _ hinv.2.2.2.1 hb
      have hf2 : Dict.find lm2.transactions x =
          some { ti with acquiredLocks := ti.acquiredLocks ++ [ti.pendingLock] } := by
        rw [g3, Dict.find_Store, if_pos rfl, hf]
        rfl
      refine ⟨ti, o, b.transactions, hf, hv, himp, ho, hg, by simp [queueOf, hfq], hxmem, ?_,
        ?_, ?_, ?_, ?_, ?_⟩
      · rw [← h3]
        exact g1
      · rw [← h3]
        simp only [hf2]
        rw [g3, Dict.Store_Store]
      · rw [← h3]
        exact g4
      · rw [← h3]
        exact g5
      · rw [← h3]
        simp only [her, hset]
        have hk := Dict.keys_Store lm.pendings key
          (⟨removeFirst b.transactions x,
            Int.tmod (b.lastTryIndex + 1) b.transactions.length - 1⟩ : PendingInfo)
        by_cases hlen : (removeFirst b.transactions x).length = 0
        · simp only [hlen, if_true]
          exact List.Pairwise.sublist (Dict.keys_Remove_sublist _ _)
            (by rw [hk]; exact hinv.2.2.2.1)
        · simp only [hlen, if_false]
          rw [hk]; exact hinv.2.2.2.1
      · intro key2
        rw [← h3]
        simp only [her, hset]
        by_cases hlen : (removeFirst b.transactions x).length = 0
        · simp only [hlen, if_true, queueOf_Remove]
          by_cases ek : key2 = key
          · simp [ek]
          · simp only [ek, if_false, queueOf_Store]
        · simp only [hlen, if_false, queueOf_Store, hfq, Option.map_some']
    · rw [e]
      simp only [Bool.not_true, Bool.false_eq_true, if_false]
      have hq2 : Quiet lm lm2 := Quiet_trans lm _ lm2 hq1 (Quiet_of_SameLocks _ lm2 hS hP)
      have hnotx : ¬ PendingGrantable bm lm x := not_grantable_of_blocked bm lm x ti o hf ho hg
      by_cases hstop : Int.tmod (b.lastTryIndex + 1) b.transactions.length = stop
      · simp only [hstop, ne_eq, not_true_eq_false, if_false]
        refine ⟨?_, fun _ _ _ h => (by simp at h)⟩
        intro lm4 res h
        simp only [Outcome.ok.injEq, Prod.mk.injEq, and_true] at h
        obtain ⟨h4, -⟩ := h
        subst h4
        refine ⟨hq2, by rw [← hstop]; exact hl0, by rw [← hstop]; exact hlt, ?_⟩
        intro hge idx y hbet hy
        have hem := tmod_eq_emod_of_nonneg (b.lastTryIndex + 1) b.transactions.length (by omega)
        rcases Between_step _ _ _ _ hbet with h1 | ⟨h1, -⟩
        · have : idx = (Int.tmod (b.lastTryIndex + 1) b.transactions.length).toNat := by
            rw [hem]
            omega
          rw [this, hx] at hy
          cases hy
          exact hnotx
        · rw [← hem, hstop] at h1
          exact absurd rfl h1
      · simp only [ne_eq, hstop, not_false_eq_true, if_true]
        have hinv2 := Inv_SameLocks bm _ lm2 hinv1 hS
        have hb2 : lm2.pendings.get? i = some (key,
            ({ b with lastTryIndex := Int.tmod (b.lastTryIndex + 1) b.transactions.length } :
              PendingInfo)) := by
          rw [hP]
          exact hb1
        obtain ⟨ih1, ih2⟩ := ih lm2 ⟨true⟩ key _ hinv2 hb2
        refine ⟨?_, ?_⟩
        · intro lm4 res h
          obtain ⟨k1, k2, k3, k4⟩ := ih1 lm4 res h
          refine ⟨Quiet_trans lm lm2 lm4 hq2 k1, k2, k3, ?_⟩
          intro hge idx y hbet hy
          have hem := tmod_eq_emod_of_nonneg (b.lastTryIndex + 1) b.transactions.length (by omega)
          rcases Between_step _ _ _ _ hbet with h1 | ⟨-, h1⟩
          · have : idx = (Int.tmod (b.lastTryIndex + 1) b.transactions.length).toNat := by
              rw [hem]
              omega
            rw [this, hx] at hy
            cases hy
            exact hnotx
          · rw [← hem] at h1
            have := k4 (by simp only; omega) idx y h1 hy
            exact fun hpg => this ((PendingGrantable_Quiet bm lm lm2 y hq2).mpr hpg)
        · intro lm4 res t h
          obtain ⟨k1, k2⟩ := ih2 lm4 res t h
          exact ⟨PickedFrom_Quiet bm lm lm2 lm4 t key hq2 k1, k2⟩

/-! ## The scheduler and rollback preserve the invariant -/

theorem Inv_Picked (bm : BufferManager) (lm lm3 : LockManager) (t : BufferTransaction)
    (key : Nat) (hinv : Inv bm lm) (h : PickedFrom bm lm lm3 t key) : Inv bm lm3 := by
  obtain ⟨ti, o, q, hf, hv, himp, ho, hg, hq, hmem, h1, h2, h3, h4, h5, h6⟩ := h
  obtain ⟨-, htr, hc, hp⟩ := hinv
  refine ⟨h3, ?_, ?_, ?_⟩
  · rw [h2]
    exact TransInv_Store _ _ _ htr (htr.2 t ti hf)
  · rw [h2]
    exact CountsInv_grant bm _ _ _ t ti _ ti.pendingLock o hc hf ho hg h4 rfl
  · rw [h2]
    subst himp
    have hmid := PendInv_dequeue lm.transactions lm.pendings
      (Dict.Store lm.pendings ti.importance ⟨removeFirst q t, 0⟩) t ti
      { ti with acquiredLocks := ti.acquiredLocks ++ [ti.pendingLock],
                pendingLock := LockTarget.Invalid } q hp hf
      LockTarget.Invalid_not_valid hq
      (by rw [Dict.keys_Store]; exact hp.1)
      (by
        intro key2
        rw [queueOf_Store]
        by_cases e : key2 = ti.importance
        · simp only [e, if_true]
          unfold queueOf at hq
          cases hfd : Dict.find lm.pendings ti.importance with
          | none => rw [hfd] at hq; cases hq
          | some b => rfl
        · simp only [e, if_false])
    by_cases hlen : (removeFirst q t).length = 0
    · refine PendInv_dropEmpty _ _ _ ti.importance hmid ?_ h5 ?_
      · rw [queueOf_Store, if_pos rfl]
        unfold queueOf at hq
        cases hfd : Dict.find lm.pendings ti.importance with
        | none => rw [hfd] at hq; cases hq
        | some b =>
          simp only [Option.map_some']
          rw [List.length_eq_zero.mp hlen]
      · intro key2
        rw [h6 key2, queueOf_Store]
        by_cases e : key2 = ti.importance
        · simp only [e, if_true, hlen]
        · simp only [e, if_false]
    · refine PendInv_congr _ _ _ hmid h5 ?_
      intro key2
      rw [h6 key2, queueOf_Store]
      by_cases e : key2 = ti.importance
      · simp only [e, if_true, hlen, if_false]
        unfold queueOf at hq
        cases hfd : Dict.find lm.pendings ti.importance with
        | none => rw [hfd] at hq; cases hq
        | some b => rfl
      · simp only [e, if_false]

theorem Inv_Quiet (bm : BufferManager) (lm lm2 : LockManager) (hinv : Inv bm lm)
    (h : Quiet lm lm2) : Inv bm lm2 :=
  Inv_SameLocks bm lm lm2 hinv (Quiet_SameLocks bm lm lm2 hinv h)

theorem Inv_rollbackLocks (bm : BufferManager) (trans : BufferTransaction) :
    ∀ (n : Nat) (lm lm2 : LockManager), Inv bm lm → rollbackLocks bm trans n lm = some lm2 →
      Inv bm lm2 := by
  intro n
  induction n with
  | zero =>
    intro lm lm2 hinv h
    simp only [rollbackLocks, Option.some.injEq] at h
    rw [← h]
    exact hinv
  | succ n ih =>
    intro lm lm2 hinv h
    rw [rollbackLocks] at h
    cases hf : Dict.find lm.transactions trans with
    | none => simp only [hf] at h; cases h
    | some ti =>
      simp only [hf] at h
      cases hg : ti.acquiredLocks.get? n with
      | none => simp only [hg] at h; cases h
      | some target =>
        simp only [hg] at h
        cases hr : lm.ReleaseLockUnsafe bm trans target with
        | none => simp only [hr] at h; cases h
        | some r =>
          obtain ⟨s, lm1⟩ := r
          simp only [hr] at h
          cases s with
          | false => simp at h
          | true =>
            simp only [Bool.not_true, Bool.false_eq_true, if_false] at h
            exact ih lm1 lm2 (Inv_ReleaseLockUnsafe bm lm lm1 trans target true hinv hr) h

theorem Inv_Rollback (bm : BufferManager) (lm lm2 : LockManager) (trans : BufferTransaction)
    (r : Bool) (hinv : Inv bm lm) (h : lm.Rollback bm trans = some (r, lm2)) : Inv bm lm2 := by
  unfold LockManager.Rollback at h
  cases hf : Dict.find lm.transactions trans with
  | none =>
    simp only [hf, Option.some.injEq, Prod.mk.injEq] at h
    rw [← h.2]
    exact hinv
  | some ti =>
    simp only [hf] at h
    split at h
    · simp only [Option.some.injEq, Prod.mk.injEq] at h
      rw [← h.2]
      exact hinv
    · cases hr : lm.ReleaseLockUnsafe bm trans ti.pendingLock with
      | none => simp only [hr] at h; cases h
      | some r1 =>
        obtain ⟨s, lm1⟩ := r1
        simp only [hr] at h
        have hinv1 := Inv_ReleaseLockUnsafe bm lm lm1 trans _ s hinv hr
        split at h
        · cases h
        · cases hf1 : Dict.find lm1.transactions trans with
          | none => simp only [hf1] at h; cases h
          | some ti1 =>
            simp only [hf1, Option.map_eq_some'] at h
            obtain ⟨lm3, h3, e⟩ := h
            simp only [Prod.mk.injEq] at e
            rw [← e.2]
            exact Inv_rollbackLocks bm trans _ lm1 lm3 hinv1 h3

theorem Between_all (n : Nat) (l : Int) (idx : Nat) (hidx : idx < n)
    (hl : l = -1 ∨ (0 ≤ l ∧ l < n)) :
    Between n l (if l = -1 then (n : Int) - 1 else l) idx := by
  rcases hl with hl | ⟨h0, h1⟩
  · subst hl
    simp only [if_true]
    refine ⟨idx + 1, by omega, ?_, ?_⟩
    · have : (-1 + ((idx + 1 : Nat) : Int)) = (idx : Int) := by push_cast; ring
      rw [this]
      exact (Int.emod_eq_of_lt (by omega) (by omega)).symm
    · intro j2 h1 h2
      have : (-1 + (j2 : Int)) % (n : Int) = (j2 : Int) - 1 := by
        have e : (-1 + (j2 : Int)) = (j2 : Int) - 1 := by ring
        rw [e]
        exact Int.emod_eq_of_lt (by omega) (by omega)
      rw [this]
      omega
  · have hne : l ≠ -1 := by omega
    simp only [hne, if_false]
    by_cases hgt : l < idx
    · refine ⟨(idx - l).toNat, by omega, ?_, ?_⟩
      · have : l + (((idx : Int) - l).toNat : Int) = idx := by
          rw [Int.toNat_of_nonneg (by omega)]; ring
        rw [this]
        exact (Int.emod_eq_of_lt (by omega) (by omega)).symm
      · intro j2 h2 h3
        have hj : (j2 : Int) < idx - l := by omega
        have : (l + (j2 : Int)) % (n : Int) = l + j2 := Int.emod_eq_of_lt (by omega) (by omega)
        rw [this]
        omega
    · refine ⟨(idx - l + n).toNat, by omega, ?_, ?_⟩
      · have : l + (((idx : Int) - l + n).toNat : Int) = idx + n := by
          rw [Int.toNat_of_nonneg (by omega)]; ring
        rw [this, Int.add_emod_self]
        exact (Int.emod_eq_of_lt (by omega) (by omega)).symm
      · intro j2 h2 h3
        have hj : (j2 : Int) < idx - l + n := by omega
        by_cases hw : l + (j2 : Int) < n
        · have : (l + (j2 : Int)) % (n : Int) = l + j2 := Int.emod_eq_of_lt (by omega) hw
          rw [this]
          omega
        · have e : l + (j2 : Int) = (l + j2 - n) + n := by ring
          rw [e, Int.add_emod_self]
          have : (l + (j2 : Int) - n) % (n : Int) = l + j2 - n :=
            Int.emod_eq_of_lt (by omega) (by omega)
          rw [this]
          omega

theorem queues_get? (lm : LockManager) (i : Nat) :
    (queues lm).get? i = (lm.pendings.get? i).map fun kb => (kb.1, kb.2.transactions) := by
  unfold queues
  simp [List.get?_eq_getElem?]

theorem queues_length (lm : LockManager) : (queues lm).length = lm.pendings.length := by
  unfold queues
  simp

theorem pickFromBuckets_spec (bm : BufferManager) (fuel : Nat) :
    ∀ (n : Nat) (lm : LockManager) (result : LockResult), Inv bm lm →
      ∀ lm2 res t, pickFromBuckets bm fuel n lm result = Outcome.ok (lm2, res, t) →
        (t = none ∧ Quiet lm lm2 ∧
          ∀ i key q x, i < n → (queues lm).get? i = some (key, q) → x ∈ q →
            ¬ PendingGrantable bm lm x) ∨
        (Handle.IsValid t = true ∧ res.blocked = false ∧
          ∃ i key q, i < n ∧ (queues lm).get? i = some (key, q) ∧ PickedFrom bm lm lm2 t key ∧
            ∀ i2 key2 q2 x, i < i2 → i2 < n → (queues lm).get? i2 = some (key2, q2) → x ∈ q2 →
              ¬ PendingGrantable bm lm x) := by
  intro n
  induction n with
  | zero =>
    intro lm result hinv lm2 res t h
    simp only [pickFromBuckets, Outcome.ok.injEq, Prod.mk.injEq] at h
    obtain ⟨h1, -, h3⟩ := h
    left
    subst h1
    exact ⟨h3.symm, Quiet_refl bm lm hinv, fun i _ _ _ hi => absurd hi (Nat.not_lt_zero i)⟩
  | succ n ih =>
    intro lm result hinv lm2 res t h
    rw [pickFromBuckets] at h
    cases hb : lm.pendings.get? n with
    | none => simp only [hb] at h; cases h
    | some kb =>
      obtain ⟨key, b⟩ := kb
      simp only [hb] at h
      obtain ⟨s1, s2⟩ := pickInBucket_spec bm n
        (if b.lastTryIndex = -1 then (b.transactions.length : Int) - 1 else b.lastTryIndex)
        fuel lm result key b hinv hb
      have hqn : (queues lm).get? n = some (key, b.transactions) := by
        rw [queues_get?, hb]; rfl
      cases hp : pickInBucket bm n
        (if b.lastTryIndex = -1 then (b.transactions.length : Int) - 1 else b.lastTryIndex)
        fuel lm result with
      | error => simp only [hp] at h; cases h
      | timeout => simp only [hp] at h; cases h
      | ok r =>
        obtain ⟨lm1, res1, p⟩ := r
        cases p with
        | some picked =>
          simp only [hp, Outcome.ok.injEq, Prod.mk.injEq] at h
          obtain ⟨h1, h2, h3⟩ := h
          subst h1; subst h2; subst h3
          obtain ⟨k1, k2, k3⟩ := s2 lm1 res1 picked hp
          right
          refine ⟨k3, k2, n, key, b.transactions, Nat.lt_succ_self n, hqn, k1, ?_⟩
          intro i2 _ _ _ h1 h2
          omega
        | none =>
          simp only [hp] at h
          obtain ⟨k1, k2, k3, k4⟩ := s1 lm1 res1 hp
          have hinv1 := Inv_Quiet bm lm lm1 hinv k1
          have hqq : queues lm1 = queues lm := k1.2.2.2.2
          have hcover : ∀ x, x ∈ b.transactions → ¬ PendingGrantable bm lm x := by
            intro x hx
            obtain ⟨idx, hidx, hget⟩ := List.getElem_of_mem hx
            have hl : b.lastTryIndex = -1 ∨
                (0 ≤ b.lastTryIndex ∧ b.lastTryIndex < b.transactions.length) := by
              by_cases e : b.lastTryIndex = -1
              · exact Or.inl e
              · right
                simp only [e, if_false] at k2 k3
                exact ⟨k2, k3⟩
            have hbt := Between_all b.transactions.length b.lastTryIndex idx hidx hl
            refine k4 (by rcases hl with e | e <;> omega) idx x hbt ?_
            rw [List.get?_eq_getElem?, List.getElem?_eq_getElem hidx, hget]
          rcases ih lm1 res1 hinv1 lm2 res t h with ⟨e1, e2, e3⟩ | ⟨e1, e2, i, key2, q2, e3, e4, e5, e6⟩
          · left
            refine ⟨e1, Quiet_trans lm lm1 lm2 k1 e2, ?_⟩
            intro i key3 q3 x hi hq hx
            rcases Nat.lt_succ_iff_lt_or_eq.mp hi with hlt | heq
            · rw [← hqq] at hq
              exact fun hpg => e3 i key3 q3 x hlt hq hx
                ((PendingGrantable_Quiet bm lm lm1 x k1).mpr hpg)
            · subst heq
              rw [hqn] at hq
              simp only [Option.some.injEq, Prod.mk.injEq] at hq
              rw [← hq.2] at hx
              exact hcover x hx
          · right
            refine ⟨e1, e2, i, key2, q2, Nat.lt_succ_of_lt e3, by rw [← hqq]; exact e4,
              PickedFrom_Quiet bm lm lm1 lm2 t key2 k1 e5, ?_⟩
            intro i2 key3 q3 x h1 h2 hq hx
            rcases Nat.lt_succ_iff_lt_or_eq.mp h2 with hlt | heq
            · rw [← hqq] at hq
              exact fun hpg => e6 i2 key3 q3 x h1 hlt hq hx
                ((PendingGrantable_Quiet bm lm lm1 x k1).mpr hpg)
            · subst heq
              rw [hqn] at hq
              simp only [Option.some.injEq, Prod.mk.injEq] at hq
              rw [← hq.2] at hx
              exact hcover x hx

theorem Inv_PickTransaction (bm : BufferManager) (fuel : Nat) (lm lm2 : LockManager)
    (result res : LockResult) (t : BufferTransaction) (hinv : Inv bm lm)
    (h : lm.PickTransaction bm fuel result = Outcome.ok (lm2, res, t)) : Inv bm lm2 := by
  unfold LockManager.PickTransaction at h
  rcases pickFromBuckets_spec bm fuel _ lm result hinv lm2 res t h with ⟨-, e, -⟩ |
      ⟨-, -, i, key, q, -, -, e, -⟩
  · exact Inv_Quiet bm lm lm2 hinv e
  · exact Inv_Picked bm lm lm2 t key hinv e

theorem Inv_step (bm : BufferManager) (lm lm2 : LockManager) (op : Op) (hinv : Inv bm lm)
    (h : lm.step bm op = some lm2) : Inv bm lm2 := by
  cases op with
  | RegisterTable table source =>
    simp only [LockManager.step, Option.some.injEq] at h
    rw [← h]
    exact Inv_RegisterTable bm lm table source hinv
  | UnregisterTable table =>
    simp only [LockManager.step, Option.some.injEq] at h
    rw [← h]
    exact Inv_UnregisterTable bm lm table hinv
  | RegisterTransaction t importance =>
    simp only [LockManager.step, Option.some.injEq] at h
    rw [← h]
    exact Inv_RegisterTransaction bm lm t importance hinv
  | UnregisterTransaction t =>
    simp only [LockManager.step, Option.some.injEq] at h
    rw [← h]
    exact Inv_UnregisterTransaction bm lm t hinv
  | AcquireLock owner target =>
    simp only [LockManager.step, LockManager.AcquireLock, Option.map_eq_some'] at h
    obtain ⟨⟨r, lm3, res⟩, h1, h2⟩ := h
    simp only at h2
    subst h2
    exact Inv_AcquireLockUnsafe bm lm lm3 owner target _ res true r hinv h1
  | ReleaseLock owner target =>
    simp only [LockManager.step, LockManager.ReleaseLock, Option.map_eq_some'] at h
    obtain ⟨⟨r, lm3⟩, h1, h2⟩ := h
    simp only at h2
    subst h2
    exact Inv_ReleaseLockUnsafe bm lm lm3 owner target r hinv h1
  | UpgradeLock owner old newAccess =>
    simp only [LockManager.step, LockManager.UpgradeLock, Option.map_eq_some'] at h
    obtain ⟨⟨r, lm3, res⟩, h1, h2⟩ := h
    simp only at h2
    subst h2
    exact Inv_UpgradeLockUnsafe bm lm lm3 owner old newAccess _ res r hinv h1
  | PickTransaction fuel =>
    simp only [LockManager.step] at h
    cases hp : lm.PickTransaction bm fuel ⟨false⟩ with
    | error => simp only [hp] at h; cases h
    | timeout => simp only [hp] at h; cases h
    | ok r =>
      obtain ⟨lm3, res, t⟩ := r
      simp only [hp, Option.some.injEq] at h
      subst h
      exact Inv_PickTransaction bm fuel lm lm3 _ res t hinv hp
  | DetectDeadlock fuel =>
    simp only [LockManager.step] at h
    cases hp : lm.DetectDeadlock fuel ⟨[], [], []⟩ with
    | error => simp only [hp] at h; cases h
    | timeout => simp only [hp] at h; cases h
    | ok r =>
      simp only [hp, Option.some.injEq] at h
      subst h
      exact hinv
  | Rollback t =>
    simp only [LockManager.step, Option.map_eq_some'] at h
    obtain ⟨⟨r, lm3⟩, h1, h2⟩ := h
    simp only at h2
    subst h2
    exact Inv_Rollback bm lm lm3 t r hinv h1

theorem Inv_run (bm : BufferManager) (ops : List Op) :
    ∀ (lm lm2 : LockManager), Inv bm lm → LockManager.run bm lm ops = some lm2 → Inv bm lm2 := by
  induction ops with
  | nil =>
    intro lm lm2 hinv h
    simp only [LockManager.run, Option.some.injEq] at h
    subst h
    exact hinv
  | cons op ops ih =>
    intro lm lm2 hinv h
    rw [LockManager.run] at h
    cases hs : lm.step bm op with
    | none => simp only [hs] at h; cases h
    | some lm1 =>
      simp only [hs] at h
      exact ih lm1 lm2 (Inv_step bm lm lm1 op hinv hs) h

theorem Reachable_Inv (bm : BufferManager) (lm : LockManager) (h : Reachable bm lm) :
    Inv bm lm := by
  obtain ⟨ops, h⟩ := h
  exact Inv_run bm ops _ lm (Inv_empty bm) h

/-! ## Reachable states -/

theorem Reachable_stateAfter (ops : List Op)
    (h : (LockManager.run sampleBuffers LockManager.empty ops).isSome = true) :
    Reachable sampleBuffers (stateAfter ops) := by
  refine ⟨ops, ?_⟩
  unfold stateAfter
  cases hr : LockManager.run sampleBuffers LockManager.empty ops with
  | none => rw [hr] at h; cases h
  | some lm => rfl

theorem countP_two {α : Type} (p : α → Bool) :
    ∀ (l : List α) (i j : Nat) (x y : α), l.get? i = some x → l.get? j = some y → i < j →
      p x = true → p y = true → 2 ≤ l.countP p := by
  intro l
  induction l with
  | nil => intro i j x y h; simp at h
  | cons a l ih =>
    intro i j x y hi hj hlt hx hy
    cases j with
    | zero => omega
    | succ j =>
      simp only [List.get?_cons_succ] at hj
      cases i with
      | zero =>
        simp only [List.get?_cons_zero, Option.some.injEq] at hi
        subst hi
        rw [List.countP_cons_of_pos _ _ hx]
        have : 0 < l.countP p := List.countP_pos_iff.mpr ⟨y, List.get?_mem hj, hy⟩
        omega
      | succ i =>
        simp only [List.get?_cons_succ] at hi
        have := ih i j x y hi hj (by omega) hx hy
        rw [List.countP_cons]
        omega

theorem heldIn_two (bm : BufferManager) (o : LockObject) (a : LockTargetAccess)
    (l : List LockTarget) (i j : Nat) (e1 e2 : LockTarget) (hi : l.get? i = some e1)
    (hj : l.get? j = some e2) (hne : i ≠ j) (h1 : objectOf bm e1 = some o)
    (h2 : objectOf bm e2 = some o) (a1 : e1.access = a) (a2 : e2.access = a) :
    2 ≤ heldIn bm o a l := by
  unfold heldIn
  rcases Nat.lt_or_gt_of_ne hne with h | h
  · exact countP_two _ l i j e1 e2 hi hj h (by simp [h1, a1]) (by simp [h2, a2])
  · exact countP_two _ l j i e2 e1 hj hi h (by simp [h2, a2]) (by simp [h1, a1])

theorem heldAll_two (bm : BufferManager) (tr : Dict BufferTransaction TransInfo)
    (k1 k2 : BufferTransaction) (ti1 ti2 : TransInfo) (o : LockObject) (a : LockTargetAccess)
    (h1 : Dict.find tr k1 = some ti1) (h2 : Dict.find tr k2 = some ti2) (hne : k1 ≠ k2) :
    heldIn bm o a ti1.acquiredLocks + heldIn bm o a ti2.acquiredLocks ≤ heldAll bm tr o a := by
  have e := heldAll_Store bm tr k1 ti1 { ti1 with acquiredLocks := [] } o a h1
  have h3 : Dict.find (Dict.Store tr k1 { ti1 with acquiredLocks := [] }) k2 = some ti2 := by
    rw [Dict.find_Store, if_neg (fun e => hne e.symm)]
    exact h2
  have := heldIn_le_heldAll bm _ k2 ti2 o a h3
  simp only [heldIn_nil] at e
  omega

/-- C2.  In every state reachable from the empty manager by public operations,
two distinct held-lock entries (of two transactions or of one) that designate
the same object have accesses that are compatible in both directions. -/
theorem held_locks_compatible (bm : BufferManager) (lm : LockManager) (hr : Reachable bm lm)
    (t1 t2 : BufferTransaction) (ti1 ti2 : TransInfo) (i j : Nat) (e1 e2 : LockTarget)
    (o : LockObject)
    (h1 : Dict.find lm.transactions t1 = some ti1) (h2 : Dict.find lm.transactions t2 = some ti2)
    (hi : ti1.acquiredLocks.get? i = some e1) (hj : ti2.acquiredLocks.get? j = some e2)
    (hne : t1 ≠ t2 ∨ i ≠ j)
    (ho1 : objectOf bm e1 = some o) (ho2 : objectOf bm e2 = some o) :
    lockCompatibility e1.access e2.access = true ∧
      lockCompatibility e2.access e1.access = true := by
  obtain ⟨-, -, hc, -⟩ := Reachable_Inv bm lm hr
  have p1 := CountsInv_held_pos bm _ _ t1 ti1 e1 o hc h1 (List.get?_mem hi) ho1
  have p2 := CountsInv_held_pos bm _ _ t2 ti2 e2 o hc h2 (List.get?_mem hj) ho2
  have key : lockCompatibility e1.access e2.access = true := by
    refine hc.2 o e1.access e2.access (by omega) (by omega) ?_
    by_cases ea : e1.access = e2.access
    · right
      rw [hc.1]
      by_cases et : t1 = t2
      · subst et
        rw [h1] at h2
        cases h2
        have hij : i ≠ j := by
          rcases hne with h | h
          · exact absurd rfl h
          · exact h
        have := heldIn_two bm o e1.access ti1.acquiredLocks i j e1 e2 hi hj hij ho1 ho2 rfl
          ea.symm
        have := heldIn_le_heldAll bm lm.transactions t1 ti1 o e1.access h1
        omega
      · have := heldAll_two bm lm.transactions t1 t2 ti1 ti2 o e1.access h1 h2 et
        have q1 := heldIn_pos bm o ti1.acquiredLocks e1 (List.get?_mem hi) ho1
        have q2 := heldIn_pos bm o ti2.acquiredLocks e2 (List.get?_mem hj) ho2
        rw [← ea] at q2
        omega
    · exact Or.inl ea
  exact ⟨key, by rw [lockCompatibility_symm]; exact key⟩

theorem held_locks_compatible_witness :
    Reachable sampleBuffers (stateAfter twoReaders) ∧
    lockCompatibility (tableTarget 3 0).access (tableTarget 3 0).access = true ∧
      lockCompatibility (tableTarget 3 0).access (tableTarget 3 0).access = true :=
  ⟨Reachable_stateAfter twoReaders (by decide),
    held_locks_compatible sampleBuffers (stateAfter twoReaders)
      (Reachable_stateAfter twoReaders (by decide)) (some 1) (some 2)
      ⟨some 1, 1, [tableTarget 3 0], LockTarget.Invalid⟩
      ⟨some 2, 1, [tableTarget 3 0], LockTarget.Invalid⟩ 0 0 (tableTarget 3 0) (tableTarget 3 0)
      (LockObject.Table 0) (by decide) (by decide) (by decide) (by decide)
      (Or.inl (by decide)) (by decide) (by decide)⟩

/-- C3.  In every state reachable from the empty manager by public operations,
for every lockable object and every access `a`, the counter
`acquiredLocks[a]` of the object (zero when the object has no lock state)
equals the number of entries, over the `acquiredLocks` of all registered
transactions, that designate the object with access `a`. -/
theorem counters_match_held (bm : BufferManager) (lm : LockManager) (hr : Reachable bm lm)
    (o : LockObject) (a : LockTargetAccess) :
    holders lm.tableLocks o a = (heldBy bm lm o a : Int) :=
  (Reachable_Inv bm lm hr).2.2.1.1 o a

theorem counters_match_held_witness :
    Reachable sampleBuffers (stateAfter twoReaders) ∧
    holders (stateAfter twoReaders).tableLocks (LockObject.Table 0) 3 = 2 ∧
    heldBy sampleBuffers (stateAfter twoReaders) (LockObject.Table 0) 3 = 2 :=
  ⟨Reachable_stateAfter twoReaders (by decide),
    (counters_match_held sampleBuffers (stateAfter twoReaders)
      (Reachable_stateAfter twoReaders (by decide)) (LockObject.Table 0) 3).trans (by decide),
    by decide⟩

theorem CheckInputUnsafe_valid (lm : LockManager) (owner : BufferTransaction)
    (target : LockTarget) (ti : TransInfo) (ht : Handle.IsValid owner = true)
    (hf : Dict.find lm.transactions owner = some ti) (hL : target.HandlesValid = true)
    (hreg : lm.tables.Contains target.table = true) :
    lm.CheckInputUnsafe owner target = some ti := by
  unfold LockTarget.HandlesValid at hL
  simp only [Bool.and_eq_true] at hL
  obtain ⟨h1, h2⟩ := hL
  unfold LockManager.CheckInputUnsafe
  simp only [ht, h1, hreg, Bool.not_true, Bool.false_eq_true, if_false]
  cases ho : target.object with
  | Table => simpa using hf
  | Page page =>
    rw [ho] at h2
    simp only at h2
    simpa [h2] using hf
  | Row address =>
    rw [ho] at h2
    simp only at h2
    simpa [h2] using hf

/-- C4.  In a reachable state, for a registered transaction `t` (a valid
handle, with `TransInfo` `ti`) and a target `L` with valid handles on a
registered table that designates object `o`: if `t` already has a valid
pending lock, `AcquireLock` returns false and changes nothing; otherwise it
returns true, with `blocked = false` when `L.access` is compatible with every
mode held on `o` (then `L` is appended to the held locks of `t` and the
counter of `L.access` on `o` grows by one, nothing else changes), and with
`blocked = true` when it is not (then no counter and no list of held locks
changes, `t` is appended to the bucket of its importance and its pending lock
becomes `L`). -/
theorem acquireLock_spec (bm : BufferManager) (lm : LockManager) (hr : Reachable bm lm)
    (t : BufferTransaction) (ti : TransInfo) (L : LockTarget) (o : LockObject)
    (result : LockResult)
    (ht : Handle.IsValid t = true) (hf : Dict.find lm.transactions t = some ti)
    (hL : L.HandlesValid = true) (hreg : lm.tables.Contains L.table = true)
    (ho : objectOf bm L = some o) :
    (ti.pendingLock.IsValid = true → lm.AcquireLock bm t L result = some (false, lm, result)) ∧
    (ti.pendingLock.IsValid = false →
      (Grantable (holders lm.tableLocks o) L.access →
        ∃ lm2, lm.AcquireLock bm t L result = some (true, lm2, ⟨false⟩) ∧
          Granted lm lm2 t ti L o) ∧
      (¬ Grantable (holders lm.tableLocks o) L.access →
        ∃ lm2, lm.AcquireLock bm t L result = some (true, lm2, ⟨true⟩) ∧
          Enqueued lm lm2 t ti L)) := by
  have hinv := Reachable_Inv bm lm hr
  have hti := CheckInputUnsafe_valid lm t L ti ht hf hL hreg
  refine ⟨?_, ?_⟩
  · intro hv
    exact AcquireLockUnsafe_reject bm lm t L result true (Or.inr ⟨ti, hti, by simp [hv]⟩)
  · intro hv
    obtain ⟨s1, s2, -⟩ := AcquireLockUnsafe_spec bm lm t L result true ti o hinv hti
      (by simp [hv]) ho
    exact ⟨s1, fun hg => s2 hg rfl⟩

theorem acquireLock_spec_witness :
    Reachable sampleBuffers (stateAfter oneWriter) ∧
    ((LockTarget.Invalid).IsValid = true →
      (stateAfter oneWriter).AcquireLock sampleBuffers (some 2) (tableTarget 0 0) ⟨false⟩ =
        some (false, stateAfter oneWriter, ⟨false⟩)) ∧
    ((LockTarget.Invalid).IsValid = false →
      (Grantable (holders (stateAfter oneWriter).tableLocks (LockObject.Table 0))
          (tableTarget 0 0).access →
        ∃ lm2, (stateAfter oneWriter).AcquireLock sampleBuffers (some 2) (tableTarget 0 0)
            ⟨false⟩ = some (true, lm2, ⟨false⟩) ∧
          Granted (stateAfter oneWriter) lm2 (some 2) ⟨some 2, 1, [], LockTarget.Invalid⟩
            (tableTarget 0 0) (LockObject.Table 0)) ∧
      (¬ Grantable (holders (stateAfter oneWriter).tableLocks (LockObject.Table 0))
          (tableTarget 0 0).access →
        ∃ lm2, (stateAfter oneWriter).AcquireLock sampleBuffers (some 2) (tableTarget 0 0)
            ⟨false⟩ = some (true, lm2, ⟨true⟩) ∧
          Enqueued (stateAfter oneWriter) lm2 (some 2) ⟨some 2, 1, [], LockTarget.Invalid⟩
            (tableTarget 0 0))) :=
  ⟨Reachable_stateAfter oneWriter (by decide),
    acquireLock_spec sampleBuffers (stateAfter oneWriter)
      (Reachable_stateAfter oneWriter (by decide)) (some 2)
      ⟨some 2, 1, [], LockTarget.Invalid⟩ (tableTarget 0 0) (LockObject.Table 0) ⟨false⟩
      (by decide) (by decide) (by decide) (by decide) (by decide)⟩

/-- C5.  In a reachable state, for a registered transaction `t` (a valid
handle, with `TransInfo` `ti`) and a target `L` with valid handles on a
registered table that designates object `o`: if `L` is the pending lock of
`t`, `ReleaseLock` returns true, takes `t` out of the bucket of its importance
and clears its pending lock, leaving the lock tree and every list of held
locks untouched (whether or not `t` also holds `L`); otherwise it returns true
exactly when `L` is among the held locks of `t` (one entry and one count are
then given up), and when it returns false the manager is unchanged. -/
theorem releaseLock_spec (bm : BufferManager) (lm : LockManager) (hr : Reachable bm lm)
    (t : BufferTransaction) (ti : TransInfo) (L : LockTarget) (o : LockObject)
    (ht : Handle.IsValid t = true) (hf : Dict.find lm.transactions t = some ti)
    (hL : L.HandlesValid = true) (hreg : lm.tables.Contains L.table = true)
    (ho : objectOf bm L = some o) :
    (ti.pendingLock = L →
      ∃ q0 lm2, queueOf lm.pendings ti.importance = some q0 ∧ t ∈ q0 ∧
        t ∉ removeFirst q0 t ∧
        lm.ReleaseLock bm t L = some (true, lm2) ∧ Dequeued lm lm2 t ti q0) ∧
    (ti.pendingLock ≠ L →
      (L ∈ ti.acquiredLocks →
        ∃ lm2, lm.ReleaseLock bm t L = some (true, lm2) ∧ Released lm lm2 t ti L o) ∧
      (L ∉ ti.acquiredLocks → lm.ReleaseLock bm t L = some (false, lm))) := by
  have hinv := Reachable_Inv bm lm hr
  have hti := CheckInputUnsafe_valid lm t L ti ht hf hL hreg
  refine ⟨?_, ?_⟩
  · intro hp
    have hv : ti.pendingLock.IsValid = true := by
      rw [hp]
      unfold LockTarget.HandlesValid at hL
      simp only [Bool.and_eq_true] at hL
      exact hL.1
    obtain ⟨q0, lm2, h1, h2, h3, h4⟩ := ReleaseLockUnsafe_pending bm lm t L ti hinv hti hv hp
    exact ⟨q0, lm2, h1, h2,
      not_mem_removeFirst q0 t (hinv.2.2.2.2.2.1 ti.importance q0 h1), h3, h4⟩
  · intro hp
    exact ReleaseLockUnsafe_spec bm lm t L ti o hinv hti (Or.inr hp) ho



theorem releaseLock_spec_witness :
    Reachable sampleBuffers (stateAfter writerAndWaiter) ∧
    ∃ q0 lm2, queueOf (stateAfter writerAndWaiter).pendings 1 = some q0 ∧ some 2 ∈ q0 ∧
      some 2 ∉ removeFirst q0 (some 2) ∧
      (stateAfter writerAndWaiter).ReleaseLock sampleBuffers (some 2) (tableTarget 0 0) =
        some (true, lm2) ∧
      Dequeued (stateAfter writerAndWaiter) lm2 (some 2) ⟨some 2, 1, [], tableTarget 0 0⟩ q0 :=
  ⟨Reachable_stateAfter writerAndWaiter (by decide),
    (releaseLock_spec sampleBuffers (stateAfter writerAndWaiter)
      (Reachable_stateAfter writerAndWaiter (by decide)) (some 2)
      ⟨some 2, 1, [], tableTarget 0 0⟩ (tableTarget 0 0) (LockObject.Table 0)
      (by decide) (by decide) (by decide) (by decide) (by decide)).1 rfl⟩

/-- C6 (as stated, refuted).  A transaction that holds the mode 3 lock of a
table twice and upgrades it to mode 5 is blocked by its own second entry:
`UpgradeLock` returns true with `blocked = true` and the transaction still
holds the old lock.  And a transaction that holds a lock on a table that was
unregistered in the meantime gets false from `UpgradeLock` although the old
lock is among its held locks. -/
theorem upgradeLock_blocked_keeps_old :
    (Reachable sampleBuffers (stateAfter heldTwice) ∧
      Dict.find (stateAfter heldTwice).transactions (some 1) =
        some ⟨some 1, 1, [tableTarget 3 0, tableTarget 3 0], LockTarget.Invalid⟩ ∧
      upgradeOutcome
          ((stateAfter heldTwice).UpgradeLock sampleBuffers (some 1) (tableTarget 3 0) 5 ⟨false⟩)
          (some 1) =
        some (true, true, some ([tableTarget 3 0], tableTarget 5 0))) ∧
    (Reachable sampleBuffers (stateAfter heldThenUnregistered) ∧
      Dict.find (stateAfter heldThenUnregistered).transactions (some 1) =
        some ⟨some 1, 1, [tableTarget 3 0], LockTarget.Invalid⟩ ∧
      upgradeOutcome
          ((stateAfter heldThenUnregistered).UpgradeLock sampleBuffers (some 1)
            (tableTarget 3 0) 5 ⟨false⟩) (some 1) =
        some (false, false, some ([tableTarget 3 0], LockTarget.Invalid))) :=
  ⟨⟨Reachable_stateAfter heldTwice (by decide), by decide, by decide⟩,
    ⟨Reachable_stateAfter heldThenUnregistered (by decide), by decide, by decide⟩⟩

/-- C6 (amended).  In a reachable state, for a registered transaction `t` (a
valid handle, with `TransInfo` `ti`) without a pending lock and a target `old`
with valid handles on a registered table that designates object `o`:
`UpgradeLock` returns false and leaves the manager unchanged when `old` is not
among the held locks of `t`; otherwise it returns true, one entry `old` is
removed from the held locks of `t` and its counter decremented, and then
either `old` with access `newAccess` is granted (`blocked = false`, appended to
the held locks) when `newAccess` is compatible with every mode still held on
`o`, or `blocked = true`, the held locks of `t` are the former ones less one
entry `old`, and `t` is queued with pending lock `old` with access
`newAccess`. -/
theorem upgradeLock_spec (bm : BufferManager) (lm : LockManager) (hr : Reachable bm lm)
    (t : BufferTransaction) (ti : TransInfo) (old : LockTarget) (newAccess : LockTargetAccess)
    (o : LockObject) (result : LockResult)
    (ht : Handle.IsValid t = true) (hf : Dict.find lm.transactions t = some ti)
    (hv : ti.pendingLock.IsValid = false)
    (hL : old.HandlesValid = true) (hreg : lm.tables.Contains old.table = true)
    (ho : objectOf bm old = some o) :
    (old ∉ ti.acquiredLocks →
      lm.UpgradeLock bm t old newAccess result = some (false, lm, result)) ∧
    (old ∈ ti.acquiredLocks →
      Grantable (afterRelease (holders lm.tableLocks o) old.access) newAccess →
      ∃ lm2, lm.UpgradeLock bm t old newAccess result = some (true, lm2, ⟨false⟩) ∧
        Upgraded lm lm2 t ti old newAccess o) ∧
    (old ∈ ti.acquiredLocks →
      ¬ Grantable (afterRelease (holders lm.tableLocks o) old.access) newAccess →
      ∃ lm2, lm.UpgradeLock bm t old newAccess result = some (true, lm2, ⟨true⟩) ∧
        UpgradeBlocked lm lm2 t ti old newAccess o) :=
  UpgradeLockUnsafe_spec bm lm t old newAccess result ti o (Reachable_Inv bm lm hr)
    (CheckInputUnsafe_valid lm t old ti ht hf hL hreg) hv ho

theorem upgradeLock_spec_witness :
    Reachable sampleBuffers (stateAfter twoReaders) ∧
    ∃ lm2, (stateAfter twoReaders).UpgradeLock sampleBuffers (some 1) (tableTarget 3 0) 5
        ⟨false⟩ = some (true, lm2, ⟨true⟩) ∧
      UpgradeBlocked (stateAfter twoReaders) lm2 (some 1)
        ⟨some 1, 1, [tableTarget 3 0], LockTarget.Invalid⟩ (tableTarget 3 0) 5
        (LockObject.Table 0) :=
  ⟨Reachable_stateAfter twoReaders (by decide),
    (upgradeLock_spec sampleBuffers (stateAfter twoReaders)
      (Reachable_stateAfter twoReaders (by decide)) (some 1)
      ⟨some 1, 1, [tableTarget 3 0], LockTarget.Invalid⟩ (tableTarget 3 0) 5
      (LockObject.Table 0) ⟨false⟩
      (by decide) (by decide) (by decide) (by decide) (by decide) (by decide)).2.2
      (by decide)
      (fun hg => absurd (hg 3 (by decide)) (by decide))⟩

theorem queues_of_queueOf (lm : LockManager) (key : Nat) (q : List BufferTransaction)
    (h : queueOf lm.pendings key = some q) :
    ∃ i, i < lm.pendings.length ∧ (queues lm).get? i = some (key, q) := by
  unfold queueOf at h
  unfold queues
  generalize lm.pendings = l at h ⊢
  induction l with
  | nil => simp [Dict.find] at h
  | cons kv l ih =>
    obtain ⟨k, b⟩ := kv
    by_cases e : k = key
    · subst e
      simp only [Dict.find, if_true, Option.map_some', Option.some.injEq] at h
      exact ⟨0, by simp, by simp [h]⟩
    · simp only [Dict.find, e, if_false] at h
      obtain ⟨i, hi, hg⟩ := ih h
      exact ⟨i + 1, by simp; omega, by simpa using hg⟩

theorem index_lt_of_sorted (l : List Nat) (hs : l.Pairwise (fun x y => x < y)) (i j : Nat)
    (a b : Nat) (hi : l.get? i = some a) (hj : l.get? j = some b) (hab : a < b) : i < j := by
  by_contra hcon
  have hji : j ≤ i := Nat.le_of_not_lt hcon
  rw [List.get?_eq_getElem?] at hi hj
  obtain ⟨hi1, hi2⟩ := List.getElem?_eq_some_iff.mp hi
  obtain ⟨hj1, hj2⟩ := List.getElem?_eq_some_iff.mp hj
  rcases Nat.lt_or_eq_of_le hji with h | h
  · have := List.pairwise_iff_getElem.mp hs j i hj1 hi1 h
    omega
  · subst h
    omega

theorem queues_keys (lm : LockManager) (i key : Nat) (q : List BufferTransaction)
    (h : (queues lm).get? i = some (key, q)) :
    (lm.pendings.map Prod.fst).get? i = some key := by
  rw [queues_get?] at h
  rw [List.get?_eq_getElem?, List.getElem?_map, ← List.get?_eq_getElem?]
  cases hg : lm.pendings.get? i with
  | none => rw [hg] at h; cases h
  | some kb =>
    rw [hg] at h
    simp only [Option.map_some', Option.some.injEq, Prod.mk.injEq] at h
    simp [h.1]

theorem queueOf_of_queues (bm : BufferManager) (lm : LockManager) (hinv : Inv bm lm) (i key : Nat)
    (q : List BufferTransaction) (h : (queues lm).get? i = some (key, q)) :
    queueOf lm.pendings key = some q := by
  rw [queues_get?] at h
  cases hg : lm.pendings.get? i with
  | none => rw [hg] at h; cases h
  | some kb =>
    obtain ⟨k, b⟩ := kb
    rw [hg] at h
    simp only [Option.map_some', Option.some.injEq, Prod.mk.injEq] at h
    obtain ⟨h1, h2⟩ := h
    subst h1
    have := find_of_get? lm.pendings i k b hinv.2.2.2.1 hg
    unfold queueOf
    rw [this]
    simp [h2]

theorem not_grantable_above (bm : BufferManager) (lm : LockManager) (hinv : Inv bm lm)
    (i n key : Nat) (q : List BufferTransaction) (hn : n = lm.pendings.length)
    (hq : (queues lm).get? i = some (key, q))
    (hex : ∀ i2 key2 q2 x, i < i2 → i2 < n → (queues lm).get? i2 = some (key2, q2) → x ∈ q2 →
      ¬ PendingGrantable bm lm x)
    (x : BufferTransaction) (tx : TransInfo) (hf : Dict.find lm.transactions x = some tx)
    (hv : tx.pendingLock.IsValid = true) (hlt : key < tx.importance) :
    ¬ PendingGrantable bm lm x := by
  obtain ⟨q2, hq2, hx⟩ := hinv.2.2.2.2.2.2 x tx hf hv
  obtain ⟨i2, hi2, hg2⟩ := queues_of_queueOf lm _ q2 hq2
  have hlt2 := index_lt_of_sorted _ hinv.2.2.2.1 i i2 key tx.importance
    (queues_keys lm i key q hq) (queues_keys lm i2 _ q2 hg2) hlt
  exact hex i2 _ q2 x hlt2 (by omega) hg2 hx

theorem not_grantable_any (bm : BufferManager) (lm : LockManager) (hinv : Inv bm lm)
    (n : Nat) (hn : n = lm.pendings.length)
    (hex : ∀ i key q x, i < n → (queues lm).get? i = some (key, q) → x ∈ q →
      ¬ PendingGrantable bm lm x)
    (x : BufferTransaction) : ¬ PendingGrantable bm lm x := by
  intro hpg
  obtain ⟨tx, o, hf, hv, -, -⟩ := id hpg
  obtain ⟨q2, hq2, hx⟩ := hinv.2.2.2.2.2.2 x tx hf hv
  obtain ⟨i2, hi2, hg2⟩ := queues_of_queueOf lm _ q2 hq2
  exact hex i2 _ q2 x (by omega) hg2 hx hpg

theorem picked_not_queued (bm : BufferManager) (lm lm3 : LockManager) (t : BufferTransaction)
    (key : Nat) (hinv : Inv bm lm) (h : PickedFrom bm lm lm3 t key) (key2 : Nat)
    (q2 : List BufferTransaction) (hq2 : queueOf lm3.pendings key2 = some q2) : t ∉ q2 := by
  obtain ⟨ti, o, q, hf, hv, himp, ho, hg, hq, hmem, h1, h2, h3, h4, h5, h6⟩ := h
  rw [h6 key2] at hq2
  by_cases e : key2 = key
  · simp only [e, if_true] at hq2
    split at hq2
    · cases hq2
    · simp only [Option.some.injEq] at hq2
      rw [← hq2]
      exact not_mem_removeFirst q t (hinv.2.2.2.2.2.1 key q hq)
  · simp only [e, if_false] at hq2
    intro hm
    obtain ⟨ti2, hf2, -, hi2⟩ := hinv.2.2.2.2.1 key2 q2 t hq2 hm
    rw [hf] at hf2
    cases hf2
    exact e (hi2.symm.trans himp)

/-- C7.  In a reachable state, when `PickTransaction` returns: if it returns a
valid transaction `t`, then before the call `t` was registered with a valid
pending lock that was compatible with every mode held on its object, no
transaction with a valid pending lock and strictly greater importance had a
grantable pending lock, and after the call `t` holds that lock (appended to
its held locks, the counter of the object grown by one), its pending lock is
invalid, `t` is in no bucket and `result.blocked` is false; if it returns the
invalid handle, then no pending lock was grantable and no list of held locks
and no counter changed. -/
theorem pickTransaction_spec (bm : BufferManager) (lm : LockManager) (hr : Reachable bm lm)
    (fuel : Nat) (result : LockResult) (lm2 : LockManager) (res : LockResult)
    (t : BufferTransaction)
    (h : lm.PickTransaction bm fuel result = Outcome.ok (lm2, res, t)) :
    (Handle.IsValid t = true →
      ∃ ti o, Dict.find lm.transactions t = some ti ∧ ti.pendingLock.IsValid = true ∧
        objectOf bm ti.pendingLock = some o ∧
        Grantable (holders lm.tableLocks o) ti.pendingLock.access ∧
        (∀ x tx, Dict.find lm.transactions x = some tx → tx.pendingLock.IsValid = true →
          ti.importance < tx.importance → ¬ PendingGrantable bm lm x) ∧
        Dict.find lm2.transactions t =
          some { ti with
            acquiredLocks := ti.acquiredLocks ++ [ti.pendingLock]
            pendingLock := LockTarget.Invalid } ∧
        holders lm2.tableLocks o ti.pendingLock.access =
          holders lm.tableLocks o ti.pendingLock.access + 1 ∧
        (∀ key q, queueOf lm2.pendings key = some q → t ∉ q) ∧
        res.blocked = false) ∧
    (Handle.IsValid t = false →
      (∀ x, ¬ PendingGrantable bm lm x) ∧ lm2.transactions = lm.transactions ∧
        ∀ o, holders lm2.tableLocks o = holders lm.tableLocks o) := by
  have hinv := Reachable_Inv bm lm hr
  unfold LockManager.PickTransaction at h
  rcases pickFromBuckets_spec bm fuel _ lm result hinv lm2 res t h with ⟨e1, e2, e3⟩ |
      ⟨e1, e2, i, key, q, e3, e4, e5, e6⟩
  · refine ⟨fun hv => ?_, fun _ => ?_⟩
    · rw [e1] at hv
      cases hv
    · exact ⟨not_grantable_any bm lm hinv _ rfl e3, e2.2.1, e2.2.2.2.1⟩
  · refine ⟨fun _ => ?_, fun hv => ?_⟩
    · have hnq := picked_not_queued bm lm lm2 t key hinv e5
      obtain ⟨ti, o, q0, hf, hv, himp, ho, hg, hq, hmem, h1, h2, h3, h4, h5, h6⟩ := e5
      refine ⟨ti, o, hf, hv, ho, hg, ?_, ?_, ?_, hnq, e2⟩
      · intro x tx hfx hvx hlt
        rw [himp] at hlt
        exact not_grantable_above bm lm hinv i _ key q rfl e4 e6 x tx hfx hvx hlt
      · rw [h2, Dict.find_Store, if_pos rfl, hf]
        rfl
      · rw [h4, if_pos ⟨rfl, rfl⟩]
    · rw [e1] at hv
      cases hv

theorem pickTransaction_spec_witness :
    Reachable sampleBuffers (stateAfter writerLeft) ∧
    (stateAfter writerLeft).PickTransaction sampleBuffers 5 ⟨true⟩ =
      Outcome.ok (managerOf ((stateAfter writerLeft).PickTransaction sampleBuffers 5 ⟨true⟩),
        ⟨false⟩, some 2) ∧
    ∃ ti o, Dict.find (stateAfter writerLeft).transactions (some 2) = some ti ∧
      ti.pendingLock.IsValid = true ∧
      objectOf sampleBuffers ti.pendingLock = some o ∧
      Grantable (holders (stateAfter writerLeft).tableLocks o) ti.pendingLock.access ∧
      (∀ x tx, Dict.find (stateAfter writerLeft).transactions x = some tx →
        tx.pendingLock.IsValid = true →
        ti.importance < tx.importance → ¬ PendingGrantable sampleBuffers (stateAfter writerLeft) x) ∧
      Dict.find (managerOf ((stateAfter writerLeft).PickTransaction sampleBuffers 5
          ⟨true⟩)).transactions (some 2) =
        some { ti with
          acquiredLocks := ti.acquiredLocks ++ [ti.pendingLock]
          pendingLock := LockTarget.Invalid } ∧
      holders (managerOf ((stateAfter writerLeft).PickTransaction sampleBuffers 5
          ⟨true⟩)).tableLocks o ti.pendingLock.access =
        holders (stateAfter writerLeft).tableLocks o ti.pendingLock.access + 1 ∧
      (∀ key q, queueOf (managerOf ((stateAfter writerLeft).PickTransaction sampleBuffers 5
          ⟨true⟩)).pendings key = some q → some 2 ∉ q) ∧
      (⟨false⟩ : LockResult).blocked = false :=
  ⟨Reachable_stateAfter writerLeft (by decide), rfl,
    (pickTransaction_spec sampleBuffers (stateAfter writerLeft)
      (Reachable_stateAfter writerLeft (by decide)) 5 ⟨true⟩ _ ⟨false⟩ (some 2) rfl).1 rfl⟩

theorem staleIndex_pendings :
    (stateAfter staleIndex).pendings = [(1, ⟨[some 2], 1⟩)] := by decide

theorem staleIndex_spin_step (fuel : Nat) (result : LockResult) :
    pickInBucket sampleBuffers 0 1 (fuel + 1) (stateAfter staleIndex) result =
      pickInBucket sampleBuffers 0 1 fuel
        { stateAfter staleIndex with pendings := [(1, ⟨[some 2], 0⟩)] } ⟨true⟩ := by
  rfl

theorem staleIndex_spin_loop (fuel : Nat) (result : LockResult) :
    pickInBucket sampleBuffers 0 1 (fuel + 1)
        { stateAfter staleIndex with pendings := [(1, ⟨[some 2], 0⟩)] } result =
      pickInBucket sampleBuffers 0 1 fuel
        { stateAfter staleIndex with pendings := [(1, ⟨[some 2], 0⟩)] } ⟨true⟩ := by
  rfl



theorem staleIndex_spin_forever :
    ∀ (fuel : Nat) (result : LockResult),
      pickInBucket sampleBuffers 0 1 fuel
        { stateAfter staleIndex with pendings := [(1, ⟨[some 2], 0⟩)] } result =
        Outcome.timeout := by
  intro fuel
  induction fuel with
  | zero => intro result; rfl
  | succ fuel ih =>
    intro result
    rw [staleIndex_spin_loop]
    exact ih ⟨true⟩

/-- C8 (refuted).  After a waiter behind the round-robin index of its bucket
withdrew its pending request (`staleIndex`), the bucket holds one transaction
while `lastTryIndex` is 1, and `PickTransaction` never returns: it runs out of
every step budget.  After the only waiter of a bucket withdrew its request
(`emptyBucket`), the bucket is left in the queue with no transaction, and
`PickTransaction` fails on the modulo by the bucket size zero. -/
theorem pickTransaction_spins :
    (Reachable sampleBuffers (stateAfter staleIndex) ∧
      (stateAfter staleIndex).pendings = [(1, ⟨[some 2], 1⟩)] ∧
      ∀ (fuel : Nat) (result : LockResult),
        (stateAfter staleIndex).PickTransaction sampleBuffers fuel result = Outcome.timeout) ∧
    (Reachable sampleBuffers (stateAfter emptyBucket) ∧
      (stateAfter emptyBucket).pendings = [(1, ⟨[], -1⟩)] ∧
      ∀ (fuel : Nat) (result : LockResult),
        (stateAfter emptyBucket).PickTransaction sampleBuffers (fuel + 1) result =
          Outcome.error) := by
  refine ⟨⟨Reachable_stateAfter staleIndex (by decide), staleIndex_pendings, ?_⟩,
    ⟨Reachable_stateAfter emptyBucket (by decide), by decide, ?_⟩⟩
  · intro fuel result
    have h0 : (stateAfter staleIndex).PickTransaction sampleBuffers fuel result =
        match pickInBucket sampleBuffers 0 1 fuel (stateAfter staleIndex) result with
        | Outcome.ok (lm1, result1, some picked) => Outcome.ok (lm1, result1, picked)
        | Outcome.ok (lm1, result1, none) => pickFromBuckets sampleBuffers fuel 0 lm1 result1
        | Outcome.error => Outcome.error
        | Outcome.timeout => Outcome.timeout := by
      rfl
    rw [h0]
    cases fuel with
    | zero => rfl
    | succ fuel =>
      rw [staleIndex_spin_step, staleIndex_spin_forever]
  · intro fuel result
    rfl

/-! ## The deadlock detector: cutting a node out -/

theorem Graph.node_setNode (g : Graph) (p q : Nat) (n : Node) (hp : p < g.nodes.length) :
    (g.setNode p n).node q = if q = p then n else g.node q := by
  unfold Graph.setNode Graph.node
  by_cases e : q = p
  · subst e
    simp [hp]
  · simp only [e, if_false]
    rw [List.getD_eq_getElem?_getD, List.getD_eq_getElem?_getD,
      List.getElem?_set_ne (fun h => e h.symm)]

theorem Graph.node_setNode_ge (g : Graph) (p : Nat) (n : Node) (hp : g.nodes.length ≤ p) :
    g.setNode p n = g := by
  unfold Graph.setNode
  rw [List.set_eq_of_length_le hp]

theorem Graph.edge_setNode (g : Graph) (p e : Nat) (n : Node) :
    (g.setNode p n).edge e = g.edge e := rfl

theorem Graph.edges_setNode (g : Graph) (p : Nat) (n : Node) :
    (g.setNode p n).edges = g.edges := rfl

theorem Graph.length_setNode (g : Graph) (p : Nat) (n : Node) :
    (g.setNode p n).nodes.length = g.nodes.length := by
  simp [Graph.setNode]

theorem removeFirst_sublist {α : Type} [DecidableEq α] (l : List α) (x : α) :
    (removeFirst l x).Sublist l := by
  induction l with
  | nil => exact List.Sublist.refl _
  | cons y l ih =>
    by_cases h : y = x
    · simp only [removeFirst, h, if_true]
      exact List.sublist_cons_self _ _
    · simp only [removeFirst, h, if_false]
      exact List.Sublist.cons₂ _ ih

theorem mem_removeFirst_iff {α : Type} [DecidableEq α] (l : List α) (x y : α) (h : l.Nodup) :
    y ∈ removeFirst l x ↔ y ∈ l ∧ y ≠ x := by
  constructor
  · intro hy
    refine ⟨mem_of_mem_removeFirst l x y hy, ?_⟩
    intro e
    subst e
    exact not_mem_removeFirst l y h hy
  · rintro ⟨h1, h2⟩
    exact mem_removeFirst_of_ne l x y h2 h1

/-- What one `cutIn` does to the nodes. -/
theorem cutIn_node (g : Graph) (e m : Nat) :
    (cutIn g e).edges = g.edges ∧ (cutIn g e).nodes.length = g.nodes.length ∧
    ((cutIn g e).node m).ins = (g.node m).ins ∧
    ((cutIn g e).node m).transInfo = (g.node m).transInfo ∧
    ((cutIn g e).node m).outs =
      if m = (g.edge e).fromNode then removeFirst (g.node m).outs e else (g.node m).outs := by
  unfold cutIn
  refine ⟨rfl, Graph.length_setNode _ _ _, ?_⟩
  rcases Nat.lt_or_ge (g.edge e).fromNode g.nodes.length with hp | hp
  · rw [Graph.node_setNode _ _ _ _ hp]
    by_cases em : m = (g.edge e).fromNode
    · subst em
      simp
    · simp [em]
  · rw [Graph.node_setNode_ge _ _ _ hp]
    refine ⟨rfl, rfl, ?_⟩
    by_cases em : m = (g.edge e).fromNode
    · subst em
      have : g.node (g.edge e).fromNode = Node.fresh := by
        unfold Graph.node
        rw [List.getD_eq_getElem?_getD, List.getElem?_eq_none hp]
        rfl
      simp [this, Node.fresh, removeFirst]
    · simp [em]

theorem cutOut_node (g : Graph) (e m : Nat) :
    (cutOut g e).edges = g.edges ∧ (cutOut g e).nodes.length = g.nodes.length ∧
    ((cutOut g e).node m).outs = (g.node m).outs ∧
    ((cutOut g e).node m).transInfo = (g.node m).transInfo ∧
    ((cutOut g e).node m).ins =
      if m = (g.edge e).toNode then removeFirst (g.node m).ins e else (g.node m).ins := by
  unfold cutOut
  refine ⟨rfl, Graph.length_setNode _ _ _, ?_⟩
  rcases Nat.lt_or_ge (g.edge e).toNode g.nodes.length with hp | hp
  · rw [Graph.node_setNode _ _ _ _ hp]
    by_cases em : m = (g.edge e).toNode
    · subst em
      simp
    · simp [em]
  · rw [Graph.node_setNode_ge _ _ _ hp]
    refine ⟨rfl, rfl, ?_⟩
    by_cases em : m = (g.edge e).toNode
    · subst em
      have : g.node (g.edge e).toNode = Node.fresh := by
        unfold Graph.node
        rw [List.getD_eq_getElem?_getD, List.getElem?_eq_none hp]
        rfl
      simp [this, Node.fresh, removeFirst]
    · simp [em]

theorem Graph.edge_eq_of_edges (g g2 : Graph) (h : g2.edges = g.edges) (e : Nat) :
    g2.edge e = g.edge e := by
  unfold Graph.edge
  rw [h]

/-- What a run of `cutIn` over a list of edges does to the nodes. -/
theorem cutIns_spec (L : List Nat) :
    ∀ (g : Graph),
      (L.foldl cutIn g).edges = g.edges ∧ (L.foldl cutIn g).nodes.length = g.nodes.length ∧
      ∀ m, ((L.foldl cutIn g).node m).ins = (g.node m).ins ∧
        ((L.foldl cutIn g).node m).transInfo = (g.node m).transInfo ∧
        ((L.foldl cutIn g).node m).outs.Sublist (g.node m).outs ∧
        ((g.node m).outs.Nodup → ∀ e, e ∈ ((L.foldl cutIn g).node m).outs ↔
          e ∈ (g.node m).outs ∧ ¬ (e ∈ L ∧ (g.edge e).fromNode = m)) := by
  induction L with
  | nil =>
    intro g
    refine ⟨rfl, rfl, fun m => ⟨rfl, rfl, List.Sublist.refl _, fun _ e => ?_⟩⟩
    simp
  | cons e0 L ih =>
    intro g
    obtain ⟨i1, i2, i3⟩ := ih (cutIn g e0)
    have c0 := cutIn_node g e0
    simp only [List.foldl_cons]
    refine ⟨i1.trans (c0 0).1, i2.trans (c0 0).2.1, fun m => ?_⟩
    obtain ⟨j1, j2, j3, j4⟩ := i3 m
    obtain ⟨-, -, k1, k2, k3⟩ := c0 m
    have hsub : ((cutIn g e0).node m).outs.Sublist (g.node m).outs := by
      rw [k3]
      split
      · exact removeFirst_sublist _ _
      · exact List.Sublist.refl _
    refine ⟨j1.trans k1, j2.trans k2, j3.trans hsub, fun hnd e => ?_⟩
    rw [j4 (hnd.sublist hsub) e, Graph.edge_eq_of_edges _ _ (c0 0).1, k3]
    by_cases em : m = (g.edge e0).fromNode
    · simp only [em, if_true]
      rw [mem_removeFirst_iff _ _ _ (em ▸ hnd)]
      constructor
      · rintro ⟨⟨h1, h2⟩, h3⟩
        refine ⟨h1, ?_⟩
        rintro ⟨h4, h5⟩
        rcases List.mem_cons.mp h4 with h6 | h6
        · exact h2 h6
        · exact h3 ⟨h6, h5⟩
      · rintro ⟨h1, h2⟩
        refine ⟨⟨h1, ?_⟩, ?_⟩
        · intro h3
          subst h3
          exact h2 ⟨List.mem_cons_self _ _, rfl⟩
        · rintro ⟨h4, h5⟩
          exact h2 ⟨List.mem_cons_of_mem _ h4, h5⟩
    · simp only [em, if_false]
      constructor
      · rintro ⟨h1, h3⟩
        refine ⟨h1, ?_⟩
        rintro ⟨h4, h5⟩
        rcases List.mem_cons.mp h4 with h6 | h6
        · subst h6
          exact em h5.symm
        · exact h3 ⟨h6, h5⟩
      · rintro ⟨h1, h2⟩
        refine ⟨h1, ?_⟩
        rintro ⟨h4, h5⟩
        exact h2 ⟨List.mem_cons_of_mem _ h4, h5⟩

theorem cutOuts_spec (L : List Nat) :
    ∀ (g : Graph),
      (L.foldl cutOut g).edges = g.edges ∧ (L.foldl cutOut g).nodes.length = g.nodes.length ∧
      ∀ m, ((L.foldl cutOut g).node m).outs = (g.node m).outs ∧
        ((L.foldl cutOut g).node m).transInfo = (g.node m).transInfo ∧
        ((L.foldl cutOut g).node m).ins.Sublist (g.node m).ins ∧
        ((g.node m).ins.Nodup → ∀ e, e ∈ ((L.foldl cutOut g).node m).ins ↔
          e ∈ (g.node m).ins ∧ ¬ (e ∈ L ∧ (g.edge e).toNode = m)) := by
  induction L with
  | nil =>
    intro g
    refine ⟨rfl, rfl, fun m => ⟨rfl, rfl, List.Sublist.refl _, fun _ e => ?_⟩⟩
    simp
  | cons e0 L ih =>
    intro g
    obtain ⟨i1, i2, i3⟩ := ih (cutOut g e0)
    have c0 := cutOut_node g e0
    simp only [List.foldl_cons]
    refine ⟨i1.trans (c0 0).1, i2.trans (c0 0).2.1, fun m => ?_⟩
    obtain ⟨j1, j2, j3, j4⟩ := i3 m
    obtain ⟨-, -, k1, k2, k3⟩ := c0 m
    have hsub : ((cutOut g e0).node m).ins.Sublist (g.node m).ins := by
      rw [k3]
      split
      · exact removeFirst_sublist _ _
      · exact List.Sublist.refl _
    refine ⟨j1.trans k1, j2.trans k2, j3.trans hsub, fun hnd e => ?_⟩
    rw [j4 (hnd.sublist hsub) e, Graph.edge_eq_of_edges _ _ (c0 0).1, k3]
    by_cases em : m = (g.edge e0).toNode
    · simp only [em, if_true]
      rw [mem_removeFirst_iff _ _ _ (em ▸ hnd)]
      constructor
      · rintro ⟨⟨h1, h2⟩, h3⟩
        refine ⟨h1, ?_⟩
        rintro ⟨h4, h5⟩
        rcases List.mem_cons.mp h4 with h6 | h6
        · exact h2 h6
        · exact h3 ⟨h6, h5⟩
      · rintro ⟨h1, h2⟩
        refine ⟨⟨h1, ?_⟩, ?_⟩
        · intro h3
          subst h3
          exact h2 ⟨List.mem_cons_self _ _, rfl⟩
        · rintro ⟨h4, h5⟩
          exact h2 ⟨List.mem_cons_of_mem _ h4, h5⟩
    · simp only [em, if_false]
      constructor
      · rintro ⟨h1, h3⟩
        refine ⟨h1, ?_⟩
        rintro ⟨h4, h5⟩
        rcases List.mem_cons.mp h4 with h6 | h6
        · subst h6
          exact em h5.symm
        · exact h3 ⟨h6, h5⟩
      · rintro ⟨h1, h2⟩
        refine ⟨h1, ?_⟩
        rintro ⟨h4, h5⟩
        exact h2 ⟨List.mem_cons_of_mem _ h4, h5⟩

/-- What cutting node `v` out does to the lists of the other nodes of `nodes`. -/
theorem cutNode_links (g : Graph) (nodes : List Nat) (v : Nat) (hinv : GInv g nodes)
    (hv : v ∈ nodes) :
    (cutNode g v).edges = g.edges ∧ (cutNode g v).nodes.length = g.nodes.length ∧
    (∀ m, ((cutNode g v).node m).transInfo = (g.node m).transInfo ∧
      ((cutNode g v).node m).outs.Sublist (g.node m).outs ∧
      ((cutNode g v).node m).ins.Sublist (g.node m).ins) ∧
    ∀ m, m ∈ nodes → m ≠ v →
      (∀ e, e ∈ ((cutNode g v).node m).outs ↔ e ∈ (g.node m).outs ∧ (g.edge e).toNode ≠ v) ∧
      (∀ e, e ∈ ((cutNode g v).node m).ins ↔ e ∈ (g.node m).ins ∧ (g.edge e).fromNode ≠ v) := by
  obtain ⟨a1, a2, a3⟩ := cutIns_spec (g.node v).ins g
  obtain ⟨b1, b2, b3⟩ := cutOuts_spec (((g.node v).ins.foldl cutIn g).node v).outs
    ((g.node v).ins.foldl cutIn g)
  refine ⟨b1.trans a1, b2.trans a2, fun m => ?_, fun m hm hne => ⟨fun e => ?_, fun e => ?_⟩⟩
  · obtain ⟨c1, c2, c3, -⟩ := a3 m
    obtain ⟨d1, d2, d3, -⟩ := b3 m
    exact ⟨d2.trans c2, by unfold cutNode; rw [d1]; exact c3, by
      unfold cutNode; rw [← c1]; exact d3⟩
  · obtain ⟨c1, c2, c3, c4⟩ := a3 m
    obtain ⟨d1, d2, d3, -⟩ := b3 m
    unfold cutNode
    rw [d1, c4 (hinv.outs_nodup m hm) e]
    constructor
    · rintro ⟨h1, h2⟩
      refine ⟨h1, fun h3 => h2 ⟨?_, (hinv.outs_ok m hm e h1).2.1⟩⟩
      obtain ⟨k1, k2, k3⟩ := hinv.outs_ok m hm e h1
      have := (hinv.present e k1 (by rw [k2]; exact hm) k3).2
      rw [h3] at this
      exact this
    · rintro ⟨h1, h2⟩
      refine ⟨h1, fun h3 => h2 (hinv.ins_ok v hv e h3.1).2.1⟩
  · obtain ⟨c1, c2, c3, c4⟩ := a3 m
    obtain ⟨d1, d2, d3, d4⟩ := b3 m
    obtain ⟨cv1, cv2, cv3, cv4⟩ := a3 v
    unfold cutNode
    rw [d4 (by rw [c1]; exact hinv.ins_nodup m hm) e, c1,
      Graph.edge_eq_of_edges _ _ a1 e, cv4 (hinv.outs_nodup v hv) e]
    constructor
    · rintro ⟨h1, h2⟩
      refine ⟨h1, fun h3 => h2 ⟨⟨?_, ?_⟩, (hinv.ins_ok m hm e h1).2.1⟩⟩
      · obtain ⟨k1, k2, k3⟩ := hinv.ins_ok m hm e h1
        have := (hinv.present e k1 k3 (by rw [k2]; exact hm)).1
        rw [h3] at this
        exact this
      · rintro ⟨h4, -⟩
        have := (hinv.ins_ok v hv e h4).2.1
        rw [(hinv.ins_ok m hm e h1).2.1] at this
        exact hne this
    · rintro ⟨h1, h2⟩
      refine ⟨h1, fun h3 => h2 (hinv.outs_ok v hv e h3.1.1).2.1⟩

theorem GInv_cutNode (g : Graph) (nodes : List Nat) (v : Nat) (hinv : GInv g nodes)
    (hv : v ∈ nodes) : GInv (cutNode g v) (removeFirst nodes v) := by
  obtain ⟨e1, e2, e3, e4⟩ := cutNode_links g nodes v hinv hv
  have hmem : ∀ m, m ∈ removeFirst nodes v ↔ m ∈ nodes ∧ m ≠ v :=
    fun m => mem_removeFirst_iff nodes v m hinv.nodup
  have hedge : ∀ e, (cutNode g v).edge e = g.edge e := Graph.edge_eq_of_edges _ _ e1
  refine ⟨nodup_removeFirst nodes v hinv.nodup, ?_, ?_, ?_, ?_, ?_, ?_⟩
  · intro n hn
    rw [e2]
    exact hinv.lt n ((hmem n).mp hn).1
  · intro n hn e he
    obtain ⟨h1, h2⟩ := (hmem n).mp hn
    obtain ⟨k1, k2⟩ := ((e4 n h1 h2).1 e).mp he
    obtain ⟨j1, j2, j3⟩ := hinv.outs_ok n h1 e k1
    rw [e1, hedge]
    exact ⟨j1, j2, (hmem _).mpr ⟨j3, k2⟩⟩
  · intro n hn e he
    obtain ⟨h1, h2⟩ := (hmem n).mp hn
    obtain ⟨k1, k2⟩ := ((e4 n h1 h2).2 e).mp he
    obtain ⟨j1, j2, j3⟩ := hinv.ins_ok n h1 e k1
    rw [e1, hedge]
    exact ⟨j1, j2, (hmem _).mpr ⟨j3, k2⟩⟩
  · intro e he hf ht
    rw [e1] at he
    rw [hedge] at hf ht ⊢
    obtain ⟨f1, f2⟩ := (hmem _).mp hf
    obtain ⟨t1, t2⟩ := (hmem _).mp ht
    obtain ⟨p1, p2⟩ := hinv.present e he f1 t1
    exact ⟨((e4 _ f1 f2).1 e).mpr ⟨p1, t2⟩, ((e4 _ t1 t2).2 e).mpr ⟨p2, f2⟩⟩
  · intro n hn
    exact (hinv.outs_nodup n ((hmem n).mp hn).1).sublist (e3 n).2.1
  · intro n hn
    exact (hinv.ins_nodup n ((hmem n).mp hn).1).sublist (e3 n).2.2

theorem ChooseVictim_eq (g : Graph) (nodes : List Nat) (cycle : Nat) :
    ChooseVictim g nodes cycle = (cutNode g cycle, removeFirst nodes cycle) := rfl

theorem mem_sortedAdd (x y : Nat) (l : List Nat) : y ∈ sortedAdd x l ↔ y = x ∨ y ∈ l := by
  induction l with
  | nil => simp [sortedAdd]
  | cons z l ih =>
    unfold sortedAdd
    split
    · simp
    · simp only [List.mem_cons, ih]
      tauto

theorem nodup_sortedAdd (x : Nat) (l : List Nat) (hx : x ∉ l) (h : l.Nodup) :
    (sortedAdd x l).Nodup := by
  induction l with
  | nil => simp [sortedAdd]
  | cons z l ih =>
    unfold sortedAdd
    split
    · exact List.nodup_cons.mpr ⟨hx, h⟩
    · rw [List.nodup_cons] at h ⊢
      refine ⟨?_, ih (fun hm => hx (List.mem_cons_of_mem _ hm)) h.2⟩
      rw [mem_sortedAdd]
      rintro (e | e)
      · exact hx (e ▸ List.mem_cons_self _ _)
      · exact h.1 e

theorem Reducible_mono (g g2 : Graph) (m : Nat)
    (h1 : (g2.node m).ins.Sublist (g.node m).ins) (h2 : (g2.node m).outs.Sublist (g.node m).outs)
    (h : Reducible g m) : Reducible g2 m := by
  unfold Reducible at h ⊢
  have a := h1.length_le
  have b := h2.length_le
  rcases Nat.mul_eq_zero.mp h with h | h
  · rw [Nat.mul_eq_zero]; left; omega
  · rw [Nat.mul_eq_zero]; right; omega

/-! ## The deadlock detector: reduction -/

theorem TestReducableNode_spec (g : Graph) (affected : List Nat) (node : Nat) :
    ((TestReducableNode g affected node).1 = true ↔ Reducible g node) ∧
    (∀ x, x ∈ (TestReducableNode g affected node).2 ↔
      x ∈ affected ∨ (x = node ∧ Reducible g node)) ∧
    (affected.Nodup → (TestReducableNode g affected node).2.Nodup) := by
  unfold TestReducableNode Reducible
  by_cases h : (g.node node).ins.length * (g.node node).outs.length = 0
  · rw [if_pos h]
    refine ⟨⟨fun _ => h, fun _ => rfl⟩, ?_, ?_⟩
    · intro x
      by_cases hm : node ∈ affected
      · rw [if_pos hm]
        constructor
        · exact fun hx => Or.inl hx
        · rintro (hx | hx)
          · exact hx
          · exact hx.1 ▸ hm
      · rw [if_neg hm, mem_sortedAdd]
        constructor
        · rintro (hx | hx)
          · exact Or.inr ⟨hx, h⟩
          · exact Or.inl hx
        · rintro (hx | hx)
          · exact Or.inr hx
          · exact Or.inl hx.1
    · intro hn
      by_cases hm : node ∈ affected
      · rw [if_pos hm]
        exact hn
      · rw [if_neg hm]
        exact nodup_sortedAdd _ _ hm hn
  · rw [if_neg h]
    refine ⟨⟨fun h2 => (by cases h2), fun h2 => absurd h2 h⟩, ?_, fun hn => hn⟩
    intro x
    constructor
    · exact fun hx => Or.inl hx
    · rintro (hx | hx)
      · exact hx
      · exact absurd hx.2 h

theorem detachIns_eq (acc : Graph × List Nat) (e : Nat) :
    detachIns acc e =
      (cutIn acc.1 e, (TestReducableNode (cutIn acc.1 e) acc.2 (acc.1.edge e).fromNode).2) := rfl

theorem detachOuts_eq (acc : Graph × List Nat) (e : Nat) :
    detachOuts acc e =
      (cutOut acc.1 e, (TestReducableNode (cutOut acc.1 e) acc.2 (acc.1.edge e).toNode).2) := rfl

theorem Reducible_cutIns (L : List Nat) (g : Graph) (m : Nat) (h : Reducible g m) :
    Reducible (L.foldl cutIn g) m := by
  obtain ⟨-, -, a3⟩ := cutIns_spec L g
  obtain ⟨c1, -, c3, -⟩ := a3 m
  exact Reducible_mono g _ m (by rw [c1]) c3 h

theorem Reducible_cutOuts (L : List Nat) (g : Graph) (m : Nat) (h : Reducible g m) :
    Reducible (L.foldl cutOut g) m := by
  obtain ⟨-, -, a3⟩ := cutOuts_spec L g
  obtain ⟨c1, -, c3, -⟩ := a3 m
  exact Reducible_mono g _ m c3 (by rw [c1]) h

theorem detachIns_fold (L : List Nat) :
    ∀ (g : Graph) (aff : List Nat),
      (L.foldl detachIns (g, aff)).1 = L.foldl cutIn g ∧
      (∀ x ∈ aff, x ∈ (L.foldl detachIns (g, aff)).2) ∧
      (aff.Nodup → (L.foldl detachIns (g, aff)).2.Nodup) ∧
      (∀ m ∈ (L.foldl detachIns (g, aff)).2, m ∈ aff ∨
        ((∃ e ∈ L, (g.edge e).fromNode = m) ∧ Reducible (L.foldl cutIn g) m)) ∧
      (∀ m, Reducible (L.foldl cutIn g) m → Reducible g m ∨
        m ∈ (L.foldl detachIns (g, aff)).2) := by
  induction L with
  | nil =>
    intro g aff
    exact ⟨rfl, fun _ h => h, fun h => h, fun m h => Or.inl h, fun m h => Or.inl h⟩
  | cons e0 L ih =>
    intro g aff
    simp only [List.foldl_cons]
    rw [detachIns_eq]
    obtain ⟨i1, i2, i3, i4, i5⟩ := ih (cutIn g e0)
      (TestReducableNode (cutIn g e0) aff (g.edge e0).fromNode).2
    obtain ⟨t1, t2, t3⟩ := TestReducableNode_spec (cutIn g e0) aff (g.edge e0).fromNode
    have c0 := cutIn_node g e0
    refine ⟨i1, fun x hx => i2 x ((t2 x).mpr (Or.inl hx)), fun hn => i3 (t3 hn), ?_, ?_⟩
    · intro m hm
      rcases i4 m hm with h | ⟨⟨e, he, hf⟩, hr⟩
      · rcases (t2 m).mp h with h | ⟨h1, h2⟩
        · exact Or.inl h
        · right
          refine ⟨⟨e0, List.mem_cons_self _ _, h1.symm⟩, ?_⟩
          rw [h1]
          exact Reducible_cutIns L _ _ h2
      · right
        rw [Graph.edge_eq_of_edges _ _ (c0 0).1] at hf
        exact ⟨⟨e, List.mem_cons_of_mem _ he, hf⟩, hr⟩
    · intro m hm
      rcases i5 m hm with h | h
      · by_cases em : m = (g.edge e0).fromNode
        · right
          exact i2 m ((t2 m).mpr (Or.inr ⟨em, em ▸ h⟩))
        · left
          obtain ⟨-, -, k1, -, k3⟩ := c0 m
          unfold Reducible at h ⊢
          rw [k1, k3, if_neg em] at h
          exact h
      · exact Or.inr h

theorem detachOuts_fold (L : List Nat) :
    ∀ (g : Graph) (aff : List Nat),
      (L.foldl detachOuts (g, aff)).1 = L.foldl cutOut g ∧
      (∀ x ∈ aff, x ∈ (L.foldl detachOuts (g, aff)).2) ∧
      (aff.Nodup → (L.foldl detachOuts (g, aff)).2.Nodup) ∧
      (∀ m ∈ (L.foldl detachOuts (g, aff)).2, m ∈ aff ∨
        ((∃ e ∈ L, (g.edge e).toNode = m) ∧ Reducible (L.foldl cutOut g) m)) ∧
      (∀ m, Reducible (L.foldl cutOut g) m → Reducible g m ∨
        m ∈ (L.foldl detachOuts (g, aff)).2) := by
  induction L with
  | nil =>
    intro g aff
    exact ⟨rfl, fun _ h => h, fun h => h, fun m h => Or.inl h, fun m h => Or.inl h⟩
  | cons e0 L ih =>
    intro g aff
    simp only [List.foldl_cons]
    rw [detachOuts_eq]
    obtain ⟨i1, i2, i3, i4, i5⟩ := ih (cutOut g e0)
      (TestReducableNode (cutOut g e0) aff (g.edge e0).toNode).2
    obtain ⟨t1, t2, t3⟩ := TestReducableNode_spec (cutOut g e0) aff (g.edge e0).toNode
    have c0 := cutOut_node g e0
    refine ⟨i1, fun x hx => i2 x ((t2 x).mpr (Or.inl hx)), fun hn => i3 (t3 hn), ?_, ?_⟩
    · intro m hm
      rcases i4 m hm with h | ⟨⟨e, he, hf⟩, hr⟩
      · rcases (t2 m).mp h with h | ⟨h1, h2⟩
        · exact Or.inl h
        · right
          refine ⟨⟨e0, List.mem_cons_self _ _, h1.symm⟩, ?_⟩
          rw [h1]
          exact Reducible_cutOuts L _ _ h2
      · right
        rw [Graph.edge_eq_of_edges _ _ (c0 0).1] at hf
        exact ⟨⟨e, List.mem_cons_of_mem _ he, hf⟩, hr⟩
    · intro m hm
      rcases i5 m hm with h | h
      · by_cases em : m = (g.edge e0).toNode
        · right
          exact i2 m ((t2 m).mpr (Or.inr ⟨em, em ▸ h⟩))
        · left
          obtain ⟨-, -, k1, -, k3⟩ := c0 m
          unfold Reducible at h ⊢
          rw [k1, k3, if_neg em] at h
          exact h
      · exact Or.inr h

theorem Graph.Arc_congr (g g2 : Graph) (h : g2.edges = g.edges) (a b : Nat) :
    g2.Arc a b ↔ g.Arc a b := by
  unfold Graph.Arc
  simp only [Graph.edge_eq_of_edges g g2 h, h]

theorem Graph.Closed_congr (g g2 : Graph) (h : g2.edges = g.edges) (S : Nat → Prop) :
    g2.Closed S ↔ g.Closed S := by
  unfold Graph.Closed
  simp only [Graph.Arc_congr g g2 h]

/-- A reducible node carries no self-loop and lies in no closed set. -/
theorem Reducible_no_arcs (g : Graph) (nodes : List Nat) (v : Nat) (hinv : GInv g nodes)
    (hv : v ∈ nodes) (hr : Reducible g v) :
    ¬ ((∃ y, y ∈ nodes ∧ g.Arc v y) ∧ (∃ y, y ∈ nodes ∧ g.Arc y v)) := by
  rintro ⟨⟨y, hy, e, he, hf, ht⟩, ⟨z, hz, e2, he2, hf2, ht2⟩⟩
  have p1 := (hinv.present e he (by rw [hf]; exact hv) (by rw [ht]; exact hy)).1
  have p2 := (hinv.present e2 he2 (by rw [hf2]; exact hz) (by rw [ht2]; exact hv)).2
  rw [hf] at p1
  rw [ht2] at p2
  unfold Reducible at hr
  have h1 := List.length_pos_of_mem p1
  have h2 := List.length_pos_of_mem p2
  rcases Nat.mul_eq_zero.mp hr with h | h <;> omega

theorem Reducible_not_closed (g : Graph) (nodes : List Nat) (v : Nat) (hinv : GInv g nodes)
    (hv : v ∈ nodes) (hr : Reducible g v) (S : Nat → Prop) (hS : g.Closed S)
    (hsub : ∀ x, S x → x ∈ nodes) : ¬ S v := by
  intro hSv
  obtain ⟨⟨y, hy, ha⟩, ⟨z, hz, hb⟩⟩ := hS v hSv
  exact Reducible_no_arcs g nodes v hinv hv hr ⟨⟨y, hsub y hy, ha⟩, ⟨z, hsub z hz, hb⟩⟩

theorem cutNode_eq_folds (g : Graph) (node : Nat) (aff : List Nat) :
    (((g.node node).ins.foldl detachIns (g, aff)).1.node node).outs.foldl detachOuts
        ((g.node node).ins.foldl detachIns (g, aff)) =
      (cutNode g node,
        ((((g.node node).ins.foldl detachIns (g, aff)).1.node node).outs.foldl detachOuts
          ((g.node node).ins.foldl detachIns (g, aff))).2) := by
  obtain ⟨a1, -⟩ := detachIns_fold (g.node node).ins g aff
  obtain ⟨b1, -⟩ := detachOuts_fold
    (((g.node node).ins.foldl detachIns (g, aff)).1.node node).outs
    ((g.node node).ins.foldl detachIns (g, aff)).1 ((g.node node).ins.foldl detachIns (g, aff)).2
  apply Prod.ext
  · simp only
    rw [b1, a1]
    rfl
  · rfl

/-- The worklist after one node was detached: it still lists distinct
reducible nodes of the remaining list, and every node that is reducible
afterwards was reducible before or is on the worklist. -/
theorem detach_affected (g : Graph) (nodes : List Nat) (node : Nat) (aff : List Nat)
    (hinv : GInv g nodes) (hv : node ∈ nodes) (hr : Reducible g node)
    (hnd : aff.Nodup) (hnot : node ∉ aff)
    (haff : ∀ m ∈ aff, m ∈ nodes ∧ Reducible g m) :
    ∃ aff2, (((g.node node).ins.foldl detachIns (g, aff)).1.node node).outs.foldl detachOuts
        ((g.node node).ins.foldl detachIns (g, aff)) = (cutNode g node, aff2) ∧
      aff2.Nodup ∧ (∀ m ∈ aff, m ∈ aff2) ∧
      (∀ m ∈ aff2, m ∈ removeFirst nodes node ∧ Reducible (cutNode g node) m) ∧
      (∀ m, Reducible (cutNode g node) m → Reducible g m ∨ m ∈ aff2) := by
  refine ⟨_, cutNode_eq_folds g node aff, ?_⟩
  obtain ⟨a1, a2, a3, a4, a5⟩ := detachIns_fold (g.node node).ins g aff
  obtain ⟨b1, b2, b3, b4, b5⟩ := detachOuts_fold
    (((g.node node).ins.foldl detachIns (g, aff)).1.node node).outs
    ((g.node node).ins.foldl detachIns (g, aff)).1 ((g.node node).ins.foldl detachIns (g, aff)).2
  have hcut : List.foldl cutOut ((g.node node).ins.foldl detachIns (g, aff)).1
      (((g.node node).ins.foldl detachIns (g, aff)).1.node node).outs = cutNode g node := by
    rw [a1]; rfl
  rw [hcut] at b4 b5
  obtain ⟨l1, l2, l3, l4⟩ := cutNode_links g nodes node hinv hv
  obtain ⟨c1, c2, c3⟩ := cutIns_spec (g.node node).ins g
  have hmem : ∀ m, m ∈ removeFirst nodes node ↔ m ∈ nodes ∧ m ≠ node :=
    fun m => mem_removeFirst_iff nodes node m hinv.nodup
  have hmono : ∀ m, Reducible g m → Reducible (cutNode g node) m :=
    fun m h => Reducible_mono g _ m (l3 m).2.2 (l3 m).2.1 h
  have hself : ∀ e, e < g.edges.length → (g.edge e).fromNode = node →
      (g.edge e).toNode = node → False := by
    intro e he hf ht
    exact Reducible_no_arcs g nodes node hinv hv hr
      ⟨⟨node, hv, e, he, hf, ht⟩, ⟨node, hv, e, he, hf, ht⟩⟩
  refine ⟨b3 (a3 hnd), fun m hm => b2 m (a2 m hm), ?_, ?_⟩
  · intro m hm
    rcases b4 m hm with h | ⟨⟨e, he, ht⟩, hred⟩
    · rcases a4 m h with h | ⟨⟨e, he, hf⟩, hred⟩
      · obtain ⟨h1, h2⟩ := haff m h
        exact ⟨(hmem m).mpr ⟨h1, fun e => hnot (e ▸ h)⟩, hmono m h2⟩
      · obtain ⟨k1, k2, k3⟩ := hinv.ins_ok node hv e he
        refine ⟨(hmem m).mpr ⟨hf ▸ k3, ?_⟩, ?_⟩
        · intro em
          exact hself e k1 (hf.trans em) k2
        · have := Reducible_cutOuts
            (((g.node node).ins.foldl detachIns (g, aff)).1.node node).outs _ m hred
          rw [← a1, hcut] at this
          exact this
    · rw [a1] at he ht
      rw [Graph.edge_eq_of_edges _ _ c1] at ht
      have he2 : e ∈ (g.node node).outs := (c3 node).2.2.1.subset he
      obtain ⟨k1, k2, k3⟩ := hinv.outs_ok node hv e he2
      refine ⟨(hmem m).mpr ⟨ht ▸ k3, ?_⟩, hred⟩
      intro em
      exact hself e k1 k2 (ht.trans em)
  · intro m hm
    rcases b5 m hm with h | h
    · rcases a5 m (by rw [← a1]; exact h) with h | h
      · exact Or.inl h
      · exact Or.inr (b2 m h)
    · exact Or.inr h

theorem get?_removeFirst_index (nodes : List Nat) (node : Nat) (index p m : Nat)
    (hp : p < (if IndexOf nodes node < index then index - 1 else index))
    (hg : (removeFirst nodes node).get? p = some m) :
    ∃ p0, p0 < index ∧ nodes.get? p0 = some m := by
  rw [← eraseIdx_IndexOf, List.get?_eq_getElem?, List.getElem?_eraseIdx] at hg
  by_cases h1 : p < IndexOf nodes node
  · rw [if_pos h1] at hg
    refine ⟨p, ?_, by rw [List.get?_eq_getElem?]; exact hg⟩
    split at hp <;> omega
  · rw [if_neg h1] at hg
    refine ⟨p + 1, ?_, by rw [List.get?_eq_getElem?]; exact hg⟩
    split at hp <;> omega

theorem reduceAffected_spec :
    ∀ (fuel : Nat) (g : Graph) (nodes : List Nat) (index : Nat) (affected : List Nat),
      GInv g nodes → affected.Nodup → (∀ m ∈ affected, m ∈ nodes ∧ Reducible g m) →
      index ≤ nodes.length →
      (∀ p m, p < index → nodes.get? p = some m → Reducible g m → m ∈ affected) →
      nodes.length + 1 ≤ fuel →
      ∃ g2 nodes2 index2, reduceAffected fuel g nodes index affected =
          Outcome.ok (g2, nodes2, index2) ∧
        GInv g2 nodes2 ∧ g2.edges = g.edges ∧ g2.nodes.length = g.nodes.length ∧
        (∀ m, (g2.node m).transInfo = (g.node m).transInfo) ∧
        nodes2.Sublist nodes ∧ index2 ≤ nodes2.length ∧
        nodes2.length - index2 ≤ nodes.length - index ∧
        (∀ p m, p < index2 → nodes2.get? p = some m → ¬ Reducible g2 m) ∧
        (∀ S : Nat → Prop, g.Closed S → (∀ x, S x → x ∈ nodes) → ∀ x, S x → x ∈ nodes2) := by
  intro fuel
  induction fuel with
  | zero =>
    intro g nodes index affected _ _ _ _ _ hf
    omega
  | succ fuel ih =>
    intro g nodes index affected hinv hnd haff hidx hq hf
    rw [reduceAffected]
    cases hl : affected.getLast? with
    | none =>
      have he : affected = [] := List.getLast?_eq_none_iff.mp hl
      subst he
      refine ⟨g, nodes, index, rfl, hinv, rfl, rfl, fun _ => rfl, List.Sublist.refl _, hidx,
        Nat.le_refl _, ?_, fun S _ hsub => hsub⟩
      intro p m hp hg hr
      have := hq p m hp hg hr
      cases this
    | some node =>
      have hsplit : affected.dropLast ++ [node] = affected :=
        List.dropLast_append_getLast? node hl
      have hnode : node ∈ affected := by
        rw [← hsplit]; simp
      obtain ⟨hv, hr⟩ := haff node hnode
      have hpos : IndexOf nodes node < nodes.length := (IndexOf_lt_length nodes node).mpr hv
      have hnd2 : (affected.dropLast ++ [node]).Nodup := by rw [hsplit]; exact hnd
      rw [List.nodup_append] at hnd2
      have hnot : node ∉ affected.dropLast := fun h => hnd2.2.2 h (List.mem_singleton_self _)
      have hdrop : ∀ m, m ∈ affected → m ≠ node → m ∈ affected.dropLast := by
        intro m hm hne
        rw [← hsplit] at hm
        rcases List.mem_append.mp hm with h | h
        · exact h
        · exact absurd (List.mem_singleton.mp h) hne
      have hsub : ∀ m ∈ affected.dropLast, m ∈ affected := by
        intro m hm
        rw [← hsplit]
        exact List.mem_append_left _ hm
      obtain ⟨aff2, hfold, d1, d2, d3, d4⟩ := detach_affected g nodes node affected.dropLast
        hinv hv hr hnd2.1 hnot (fun m hm => haff m (hsub m hm))
      simp only [Nat.not_le.mpr hpos, if_false, hfold, eraseIdx_IndexOf]
      have hinv2 := GInv_cutNode g nodes node hinv hv
      obtain ⟨l1, l2, l3, l4⟩ := cutNode_links g nodes node hinv hv
      have hlen : (removeFirst nodes node).length + 1 = nodes.length :=
        length_removeFirst nodes node hv
      have hidx2 : (if IndexOf nodes node < index then index - 1 else index) ≤
          (removeFirst nodes node).length := by
        split <;> omega
      obtain ⟨g2, nodes2, index2, e1, e2, e3, e4, e5, e6, e7, e8, e9, e10⟩ :=
        ih (cutNode g node) (removeFirst nodes node)
          (if IndexOf nodes node < index then index - 1 else index) aff2 hinv2 d1 d3 hidx2
          (by
            intro p m hp hg hred
            obtain ⟨p0, hp0, hg0⟩ := get?_removeFirst_index nodes node index p m hp hg
            have hmn : m ≠ node := by
              have := List.get?_mem hg
              exact ((mem_removeFirst_iff nodes node m hinv.nodup).mp this).2
            rcases d4 m hred with h | h
            · exact d2 m (hdrop m (hq p0 m hp0 hg0 h) hmn)
            · exact h)
          (by omega)
      refine ⟨g2, nodes2, index2, e1, e2, e3.trans l1, e4.trans l2,
        fun m => (e5 m).trans (l3 m).1, e6.trans (removeFirst_sublist _ _), e7, ?_, e9, ?_⟩
      · have : (removeFirst nodes node).length -
            (if IndexOf nodes node < index then index - 1 else index) ≤ nodes.length - index := by
          split <;> omega
        omega
      · intro S hS hsubS x hx
        refine e10 S ((Graph.Closed_congr g _ l1 S).mpr hS) ?_ x hx
        intro y hy
        refine (mem_removeFirst_iff nodes node y hinv.nodup).mpr ⟨hsubS y hy, ?_⟩
        intro e
        subst e
        exact Reducible_not_closed g nodes y hinv hv hr S hS hsubS hy

theorem reduceFrom_spec :
    ∀ (fuel : Nat) (g : Graph) (nodes : List Nat) (index : Nat),
      GInv g nodes → index ≤ nodes.length →
      (∀ p m, p < index → nodes.get? p = some m → ¬ Reducible g m) →
      (nodes.length - index) + nodes.length + 1 ≤ fuel →
      ∃ g2 nodes2, reduceFrom fuel g nodes index = Outcome.ok (g2, nodes2) ∧
        GInv g2 nodes2 ∧ g2.edges = g.edges ∧ g2.nodes.length = g.nodes.length ∧
        (∀ m, (g2.node m).transInfo = (g.node m).transInfo) ∧
        nodes2.Sublist nodes ∧ (∀ m ∈ nodes2, ¬ Reducible g2 m) ∧
        (∀ S : Nat → Prop, g.Closed S → (∀ x, S x → x ∈ nodes) → ∀ x, S x → x ∈ nodes2) := by
  intro fuel
  induction fuel with
  | zero =>
    intro g nodes index _ _ _ hf
    omega
  | succ fuel ih =>
    intro g nodes index hinv hidx hq hf
    rw [reduceFrom]
    cases hg : nodes.get? index with
    | none =>
      refine ⟨g, nodes, rfl, hinv, rfl, rfl, fun _ => rfl, List.Sublist.refl _, ?_,
        fun S _ hsub => hsub⟩
      intro m hm
      obtain ⟨p, hp, hpm⟩ := List.getElem_of_mem hm
      have hge : nodes.length ≤ index := List.get?_eq_none.mp hg
      refine hq p m (by omega) ?_
      rw [List.get?_eq_getElem?, List.getElem?_eq_getElem hp, hpm]
    | some node =>
      have hlt : index < nodes.length := by
        by_contra hcon
        rw [List.get?_eq_none.mpr (Nat.le_of_not_lt hcon)] at hg
        cases hg
      have hv : node ∈ nodes := List.get?_mem hg
      obtain ⟨t1, t2, t3⟩ := TestReducableNode_spec g [] node
      cases ht : TestReducableNode g [] node with
      | mk b aff =>
        rw [ht] at t1 t2 t3
        simp only at t1 t2 t3
        cases b with
        | true =>
          have hr : Reducible g node := t1.mp rfl
          obtain ⟨g1, nodes1, index1, e1, e2, e3, e4, e5, e6, e7, e8, e9, e10⟩ :=
            reduceAffected_spec (fuel + 1) g nodes (index + 1) aff hinv
              (t3 List.nodup_nil)
              (by
                intro m hm
                rcases (t2 m).mp hm with h | ⟨h1, h2⟩
                · cases h
                · exact ⟨h1 ▸ hv, h1 ▸ h2⟩)
              hlt
              (by
                intro p m hp hpm hred
                rcases Nat.lt_succ_iff_lt_or_eq.mp hp with h | h
                · exact absurd hred (hq p m h hpm)
                · subst h
                  rw [hg] at hpm
                  cases hpm
                  exact (t2 _).mpr (Or.inr ⟨rfl, hred⟩))
              (by omega)
          simp only [ht, e1]
          have hl1 := e6.length_le
          obtain ⟨g2, nodes2, f1, f2, f3, f4, f5, f6, f7, f8⟩ :=
            ih g1 nodes1 index1 e2 e7 e9 (by omega)
          refine ⟨g2, nodes2, f1, f2, f3.trans e3, f4.trans e4, fun m => (f5 m).trans (e5 m),
            f6.trans e6, f7, ?_⟩
          intro S hS hsub x hx
          exact f8 S ((Graph.Closed_congr g g1 e3 S).mpr hS) (e10 S hS hsub) x hx
        | false =>
          have hr : ¬ Reducible g node := fun h => by
            have := t1.mpr h
            cases this
          simp only [ht]
          exact ih g nodes (index + 1) hinv hlt
            (by
              intro p m hp hpm
              rcases Nat.lt_succ_iff_lt_or_eq.mp hp with h | h
              · exact hq p m h hpm
              · subst h
                rw [hg] at hpm
                cases hpm
                exact hr)
            (by omega)

theorem ReduceGraph_spec (fuel : Nat) (g : Graph) (nodes : List Nat) (hinv : GInv g nodes)
    (hf : 2 * nodes.length + 1 ≤ fuel) :
    ∃ g2 nodes2, ReduceGraph fuel g nodes = Outcome.ok (g2, nodes2) ∧
      GInv g2 nodes2 ∧ g2.edges = g.edges ∧ g2.nodes.length = g.nodes.length ∧
      (∀ m, (g2.node m).transInfo = (g.node m).transInfo) ∧
      nodes2.Sublist nodes ∧ (∀ m ∈ nodes2, ¬ Reducible g2 m) ∧
      (∀ S : Nat → Prop, g.Closed S → (∀ x, S x → x ∈ nodes) → ∀ x, S x → x ∈ nodes2) :=
  reduceFrom_spec fuel g nodes 0 hinv (Nat.zero_le _)
    (fun p _ hp => absurd hp (Nat.not_lt_zero p)) (by omega)

/-! ## The deadlock detector: finding and saving a cycle -/

theorem SameLinks_refl (g : Graph) : SameLinks g g := ⟨rfl, rfl, fun _ => ⟨rfl, rfl, rfl⟩⟩

theorem SameLinks_trans (g g2 g3 : Graph) (h1 : SameLinks g g2) (h2 : SameLinks g2 g3) :
    SameLinks g g3 :=
  ⟨h2.1.trans h1.1, h2.2.1.trans h1.2.1, fun n =>
    ⟨(h2.2.2 n).1.trans (h1.2.2 n).1, (h2.2.2 n).2.1.trans (h1.2.2 n).2.1,
      (h2.2.2 n).2.2.trans (h1.2.2 n).2.2⟩⟩

theorem SameLinks_setNode (g : Graph) (p : Nat) (n : Node) (h1 : n.ins = (g.node p).ins)
    (h2 : n.outs = (g.node p).outs) (h3 : n.transInfo = (g.node p).transInfo) :
    SameLinks g (g.setNode p n) := by
  refine ⟨rfl, Graph.length_setNode _ _ _, fun m => ?_⟩
  rcases Nat.lt_or_ge p g.nodes.length with hp | hp
  · rw [Graph.node_setNode _ _ _ _ hp]
    by_cases e : m = p
    · subst e
      simp [h1, h2, h3]
    · simp [e]
  · rw [Graph.node_setNode_ge _ _ _ hp]
    exact ⟨rfl, rfl, rfl⟩

theorem GInv_SameLinks (g g2 : Graph) (nodes : List Nat) (h : SameLinks g g2)
    (hinv : GInv g nodes) : GInv g2 nodes := by
  obtain ⟨h1, h2, h3⟩ := h
  have hedge : ∀ e, g2.edge e = g.edge e := Graph.edge_eq_of_edges g g2 h1
  refine ⟨hinv.nodup, ?_, ?_, ?_, ?_, ?_, ?_⟩
  · intro n hn
    rw [h2]
    exact hinv.lt n hn
  · intro n hn e he
    rw [(h3 n).2.1] at he
    rw [h1, hedge]
    exact hinv.outs_ok n hn e he
  · intro n hn e he
    rw [(h3 n).1] at he
    rw [h1, hedge]
    exact hinv.ins_ok n hn e he
  · intro e he hf ht
    rw [h1] at he
    rw [hedge] at hf ht ⊢
    rw [(h3 _).2.1, (h3 _).1]
    exact hinv.present e he hf ht
  · intro n hn
    rw [(h3 n).2.1]
    exact hinv.outs_nodup n hn
  · intro n hn
    rw [(h3 n).1]
    exact hinv.ins_nodup n hn

theorem Reducible_SameLinks (g g2 : Graph) (h : SameLinks g g2) (m : Nat) :
    Reducible g2 m ↔ Reducible g m := by
  unfold Reducible
  rw [(h.2.2 m).1, (h.2.2 m).2.1]

/-- The reset loop at the start of `FindCycle`. -/
theorem resetMarks_spec (L : List Nat) :
    ∀ (g : Graph), (∀ n ∈ L, n < g.nodes.length) →
      SameLinks g (L.foldl
        (fun acc n =>
          acc.setNode n { acc.node n with previous := none, next := -1, touched := false }) g) ∧
      ∀ m, (m ∈ L ∨ MarksReset g m) → MarksReset (L.foldl
        (fun acc n =>
          acc.setNode n { acc.node n with previous := none, next := -1, touched := false }) g)
        m := by
  induction L with
  | nil =>
    intro g _
    refine ⟨SameLinks_refl g, fun m h => ?_⟩
    rcases h with h | h
    · cases h
    · exact h
  | cons a L ih =>
    intro g hlt
    simp only [List.foldl_cons]
    have ha : a < g.nodes.length := hlt a (List.mem_cons_self _ _)
    have hs := SameLinks_setNode g a
      { g.node a with previous := none, next := -1, touched := false } rfl rfl rfl
    obtain ⟨i1, i2⟩ := ih
      (g.setNode a { g.node a with previous := none, next := -1, touched := false })
      (by
        intro n hn
        rw [Graph.length_setNode]
        exact hlt n (List.mem_cons_of_mem _ hn))
    refine ⟨SameLinks_trans _ _ _ hs i1, fun m hm => ?_⟩
    apply i2
    by_cases e : m = a
    · right
      subst e
      unfold MarksReset
      rw [Graph.node_setNode _ _ _ _ ha, if_pos rfl]
      exact ⟨rfl, rfl, rfl⟩
    · rcases hm with h | h
      · rcases List.mem_cons.mp h with h | h
        · exact absurd h e
        · exact Or.inl h
      · right
        unfold MarksReset at h ⊢
        rw [Graph.node_setNode _ _ _ _ ha, if_neg e]
        exact h

theorem chain_imp_mem {R S : Nat → Nat → Prop} :
    ∀ (l : List Nat), List.Chain' R l → (∀ x ∈ l, ∀ y, R x y → S x y) → List.Chain' S l := by
  intro l
  induction l with
  | nil => intro _ _; exact List.chain'_nil
  | cons a l ih =>
    intro h himp
    rw [List.chain'_cons'] at h ⊢
    exact ⟨fun y hy => himp a (List.mem_cons_self _ _) y (h.1 y hy),
      ih h.2 (fun x hx y hr => himp x (List.mem_cons_of_mem _ hx) y hr)⟩

theorem chain_imp_init {R S : Nat → Nat → Prop} (t : Nat) :
    ∀ (l : List Nat), List.Chain' R (l ++ [t]) → (∀ x ∈ l, ∀ y, R x y → S x y) →
      List.Chain' S (l ++ [t]) := by
  intro l
  induction l with
  | nil => intro _ _; exact List.chain'_singleton t
  | cons a l ih =>
    intro h himp
    rw [List.cons_append, List.chain'_cons'] at h ⊢
    exact ⟨fun y hy => himp a (List.mem_cons_self _ _) y (h.1 y hy),
      ih h.2 (fun x hx y hr => himp x (List.mem_cons_of_mem _ hx) y hr)⟩

theorem chain_upto {R : Nat → Nat → Prop} (pre post : List Nat) (t : Nat)
    (h : List.Chain' R (pre ++ t :: post)) : List.Chain' R (pre ++ [t]) := by
  have : pre ++ t :: post = (pre ++ [t]) ++ post := by simp
  rw [this] at h
  exact h.left_of_append

theorem transGen_of_chain {A : Nat → Nat → Prop} :
    ∀ (l : List Nat) (a b : Nat), List.Chain' (fun x y => A y x) (a :: l ++ [b]) →
      Relation.TransGen A b a := by
  intro l
  induction l with
  | nil =>
    intro a b h
    simp only [List.cons_append, List.nil_append, List.chain'_cons, List.chain'_singleton,
      and_true] at h
    exact Relation.TransGen.single h
  | cons c l ih =>
    intro a b h
    rw [List.cons_append, List.cons_append, List.chain'_cons] at h
    exact Relation.TransGen.tail (ih c b h.2) h.1

theorem findCycleFrom_step (fuel : Nat) (g : Graph) (current : Nat)
    (hnext : (g.node current).next = -1) (e0 : Nat) (l : List Nat)
    (houts : (g.node current).outs = e0 :: l) :
    findCycleFrom (fuel + 1) g (some current) =
      if ((g.setNode current { g.node current with touched := true, next := 0 }).node
          (g.edge e0).toNode).next ≠ -1 then
        Outcome.ok
          ((g.setNode current { g.node current with touched := true, next := 0 }).setNode
            (g.edge e0).toNode
            { (g.setNode current { g.node current with touched := true, next := 0 }).node
                (g.edge e0).toNode with previous := some current },
            (g.edge e0).toNode)
      else if !((g.setNode current { g.node current with touched := true, next := 0 }).node
          (g.edge e0).toNode).touched then
        findCycleFrom fuel
          ((g.setNode current { g.node current with touched := true, next := 0 }).setNode
            (g.edge e0).toNode
            { (g.setNode current { g.node current with touched := true, next := 0 }).node
                (g.edge e0).toNode with previous := some current })
          (some (g.edge e0).toNode)
      else
        findCycleFrom fuel
          (g.setNode current { g.node current with touched := true, next := 0 })
          (some current) := by
  rw [findCycleFrom]
  simp only [hnext, houts, Graph.edge_setNode]
  have h0 : ((-1 : Int) + 1) = 0 := by norm_num
  simp only [h0, List.length_cons, Int.toNat_zero, List.getD_cons_zero]
  have h1 : (0 : Int) < ((l.length + 1 : Nat) : Int) := by omega
  rw [if_pos h1]



theorem length_lt_of_nodup_sub (nodes rest : List Nat) (current : Nat)
    (hnd : (current :: rest).Nodup) (hsub : ∀ x ∈ current :: rest, x ∈ nodes) :
    rest.length + 1 ≤ nodes.length := by
  have := (List.Nodup.subperm hnd (fun x hx => hsub x hx)).length_le
  simpa using this

theorem findCycleFrom_spec (nodes : List Nat) :
    ∀ (fuel : Nat) (g : Graph) (current : Nat) (rest : List Nat),
      GInv g nodes → (∀ m ∈ nodes, (g.node m).outs ≠ []) → FindInv g nodes current rest →
      nodes.length ≤ fuel + rest.length →
      ∃ g2 target pre, findCycleFrom fuel g (some current) = Outcome.ok (g2, target) ∧
        SameLinks g g2 ∧ target ∈ nodes ∧ (∀ y ∈ pre, y ∈ nodes ∧ y ≠ target) ∧ pre.Nodup ∧
        List.Chain' (EnteredFrom g2) (target :: pre ++ [target]) := by
  intro fuel
  induction fuel with
  | zero =>
    intro g current rest _ _ hf hlen
    have := length_lt_of_nodup_sub nodes rest current hf.nodup hf.sub
    omega
  | succ fuel ih =>
    intro g current rest hinv hred hf hlen
    have hcur : current ∈ nodes := hf.sub current (List.mem_cons_self _ _)
    have hcr : current ∉ rest := (List.nodup_cons.mp hf.nodup).1
    have hnext : (g.node current).next = -1 := hf.fresh current hcur hcr
    have hclt : current < g.nodes.length := hinv.lt current hcur
    obtain ⟨e0, l, houts⟩ : ∃ e0 l, (g.node current).outs = e0 :: l := by
      cases ho : (g.node current).outs with
      | nil => exact absurd ho (hred current hcur)
      | cons e0 l => exact ⟨e0, l, rfl⟩
    have he0 : e0 ∈ (g.node current).outs := by rw [houts]; exact List.mem_cons_self _ _
    obtain ⟨k1, k2, k3⟩ := hinv.outs_ok current hcur e0 he0
    have harc : g.Arc current (g.edge e0).toNode := ⟨e0, k1, k2, rfl⟩
    have htlt : (g.edge e0).toNode < g.nodes.length := hinv.lt _ k3
    rw [findCycleFrom_step fuel g current hnext e0 l houts]
    obtain ⟨g1, hg1⟩ : ∃ g1, g1 =
        g.setNode current { g.node current with touched := true, next := 0 } := ⟨_, rfl⟩
    rw [← hg1]
    obtain ⟨t, ht⟩ : ∃ t, t = (g.edge e0).toNode := ⟨_, rfl⟩
    rw [← ht] at k3 harc htlt ⊢
    have hs1 : SameLinks g g1 := by
      rw [hg1]
      exact SameLinks_setNode g current _ rfl rfl rfl
    have hn1 : ∀ m, g1.node m =
        if m = current then { g.node current with touched := true, next := 0 } else g.node m := by
      intro m
      rw [hg1, Graph.node_setNode _ _ _ _ hclt]
    have hprev1 : ∀ m, (g1.node m).previous = (g.node m).previous := by
      intro m
      rw [hn1 m]
      by_cases e : m = current
      · rw [if_pos e, e]
      · rw [if_neg e]
    have htlt1 : t < g1.nodes.length := by rw [hs1.2.1]; exact htlt
    obtain ⟨g2, hg2⟩ : ∃ g2, g2 =
        g1.setNode t { g1.node t with previous := some current } := ⟨_, rfl⟩
    rw [← hg2]
    have hs2 : SameLinks g1 g2 := by
      rw [hg2]
      exact SameLinks_setNode g1 t _ rfl rfl rfl
    have hs : SameLinks g g2 := SameLinks_trans _ _ _ hs1 hs2
    have hn2 : ∀ m, g2.node m =
        if m = t then { g1.node t with previous := some current } else g1.node m := by
      intro m
      rw [hg2, Graph.node_setNode _ _ _ _ htlt1]
    have hent : EnteredFrom g2 t current := by
      refine ⟨?_, (Graph.Arc_congr g g2 hs.1 _ _).mpr harc⟩
      rw [hn2 t, if_pos rfl]
    have hkeep : ∀ x, x ≠ t → ∀ y, EnteredFrom g x y → EnteredFrom g2 x y := by
      intro x hx y hxy
      refine ⟨?_, (Graph.Arc_congr g g2 hs.1 _ _).mpr hxy.2⟩
      rw [hn2 x, if_neg hx, hprev1 x]
      exact hxy.1
    by_cases hvis : (g1.node t).next ≠ -1
    · rw [if_pos hvis]
      have htmem : t ∈ current :: rest := by
        by_cases e : t = current
        · rw [e]; exact List.mem_cons_self _ _
        · rw [hn1 t, if_neg e] at hvis
          by_contra hcon
          exact hvis (hf.fresh t k3 (fun h => hcon (List.mem_cons_of_mem _ h)))
      obtain ⟨pre, post, hsplit⟩ := List.append_of_mem htmem
      have hnd := hf.nodup
      rw [hsplit] at hnd
      have hpre : ∀ y ∈ pre, y ∈ nodes ∧ y ≠ t := by
        intro y hy
        refine ⟨hf.sub y (by rw [hsplit]; exact List.mem_append_left _ hy), ?_⟩
        intro e
        subst e
        have := (List.nodup_append.mp hnd).2.2
        exact this hy (List.mem_cons_self _ _)
      refine ⟨g2, t, pre, rfl, hs, k3, hpre, (List.nodup_append.mp hnd).1, ?_⟩
      rw [List.cons_append, List.chain'_cons']
      have hchain := hf.chain
      rw [hsplit] at hchain
      refine ⟨?_, chain_imp_init t pre (chain_upto pre post t hchain)
        (fun x hx y hxy => hkeep x (hpre x hx).2 y hxy)⟩
      intro y hy
      have hhead : (pre ++ [t]).head? = some current := by
        cases pre with
        | nil =>
          simp only [List.nil_append, List.cons.injEq] at hsplit
          simp [hsplit.1]
        | cons a pre2 =>
          simp only [List.cons_append, List.cons.injEq] at hsplit
          simp [hsplit.1]
      rw [hhead] at hy
      cases hy
      exact hent
    · rw [if_neg hvis]
      have hvis2 : (g1.node t).next = -1 := not_not.mp hvis
      have htc : t ≠ current := by
        intro e
        rw [hn1 t, if_pos e] at hvis2
        simp at hvis2
      have hgt : (g.node t).next = -1 := by
        rw [hn1 t, if_neg htc] at hvis2
        exact hvis2
      have htr : t ∉ rest := fun h => hf.advanced t h hgt
      have htouch : (g1.node t).touched = false := by
        rw [hn1 t, if_neg htc]
        exact hf.untouched t k3 hgt
      simp only [htouch, Bool.not_false, if_true]
      have hf2 : FindInv g2 nodes t (current :: rest) := by
        refine ⟨?_, ?_, ?_, ?_, ?_, ?_⟩
        · rw [List.nodup_cons]
          refine ⟨?_, hf.nodup⟩
          intro h
          rcases List.mem_cons.mp h with h | h
          · exact htc h
          · exact htr h
        · intro x hx
          rcases List.mem_cons.mp hx with h | h
          · rw [h]; exact k3
          · exact hf.sub x h
        · intro m hm hnot
          have hmc : m ≠ current := fun e => hnot (e ▸ List.mem_cons_self _ _)
          have hmr : m ∉ rest := fun h => hnot (List.mem_cons_of_mem _ h)
          rw [hn2 m]
          by_cases e : m = t
          · rw [if_pos e]
            exact hvis2
          · rw [if_neg e, hn1 m, if_neg hmc]
            exact hf.fresh m hm hmr
        · intro m hm
          rcases List.mem_cons.mp hm with h | h
          · rw [h, hn2 current, if_neg (fun e => htc e.symm), hn1 current, if_pos rfl]
            simp
          · have hmt : m ≠ t := fun e => htr (e ▸ h)
            have hmc : m ≠ current := fun e => hcr (e ▸ h)
            rw [hn2 m, if_neg hmt, hn1 m, if_neg hmc]
            exact hf.advanced m h
        · intro m hm hmn
          rw [hn2 m] at hmn ⊢
          by_cases e : m = t
          · rw [if_pos e]
            exact htouch
          · rw [if_neg e] at hmn ⊢
            rw [hn1 m] at hmn ⊢
            by_cases e2 : m = current
            · rw [if_pos e2] at hmn
              simp at hmn
            · rw [if_neg e2] at hmn ⊢
              exact hf.untouched m hm hmn
        · rw [List.chain'_cons]
          refine ⟨hent, chain_imp_mem _ hf.chain (fun x hx y hxy => hkeep x ?_ y hxy)⟩
          intro e
          subst e
          rcases List.mem_cons.mp hx with h | h
          · exact htc h
          · exact htr h
      obtain ⟨g3, target, pre, r1, r2, r3, r4, r5, r6⟩ :=
        ih g2 t (current :: rest) (GInv_SameLinks g g2 nodes hs hinv)
          (fun m hm => by rw [(hs.2.2 m).2.1]; exact hred m hm) hf2
          (by simp only [List.length_cons]; omega)
      exact ⟨g3, target, pre, r1, SameLinks_trans _ _ _ hs r2, r3, r4, r5, r6⟩

theorem FindCycle_nil (fuel : Nat) (g : Graph) : FindCycle fuel g [] = Outcome.ok (g, none) := rfl

theorem FindCycle_walk (fuel : Nat) (g : Graph) (nodes : List Nat) (hinv : GInv g nodes)
    (hred : ∀ m ∈ nodes, (g.node m).outs ≠ []) (hne : nodes ≠ []) (hfuel : nodes.length ≤ fuel) :
    ∃ g2 target pre, FindCycle fuel g nodes = Outcome.ok (g2, some target) ∧
      SameLinks g g2 ∧ target ∈ nodes ∧ (∀ y ∈ pre, y ∈ nodes ∧ y ≠ target) ∧ pre.Nodup ∧
      List.Chain' (EnteredFrom g2) (target :: pre ++ [target]) := by
  cases nodes with
  | nil => exact absurd rfl hne
  | cons first tl =>
    obtain ⟨r1, r2⟩ := resetMarks_spec (first :: tl) g hinv.lt
    obtain ⟨g1, hg1⟩ : ∃ g1, g1 = (first :: tl).foldl
        (fun acc n =>
          acc.setNode n { acc.node n with previous := none, next := -1, touched := false }) g :=
      ⟨_, rfl⟩
    rw [← hg1] at r1 r2
    have hf : FindInv g1 (first :: tl) first [] := by
      refine ⟨List.nodup_singleton _, ?_, ?_, ?_, ?_, List.chain'_singleton _⟩
      · intro x hx
        rw [List.mem_singleton] at hx
        rw [hx]
        exact List.mem_cons_self _ _
      · intro m hm _
        exact (r2 m (Or.inl hm)).2.1
      · intro m hm
        cases hm
      · intro m hm _
        exact (r2 m (Or.inl hm)).2.2
    obtain ⟨g2, target, pre, e1, e2, e3, e4, e5, e6⟩ :=
      findCycleFrom_spec (first :: tl) fuel g1 first [] (GInv_SameLinks g g1 _ r1 hinv)
        (fun m hm => by rw [(r1.2.2 m).2.1]; exact hred m hm) hf
        (by simpa using hfuel)
    refine ⟨g2, target, pre, ?_, SameLinks_trans _ _ _ r1 e2, e3, e4, e5, e6⟩
    unfold FindCycle
    simp only
    rw [← hg1, e1]

theorem FindCycle_spec (fuel : Nat) (g : Graph) (nodes : List Nat) (hinv : GInv g nodes)
    (hred : ∀ m ∈ nodes, ¬ Reducible g m) (hne : nodes ≠ []) (hfuel : nodes.length ≤ fuel) :
    ∃ g2 target pre, FindCycle fuel g nodes = Outcome.ok (g2, some target) ∧
      SameLinks g g2 ∧ target ∈ nodes ∧ (∀ y ∈ pre, y ∈ nodes ∧ y ≠ target) ∧ pre.Nodup ∧
      List.Chain' (EnteredFrom g2) (target :: pre ++ [target]) :=
  FindCycle_walk fuel g nodes hinv
    (fun m hm e => hred m hm (by unfold Reducible; rw [e]; simp)) hne hfuel

theorem saveCycleFrom_spec (g : Graph) (cycle : Nat) :
    ∀ (walk : List Nat) (fuel : Nat) (involved : List Nat) (current : Nat),
      List.Chain' (EnteredFrom g) (current :: walk ++ [cycle]) → (∀ y ∈ walk, y ≠ cycle) →
      walk.length + 1 ≤ fuel →
      ∃ involved2, saveCycleFrom g cycle fuel involved current = Outcome.ok involved2 ∧
        (∀ x, x ∈ involved2 ↔ x ∈ involved ∨ x = current ∨ x ∈ walk) ∧
        (involved.Nodup → involved2.Nodup) := by
  intro walk
  induction walk with
  | nil =>
    intro fuel involved current hc _ hf
    obtain ⟨fuel, rfl⟩ : ∃ f, fuel = f + 1 := ⟨fuel - 1, by omega⟩
    simp only [List.cons_append, List.nil_append, List.chain'_cons, List.chain'_singleton,
      and_true] at hc
    rw [saveCycleFrom]
    simp only [hc.1, ne_eq, not_true_eq_false, if_false]
    refine ⟨_, rfl, fun x => ?_, fun hn => ?_⟩
    · by_cases hm : current ∈ involved
      · rw [if_pos hm]
        constructor
        · exact fun h => Or.inl h
        · rintro (h | h | h)
          · exact h
          · exact h ▸ hm
          · cases h
      · rw [if_neg hm, mem_sortedAdd]
        constructor
        · rintro (h | h)
          · exact Or.inr (Or.inl h)
          · exact Or.inl h
        · rintro (h | h | h)
          · exact Or.inr h
          · exact Or.inl h
          · cases h
    · by_cases hm : current ∈ involved
      · rw [if_pos hm]; exact hn
      · rw [if_neg hm]; exact nodup_sortedAdd _ _ hm hn
  | cons y w ih =>
    intro fuel involved current hc hne hf
    obtain ⟨fuel, rfl⟩ : ∃ f, fuel = f + 1 := ⟨fuel - 1, by omega⟩
    rw [List.cons_append, List.cons_append, List.chain'_cons] at hc
    have hy : y ≠ cycle := hne y (List.mem_cons_self _ _)
    rw [saveCycleFrom]
    simp only [hc.1.1, ne_eq, hy, not_false_eq_true, if_true]
    obtain ⟨inv2, s1, s2, s3⟩ := ih fuel
      (if current ∈ involved then involved else sortedAdd current involved) y
      (by rw [List.cons_append]; exact hc.2) (fun z hz => hne z (List.mem_cons_of_mem _ hz))
      (by simp only [List.length_cons] at hf; omega)
    refine ⟨inv2, s1, fun x => ?_, fun hn => s3 ?_⟩
    · rw [s2 x]
      by_cases hm : current ∈ involved
      · rw [if_pos hm]
        simp only [List.mem_cons]
        constructor
        · rintro (h | h | h)
          · exact Or.inl h
          · exact Or.inr (Or.inr (Or.inl h))
          · exact Or.inr (Or.inr (Or.inr h))
        · rintro (h | h | h | h)
          · exact Or.inl h
          · exact Or.inl (h ▸ hm)
          · exact Or.inr (Or.inl h)
          · exact Or.inr (Or.inr h)
      · rw [if_neg hm, mem_sortedAdd]
        simp only [List.mem_cons]
        tauto
    · by_cases hm : current ∈ involved
      · rw [if_pos hm]; exact hn
      · rw [if_neg hm]; exact nodup_sortedAdd _ _ hm hn

theorem SaveCycle_spec (g : Graph) (cycle : Nat) (pre : List Nat) (fuel : Nat)
    (involved : List Nat) (hc : List.Chain' (EnteredFrom g) (cycle :: pre ++ [cycle]))
    (hne : ∀ y ∈ pre, y ≠ cycle) (hf : pre.length + 1 ≤ fuel) :
    ∃ involved2, SaveCycle fuel g involved cycle = Outcome.ok involved2 ∧
      (∀ x, x ∈ involved2 ↔ x ∈ involved ∨ x = cycle ∨ x ∈ pre) ∧
      (involved.Nodup → involved2.Nodup) :=
  saveCycleFrom_spec g cycle pre fuel involved cycle hc hne hf

/-! ## The deadlock detector: the main loop -/

theorem chain_with_mem {R : Nat → Nat → Prop} (P : Nat → Prop) :
    ∀ (l : List Nat), List.Chain' R l → (∀ x ∈ l, P x) →
      List.Chain' (fun x y => P x ∧ P y ∧ R x y) l := by
  intro l
  induction l with
  | nil => intro _ _; exact List.chain'_nil
  | cons a l ih =>
    intro h hP
    rw [List.chain'_cons'] at h ⊢
    refine ⟨fun y hy => ⟨hP a (List.mem_cons_self _ _), ?_, h.1 y hy⟩,
      ih h.2 (fun x hx => hP x (List.mem_cons_of_mem _ hx))⟩
    cases l with
    | nil => cases hy
    | cons b l2 =>
      simp only [List.head?_cons, Option.mem_def, Option.some.injEq] at hy
      rw [← hy]
      exact hP b (List.mem_cons_of_mem _ (List.mem_cons_self _ _))

theorem detectLoop_spec :
    ∀ (fuel : Nat) (g : Graph) (nodes involved : List Nat) (rollbacks : List BufferTransaction),
      GInv g nodes → 2 * nodes.length + 1 ≤ fuel →
      ∃ g2 nodes2 involved2 victims,
        detectLoop fuel g nodes involved rollbacks =
          Outcome.ok (g2, nodes2, involved2,
            rollbacks ++ victims.map fun v => (g.node v).transInfo.trans) ∧
        g2.edges = g.edges ∧ g2.nodes.length = g.nodes.length ∧
        (∀ m, (g2.node m).transInfo = (g.node m).transInfo) ∧
        victims.Nodup ∧ (∀ v ∈ victims, v ∈ nodes) ∧
        (∀ S : Nat → Prop, g.Closed S → (∀ x, S x → x ∈ nodes ∧ x ∉ victims) → ∀ x, ¬ S x) ∧
        (∀ pre v post, victims = pre ++ v :: post →
          Relation.TransGen (g.ArcOn fun x => x ∈ nodes ∧ x ∉ pre) v v) ∧
        (∀ x, x ∈ involved2 → x ∈ involved ∨ (x ∈ nodes ∧ ∃ y, g.Arc y x)) ∧
        (involved.Nodup → involved2.Nodup) := by
  intro fuel
  induction fuel with
  | zero =>
    intro g nodes involved rollbacks _ hf
    omega
  | succ fuel ih =>
    intro g nodes involved rollbacks hinv hf
    obtain ⟨g1, nodes1, r1, r2, r3, r4, r5, r6, r7, r8⟩ :=
      ReduceGraph_spec (fuel + 1) g nodes hinv hf
    have hlen1 := r6.length_le
    rw [detectLoop]
    simp only [r1]
    by_cases hne : nodes1 = []
    · subst hne
      simp only [FindCycle_nil]
      refine ⟨g1, [], involved, [], by simp, r3, r4, r5, List.nodup_nil, ?_, ?_, ?_,
        fun x hx => Or.inl hx, fun h => h⟩
      · intro v hv
        cases hv
      · intro S hS hsub x hx
        have := r8 S hS (fun y hy => (hsub y hy).1) x hx
        cases this
      · intro pre v post h
        simp at h
    · obtain ⟨g2, target, pre, c1, c2, c3, c4, c5, c6⟩ :=
        FindCycle_spec (fuel + 1) g1 nodes1 r2 r7 hne (by omega)
      simp only [c1]
      have hprelen : pre.length + 1 ≤ nodes1.length :=
        length_lt_of_nodup_sub nodes1 pre target
          (List.nodup_cons.mpr ⟨fun h => (c4 target h).2 rfl, c5⟩)
          (by
            intro x hx
            rcases List.mem_cons.mp hx with h | h
            · rw [h]; exact c3
            · exact (c4 x h).1)
      obtain ⟨involved1, s1, s2, s3⟩ := SaveCycle_spec g2 target pre (fuel + 1) involved c6
        (fun y hy => (c4 y hy).2) (by omega)
      simp only [s1, ChooseVictim_eq]
      have hinv2 : GInv g2 nodes1 := GInv_SameLinks g1 g2 nodes1 c2 r2
      have hinv3 := GInv_cutNode g2 nodes1 target hinv2 c3
      obtain ⟨l1, l2, l3, l4⟩ := cutNode_links g2 nodes1 target hinv2 c3
      have hlen3 : (removeFirst nodes1 target).length + 1 = nodes1.length :=
        length_removeFirst nodes1 target c3
      have hedges : (cutNode g2 target).edges = g.edges := l1.trans (c2.1.trans r3)
      have hinfo : ∀ m, ((cutNode g2 target).node m).transInfo = (g.node m).transInfo :=
        fun m => (l3 m).1.trans ((c2.2.2 m).2.2.trans (r5 m))
      have hmem3 : ∀ m, m ∈ removeFirst nodes1 target ↔ m ∈ nodes1 ∧ m ≠ target :=
        fun m => mem_removeFirst_iff nodes1 target m r2.nodup
      obtain ⟨g4, nodes4, involved4, victims, d1, d2, d3, d4, d5, d6, d7, d8, d9, d10⟩ :=
        ih (cutNode g2 target) (removeFirst nodes1 target) involved1
          (rollbacks ++ [((cutNode g2 target).node target).transInfo.trans]) hinv3 (by omega)
      have harc : ∀ a b, (cutNode g2 target).Arc a b ↔ g.Arc a b :=
        Graph.Arc_congr g _ hedges
      have hcyc : Relation.TransGen (g.ArcOn fun x => x ∈ nodes1) target target := by
        apply transGen_of_chain pre target target
        have hc := chain_with_mem (fun x => x ∈ nodes1) _ c6 (by
          intro x hx
          rw [List.cons_append] at hx
          rcases List.mem_cons.mp hx with h | h
          · rw [h]; exact c3
          · rcases List.mem_append.mp h with h | h
            · exact (c4 x h).1
            · rw [List.mem_singleton.mp h]; exact c3)
        refine List.Chain'.imp ?_ hc
        intro x y hxy
        exact ⟨hxy.2.1, hxy.1,
          (Graph.Arc_congr g g2 (c2.1.trans r3) _ _).mp hxy.2.2.2⟩
      refine ⟨g4, nodes4, involved4, target :: victims, ?_, d2.trans hedges,
        d3.trans (l2.trans (c2.2.1.trans r4)), fun m => (d4 m).trans (hinfo m), ?_, ?_, ?_, ?_,
        ?_, fun h => d10 (s3 h)⟩
      · rw [d1]
        simp only [List.map_cons, hinfo, List.append_assoc, List.singleton_append]
      · rw [List.nodup_cons]
        exact ⟨fun h => ((hmem3 target).mp (d6 target h)).2 rfl, d5⟩
      · intro v hv
        rcases List.mem_cons.mp hv with h | h
        · rw [h]; exact r6.subset c3
        · exact r6.subset ((hmem3 v).mp (d6 v h)).1
      · intro S hS hsub x hx
        refine d7 S ((Graph.Closed_congr g _ hedges S).mpr hS) ?_ x hx
        intro y hy
        obtain ⟨h1, h2⟩ := hsub y hy
        refine ⟨(hmem3 y).mpr ⟨r8 S hS (fun z hz => (hsub z hz).1) y hy, ?_⟩, ?_⟩
        · intro e
          exact h2 (e ▸ List.mem_cons_self _ _)
        · intro h
          exact h2 (List.mem_cons_of_mem _ h)
      · intro pre2 v post h
        cases pre2 with
        | nil =>
          simp only [List.nil_append, List.cons.injEq] at h
          rw [← h.1]
          refine Relation.TransGen.mono ?_ hcyc
          intro a b hab
          exact ⟨⟨r6.subset hab.1, by simp⟩, ⟨r6.subset hab.2.1, by simp⟩, hab.2.2⟩
        | cons a pre3 =>
          simp only [List.cons_append, List.cons.injEq] at h
          have := d8 pre3 v post h.2
          refine Relation.TransGen.mono ?_ this
          intro x y hxy
          obtain ⟨⟨h1, h2⟩, ⟨h3, h4⟩, h5⟩ := hxy
          obtain ⟨h1a, h1b⟩ := (hmem3 x).mp h1
          obtain ⟨h3a, h3b⟩ := (hmem3 y).mp h3
          rw [← h.1]
          refine ⟨⟨r6.subset h1a, ?_⟩, ⟨r6.subset h3a, ?_⟩, (harc x y).mp h5⟩
          · simp only [List.mem_cons, not_or]
            exact ⟨h1b, h2⟩
          · simp only [List.mem_cons, not_or]
            exact ⟨h3b, h4⟩
      · intro x hx
        rcases d9 x hx with h | ⟨h1, y, h2⟩
        · rcases (s2 x).mp h with h | h | h
          · exact Or.inl h
          · right
            rw [h]
            refine ⟨r6.subset c3, ?_⟩
            obtain ⟨a, ha⟩ := Relation.TransGen.tail'_iff.mp hcyc
            exact ⟨a, ha.2.2.2⟩
          · right
            refine ⟨r6.subset (c4 x h).1, ?_⟩
            obtain ⟨pa, pb, hsplit⟩ := List.append_of_mem h
            have hc6 := c6
            rw [hsplit] at hc6
            have : target :: (pa ++ x :: pb) ++ [target] =
                (target :: pa) ++ (x :: (pb ++ [target])) := by simp
            rw [this] at hc6
            have hx2 := hc6.right_of_append
            rw [List.chain'_cons'] at hx2
            have hhead : ∃ y, y ∈ (pb ++ [target]).head? := by
              cases pb with
              | nil => exact ⟨target, by simp⟩
              | cons b pb2 => exact ⟨b, by simp⟩
            obtain ⟨y, hy⟩ := hhead
            exact ⟨y, (Graph.Arc_congr g g2 (c2.1.trans r3) _ _).mp (hx2.1 y hy).2⟩
        · right
          exact ⟨r6.subset ((hmem3 x).mp h1).1, y, (harc y x).mp h2⟩

/-- A relation without a nonempty set in which every element has a successor
and a predecessor has no cycle. -/
theorem no_cycle_of_closed (g : Graph) (P : Nat → Prop)
    (h : ∀ S : Nat → Prop, g.Closed S → (∀ x, S x → P x) → ∀ x, ¬ S x) :
    ¬ HasCycle (g.ArcOn P) := by
  rintro ⟨a, ha⟩
  refine h (fun x => Relation.TransGen (g.ArcOn P) a x ∧ Relation.TransGen (g.ArcOn P) x a)
    ?_ ?_ a ⟨ha, ha⟩
  · rintro x ⟨h1, h2⟩
    constructor
    · obtain ⟨y, hxy, hya⟩ := Relation.TransGen.head'_iff.mp h2
      refine ⟨y, ⟨Relation.TransGen.tail h1 hxy, ?_⟩, hxy.2.2⟩
      rcases Relation.reflTransGen_iff_eq_or_transGen.mp hya with e | e
      · rw [← e]; exact ha
      · exact e
    · obtain ⟨y, hay, hyx⟩ := Relation.TransGen.tail'_iff.mp h1
      refine ⟨y, ⟨?_, Relation.TransGen.head hyx h2⟩, hyx.2.2⟩
      rcases Relation.reflTransGen_iff_eq_or_transGen.mp hay with e | e
      · rw [e]; exact ha
      · exact e
  · rintro x ⟨h1, -⟩
    obtain ⟨y, -, hyx⟩ := Relation.TransGen.tail'_iff.mp h1
    exact hyx.2.1

/-- The loop of `DetectDeadlock` on a consistent graph: with fuel `2n + 1` it
returns, the nodes it did not choose as victims carry no cycle, and it chooses
no victim exactly when the graph has no cycle. -/
theorem detectLoop_breaks_cycles (fuel : Nat) (g : Graph) (nodes involved : List Nat)
    (rollbacks : List BufferTransaction) (hinv : GInv g nodes)
    (hf : 2 * nodes.length + 1 ≤ fuel) :
    ∃ g2 nodes2 involved2 victims,
      detectLoop fuel g nodes involved rollbacks =
        Outcome.ok (g2, nodes2, involved2,
          rollbacks ++ victims.map fun v => (g.node v).transInfo.trans) ∧
      g2.edges = g.edges ∧ g2.nodes.length = g.nodes.length ∧
      (∀ m, (g2.node m).transInfo = (g.node m).transInfo) ∧
      victims.Nodup ∧ (∀ v ∈ victims, v ∈ nodes) ∧
      ¬ HasCycle (g.ArcOn fun x => x ∈ nodes ∧ x ∉ victims) ∧
      (victims = [] ↔ ¬ HasCycle (g.ArcOn fun x => x ∈ nodes)) ∧
      (∀ pre v post, victims = pre ++ v :: post →
        Relation.TransGen (g.ArcOn fun x => x ∈ nodes ∧ x ∉ pre) v v) ∧
      (∀ x, x ∈ involved2 → x ∈ involved ∨ (x ∈ nodes ∧ ∃ y, g.Arc y x)) ∧
      (involved.Nodup → involved2.Nodup) := by
  obtain ⟨g2, nodes2, involved2, victims, d1, d2, d3, d4, d5, d6, d7, d8, d9, d10⟩ :=
    detectLoop_spec fuel g nodes involved rollbacks hinv hf
  refine ⟨g2, nodes2, involved2, victims, d1, d2, d3, d4, d5, d6,
    no_cycle_of_closed g _ d7, ?_, d8, d9, d10⟩
  constructor
  · intro hv
    subst hv
    have := no_cycle_of_closed g _ d7
    simpa using this
  · intro hno
    cases victims with
    | nil => rfl
    | cons v post =>
      exfalso
      apply hno
      have := d8 [] v post rfl
      exact ⟨v, Relation.TransGen.mono (fun a b hab => ⟨hab.1.1, hab.2.1.1, hab.2.2⟩) this⟩

/-! ## The deadlock detector: building the graph -/

theorem buildEdge_skip (pending : LockTarget) (f t : Nat) (acc : Graph × Dict Nat (List Nat))
    (h : edgeJustification pending (acc.1.node t).transInfo.acquiredLocks = []) :
    buildEdge pending f acc t = acc := by
  unfold buildEdge
  simp [h]

theorem Graph.edge_append_lt (g : Graph) (x : Edge) (nodes : List Node) (e : Nat)
    (h : e < g.edges.length) :
    (Graph.mk nodes (g.edges ++ [x])).edge e = g.edge e := by
  unfold Graph.edge
  simp only
  rw [List.getD_eq_getElem?_getD, List.getD_eq_getElem?_getD, List.getElem?_append_left h]

theorem Graph.edge_append_eq (g : Graph) (x : Edge) (nodes : List Node) :
    (Graph.mk nodes (g.edges ++ [x])).edge g.edges.length = x := by
  unfold Graph.edge
  simp only
  rw [List.getD_eq_getElem?_getD, List.getElem?_append_right (Nat.le_refl _)]
  simp

/-- What `buildEdge` does when the pair has a justification. -/
theorem buildEdge_effect (pending : LockTarget) (f t : Nat) (g : Graph)
    (grp : Dict Nat (List Nat)) (hf : f < g.nodes.length) (ht : t < g.nodes.length)
    (h : edgeJustification pending (g.node t).transInfo.acquiredLocks ≠ []) :
    (buildEdge pending f (g, grp) t).2 = groupAdd grp t g.edges.length ∧
    (buildEdge pending f (g, grp) t).1.edges =
      g.edges ++ [⟨f, t, edgeJustification pending (g.node t).transInfo.acquiredLocks⟩] ∧
    (buildEdge pending f (g, grp) t).1.nodes.length = g.nodes.length ∧
    ∀ m, ((buildEdge pending f (g, grp) t).1.node m).transInfo = (g.node m).transInfo ∧
      ((buildEdge pending f (g, grp) t).1.node m).outs =
        (if m = f then sortedAdd g.edges.length (g.node m).outs else (g.node m).outs) ∧
      ((buildEdge pending f (g, grp) t).1.node m).ins =
        (if m = t then sortedAdd g.edges.length (g.node m).ins else (g.node m).ins) := by
  have hne : (edgeJustification pending (g.node t).transInfo.acquiredLocks).isEmpty = false := by
    cases hj : edgeJustification pending (g.node t).transInfo.acquiredLocks with
    | nil => exact absurd hj h
    | cons a l => rfl
  have hb : buildEdge pending f (g, grp) t =
      ((({ g with edges := g.edges ++
            [⟨f, t, edgeJustification pending (g.node t).transInfo.acquiredLocks⟩] } :
          Graph).setNode f
          { g.node f with outs := sortedAdd g.edges.length (g.node f).outs }).setNode t
        { (({ g with edges := g.edges ++
            [⟨f, t, edgeJustification pending (g.node t).transInfo.acquiredLocks⟩] } :
          Graph).setNode f
          { g.node f with outs := sortedAdd g.edges.length (g.node f).outs }).node t with
          ins := sortedAdd g.edges.length
            ((({ g with edges := g.edges ++
              [⟨f, t, edgeJustification pending (g.node t).transInfo.acquiredLocks⟩] } :
            Graph).setNode f
            { g.node f with outs := sortedAdd g.edges.length (g.node f).outs }).node t).ins },
        groupAdd grp t g.edges.length) := by
    unfold buildEdge
    simp only [hne, Bool.false_eq_true, if_false]
    rfl
  rw [hb]
  refine ⟨rfl, rfl, ?_, fun m => ?_⟩
  · simp [Graph.setNode]
  · have hn1 : ∀ (x : Edge) (k : Nat), (Graph.mk g.nodes (g.edges ++ [x])).node k = g.node k :=
      fun _ _ => rfl
    have key : ∀ (g1 : Graph) (nf : Node), (∀ k, g1.node k = g.node k) →
        g1.nodes.length = g.nodes.length →
        nf = { g.node f with outs := sortedAdd g.edges.length (g.node f).outs } →
        (((g1.setNode f nf).setNode t
          { (g1.setNode f nf).node t with
            ins := sortedAdd g.edges.length ((g1.setNode f nf).node t).ins }).node m).transInfo =
          (g.node m).transInfo ∧
        (((g1.setNode f nf).setNode t
          { (g1.setNode f nf).node t with
            ins := sortedAdd g.edges.length ((g1.setNode f nf).node t).ins }).node m).outs =
          (if m = f then sortedAdd g.edges.length (g.node m).outs else (g.node m).outs) ∧
        (((g1.setNode f nf).setNode t
          { (g1.setNode f nf).node t with
            ins := sortedAdd g.edges.length ((g1.setNode f nf).node t).ins }).node m).ins =
          (if m = t then sortedAdd g.edges.length (g.node m).ins else (g.node m).ins) := by
      intro g1 nf hk hl hnf
      have hf1 : f < g1.nodes.length := by rw [hl]; exact hf
      have ht2 : t < (g1.setNode f nf).nodes.length := by
        rw [Graph.length_setNode, hl]; exact ht
      rw [Graph.node_setNode _ _ _ _ ht2, Graph.node_setNode _ _ _ _ hf1,
        Graph.node_setNode _ _ _ _ hf1]
      by_cases e1 : m = t
      · by_cases e2 : m = f
        · subst e1
          subst e2
          simp [hk, hnf]
        · subst e1
          simp [hk, hnf, e2, fun h : f = m => e2 h.symm]
      · by_cases e2 : m = f
        · subst e2
          simp [hk, hnf, e1]
        · simp [hk, hnf, e1, e2]
    exact key _ _ (hn1 _) rfl rfl

theorem Graph.edge_of_append (g G : Graph) (x : Edge) (h : G.edges = g.edges ++ [x]) :
    (∀ e, e < g.edges.length → G.edge e = g.edge e) ∧ G.edge g.edges.length = x ∧
    G.edges.length = g.edges.length + 1 := by
  refine ⟨fun e he => ?_, ?_, by rw [h]; simp⟩
  · unfold Graph.edge
    rw [h, List.getD_eq_getElem?_getD, List.getD_eq_getElem?_getD, List.getElem?_append_left he]
  · unfold Graph.edge
    rw [h, List.getD_eq_getElem?_getD, List.getElem?_append_right (Nat.le_refl _)]
    simp

theorem find_groupAdd (grp : Dict Nat (List Nat)) (t e k : Nat) :
    Dict.find (groupAdd grp t e) k =
      if k = t then some ((Dict.find grp t).getD [] ++ [e]) else Dict.find grp k := by
  unfold groupAdd
  cases h : Dict.find grp t with
  | none =>
    simp only [Dict.find_Add, Option.getD_none, List.nil_append]
    by_cases e1 : k = t
    · subst e1
      simp [h]
    · simp only [e1, if_false]
      cases h2 : Dict.find grp k with
      | none =>
        have e2 : ¬ t = k := fun h3 => e1 h3.symm
        simp [e2]
      | some l => rfl
  | some l =>
    simp only [Dict.find_Store, h, Option.map_some', Option.getD_some]

theorem BuildInv_buildEdge (g0 g : Graph) (grp : Dict Nat (List Nat)) (D : Nat → Nat → Prop)
    (f t : Nat) (hinv : BuildInv g0 g grp D) (hf : f < g0.nodes.length)
    (ht : t < g0.nodes.length) :
    BuildInv g0 (buildEdge (g0.node f).transInfo.pendingLock f (g, grp) t).1
      (buildEdge (g0.node f).transInfo.pendingLock f (g, grp) t).2
      (fun a b => D a b ∨ (a = f ∧ b = t)) := by
  have hjt : edgeJustification (g0.node f).transInfo.pendingLock
      (g.node t).transInfo.acquiredLocks =
      edgeJustification (g0.node f).transInfo.pendingLock
        (g0.node t).transInfo.acquiredLocks := by rw [hinv.info t]
  by_cases hj : edgeJustification (g0.node f).transInfo.pendingLock
      (g.node t).transInfo.acquiredLocks = []
  · rw [buildEdge_skip _ f t (g, grp) hj]
    refine ⟨hinv.length, hinv.info, ?_, hinv.outs_ok, hinv.ins_ok, hinv.outs_nodup,
      hinv.ins_nodup, ?_, hinv.group_some, hinv.group_none⟩
    · intro e he
      obtain ⟨h1, h2⟩ := hinv.edge_ok e he
      exact ⟨Or.inl h1, h2⟩
    · intro a b hab hne
      rcases hab with h | ⟨h1, h2⟩
      · exact hinv.complete a b h hne
      · subst h1
        subst h2
        rw [← hjt] at hne
        exact absurd hj hne
  · obtain ⟨e1, e2, e3, e4⟩ := buildEdge_effect (g0.node f).transInfo.pendingLock f t g grp
      (by rw [hinv.length]; exact hf) (by rw [hinv.length]; exact ht) hj
    obtain ⟨G, hG⟩ : ∃ G, G = (buildEdge (g0.node f).transInfo.pendingLock f (g, grp) t).1 :=
      ⟨_, rfl⟩
    rw [← hG] at e2 e3 e4 ⊢
    rw [e1]
    obtain ⟨x1, x2, x3⟩ := Graph.edge_of_append g G _ e2
    have hold : ∀ m e, e ∈ (g.node m).outs → e ∈ (G.node m).outs := by
      intro m e he
      rw [(e4 m).2.1]
      split
      · exact (mem_sortedAdd _ _ _).mpr (Or.inr he)
      · exact he
    have holdi : ∀ m e, e ∈ (g.node m).ins → e ∈ (G.node m).ins := by
      intro m e he
      rw [(e4 m).2.2]
      split
      · exact (mem_sortedAdd _ _ _).mpr (Or.inr he)
      · exact he
    have hlt : ∀ e, e < G.edges.length → e < g.edges.length ∨ e = g.edges.length := by
      intro e he
      rw [x3] at he
      omega
    refine ⟨e3.trans hinv.length, fun m => (e4 m).1.trans (hinv.info m), ?_, ?_, ?_, ?_, ?_, ?_,
      ?_, ?_⟩
    · intro e he
      rcases hlt e he with h | h
      · rw [x1 e h]
        obtain ⟨h1, h2, h3, h4, h5, h6, h7⟩ := hinv.edge_ok e h
        exact ⟨Or.inl h1, h2, h3, h4, h5, hold _ e h6, holdi _ e h7⟩
      · rw [h, x2]
        refine ⟨Or.inr ⟨rfl, rfl⟩, hf, ht, hjt, hj, ?_, ?_⟩
        · simp only
          rw [(e4 f).2.1, if_pos rfl]
          exact (mem_sortedAdd _ _ _).mpr (Or.inl rfl)
        · simp only
          rw [(e4 t).2.2, if_pos rfl]
          exact (mem_sortedAdd _ _ _).mpr (Or.inl rfl)
    · intro m e he
      rw [(e4 m).2.1] at he
      have hcase : e = g.edges.length ∧ m = f ∨ e ∈ (g.node m).outs := by
        split at he
        · rename_i hm
          rcases (mem_sortedAdd _ _ _).mp he with h | h
          · exact Or.inl ⟨h, hm⟩
          · exact Or.inr h
        · exact Or.inr he
      rcases hcase with ⟨h1, h2⟩ | h
      · rw [h1, x2, x3]
        exact ⟨by omega, h2.symm⟩
      · obtain ⟨k1, k2⟩ := hinv.outs_ok m e h
        rw [x1 e k1, x3]
        exact ⟨by omega, k2⟩
    · intro m e he
      rw [(e4 m).2.2] at he
      have hcase : e = g.edges.length ∧ m = t ∨ e ∈ (g.node m).ins := by
        split at he
        · rename_i hm
          rcases (mem_sortedAdd _ _ _).mp he with h | h
          · exact Or.inl ⟨h, hm⟩
          · exact Or.inr h
        · exact Or.inr he
      rcases hcase with ⟨h1, h2⟩ | h
      · rw [h1, x2, x3]
        exact ⟨by omega, h2.symm⟩
      · obtain ⟨k1, k2⟩ := hinv.ins_ok m e h
        rw [x1 e k1, x3]
        exact ⟨by omega, k2⟩
    · intro m
      rw [(e4 m).2.1]
      split
      · refine nodup_sortedAdd _ _ ?_ (hinv.outs_nodup m)
        intro h
        have := (hinv.outs_ok m _ h).1
        omega
      · exact hinv.outs_nodup m
    · intro m
      rw [(e4 m).2.2]
      split
      · refine nodup_sortedAdd _ _ ?_ (hinv.ins_nodup m)
        intro h
        have := (hinv.ins_ok m _ h).1
        omega
      · exact hinv.ins_nodup m
    · intro a b hab hne
      rcases hab with h | ⟨h1, h2⟩
      · obtain ⟨e, k1, k2, k3⟩ := hinv.complete a b h hne
        refine ⟨e, by rw [x3]; omega, ?_, ?_⟩
        · rw [x1 e k1]; exact k2
        · rw [x1 e k1]; exact k3
      · refine ⟨g.edges.length, by rw [x3]; omega, ?_, ?_⟩
        · rw [x2]; exact h1.symm
        · rw [x2]; exact h2.symm
    · intro k l hl
      rw [find_groupAdd] at hl
      by_cases ek : k = t
      · rw [if_pos ek] at hl
        simp only [Option.some.injEq] at hl
        rw [← hl, ek]
        cases hg : Dict.find grp t with
        | none =>
          simp only [Option.getD_none, List.nil_append, List.nodup_singleton,
            List.mem_singleton, true_and]
          intro e
          constructor
          · intro h
            rw [h, x2, x3]
            exact ⟨by omega, rfl⟩
          · rintro ⟨h1, h2⟩
            rcases hlt e h1 with h | h
            · rw [x1 e h] at h2
              exact absurd h2 (hinv.group_none t hg e h)
            · exact h
        | some l0 =>
          obtain ⟨n1, n2⟩ := hinv.group_some t l0 hg
          simp only [Option.getD_some]
          refine ⟨?_, fun e => ?_⟩
          · rw [List.nodup_append]
            refine ⟨n1, List.nodup_singleton _, ?_⟩
            intro a ha hb
            rw [List.mem_singleton] at hb
            have := ((n2 a).mp ha).1
            omega
          · rw [List.mem_append, List.mem_singleton, n2 e]
            constructor
            · rintro (⟨h1, h2⟩ | h)
              · rw [x1 e h1, x3]
                exact ⟨by omega, h2⟩
              · rw [h, x2, x3]
                exact ⟨by omega, rfl⟩
            · rintro ⟨h1, h2⟩
              rcases hlt e h1 with h | h
              · rw [x1 e h] at h2
                exact Or.inl ⟨h, h2⟩
              · exact Or.inr h
      · rw [if_neg ek] at hl
        obtain ⟨n1, n2⟩ := hinv.group_some k l hl
        refine ⟨n1, fun e => ?_⟩
        rw [n2 e]
        constructor
        · rintro ⟨h1, h2⟩
          rw [x1 e h1, x3]
          exact ⟨by omega, h2⟩
        · rintro ⟨h1, h2⟩
          rcases hlt e h1 with h | h
          · rw [x1 e h] at h2
            exact ⟨h, h2⟩
          · rw [h, x2] at h2
            exact absurd h2.symm ek
    · intro k hk e he
      rw [find_groupAdd] at hk
      by_cases ek : k = t
      · rw [if_pos ek] at hk
        cases hk
      · rw [if_neg ek] at hk
        rcases hlt e he with h | h
        · rw [x1 e h]
          exact hinv.group_none k hk e h
        · rw [h, x2]
          exact fun h2 => ek h2.symm

theorem BuildInv_congr (g0 g : Graph) (grp : Dict Nat (List Nat)) (D D2 : Nat → Nat → Prop)
    (h : ∀ a b, D a b ↔ D2 a b) (hinv : BuildInv g0 g grp D) : BuildInv g0 g grp D2 := by
  refine ⟨hinv.length, hinv.info, ?_, hinv.outs_ok, hinv.ins_ok, hinv.outs_nodup,
    hinv.ins_nodup, ?_, hinv.group_some, hinv.group_none⟩
  · intro e he
    obtain ⟨h1, h2⟩ := hinv.edge_ok e he
    exact ⟨(h _ _).mp h1, h2⟩
  · intro a b hab hne
    exact hinv.complete a b ((h a b).mpr hab) hne

theorem BuildInv_inner (g0 : Graph) (f : Nat) (hf : f < g0.nodes.length) :
    ∀ (ts : List Nat) (g : Graph) (grp : Dict Nat (List Nat)) (D : Nat → Nat → Prop),
      BuildInv g0 g grp D → (∀ t ∈ ts, t < g0.nodes.length) →
      BuildInv g0 (ts.foldl (buildEdge (g0.node f).transInfo.pendingLock f) (g, grp)).1
        (ts.foldl (buildEdge (g0.node f).transInfo.pendingLock f) (g, grp)).2
        (fun a b => D a b ∨ (a = f ∧ b ∈ ts)) := by
  intro ts
  induction ts with
  | nil =>
    intro g grp D hinv _
    exact BuildInv_congr g0 g grp D _ (fun a b => by simp) hinv
  | cons t0 ts ih =>
    intro g grp D hinv hlt
    simp only [List.foldl_cons]
    have h1 := BuildInv_buildEdge g0 g grp D f t0 hinv hf (hlt t0 (List.mem_cons_self _ _))
    have h2 := ih _ _ _ h1 (fun t ht => hlt t (List.mem_cons_of_mem _ ht))
    refine BuildInv_congr g0 _ _ _ _ (fun a b => ?_) h2
    simp only [List.mem_cons]
    constructor
    · rintro ((h | ⟨h3, h4⟩) | ⟨h3, h4⟩)
      · exact Or.inl h
      · exact Or.inr ⟨h3, Or.inl h4⟩
      · exact Or.inr ⟨h3, Or.inr h4⟩
    · rintro (h | ⟨h3, h4 | h4⟩)
      · exact Or.inl (Or.inl h)
      · exact Or.inl (Or.inr ⟨h3, h4⟩)
      · exact Or.inr ⟨h3, h4⟩

theorem BuildInv_outer (g0 : Graph) (all : List Nat) (hall : ∀ t ∈ all, t < g0.nodes.length) :
    ∀ (fs : List Nat) (g : Graph) (grp : Dict Nat (List Nat)) (D : Nat → Nat → Prop),
      BuildInv g0 g grp D →
      (∀ f ∈ fs, f < g0.nodes.length ∧ (g0.node f).transInfo.pendingLock.IsValid = true) →
      ∃ r, buildEdges all fs (g, grp) = some r ∧
        BuildInv g0 r.1 r.2 (fun a b => D a b ∨ (a ∈ fs ∧ b ∈ all)) := by
  intro fs
  induction fs with
  | nil =>
    intro g grp D hinv _
    exact ⟨(g, grp), rfl, BuildInv_congr g0 g grp D _ (fun a b => by simp) hinv⟩
  | cons f0 fs ih =>
    intro g grp D hinv hfs
    obtain ⟨hf0, hv0⟩ := hfs f0 (List.mem_cons_self _ _)
    rw [buildEdges]
    simp only [hinv.info f0, hv0, Bool.not_true, Bool.false_eq_true, if_false]
    have h1 := BuildInv_inner g0 f0 hf0 all g grp D hinv hall
    obtain ⟨r, hr, h2⟩ := ih _ _ _ h1 (fun f hf => hfs f (List.mem_cons_of_mem _ hf))
    refine ⟨r, hr, BuildInv_congr g0 _ _ _ _ (fun a b => ?_) h2⟩
    simp only [List.mem_cons]
    constructor
    · rintro ((h | ⟨h3, h4⟩) | ⟨h3, h4⟩)
      · exact Or.inl h
      · exact Or.inr ⟨Or.inl h3, h4⟩
      · exact Or.inr ⟨Or.inr h3, h4⟩
    · rintro (h | ⟨h3 | h3, h4⟩)
      · exact Or.inl (Or.inl h)
      · exact Or.inl (Or.inr ⟨h3, h4⟩)
      · exact Or.inr ⟨h3, h4⟩

/-- A graph that `BuildGraph` completed is consistent on the list of all its nodes. -/
theorem GInv_of_BuildInv (g0 g : Graph) (grp : Dict Nat (List Nat))
    (hinv : BuildInv g0 g grp fun a b => a < g0.nodes.length ∧ b < g0.nodes.length) :
    GInv g (List.range g.nodes.length) := by
  have hn := hinv.length
  refine ⟨List.nodup_range _, fun n hn => List.mem_range.mp hn, ?_, ?_, ?_, ?_, ?_⟩
  · intro n _ e he
    obtain ⟨h1, h2⟩ := hinv.outs_ok n e he
    refine ⟨h1, h2, List.mem_range.mpr ?_⟩
    rw [hn]
    exact (hinv.edge_ok e h1).2.2.1
  · intro n _ e he
    obtain ⟨h1, h2⟩ := hinv.ins_ok n e he
    refine ⟨h1, h2, List.mem_range.mpr ?_⟩
    rw [hn]
    exact (hinv.edge_ok e h1).2.1
  · intro e he _ _
    exact (hinv.edge_ok e he).2.2.2.2.2
  · intro n _
    exact hinv.outs_nodup n
  · intro n _
    exact hinv.ins_nodup n

/-- The edges of a completed graph: there is an edge from `a` to `b` exactly
when the pending lock of `a` has a justification among the held locks of `b`. -/
theorem Arc_of_BuildInv (g0 g : Graph) (grp : Dict Nat (List Nat))
    (hinv : BuildInv g0 g grp fun a b => a < g0.nodes.length ∧ b < g0.nodes.length)
    (a b : Nat) :
    g.Arc a b ↔ a < g0.nodes.length ∧ b < g0.nodes.length ∧
      edgeJustification (g0.node a).transInfo.pendingLock
        (g0.node b).transInfo.acquiredLocks ≠ [] := by
  constructor
  · rintro ⟨e, he, hf, ht⟩
    obtain ⟨h1, h2, h3, h4, h5, -⟩ := hinv.edge_ok e he
    subst hf
    subst ht
    exact ⟨h2, h3, by rw [← h4]; exact h5⟩
  · rintro ⟨h1, h2, h3⟩
    exact hinv.complete a b ⟨h1, h2⟩ h3

theorem mapM_option_spec {α β : Type} (f : α → Option β) :
    ∀ (l : List α), (∀ t ∈ l, ∃ y, f t = some y) →
      ∃ ys, l.mapM f = some ys ∧ ys.length = l.length ∧
        ∀ i t, l.get? i = some t → ∃ y, f t = some y ∧ ys.get? i = some y := by
  intro l
  induction l with
  | nil =>
    intro _
    refine ⟨[], by rw [List.mapM_nil]; rfl, rfl, fun i t h => ?_⟩
    simp at h
  | cons a l ih =>
    intro h
    obtain ⟨y, hy⟩ := h a (List.mem_cons_self _ _)
    obtain ⟨ys, h1, h2, h3⟩ := ih (fun t ht => h t (List.mem_cons_of_mem _ ht))
    refine ⟨y :: ys, ?_, by simp [h2], fun i t hi => ?_⟩
    · rw [List.mapM_cons, hy, h1]
      rfl
    · cases i with
      | zero =>
        simp only [List.get?_cons_zero, Option.some.injEq] at hi
        subst hi
        exact ⟨y, hy, rfl⟩
      | succ i =>
        simp only [List.get?_cons_succ] at hi ⊢
        exact h3 i t hi

theorem edgeJustification_ne_nil (pending : LockTarget) (acquiredLocks : List LockTarget) :
    edgeJustification pending acquiredLocks ≠ [] ↔
      ∃ acquired, acquired ∈ acquiredLocks ∧ Blocks pending acquired := by
  unfold edgeJustification Blocks
  rw [Ne, List.filter_eq_nil_iff]
  simp only [List.mem_range, not_forall, Bool.not_eq_true, Classical.not_imp]
  constructor
  · rintro ⟨i, hi, h⟩
    have hg : acquiredLocks.get? i = some (acquiredLocks.get ⟨i, hi⟩) := List.get?_eq_get hi
    rw [hg] at h
    simp only [Bool.not_eq_false, Bool.and_eq_true, decide_eq_true_eq, Bool.not_eq_true'] at h
    exact ⟨_, List.get_mem _ _ _, h.1, h.2⟩
  · rintro ⟨a, ha, h1, h2⟩
    obtain ⟨i, hi, hg⟩ := List.getElem_of_mem ha
    refine ⟨i, hi, ?_⟩
    have hg2 : acquiredLocks.get? i = some a := by
      rw [List.get?_eq_getElem?, List.getElem?_eq_getElem hi, hg]
    rw [hg2]
    simp [h1, h2]

theorem edgeJustification_lt (pending : LockTarget) (acquiredLocks : List LockTarget) (i : Nat)
    (h : i ∈ edgeJustification pending acquiredLocks) : i < acquiredLocks.length := by
  unfold edgeJustification at h
  exact List.mem_range.mp (List.mem_filter.mp h).1

theorem queued_of_PendInv (lm : LockManager) (hp : PendInv lm.transactions lm.pendings) :
    lm.queued.Nodup ∧
    (∀ t, t ∈ lm.queued ↔ ∃ ti, Dict.find lm.transactions t = some ti ∧
      ti.pendingLock.IsValid = true) := by
  obtain ⟨hs, hmem, hnd, hall⟩ := hp
  have hq : ∀ kb, kb ∈ lm.pendings → queueOf lm.pendings kb.1 = some kb.2.transactions := by
    intro kb hkb
    obtain ⟨i, hi, hg⟩ := List.getElem_of_mem hkb
    have := find_of_get? lm.pendings i kb.1 kb.2 hs (by
      rw [List.get?_eq_getElem?, List.getElem?_eq_getElem hi, hg])
    unfold queueOf
    rw [this]
    rfl
  constructor
  · unfold LockManager.queued
    rw [List.nodup_flatMap]
    refine ⟨fun kb hkb => hnd kb.1 _ (hq kb hkb), ?_⟩
    have hpw : lm.pendings.Pairwise (fun x y => x.1 < y.1) := List.pairwise_map.mp hs
    refine List.Pairwise.imp_of_mem ?_ hpw
    intro x y hx hy hlt
    intro t h1 h2
    obtain ⟨ti1, f1, -, i1⟩ := hmem x.1 _ t (hq x hx) h1
    obtain ⟨ti2, f2, -, i2⟩ := hmem y.1 _ t (hq y hy) h2
    rw [f1] at f2
    cases f2
    omega
  · intro t
    unfold LockManager.queued
    rw [List.mem_flatMap]
    constructor
    · rintro ⟨kb, hkb, ht⟩
      obtain ⟨ti, f1, v1, -⟩ := hmem kb.1 _ t (hq kb hkb) ht
      exact ⟨ti, f1, v1⟩
    · rintro ⟨ti, f1, v1⟩
      obtain ⟨q, hq1, hq2⟩ := hall t ti f1 v1
      unfold queueOf at hq1
      cases hf : Dict.find lm.pendings ti.importance with
      | none => rw [hf] at hq1; cases hq1
      | some b =>
        rw [hf] at hq1
        simp only [Option.map_some', Option.some.injEq] at hq1
        have hmem2 : (ti.importance, b) ∈ lm.pendings := by
          clear hq hs hmem hnd hall
          generalize lm.pendings = l at hf
          induction l with
          | nil => simp [Dict.find] at hf
          | cons kv l ih =>
            obtain ⟨k0, v0⟩ := kv
            by_cases e : k0 = ti.importance
            · simp only [Dict.find, e, if_true, Option.some.injEq] at hf
              rw [e, hf]
              exact List.mem_cons_self _ _
            · simp only [Dict.find, e, if_false] at hf
              exact List.mem_cons_of_mem _ (ih hf)
        exact ⟨_, hmem2, by rw [hq1]; exact hq2⟩

theorem freshGraph_node (infos : List TransInfo) (m : Nat) :
    ((freshGraph infos).node m).outs = [] ∧ ((freshGraph infos).node m).ins = [] ∧
    (freshGraph infos).nodes.length = infos.length ∧ (freshGraph infos).edges = [] ∧
    ∀ ti, infos.get? m = some ti → ((freshGraph infos).node m).transInfo = ti := by
  unfold freshGraph Graph.node
  simp only [List.length_map, List.getD_eq_getElem?_getD, List.getElem?_map]
  cases h : infos[m]? with
  | none =>
    refine ⟨rfl, rfl, trivial, trivial, fun ti hti => ?_⟩
    rw [List.get?_eq_getElem?, h] at hti
    cases hti
  | some ti0 =>
    refine ⟨rfl, rfl, trivial, trivial, fun ti hti => ?_⟩
    rw [List.get?_eq_getElem?, h] at hti
    cases hti
    rfl

theorem BuildInv_fresh (infos : List TransInfo) :
    BuildInv (freshGraph infos) (freshGraph infos) [] (fun _ _ => False) := by
  obtain ⟨-, -, -, h4, -⟩ := freshGraph_node infos 0
  refine ⟨rfl, fun _ => rfl, ?_, ?_, ?_, ?_, ?_, ?_, ?_, ?_⟩
  · intro e he
    rw [h4] at he
    cases he
  · intro m e he
    rw [(freshGraph_node infos m).1] at he
    cases he
  · intro m e he
    rw [(freshGraph_node infos m).2.1] at he
    cases he
  · intro m
    rw [(freshGraph_node infos m).1]
    exact List.nodup_nil
  · intro m
    rw [(freshGraph_node infos m).2.1]
    exact List.nodup_nil
  · intro a b h
    cases h
  · intro t l h
    cases h
  · intro t _ e he
    rw [h4] at he
    cases he

theorem queued_props (bm : BufferManager) (lm : LockManager) (hinv : Inv bm lm) :
    lm.queued.Nodup ∧
    (∀ t, t ∈ lm.queued ↔ ∃ ti, Dict.find lm.transactions t = some ti ∧
      ti.pendingLock.IsValid = true) :=
  queued_of_PendInv lm hinv.2.2.2

theorem BuildGraph_of_PendInv (lm : LockManager) (hp : PendInv lm.transactions lm.pendings) :
    ∃ g grp infos, BuildGraph lm = some (g, grp) ∧ infos.length = lm.queued.length ∧
      (∀ i t, lm.queued.get? i = some t →
        ∃ ti, Dict.find lm.transactions t = some ti ∧ infos.get? i = some ti) ∧
      BuildInv (freshGraph infos) g grp (fun a b => a < infos.length ∧ b < infos.length) := by
  obtain ⟨hnd, hq⟩ := queued_of_PendInv lm hp
  obtain ⟨infos, m1, m2, m3⟩ := mapM_option_spec (fun t => Dict.find lm.transactions t)
    lm.queued (fun t ht => by
      obtain ⟨ti, h1, -⟩ := (hq t).mp ht
      exact ⟨ti, h1⟩)
  have hlen : (freshGraph infos).nodes.length = infos.length := (freshGraph_node infos 0).2.2.1
  obtain ⟨r, hr, hb⟩ := BuildInv_outer (freshGraph infos) (List.range infos.length)
    (fun t ht => by rw [hlen]; exact List.mem_range.mp ht)
    (List.range infos.length) (freshGraph infos) [] (fun _ _ => False) (BuildInv_fresh infos)
    (by
      intro f hf
      have hf2 : f < infos.length := List.mem_range.mp hf
      refine ⟨by rw [hlen]; exact hf2, ?_⟩
      have hfq : f < lm.queued.length := by rw [← m2]; exact hf2
      obtain ⟨ti, h1, h2⟩ := m3 f _ (List.get?_eq_get hfq)
      rw [(freshGraph_node infos f).2.2.2.2 ti h2]
      obtain ⟨ti2, h3, h4⟩ := (hq _).mp (List.get_mem lm.queued f hfq)
      rw [h1] at h3
      cases h3
      exact h4)
  refine ⟨r.1, r.2, infos, ?_, m2, m3, BuildInv_congr _ _ _ _ _ (fun a b => ?_) hb⟩
  · unfold BuildGraph
    simp only
    have : (lm.pendings.flatMap fun b => b.2.transactions) = lm.queued := rfl
    rw [this, m1]
    exact hr
  · simp only [false_or, List.mem_range]

theorem BuildGraph_spec (bm : BufferManager) (lm : LockManager) (hinv : Inv bm lm) :
    ∃ g grp infos, BuildGraph lm = some (g, grp) ∧ infos.length = lm.queued.length ∧
      (∀ i t, lm.queued.get? i = some t →
        ∃ ti, Dict.find lm.transactions t = some ti ∧ infos.get? i = some ti) ∧
      BuildInv (freshGraph infos) g grp (fun a b => a < infos.length ∧ b < infos.length) :=
  BuildGraph_of_PendInv lm hinv.2.2.2

/-! ## The deadlock detector: the report and the whole call -/

theorem foldl_preserves {α β : Type} (P : β → Prop) (f : β → α → β) :
    ∀ (l : List α) (b : β), P b → (∀ b a, a ∈ l → P b → P (f b a)) → P (l.foldl f b) := by
  intro l
  induction l with
  | nil => intro b hb _; exact hb
  | cons a l ih =>
    intro b hb hstep
    simp only [List.foldl_cons]
    exact ih (f b a) (hstep b a (List.mem_cons_self _ _) hb)
      (fun b2 a2 ha2 hb2 => hstep b2 a2 (List.mem_cons_of_mem _ ha2) hb2)

theorem gatherAcquired_bound (g : Graph) (involved : List Nat) (acc : List Nat) (e n : Nat)
    (hacc : ∀ i ∈ acc, i < n) (he : ∀ i ∈ (g.edge e).toNodeAcquired, i < n) :
    ∀ i ∈ gatherAcquired g involved acc e, i < n := by
  unfold gatherAcquired
  split
  · refine foldl_preserves (fun l : List Nat => ∀ i ∈ l, i < n) _ _ acc hacc ?_
    intro b a ha hb i hi
    split at hi
    · exact hb i hi
    · rcases (mem_sortedAdd _ _ _).mp hi with h | h
      · rw [h]; exact he a ha
      · exact hb i h
  · exact hacc

theorem reportInvolved_some (g : Graph) (allEdges : Dict Nat (List Nat)) (involved : List Nat) :
    ∀ (todo : List Nat) (info : DeadlockInfo),
      (∀ x ∈ todo, ∃ incoming, Dict.find allEdges x = some incoming ∧
        ∀ e ∈ incoming, ∀ i ∈ (g.edge e).toNodeAcquired,
          i < (g.node x).transInfo.acquiredLocks.length) →
      (todo.map fun x => (g.node x).transInfo.trans).Nodup →
      (∀ x ∈ todo, Dict.Contains info.pending (g.node x).transInfo.trans = false) →
      ∃ info2, reportInvolved g allEdges involved todo info = some info2 ∧
        info2.rollbacks = info.rollbacks := by
  intro todo
  induction todo with
  | nil =>
    intro info _ _ _
    exact ⟨info, rfl, rfl⟩
  | cons x todo ih =>
    intro info hin hnd hcont
    obtain ⟨incoming, h1, h2⟩ := hin x (List.mem_cons_self _ _)
    have hc := hcont x (List.mem_cons_self _ _)
    have hbound : ∀ i ∈ incoming.foldl (gatherAcquired g involved) [],
        i < (g.node x).transInfo.acquiredLocks.length := by
      refine foldl_preserves (fun l : List Nat => ∀ i ∈ l, i < _) _ incoming []
        (fun i hi => by cases hi) ?_
      intro b e he hb
      exact gatherAcquired_bound g involved b e _ hb (h2 e he)
    obtain ⟨targets, t1, -, -⟩ := mapM_option_spec
      (fun i => (g.node x).transInfo.acquiredLocks.get? i)
      (incoming.foldl (gatherAcquired g involved) [])
      (fun i hi => ⟨_, List.get?_eq_get (hbound i hi)⟩)
    rw [reportInvolved]
    simp only [hc, Bool.false_eq_true, if_false, h1, t1]
    simp only [List.map_cons, List.nodup_cons] at hnd
    obtain ⟨info2, r1, r2⟩ := ih
      { info with
        pending := Dict.Add info.pending (g.node x).transInfo.trans
          (g.node x).transInfo.pendingLock
        acquired := info.acquired ++ targets.map fun a => ((g.node x).transInfo.trans, a) }
      (fun y hy => hin y (List.mem_cons_of_mem _ hy)) hnd.2
      (by
        intro y hy
        have hy2 := hcont y (List.mem_cons_of_mem _ hy)
        unfold Dict.Contains at hy2 ⊢
        simp only
        rw [Dict.find_Add]
        cases hf : Dict.find info.pending (g.node y).transInfo.trans with
        | some v => rw [hf] at hy2; cases hy2
        | none =>
          simp only
          have hne : ¬ (g.node x).transInfo.trans = (g.node y).transInfo.trans := by
            intro e
            apply hnd.1
            rw [e]
            exact List.mem_map.mpr ⟨y, hy, rfl⟩
          rw [if_neg hne]
          rfl)
    exact ⟨info2, r1, r2⟩

theorem get?_IndexOf {α : Type} [DecidableEq α] (l : List α) (x : α) (h : x ∈ l) :
    l.get? (IndexOf l x) = some x := by
  induction l with
  | nil => cases h
  | cons y l ih =>
    by_cases e : y = x
    · simp [IndexOf, e]
    · simp only [IndexOf, e, if_false, List.get?_cons_succ]
      rcases List.mem_cons.mp h with h | h
      · exact absurd h.symm e
      · exact ih h

theorem get?_inj_of_nodup {α : Type} (l : List α) (hnd : l.Nodup) (i j : Nat) (x : α)
    (hi : l.get? i = some x) (hj : l.get? j = some x) : i = j := by
  rw [List.get?_eq_getElem?] at hi hj
  obtain ⟨hi1, hi2⟩ := List.getElem?_eq_some_iff.mp hi
  obtain ⟨hj1, hj2⟩ := List.getElem?_eq_some_iff.mp hj
  exact (List.Nodup.getElem_inj_iff hnd).mp (hi2.trans hj2.symm)

/-- The graph that `BuildGraph` returns for a manager that satisfies the
invariant: node `i` carries the `TransInfo` of the `i`-th queued transaction,
the graph is consistent, and its edges are the wait-for relation. -/
theorem BuildGraph_nodes (bm : BufferManager) (lm : LockManager) (hinv : Inv bm lm) :
    ∃ g grp g0, BuildGraph lm = some (g, grp) ∧
      BuildInv g0 g grp (fun a b => a < g0.nodes.length ∧ b < g0.nodes.length) ∧
      g.nodes.length = lm.queued.length ∧ g0.nodes.length = lm.queued.length ∧
      (∀ i t, lm.queued.get? i = some t →
        ∃ ti, Dict.find lm.transactions t = some ti ∧ (g.node i).transInfo = ti ∧
          (g0.node i).transInfo = ti ∧ ti.trans = t) := by
  obtain ⟨g, grp, infos, b1, b2, b3, b4⟩ := BuildGraph_spec bm lm hinv
  have hl0 : (freshGraph infos).nodes.length = infos.length := (freshGraph_node infos 0).2.2.1
  refine ⟨g, grp, freshGraph infos, b1, ?_, by rw [b4.length, hl0, b2], by rw [hl0, b2], ?_⟩
  · rw [hl0]
    exact b4
  · intro i t hi
    obtain ⟨ti, h1, h2⟩ := b3 i t hi
    have h3 := (freshGraph_node infos i).2.2.2.2 ti h2
    exact ⟨ti, h1, (b4.info i).trans h3, h3, hinv.2.1.2 t ti h1⟩

theorem Arc_iff_WaitsFor (lm : LockManager)
    (g g0 : Graph) (grp : Dict Nat (List Nat))
    (hb : BuildInv g0 g grp (fun a b => a < g0.nodes.length ∧ b < g0.nodes.length))
    (hn0 : g0.nodes.length = lm.queued.length)
    (hnode : ∀ i t, lm.queued.get? i = some t →
      ∃ ti, Dict.find lm.transactions t = some ti ∧ (g.node i).transInfo = ti ∧
        (g0.node i).transInfo = ti ∧ ti.trans = t)
    (a b : Nat) (ta tb : BufferTransaction) (ha : lm.queued.get? a = some ta)
    (hb2 : lm.queued.get? b = some tb) : g.Arc a b ↔ WaitsFor lm ta tb := by
  obtain ⟨tia, fa, -, ga, -⟩ := hnode a ta ha
  obtain ⟨tib, fb, -, gb, -⟩ := hnode b tb hb2
  have hla : a < lm.queued.length := by
    by_contra hcon
    rw [List.get?_eq_none.mpr (Nat.le_of_not_lt hcon)] at ha
    cases ha
  have hlb : b < lm.queued.length := by
    by_contra hcon
    rw [List.get?_eq_none.mpr (Nat.le_of_not_lt hcon)] at hb2
    cases hb2
  rw [Arc_of_BuildInv g0 g grp hb a b, ga, gb, edgeJustification_ne_nil, hn0]
  constructor
  · rintro ⟨-, -, acq, h1, h2⟩
    exact ⟨List.get?_mem ha, List.get?_mem hb2, tia, tib, fa, fb, acq, h1, h2⟩
  · rintro ⟨-, -, ti1, ti2, f1, f2, acq, h1, h2⟩
    rw [fa] at f1
    rw [fb] at f2
    cases f1
    cases f2
    exact ⟨hla, hlb, acq, h1, h2⟩

/-- `DetectDeadlock` on a manager that satisfies the invariant, with fuel
`2n + 1` for `n` queued transactions: it returns, it appends victims to
`info.rollbacks`, the queued transactions other than the victims carry no
wait-for cycle, there is no victim exactly when there is no wait-for cycle,
and every victim lies on a wait-for cycle that avoids the victims chosen
before it. -/
theorem DetectDeadlock_spec (bm : BufferManager) (lm : LockManager) (hinv : Inv bm lm)
    (fuel : Nat) (hf : 2 * lm.queued.length + 1 ≤ fuel) (info : DeadlockInfo)
    (hp : info.pending = []) :
    ∃ info2 victims, lm.DetectDeadlock fuel info = Outcome.ok info2 ∧
      info2.rollbacks = info.rollbacks ++ victims ∧
      (∀ v ∈ victims, v ∈ lm.queued) ∧
      ¬ HasCycle (WaitsForOn lm fun t => t ∉ victims) ∧
      (victims = [] ↔ ¬ HasCycle (WaitsFor lm)) ∧
      (∀ pre v post, victims = pre ++ v :: post →
        Relation.TransGen (WaitsForOn lm fun t => t ∉ pre) v v) := by
  obtain ⟨hqnd, hqmem⟩ := queued_props bm lm hinv
  obtain ⟨g, grp, g0, b1, b2, b3, b4, b5⟩ := BuildGraph_nodes bm lm hinv
  have hginv := GInv_of_BuildInv g0 g grp b2
  obtain ⟨g1, nodes1, involved1, victims, d1, d2, d3, d4, d5, d6, d7, d8, d9, d10, d11⟩ :=
    detectLoop_breaks_cycles fuel g (List.range g.nodes.length) [] info.rollbacks hginv
      (by rw [List.length_range, b3]; exact hf)
  have hrange : ∀ i, i ∈ List.range g.nodes.length ↔ i < lm.queued.length := by
    intro i
    rw [List.mem_range, b3]
  have F1 : ∀ i, i < lm.queued.length →
      lm.queued.get? i = some (g.node i).transInfo.trans := by
    intro i hi
    obtain ⟨ti, -, h2, -, h4⟩ := b5 i _ (List.get?_eq_get hi)
    rw [h2, h4]
    exact List.get?_eq_get hi
  have F2 : ∀ t, t ∈ lm.queued → IndexOf lm.queued t < lm.queued.length ∧
      (g.node (IndexOf lm.queued t)).transInfo.trans = t := by
    intro t ht
    have h1 := (IndexOf_lt_length lm.queued t).mpr ht
    have h2 := F1 _ h1
    rw [get?_IndexOf lm.queued t ht] at h2
    exact ⟨h1, (Option.some.inj h2).symm⟩
  have F3 : ∀ i j, i < lm.queued.length → j < lm.queued.length →
      (g.node i).transInfo.trans = (g.node j).transInfo.trans → i = j := by
    intro i j hi hj e
    exact get?_inj_of_nodup lm.queued hqnd i j _ (F1 i hi) (by rw [e]; exact F1 j hj)
  have harc : ∀ a b, a < lm.queued.length → b < lm.queued.length →
      (g.Arc a b ↔ WaitsFor lm (g.node a).transInfo.trans (g.node b).transInfo.trans) :=
    fun a b ha hb => Arc_iff_WaitsFor lm g g0 grp b2 b4 b5 a b _ _ (F1 a ha) (F1 b hb)
  have harcT : ∀ t1 t2, WaitsFor lm t1 t2 →
      g.Arc (IndexOf lm.queued t1) (IndexOf lm.queued t2) := by
    intro t1 t2 hw
    obtain ⟨h1, h2⟩ := F2 t1 hw.1
    obtain ⟨h3, h4⟩ := F2 t2 hw.2.1
    rw [harc _ _ h1 h3, h2, h4]
    exact hw
  have hrep : ∃ info2, reportInvolved g1 grp involved1 involved1
      { info with rollbacks := info.rollbacks ++
          victims.map fun v => (g.node v).transInfo.trans } = some info2 ∧
      info2.rollbacks = info.rollbacks ++ victims.map fun v => (g.node v).transInfo.trans := by
    have hinvd : ∀ x ∈ involved1, x < lm.queued.length ∧ ∃ y, g.Arc y x := by
      intro x hx
      rcases d10 x hx with h | ⟨h1, h2⟩
      · cases h
      · exact ⟨(hrange x).mp h1, h2⟩
    apply reportInvolved_some g1 grp involved1 involved1
    · intro x hx
      obtain ⟨hx1, y, e, he, hf1, ht1⟩ := hinvd x hx
      cases hfind : Dict.find grp x with
      | none => exact absurd ht1 (b2.group_none x hfind e he)
      | some incoming =>
        refine ⟨incoming, rfl, ?_⟩
        intro e2 he2 i hi
        obtain ⟨k1, k2⟩ := ((b2.group_some x incoming hfind).2 e2).mp he2
        obtain ⟨-, -, -, j4, -⟩ := b2.edge_ok e2 k1
        rw [Graph.edge_eq_of_edges g g1 d2 e2, j4, k2] at hi
        rw [d4 x, b2.info x]
        exact edgeJustification_lt _ _ i hi
    · have : (involved1.map fun x => (g1.node x).transInfo.trans) =
          involved1.map fun x => (g.node x).transInfo.trans := by
        apply List.map_congr_left
        intro x _
        rw [d4 x]
      rw [this]
      refine List.Nodup.map_on ?_ (d11 List.nodup_nil)
      intro x hx y hy e
      exact F3 x y (hinvd x hx).1 (hinvd y hy).1 e
    · intro x _
      simp only [hp]
      rfl
  obtain ⟨info2, hr1, hr2⟩ := hrep
  refine ⟨info2, victims.map fun v => (g.node v).transInfo.trans, ?_, hr2, ?_, ?_, ?_, ?_⟩
  · unfold LockManager.DetectDeadlock
    simp only [b1, d1, hr1]
  · intro v hv
    obtain ⟨i, hi, rfl⟩ := List.mem_map.mp hv
    exact List.get?_mem (F1 i ((hrange i).mp (d6 i hi)))
  · rintro ⟨t, ht⟩
    apply d7
    refine ⟨IndexOf lm.queued t, Relation.TransGen.lift (IndexOf lm.queued) ?_ ht⟩
    intro t1 t2 h12
    obtain ⟨k1, k2, k3⟩ := h12
    obtain ⟨h1, h2⟩ := F2 t1 k3.1
    obtain ⟨h3, h4⟩ := F2 t2 k3.2.1
    refine ⟨⟨(hrange _).mpr h1, ?_⟩, ⟨(hrange _).mpr h3, ?_⟩, harcT t1 t2 k3⟩
    · intro hv
      exact k1 (List.mem_map.mpr ⟨_, hv, h2⟩)
    · intro hv
      exact k2 (List.mem_map.mpr ⟨_, hv, h4⟩)
  · rw [List.map_eq_nil_iff, d8]
    constructor
    · intro hno hc
      obtain ⟨t, ht⟩ := hc
      apply hno
      refine ⟨IndexOf lm.queued t, Relation.TransGen.lift (IndexOf lm.queued) ?_ ht⟩
      intro t1 t2 h12
      exact ⟨(hrange _).mpr (F2 t1 h12.1).1, (hrange _).mpr (F2 t2 h12.2.1).1, harcT t1 t2 h12⟩
    · intro hno hc
      obtain ⟨a, ha⟩ := hc
      apply hno
      refine ⟨(g.node a).transInfo.trans,
        Relation.TransGen.lift (fun i => (g.node i).transInfo.trans) ?_ ha⟩
      intro x y hxy
      exact (harc x y ((hrange x).mp hxy.1) ((hrange y).mp hxy.2.1)).mp hxy.2.2
  · intro pre v post hsplit
    obtain ⟨preN, restN, h1, h2, h3⟩ := List.map_eq_append_iff.mp hsplit
    cases restN with
    | nil => simp at h3
    | cons vN postN =>
      simp only [List.map_cons, List.cons.injEq] at h3
      have hcyc := d9 preN vN postN h1
      rw [← h3.1, ← h2]
      refine Relation.TransGen.lift (fun i => (g.node i).transInfo.trans) ?_ hcyc
      intro x y hxy
      obtain ⟨⟨x1, x2⟩, ⟨y1, y2⟩, hxy3⟩ := hxy
      have hx := (hrange x).mp x1
      have hy := (hrange y).mp y1
      have hpre : ∀ p ∈ preN, p < lm.queued.length := by
        intro p hp2
        exact (hrange p).mp (d6 p (by rw [h1]; exact List.mem_append_left _ hp2))
      refine ⟨?_, ?_, (harc x y hx hy).mp hxy3⟩
      · intro hm
        obtain ⟨p, hp1, hp2⟩ := List.mem_map.mp hm
        exact x2 (F3 p x (hpre p hp1) hx hp2 ▸ hp1)
      · intro hm
        obtain ⟨p, hp1, hp2⟩ := List.mem_map.mp hm
        exact y2 (F3 p y (hpre p hp1) hy hp2 ▸ hp1)

theorem GInv_twoCycle : GInv twoCycle [0, 1] :=
  ⟨by decide, by decide, by decide, by decide, by decide, by decide, by decide⟩

/-- C9.  In every reachable state, `DetectDeadlock` returns (with fuel `2n + 1`
for `n` queued transactions), the wait-for relation among the queued
transactions that are not in `info.rollbacks` has no directed cycle, and
`info.rollbacks` is empty exactly when the wait-for relation has no directed
cycle (a self-loop counts).  The same holds for the loop of `DetectDeadlock`
on every consistent graph, whatever the order of the list `nodes` and of the
lists `ins` and `outs`. -/
theorem detectDeadlock_breaks_every_cycle (bm : BufferManager) (lm : LockManager)
    (hr : Reachable bm lm) (fuel : Nat) (hf : 2 * lm.queued.length + 1 ≤ fuel)
    (g : Graph) (nodes involved : List Nat) (rollbacks : List BufferTransaction)
    (hg : GInv g nodes) (fuel2 : Nat) (hf2 : 2 * nodes.length + 1 ≤ fuel2) :
    (∃ info, lm.DetectDeadlock fuel ⟨[], [], []⟩ = Outcome.ok info ∧
      ¬ HasCycle (WaitsForOn lm fun t => t ∉ info.rollbacks) ∧
      (info.rollbacks = [] ↔ ¬ HasCycle (WaitsFor lm))) ∧
    (∃ g2 nodes2 involved2 victims,
      detectLoop fuel2 g nodes involved rollbacks =
        Outcome.ok (g2, nodes2, involved2,
          rollbacks ++ victims.map fun v => (g.node v).transInfo.trans) ∧
      ¬ HasCycle (g.ArcOn fun x => x ∈ nodes ∧ x ∉ victims) ∧
      (victims = [] ↔ ¬ HasCycle (g.ArcOn fun x => x ∈ nodes))) := by
  constructor
  · obtain ⟨info, victims, h1, h2, -, h4, h5, -⟩ :=
      DetectDeadlock_spec bm lm (Reachable_Inv bm lm hr) fuel hf ⟨[], [], []⟩ rfl
    simp only [List.nil_append] at h2
    refine ⟨info, h1, ?_, ?_⟩
    · rw [h2]; exact h4
    · rw [h2]; exact h5
  · obtain ⟨g2, nodes2, involved2, victims, d1, -, -, -, -, -, d7, d8, -⟩ :=
      detectLoop_breaks_cycles fuel2 g nodes involved rollbacks hg hf2
    exact ⟨g2, nodes2, involved2, victims, d1, d7, d8⟩

theorem detectDeadlock_breaks_every_cycle_witness :
    Reachable sampleBuffers (stateAfter crossWaiters) ∧
    2 * (stateAfter crossWaiters).queued.length + 1 ≤ 5 ∧ GInv twoCycle [0, 1] ∧
    (∃ info, (stateAfter crossWaiters).DetectDeadlock 5 ⟨[], [], []⟩ = Outcome.ok info ∧
      ¬ HasCycle (WaitsForOn (stateAfter crossWaiters) fun t => t ∉ info.rollbacks) ∧
      (info.rollbacks = [] ↔ ¬ HasCycle (WaitsFor (stateAfter crossWaiters)))) ∧
    (∃ g2 nodes2 involved2 victims,
      detectLoop 5 twoCycle [0, 1] [] [] =
        Outcome.ok (g2, nodes2, involved2,
          [] ++ victims.map fun v => (twoCycle.node v).transInfo.trans) ∧
      ¬ HasCycle (twoCycle.ArcOn fun x => x ∈ [0, 1] ∧ x ∉ victims) ∧
      (victims = [] ↔ ¬ HasCycle (twoCycle.ArcOn fun x => x ∈ [0, 1]))) :=
  ⟨Reachable_stateAfter crossWaiters (by decide), by decide, GInv_twoCycle,
    detectDeadlock_breaks_every_cycle sampleBuffers (stateAfter crossWaiters)
      (Reachable_stateAfter crossWaiters (by decide)) 5 (by decide)
      twoCycle [0, 1] [] [] GInv_twoCycle 5 (by decide)⟩

theorem threeWaiters_no_arc (t1 t2 : BufferTransaction) :
    ¬ WaitsForOn (stateAfter threeWaiters) (fun t => t ∉ [some 1]) t1 t2 := by
  rintro ⟨k1, k2, hq1, hq2, ti1, ti2, f1, f2, acq, ha, hb⟩
  have hq : (stateAfter threeWaiters).queued = [some 0, some 1, some 2] := by decide
  have f0 : Dict.find (stateAfter threeWaiters).transactions (some 0) =
      some ⟨some 0, 1, [tableTarget 3 0], tableTarget 5 1⟩ := by decide
  have f2c : Dict.find (stateAfter threeWaiters).transactions (some 2) =
      some ⟨some 2, 1, [tableTarget 3 0], tableTarget 5 1⟩ := by decide
  have hb0 : ¬ Blocks (tableTarget 5 1) (tableTarget 3 0) := by
    unfold Blocks
    decide
  rw [hq] at hq1 hq2
  simp only [List.mem_cons, List.mem_singleton, List.not_mem_nil, or_false] at hq1 hq2 k1 k2
  have c1 : t1 = some 0 ∨ t1 = some 2 := by
    rcases hq1 with h | h | h
    · exact Or.inl h
    · exact absurd h k1
    · exact Or.inr h
  have c2 : t2 = some 0 ∨ t2 = some 2 := by
    rcases hq2 with h | h | h
    · exact Or.inl h
    · exact absurd h k2
    · exact Or.inr h
  have p1 : ti1.pendingLock = tableTarget 5 1 := by
    rcases c1 with h | h
    · rw [h, f0] at f1
      cases f1
      rfl
    · rw [h, f2c] at f1
      cases f1
      rfl
  have a2 : ti2.acquiredLocks = [tableTarget 3 0] := by
    rcases c2 with h | h
    · rw [h, f0] at f2
      cases f2
      rfl
    · rw [h, f2c] at f2
      cases f2
      rfl
  rw [a2, List.mem_singleton] at ha
  rw [p1, ha] at hb
  exact hb0 hb

/-- C10 (as stated, refuted).  After `threeWaiters`, transaction 1 waits for
0 and 2 and both wait for 1.  With the nodes and edges of the graph at
ascending addresses in the order of their allocation, `DetectDeadlock`
reports the rollbacks `[0, 1]`, although rolling back transaction 1 alone
breaks every wait-for cycle: the proper subset `[1]` of `info.rollbacks`
already breaks every cycle. -/
theorem rollbacks_not_minimal :
    Reachable sampleBuffers (stateAfter threeWaiters) ∧
    rollbacksOf ((stateAfter threeWaiters).DetectDeadlock 7 ⟨[], [], []⟩) =
      some [some 0, some 1] ∧
    ¬ HasCycle (WaitsForOn (stateAfter threeWaiters) fun t => t ∉ [some 1]) := by
  refine ⟨Reachable_stateAfter threeWaiters (by decide), by decide, ?_⟩
  rintro ⟨a, ha⟩
  obtain ⟨b, hab, -⟩ := Relation.TransGen.head'_iff.mp ha
  exact threeWaiters_no_arc a b hab

/-- C10 (amended).  In every reachable state, `DetectDeadlock` returns (with
fuel `2n + 1` for `n` queued transactions), removing the transactions of
`info.rollbacks` leaves no wait-for cycle, and every transaction of
`info.rollbacks` lies on a wait-for cycle among the queued transactions that
were not chosen before it; the set need not be minimal.  The same holds for
the loop of `DetectDeadlock` on every consistent graph, whatever the order of
the list `nodes` and of the lists `ins` and `outs`. -/
theorem detectDeadlock_victims_on_cycles (bm : BufferManager) (lm : LockManager)
    (hr : Reachable bm lm) (fuel : Nat) (hf : 2 * lm.queued.length + 1 ≤ fuel)
    (g : Graph) (nodes involved : List Nat) (rollbacks : List BufferTransaction)
    (hg : GInv g nodes) (fuel2 : Nat) (hf2 : 2 * nodes.length + 1 ≤ fuel2) :
    (∃ info, lm.DetectDeadlock fuel ⟨[], [], []⟩ = Outcome.ok info ∧
      ¬ HasCycle (WaitsForOn lm fun t => t ∉ info.rollbacks) ∧
      ∀ pre v post, info.rollbacks = pre ++ v :: post →
        Relation.TransGen (WaitsForOn lm fun t => t ∉ pre) v v) ∧
    (∃ g2 nodes2 involved2 victims,
      detectLoop fuel2 g nodes involved rollbacks =
        Outcome.ok (g2, nodes2, involved2,
          rollbacks ++ victims.map fun v => (g.node v).transInfo.trans) ∧
      ¬ HasCycle (g.ArcOn fun x => x ∈ nodes ∧ x ∉ victims) ∧
      ∀ pre v post, victims = pre ++ v :: post →
        Relation.TransGen (g.ArcOn fun x => x ∈ nodes ∧ x ∉ pre) v v) := by
  constructor
  · obtain ⟨info, victims, h1, h2, -, h4, -, h6⟩ :=
      DetectDeadlock_spec bm lm (Reachable_Inv bm lm hr) fuel hf ⟨[], [], []⟩ rfl
    simp only [List.nil_append] at h2
    refine ⟨info, h1, ?_, ?_⟩
    · rw [h2]; exact h4
    · rw [h2]; exact h6
  · obtain ⟨g2, nodes2, involved2, victims, d1, -, -, -, -, -, d7, -, d9, -⟩ :=
      detectLoop_breaks_cycles fuel2 g nodes involved rollbacks hg hf2
    exact ⟨g2, nodes2, involved2, victims, d1, d7, d9⟩

theorem detectDeadlock_victims_on_cycles_witness :
    Reachable sampleBuffers (stateAfter threeWaiters) ∧
    2 * (stateAfter threeWaiters).queued.length + 1 ≤ 7 ∧ GInv twoCycle [1, 0] ∧
    (∃ info, (stateAfter threeWaiters).DetectDeadlock 7 ⟨[], [], []⟩ = Outcome.ok info ∧
      ¬ HasCycle (WaitsForOn (stateAfter threeWaiters) fun t => t ∉ info.rollbacks) ∧
      ∀ pre v post, info.rollbacks = pre ++ v :: post →
        Relation.TransGen (WaitsForOn (stateAfter threeWaiters) fun t => t ∉ pre) v v) ∧
    (∃ g2 nodes2 involved2 victims,
      detectLoop 5 twoCycle [1, 0] [] [] =
        Outcome.ok (g2, nodes2, involved2,
          [] ++ victims.map fun v => (twoCycle.node v).transInfo.trans) ∧
      ¬ HasCycle (twoCycle.ArcOn fun x => x ∈ [1, 0] ∧ x ∉ victims) ∧
      ∀ pre v post, victims = pre ++ v :: post →
        Relation.TransGen (twoCycle.ArcOn fun x => x ∈ [1, 0] ∧ x ∉ pre) v v) :=
  ⟨Reachable_stateAfter threeWaiters (by decide), by decide,
    ⟨by decide, by decide, by decide, by decide, by decide, by decide, by decide⟩,
    detectDeadlock_victims_on_cycles sampleBuffers (stateAfter threeWaiters)
      (Reachable_stateAfter threeWaiters (by decide)) 7 (by decide)
      twoCycle [1, 0] [] []
      ⟨by decide, by decide, by decide, by decide, by decide, by decide, by decide⟩
      5 (by decide)⟩

/-! ## The compatibility table, the registry of transactions, the pending queue -/

/-- C19.  The array `lockCompatibility[request][existing]` agrees entry for
entry with the table of the specification; mode 0 is compatible with exactly
the existing modes other than 5, and mode 5 is compatible with no mode, itself
included, as the requested or as the existing mode. -/
theorem lockCompatibility_matches_spec :
    (∀ request existing : LockTargetAccess,
      lockCompatibility request existing = specCompatibility request existing) ∧
    (∀ existing : LockTargetAccess, lockCompatibility 0 existing = true ↔ existing ≠ 5) ∧
    (∀ m : LockTargetAccess, lockCompatibility 5 m = false ∧ lockCompatibility m 5 = false) := by
  refine ⟨by decide, by decide, by decide⟩

/-- C17.  The call `UnregisterTransaction(t)` returns true exactly when `t`
is registered with no held lock and no valid pending lock; then `t` is no
longer registered, every other transaction is registered as before and
nothing else changes; when it returns false the manager is unchanged. -/
theorem unregisterTransaction_spec (lm : LockManager) (t : BufferTransaction) :
    ((lm.UnregisterTransaction t).1 = true ↔
      ∃ ti, Dict.find lm.transactions t = some ti ∧ ti.acquiredLocks = [] ∧
        ti.pendingLock.IsValid = false) ∧
    ((lm.UnregisterTransaction t).1 = true →
      Dict.find (lm.UnregisterTransaction t).2.transactions t = none ∧
      (∀ t2, t2 ≠ t → Dict.find (lm.UnregisterTransaction t).2.transactions t2 =
        Dict.find lm.transactions t2) ∧
      (lm.UnregisterTransaction t).2.tables = lm.tables ∧
      (lm.UnregisterTransaction t).2.tableLocks = lm.tableLocks ∧
      (lm.UnregisterTransaction t).2.pendings = lm.pendings) ∧
    ((lm.UnregisterTransaction t).1 = false → (lm.UnregisterTransaction t).2 = lm) := by
  cases hf : Dict.find lm.transactions t with
  | none =>
    have e : lm.UnregisterTransaction t = (false, lm) := by
      unfold LockManager.UnregisterTransaction
      rw [hf]
    rw [e]
    simp
  | some ti =>
    have hc : Dict.Contains lm.transactions t = true := by
      unfold Dict.Contains
      rw [hf]
      rfl
    by_cases h1 : (decide (0 < ti.acquiredLocks.length) || ti.pendingLock.IsValid) = true
    · have e : lm.UnregisterTransaction t = (false, lm) := by
        unfold LockManager.UnregisterTransaction
        rw [hf]
        simp only [h1, if_true]
      rw [e]
      refine ⟨⟨fun h => absurd h Bool.false_ne_true, ?_⟩, fun h => absurd h Bool.false_ne_true,
        fun _ => rfl⟩
      rintro ⟨ti2, e2, h2, h3⟩
      cases e2
      simp [h2, h3] at h1
    · have e : lm.UnregisterTransaction t =
          (true, { lm with transactions := Dict.Remove lm.transactions t }) := by
        unfold LockManager.UnregisterTransaction
        rw [hf]
        simp only [h1, hc, Bool.not_true, Bool.false_eq_true, if_false]
      rw [e]
      refine ⟨⟨fun _ => ⟨ti, rfl, ?_, ?_⟩, fun _ => rfl⟩, fun _ => ⟨?_, ?_, rfl, rfl, rfl⟩,
        fun h => absurd h.symm Bool.false_ne_true⟩
      · cases hl : ti.acquiredLocks with
        | nil => rfl
        | cons a l => simp [hl] at h1
      · cases hv : ti.pendingLock.IsValid with
        | false => rfl
        | true => simp [hv] at h1
      · simp only [Dict.find_Remove, if_true]
      · intro t2 h2
        simp only [Dict.find_Remove, if_neg h2]

theorem countP_eq_one {α : Type} [DecidableEq α] (t : α) :
    ∀ l : List α, l.Nodup → t ∈ l → l.countP (fun x => decide (x = t)) = 1 := by
  intro l
  induction l with
  | nil => intro _ h; cases h
  | cons a l ih =>
    intro hnd h
    rw [List.nodup_cons] at hnd
    by_cases e : a = t
    · subst e
      rw [List.countP_cons_of_pos _ _ (by simp)]
      have : l.countP (fun x => decide (x = a)) = 0 := by
        rw [List.countP_eq_zero]
        intro x hx
        simp only [decide_eq_true_eq]
        intro e2
        subst e2
        exact hnd.1 hx
      omega
    · rw [List.countP_cons_of_neg _ _ (by simp [e])]
      rcases List.mem_cons.mp h with h2 | h2
      · exact absurd h2.symm e
      · exact ih hnd.2 h2

/-- C12.  In every state reachable from the empty manager by public
operations, a registered transaction has a valid pending lock exactly when it
occurs in the pending queue; it then occurs once in the queue as a whole, and
every bucket it occurs in is keyed by its importance. -/
theorem pending_iff_queued (bm : BufferManager) (lm : LockManager) (hr : Reachable bm lm)
    (t : BufferTransaction) (ti : TransInfo) (hf : Dict.find lm.transactions t = some ti) :
    (ti.pendingLock.IsValid = true ↔ ∃ kb ∈ lm.pendings, t ∈ kb.2.transactions) ∧
    (ti.pendingLock.IsValid = true →
      lm.queued.countP (fun x => decide (x = t)) = 1 ∧
      ∀ kb ∈ lm.pendings, t ∈ kb.2.transactions →
        kb.1 = ti.importance ∧ kb.2.transactions.countP (fun x => decide (x = t)) = 1) := by
  have hinv := Reachable_Inv bm lm hr
  obtain ⟨hnd, hmem⟩ := queued_props bm lm hinv
  have hq : ∀ x, x ∈ lm.queued ↔ ∃ kb ∈ lm.pendings, x ∈ kb.2.transactions := by
    intro x
    unfold LockManager.queued
    simp only [List.mem_flatMap]
  obtain ⟨hs, hreg, hnq, -⟩ := hinv.2.2.2
  have hb : ∀ kb, kb ∈ lm.pendings → queueOf lm.pendings kb.1 = some kb.2.transactions := by
    intro kb hkb
    obtain ⟨i, hi, hg⟩ := List.getElem_of_mem hkb
    have := find_of_get? lm.pendings i kb.1 kb.2 hs (by
      rw [List.get?_eq_getElem?, List.getElem?_eq_getElem hi, hg])
    unfold queueOf
    rw [this]
    rfl
  refine ⟨?_, ?_⟩
  · rw [← hq, hmem]
    constructor
    · intro hv
      exact ⟨ti, hf, hv⟩
    · rintro ⟨ti2, e, hv⟩
      rw [hf] at e
      cases e
      exact hv
  · intro hv
    refine ⟨countP_eq_one t _ hnd ((hmem t).mpr ⟨ti, hf, hv⟩), ?_⟩
    intro kb hkb hin
    obtain ⟨ti2, e, -, hk⟩ := hreg kb.1 kb.2.transactions t (hb kb hkb) hin
    rw [hf] at e
    cases e
    exact ⟨hk.symm, countP_eq_one t _ (hnq kb.1 _ (hb kb hkb)) hin⟩

theorem pending_iff_queued_witness :
    Reachable sampleBuffers (stateAfter writerAndWaiter) ∧
    ((tableTarget 0 0).IsValid = true ↔
      ∃ kb ∈ (stateAfter writerAndWaiter).pendings, some 2 ∈ kb.2.transactions) ∧
    ((tableTarget 0 0).IsValid = true →
      (stateAfter writerAndWaiter).queued.countP (fun x => decide (x = some 2)) = 1 ∧
      ∀ kb ∈ (stateAfter writerAndWaiter).pendings, some 2 ∈ kb.2.transactions →
        kb.1 = 1 ∧ kb.2.transactions.countP (fun x => decide (x = some 2)) = 1) :=
  ⟨Reachable_stateAfter writerAndWaiter (by decide),
    pending_iff_queued sampleBuffers (stateAfter writerAndWaiter)
      (Reachable_stateAfter writerAndWaiter (by decide)) (some 2)
      ⟨some 2, 1, [], tableTarget 0 0⟩ (by decide)⟩

/-! ## Rollback and dequeueing on concrete states -/

/-- C11 (refuted).  A writer holds the exclusive lock of table 0 and
transaction 2 waits for the table; then the table is unregistered
(`orphanedWaiter`).  Transaction 2 is registered with a valid pending lock,
yet `Rollback` does not return true: the release of the pending lock is
refused by the input check, and `Rollback` ends in its fatal error "Failed to
rollback a transaction". -/
theorem rollback_fails_after_unregisterTable :
    Reachable sampleBuffers (stateAfter orphanedWaiter) ∧
    Dict.find (stateAfter orphanedWaiter).transactions (some 2) =
      some ⟨some 2, 1, [], tableTarget 0 0⟩ ∧
    (tableTarget 0 0).IsValid = true ∧
    (stateAfter orphanedWaiter).ReleaseLockUnsafe sampleBuffers (some 2) (tableTarget 0 0) =
      some (false, stateAfter orphanedWaiter) ∧
    (stateAfter orphanedWaiter).Rollback sampleBuffers (some 2) = none := by
  refine ⟨Reachable_stateAfter orphanedWaiter (by decide), by decide, by decide, ?_, ?_⟩
  · exact ReleaseLockUnsafe_reject _ _ _ _ (by decide)
  · have e : (stateAfter orphanedWaiter).ReleaseLockUnsafe sampleBuffers (some 2)
        (tableTarget 0 0) = some (false, stateAfter orphanedWaiter) :=
      ReleaseLockUnsafe_reject _ _ _ _ (by decide)
    have hf : Dict.find (stateAfter orphanedWaiter).transactions (some 2) =
        some ⟨some 2, 1, [], tableTarget 0 0⟩ := by decide
    unfold LockManager.Rollback
    rw [hf]
    simp only [e]
    rfl

/-- C13 (refuted).  When the only waiter of a bucket withdraws its request by
`ReleaseLock` (`emptyBucket`) or is rolled back (`rolledBackWaiter`), both
states are reachable and the bucket stays in the pending queue with no
transaction; after the rollback `PickTransaction` fails on the modulo by the
bucket size zero.  Only the removal inside `PickTransaction` deletes the
bucket that became empty (`pickedWaiter`). -/
theorem dequeue_leaves_empty_bucket :
    (Reachable sampleBuffers (stateAfter emptyBucket) ∧
      ∃ kb ∈ (stateAfter emptyBucket).pendings, kb.2.transactions = []) ∧
    (Reachable sampleBuffers (stateAfter rolledBackWaiter) ∧
      (stateAfter rolledBackWaiter).pendings = [(1, ⟨[], -1⟩)] ∧
      ∀ (fuel : Nat) (result : LockResult),
        (stateAfter rolledBackWaiter).PickTransaction sampleBuffers (fuel + 1) result =
          Outcome.error) ∧
    (Reachable sampleBuffers (stateAfter pickedWaiter) ∧
      (stateAfter writerLeft).pendings = [(1, ⟨[some 2], -1⟩)] ∧
      (stateAfter pickedWaiter).pendings = []) := by
  refine ⟨⟨Reachable_stateAfter emptyBucket (by decide), ⟨(1, ⟨[], -1⟩), by decide, rfl⟩⟩,
    ⟨Reachable_stateAfter rolledBackWaiter (by decide), by decide, ?_⟩,
    ⟨Reachable_stateAfter pickedWaiter (by decide), by decide, by decide⟩⟩
  intro fuel result
  rfl

/-- C16 (as stated, refuted).  After one transaction took the mode 3 lock of a
table twice (`heldTwice`), its `acquiredLocks` holds the same target with the
same access at positions 0 and 1. -/
theorem acquiredLocks_repeat :
    Reachable sampleBuffers (stateAfter heldTwice) ∧
    ∃ ti, Dict.find (stateAfter heldTwice).transactions (some 1) = some ti ∧
      ti.acquiredLocks.get? 0 = some (tableTarget 3 0) ∧
      ti.acquiredLocks.get? 1 = some (tableTarget 3 0) :=
  ⟨Reachable_stateAfter heldTwice (by decide),
    ⟨some 1, 1, [tableTarget 3 0, tableTarget 3 0], LockTarget.Invalid⟩, by decide, by decide,
    by decide⟩

/-- C18 (as stated, refuted).  After a transaction took a lock of table 0 and
the table was unregistered (`heldThenUnregistered`), the table is not
registered and `TableHasLocks` still returns true for it. -/
theorem tableHasLocks_of_unregistered :
    Reachable sampleBuffers (stateAfter heldThenUnregistered) ∧
    (stateAfter heldThenUnregistered).tables.Contains (some 0) = false ∧
    (stateAfter heldThenUnregistered).TableHasLocks (some 0) = true :=
  ⟨Reachable_stateAfter heldThenUnregistered (by decide), by decide, by decide⟩

/-! ## Acquire followed by release -/

theorem perm_removeFirst {α : Type} [DecidableEq α] (x : α) :
    ∀ l : List α, x ∈ l → (x :: removeFirst l x).Perm l := by
  intro l
  induction l with
  | nil => intro h; cases h
  | cons y l ih =>
    intro h
    by_cases e : y = x
    · subst e
      simp only [removeFirst, if_true]
      exact List.Perm.refl _
    · simp only [removeFirst, e, if_false]
      have hx : x ∈ l := by
        rcases List.mem_cons.mp h with h2 | h2
        · exact absurd h2.symm e
        · exact h2
      exact (List.Perm.swap y x _).trans ((ih hx).cons y)

theorem perm_removeFirst_append {α : Type} [DecidableEq α] (l : List α) (x : α) :
    (removeFirst (l ++ [x]) x).Perm l := by
  have h1 := perm_removeFirst x (l ++ [x]) (by simp)
  have h2 : (l ++ [x]).Perm (x :: l) := List.perm_append_singleton x l
  exact (h1.trans h2).cons_inv

theorem CheckInputUnsafe_tables (lm lm1 : LockManager) (owner : BufferTransaction)
    (target : LockTarget) (ti : TransInfo) (h : lm.CheckInputUnsafe owner target = some ti)
    (ht : lm1.tables = lm.tables) :
    lm1.CheckInputUnsafe owner target = Dict.find lm1.transactions owner := by
  unfold LockManager.CheckInputUnsafe at h ⊢
  rw [ht]
  split at h
  · cases h
  · split at h
    · cases h
    · split at h
      · cases h
      · split at h
        · cases h
        · simp_all

/-- C14.  In a reachable state, when `AcquireLock(t, L)` returns true with
`blocked = false`, the `ReleaseLock(t, L)` that follows returns true, and
afterwards the counters of every object are those before the acquire, the
held locks of `t` are a permutation of those before, its pending lock and
importance are the same, and so are all other transactions, the registered
tables and the pending queue. -/
theorem acquire_release_roundtrip (bm : BufferManager) (lm : LockManager)
    (hr : Reachable bm lm) (t : BufferTransaction) (L : LockTarget) (result : LockResult)
    (h : (lm.AcquireLock bm t L result).map (fun r => (r.1, r.2.2.blocked)) =
      some (true, false)) :
    ∃ lm1 res lm2 ti ti2, lm.AcquireLock bm t L result = some (true, lm1, res) ∧
      lm1.ReleaseLock bm t L = some (true, lm2) ∧
      (∀ o, holders lm2.tableLocks o = holders lm.tableLocks o) ∧
      Dict.find lm.transactions t = some ti ∧ Dict.find lm2.transactions t = some ti2 ∧
      ti2.acquiredLocks.Perm ti.acquiredLocks ∧ ti2.pendingLock = ti.pendingLock ∧
      ti2.importance = ti.importance ∧
      (∀ t2, t2 ≠ t → Dict.find lm2.transactions t2 = Dict.find lm.transactions t2) ∧
      lm2.tables = lm.tables ∧ lm2.pendings = lm.pendings := by
  have hinv := Reachable_Inv bm lm hr
  unfold LockManager.AcquireLock at h ⊢
  unfold LockManager.ReleaseLock
  cases hti : lm.CheckInputUnsafe t L with
  | none =>
    rw [AcquireLockUnsafe_reject bm lm t L result true (Or.inl hti)] at h
    simp at h
  | some ti =>
    obtain ⟨hfind, -, -, -⟩ := CheckInputUnsafe_find lm t L ti hti
    cases hp : (true && ti.pendingLock.IsValid) with
    | true =>
      rw [AcquireLockUnsafe_reject bm lm t L result true (Or.inr ⟨ti, hti, hp⟩)] at h
      simp at h
    | false =>
      cases ho : objectOf bm L with
      | none =>
        rw [AcquireLockUnsafe_undecodable bm lm t L result true ti hti hp ho] at h
        simp at h
      | some o =>
        obtain ⟨s1, s2, -⟩ := AcquireLockUnsafe_spec bm lm t L result true ti o hinv hti hp ho
        by_cases hg : Grantable (holders lm.tableLocks o) L.access
        · obtain ⟨lm1, e1, hG⟩ := s1 hg
          have hinv1 := Inv_AcquireLockUnsafe bm lm lm1 t L result ⟨false⟩ true true hinv e1
          obtain ⟨g1, g2, g3, g4, g5⟩ := hG
          have hf1 : Dict.find lm1.transactions t =
              some { ti with acquiredLocks := ti.acquiredLocks ++ [L] } := by
            rw [g3, Dict.find_Store, if_pos rfl, hfind]
            rfl
          have hti1 : lm1.CheckInputUnsafe t L =
              some { ti with acquiredLocks := ti.acquiredLocks ++ [L] } := by
            rw [CheckInputUnsafe_tables lm lm1 t L ti hti g1, hf1]
          have hv : ti.pendingLock.IsValid = false := by simpa using hp
          obtain ⟨r1, -⟩ := ReleaseLockUnsafe_spec bm lm1 t L _ o hinv1 hti1 (Or.inl hv) ho
          obtain ⟨lm2, e2, k1, k2, k3, k4, k5⟩ := r1 (by simp)
          refine ⟨lm1, ⟨false⟩, lm2, ti,
            { ti with acquiredLocks := removeFirst (ti.acquiredLocks ++ [L]) L }, e1, e2, ?_, hfind,
            ?_, perm_removeFirst_append _ _, rfl, rfl, ?_, k1.trans g1, k2.trans g2⟩
          · intro o2
            funext m
            rw [k5, g5]
            by_cases c : o2 = o ∧ m = L.access
            · simp only [c, and_self, if_true]
              omega
            · simp only [c, if_false]
          · rw [k3, Dict.find_Store, if_pos rfl, hf1]
            rfl
          · intro t2 h2
            rw [k3, Dict.find_Store, if_neg h2, g3, Dict.find_Store, if_neg h2]
        · obtain ⟨lm1, e1, -⟩ := s2 hg rfl
          rw [e1] at h
          simp at h

theorem acquire_release_roundtrip_witness :
    Reachable sampleBuffers (stateAfter twoReaders) ∧
    ∃ lm1 res lm2 ti ti2,
      (stateAfter twoReaders).AcquireLock sampleBuffers (some 1) (tableTarget 3 0) ⟨false⟩ =
        some (true, lm1, res) ∧
      lm1.ReleaseLock sampleBuffers (some 1) (tableTarget 3 0) = some (true, lm2) ∧
      (∀ o, holders lm2.tableLocks o = holders (stateAfter twoReaders).tableLocks o) ∧
      Dict.find (stateAfter twoReaders).transactions (some 1) = some ti ∧
      Dict.find lm2.transactions (some 1) = some ti2 ∧
      ti2.acquiredLocks.Perm ti.acquiredLocks ∧ ti2.pendingLock = ti.pendingLock ∧
      ti2.importance = ti.importance ∧
      (∀ t2, t2 ≠ some 1 → Dict.find lm2.transactions t2 =
        Dict.find (stateAfter twoReaders).transactions t2) ∧
      lm2.tables = (stateAfter twoReaders).tables ∧
      lm2.pendings = (stateAfter twoReaders).pendings :=
  ⟨Reachable_stateAfter twoReaders (by decide),
    acquire_release_roundtrip sampleBuffers (stateAfter twoReaders)
      (Reachable_stateAfter twoReaders (by decide)) (some 1) (tableTarget 3 0) ⟨false⟩
      (by decide)⟩

/-! ## The graph of `BuildGraph`: one edge per pair -/

theorem EdgeUnique_buildEdge (g0 g : Graph) (grp : Dict Nat (List Nat)) (D : Nat → Nat → Prop)
    (f t : Nat) (hinv : BuildInv g0 g grp D) (hu : EdgeUnique g) (hnd : ¬ D f t)
    (hf : f < g0.nodes.length) (ht : t < g0.nodes.length) :
    EdgeUnique (buildEdge (g0.node f).transInfo.pendingLock f (g, grp) t).1 := by
  by_cases hj : edgeJustification (g0.node f).transInfo.pendingLock
      (g.node t).transInfo.acquiredLocks = []
  · rw [buildEdge_skip _ f t (g, grp) hj]
    exact hu
  · obtain ⟨-, h2, -, -⟩ := buildEdge_effect (g0.node f).transInfo.pendingLock f t g grp
      (by rw [hinv.length]; exact hf) (by rw [hinv.length]; exact ht) hj
    obtain ⟨k1, k2, k3⟩ := Graph.edge_of_append g _ _ h2
    intro e1 e2 h1 h2' hfe hte
    rw [k3] at h1 h2'
    by_cases c1 : e1 < g.edges.length
    · by_cases c2 : e2 < g.edges.length
      · rw [k1 e1 c1, k1 e2 c2] at hfe hte
        exact hu e1 e2 c1 c2 hfe hte
      · have e : e2 = g.edges.length := by omega
        subst e
        rw [k1 e1 c1, k2] at hfe hte
        have := (hinv.edge_ok e1 c1).1
        rw [hfe, hte] at this
        exact absurd this hnd
    · have e : e1 = g.edges.length := by omega
      subst e
      by_cases c2 : e2 < g.edges.length
      · rw [k1 e2 c2, k2] at hfe hte
        have := (hinv.edge_ok e2 c2).1
        rw [← hfe, ← hte] at this
        exact absurd this hnd
      · omega

theorem EdgeUnique_inner (g0 : Graph) (f : Nat) (hf : f < g0.nodes.length) :
    ∀ (ts : List Nat) (g : Graph) (grp : Dict Nat (List Nat)) (D : Nat → Nat → Prop),
      BuildInv g0 g grp D → EdgeUnique g → ts.Nodup →
      (∀ t ∈ ts, t < g0.nodes.length ∧ ¬ D f t) →
      EdgeUnique (ts.foldl (buildEdge (g0.node f).transInfo.pendingLock f) (g, grp)).1 := by
  intro ts
  induction ts with
  | nil => intro g grp D _ hu _ _; exact hu
  | cons t0 ts ih =>
    intro g grp D hinv hu hnd hts
    simp only [List.foldl_cons]
    rw [List.nodup_cons] at hnd
    obtain ⟨h0, h1⟩ := hts t0 (List.mem_cons_self _ _)
    have b1 := BuildInv_buildEdge g0 g grp D f t0 hinv hf h0
    have u1 := EdgeUnique_buildEdge g0 g grp D f t0 hinv hu h1 hf h0
    refine ih _ _ _ b1 u1 hnd.2 ?_
    intro t ht
    obtain ⟨h2, h3⟩ := hts t (List.mem_cons_of_mem _ ht)
    refine ⟨h2, ?_⟩
    rintro (h | ⟨-, h⟩)
    · exact h3 h
    · subst h
      exact hnd.1 ht

theorem EdgeUnique_outer (g0 : Graph) (all : List Nat) (hall : ∀ t ∈ all, t < g0.nodes.length)
    (hnda : all.Nodup) :
    ∀ (fs : List Nat) (g : Graph) (grp : Dict Nat (List Nat)) (D : Nat → Nat → Prop),
      BuildInv g0 g grp D → EdgeUnique g → fs.Nodup →
      (∀ f ∈ fs, f < g0.nodes.length ∧ ∀ b, ¬ D f b) →
      ∀ r, buildEdges all fs (g, grp) = some r → EdgeUnique r.1 := by
  intro fs
  induction fs with
  | nil =>
    intro g grp D _ hu _ _ r hr
    simp only [buildEdges, Option.some.injEq] at hr
    rw [← hr]
    exact hu
  | cons f0 fs ih =>
    intro g grp D hinv hu hnd hfs r hr
    rw [List.nodup_cons] at hnd
    obtain ⟨hf0, hD0⟩ := hfs f0 (List.mem_cons_self _ _)
    rw [buildEdges] at hr
    simp only [hinv.info f0] at hr
    split at hr
    · cases hr
    · have b1 := BuildInv_inner g0 f0 hf0 all g grp D hinv hall
      have u1 := EdgeUnique_inner g0 f0 hf0 all g grp D hinv hu hnda
        (fun t ht => ⟨hall t ht, hD0 t⟩)
      refine ih _ _ _ b1 u1 hnd.2 ?_ r hr
      intro f hf
      obtain ⟨h2, h3⟩ := hfs f (List.mem_cons_of_mem _ hf)
      refine ⟨h2, fun b => ?_⟩
      rintro (h | ⟨h, -⟩)
      · exact h3 b h
      · subst h
        exact hnd.1 hf

theorem EdgeUnique_fresh (infos : List TransInfo) : EdgeUnique (freshGraph infos) := by
  intro e1 e2 h1
  rw [(freshGraph_node infos 0).2.2.2.1] at h1
  cases h1

theorem BuildGraph_unique (lm : LockManager) (g : Graph) (grp : Dict Nat (List Nat))
    (h : BuildGraph lm = some (g, grp)) : EdgeUnique g := by
  unfold BuildGraph at h
  simp only at h
  cases hm : (lm.pendings.flatMap fun b => b.2.transactions).mapM
      fun t => Dict.find lm.transactions t with
  | none => rw [hm] at h; cases h
  | some infos =>
    rw [hm] at h
    simp only at h
    have hlen : (freshGraph infos).nodes.length = infos.length := (freshGraph_node infos 0).2.2.1
    exact EdgeUnique_outer (freshGraph infos) (List.range infos.length)
      (fun t ht => by rw [hlen]; exact List.mem_range.mp ht) (List.nodup_range _)
      (List.range infos.length) (freshGraph infos) [] (fun _ _ => False) (BuildInv_fresh infos)
      (EdgeUnique_fresh infos) (List.nodup_range _)
      (fun f hf => ⟨by rw [hlen]; exact List.mem_range.mp hf, fun _ h => h⟩) (g, grp) h

theorem mem_edgeJustification (pending : LockTarget) (acquiredLocks : List LockTarget) (i : Nat) :
    i ∈ edgeJustification pending acquiredLocks ↔
      ∃ acquired, acquiredLocks.get? i = some acquired ∧ Blocks pending acquired := by
  unfold edgeJustification Blocks
  rw [List.mem_filter, List.mem_range]
  constructor
  · rintro ⟨hi, h⟩
    rw [List.get?_eq_get hi] at h
    simp only [Bool.and_eq_true, decide_eq_true_eq, Bool.not_eq_true'] at h
    exact ⟨_, List.get?_eq_get hi, h.1, h.2⟩
  · rintro ⟨a, ha, h1, h2⟩
    have hi : i < acquiredLocks.length := by
      by_contra hcon
      rw [List.get?_eq_none.mpr (Nat.le_of_not_lt hcon)] at ha
      cases ha
    refine ⟨hi, ?_⟩
    rw [ha]
    simp [h1, h2]

theorem nodup_edgeJustification (pending : LockTarget) (acquiredLocks : List LockTarget) :
    (edgeJustification pending acquiredLocks).Nodup := by
  unfold edgeJustification
  exact (List.nodup_range _).filter _

/-- C20.  For a manager whose pending queue satisfies its invariant,
`BuildGraph` returns a graph with one node per entry of the pending queue:
the queue lists each registered transaction with a valid pending lock once,
and node `i` carries the `TransInfo` of the `i`-th queued transaction.  For
every ordered pair of nodes there is an edge exactly when some held lock of
the target node blocks the pending lock of the source node (same target,
incompatible access), and no pair has two edges.  Every edge joins two nodes,
its `toNodeAcquired` lists, each once, exactly the indices of the blocking
entries of the held locks of its target node, and the edge is in the `outs`
of its source, in the `ins` of its target and in the group under its target. -/
theorem buildGraph_characterised (lm : LockManager)
    (hp : PendInv lm.transactions lm.pendings) :
    ∃ g grp, BuildGraph lm = some (g, grp) ∧
      g.nodes.length = lm.queued.length ∧ lm.queued.Nodup ∧
      (∀ t, t ∈ lm.queued ↔
        ∃ ti, Dict.find lm.transactions t = some ti ∧ ti.pendingLock.IsValid = true) ∧
      (∀ i t, lm.queued.get? i = some t →
        Dict.find lm.transactions t = some (g.node i).transInfo) ∧
      (∀ a b, a < g.nodes.length → b < g.nodes.length →
        ((∃ e, e < g.edges.length ∧ (g.edge e).fromNode = a ∧ (g.edge e).toNode = b) ↔
          ∃ acquired, acquired ∈ (g.node b).transInfo.acquiredLocks ∧
            Blocks (g.node a).transInfo.pendingLock acquired)) ∧
      EdgeUnique g ∧
      ∀ e, e < g.edges.length →
        (g.edge e).fromNode < g.nodes.length ∧ (g.edge e).toNode < g.nodes.length ∧
        (∀ i, i ∈ (g.edge e).toNodeAcquired ↔
          ∃ acquired,
            (g.node (g.edge e).toNode).transInfo.acquiredLocks.get? i = some acquired ∧
            Blocks (g.node (g.edge e).fromNode).transInfo.pendingLock acquired) ∧
        (g.edge e).toNodeAcquired.Nodup ∧
        e ∈ (g.node (g.edge e).fromNode).outs ∧ e ∈ (g.node (g.edge e).toNode).ins ∧
        ∃ l, Dict.find grp (g.edge e).toNode = some l ∧ e ∈ l := by
  obtain ⟨hnd, hq⟩ := queued_of_PendInv lm hp
  obtain ⟨g, grp, infos, b1, b2, b3, b4⟩ := BuildGraph_of_PendInv lm hp
  have hl0 : (freshGraph infos).nodes.length = infos.length := (freshGraph_node infos 0).2.2.1
  have hlen : g.nodes.length = infos.length := by rw [b4.length, hl0]
  have b5 : BuildInv (freshGraph infos) g grp
      (fun a b => a < (freshGraph infos).nodes.length ∧ b < (freshGraph infos).nodes.length) := by
    rw [hl0]
    exact b4
  refine ⟨g, grp, b1, by rw [hlen, b2], hnd, hq, ?_, ?_, BuildGraph_unique lm g grp b1, ?_⟩
  · intro i t hi
    obtain ⟨ti, h1, h2⟩ := b3 i t hi
    rw [b4.info i, (freshGraph_node infos i).2.2.2.2 ti h2]
    exact h1
  · intro a b ha hb
    have := Arc_of_BuildInv (freshGraph infos) g grp b5 a b
    unfold Graph.Arc at this
    rw [this, edgeJustification_ne_nil, ← b4.info a, ← b4.info b, hl0, ← hlen]
    constructor
    · rintro ⟨-, -, h⟩
      exact h
    · intro h
      exact ⟨ha, hb, h⟩
  · intro e he
    obtain ⟨-, h2, h3, h4, -, h6, h7⟩ := b4.edge_ok e he
    rw [hl0, ← hlen] at h2 h3
    refine ⟨h2, h3, ?_, ?_, h6, h7, ?_⟩
    · intro i
      rw [h4, mem_edgeJustification, b4.info, b4.info]
    · rw [h4]
      exact nodup_edgeJustification _ _
    · cases hf : Dict.find grp (g.edge e).toNode with
      | none => exact absurd rfl (b4.group_none _ hf e he)
      | some l => exact ⟨l, rfl, ((b4.group_some _ l hf).2 e).mpr ⟨he, rfl⟩⟩

theorem buildGraph_characterised_witness :
    ∃ g grp, BuildGraph (stateAfter crossWaiters) = some (g, grp) ∧
      g.nodes.length = (stateAfter crossWaiters).queued.length ∧
      (stateAfter crossWaiters).queued.Nodup ∧
      (∀ t, t ∈ (stateAfter crossWaiters).queued ↔
        ∃ ti, Dict.find (stateAfter crossWaiters).transactions t = some ti ∧
          ti.pendingLock.IsValid = true) ∧
      (∀ i t, (stateAfter crossWaiters).queued.get? i = some t →
        Dict.find (stateAfter crossWaiters).transactions t = some (g.node i).transInfo) ∧
      (∀ a b, a < g.nodes.length → b < g.nodes.length →
        ((∃ e, e < g.edges.length ∧ (g.edge e).fromNode = a ∧ (g.edge e).toNode = b) ↔
          ∃ acquired, acquired ∈ (g.node b).transInfo.acquiredLocks ∧
            Blocks (g.node a).transInfo.pendingLock acquired)) ∧
      EdgeUnique g ∧
      ∀ e, e < g.edges.length →
        (g.edge e).fromNode < g.nodes.length ∧ (g.edge e).toNode < g.nodes.length ∧
        (∀ i, i ∈ (g.edge e).toNodeAcquired ↔
          ∃ acquired,
            (g.node (g.edge e).toNode).transInfo.acquiredLocks.get? i = some acquired ∧
            Blocks (g.node (g.edge e).fromNode).transInfo.pendingLock acquired) ∧
        (g.edge e).toNodeAcquired.Nodup ∧
        e ∈ (g.node (g.edge e).fromNode).outs ∧ e ∈ (g.node (g.edge e).toNode).ins ∧
        ∃ l, Dict.find grp (g.edge e).toNode = some l ∧ e ∈ l :=
  buildGraph_characterised (stateAfter crossWaiters)
    (Reachable_Inv sampleBuffers (stateAfter crossWaiters)
      (Reachable_stateAfter crossWaiters (by decide))).2.2.2

/-! ## Pruning: the handlers -/

theorem isEmpty_false_of_find {K V : Type} [DecidableEq K] (m : Dict K V) (k : K) (v : V)
    (h : Dict.find m k = some v) : m.isEmpty = false := by
  cases m with
  | nil => simp [Dict.find] at h
  | cons a m => rfl

theorem find_of_isEmpty_false {K V : Type} [DecidableEq K] (m : Dict K V)
    (h : m.isEmpty = false) : ∃ k v, Dict.find m k = some v := by
  cases m with
  | nil => simp at h
  | cons a m =>
    obtain ⟨k, v⟩ := a
    exact ⟨k, v, by simp [Dict.find]⟩

theorem pageCore_pruned {TArgs : Type} (F : CountsOp TArgs) (prune : Bool) (h : HandlerState)
    (a : TArgs) (t : TableLockInfo) (p : PageLockInfo) (page : BufferPage)
    (hK : Keeps F prune) (hp : Dict.find t.pageLocks page = some p) (hpo : p.object = page)
    (ht : ∀ k q, k ≠ page → Dict.find t.pageLocks k = some q → q.Kept)
    (hpn : p.acquiredLocks.NonNeg) (hpr : p.Pruned)
    (hp0 : p.IsEmpty = false ∨ (p.acquiredLocks = LockCounts.zero ∧ Fills F)) :
    ∀ x, (liftPage F prune h a t p).map (writeBackPage page) = some x → x.2.2.Pruned := by
  intro x hx
  cases hF : F h a p.acquiredLocks with
  | none => simp [liftPage, hF] at hx
  | some y =>
    obtain ⟨r, h1, c1⟩ := y
    obtain ⟨kn, kz⟩ := hK h a p.acquiredLocks r h1 c1 hF hpn
    subst hpo
    by_cases hprune : (prune && r && ({ p with acquiredLocks := c1 } : PageLockInfo).IsEmpty) = true
    · have hrm : Dict.find (Dict.Remove t.pageLocks p.object) p.object = none := by
        simp [Dict.find_Remove]
      have hres : (liftPage F prune h a t p).map (writeBackPage p.object) =
          some (r, h1, { t with pageLocks := Dict.Remove t.pageLocks p.object }) := by
        simp only [liftPage, hF, Option.map_some', writeBackPage, hprune, if_true,
          Dict.Store_none _ _ _ hrm]
      rw [hres] at hx
      cases hx
      intro k q hk
      simp only [Dict.find_Remove] at hk
      split at hk
      · cases hk
      · next hne => exact ht k q hne hk
    · have hres : (liftPage F prune h a t p).map (writeBackPage p.object) =
          some (r, h1,
            { t with pageLocks := Dict.Store t.pageLocks p.object { p with acquiredLocks := c1 } }) := by
        simp only [liftPage, hF, Option.map_some', writeBackPage]
        rw [if_neg hprune]
      rw [hres] at hx
      cases hx
      intro k q hk
      simp only [Dict.find_Store, hp, Option.map_some'] at hk
      split at hk
      · cases hk
        refine ⟨kn, ?_, hpr⟩
        cases hz : c1.IsZero with
        | false => simp [PageLockInfo.IsEmpty, hz]
        | true =>
          rcases kz hz with hb | hb
          · simpa [hb] using hprune
          · rcases hp0 with h0 | ⟨h0, hfill⟩
            · simp only [PageLockInfo.IsEmpty, hb, Bool.true_and] at h0
              simp [PageLockInfo.IsEmpty, h0]
            · rw [h0] at hF
              have := hfill h a r h1 c1 hF
              rw [hz] at this
              cases this
      · next hne => exact ht k q hne hk

theorem rowCore_pruned {TArgs : Type} (F : CountsOp TArgs) (prune : Bool) (h : HandlerState)
    (a : TArgs) (t : TableLockInfo) (p : PageLockInfo) (w : RowLockInfo) (page : BufferPage)
    (o : Nat) (hK : Keeps F prune)
    (hp : Dict.find t.pageLocks page = some p) (hw : Dict.find p.rowLocks o = some w)
    (hpo : p.object = page) (hwo : w.object = o)
    (ht : ∀ k q, k ≠ page → Dict.find t.pageLocks k = some q → q.Kept)
    (hpn : p.acquiredLocks.NonNeg)
    (hrows : ∀ k w2, k ≠ o → Dict.find p.rowLocks k = some w2 →
      w2.acquiredLocks.NonNeg ∧ w2.acquiredLocks.IsZero = false)
    (hwn : w.acquiredLocks.NonNeg)
    (hw0 : w.acquiredLocks.IsZero = false ∨ (w.acquiredLocks = LockCounts.zero ∧ Fills F)) :
    ∀ x, (liftRow F prune h a t p w).map (writeBackRow page o) = some x → x.2.2.Pruned := by
  intro x hx
  cases hF : F h a w.acquiredLocks with
  | none => simp [liftRow, hF] at hx
  | some y =>
    obtain ⟨r, h1, c1⟩ := y
    obtain ⟨kn, kz⟩ := hK h a w.acquiredLocks r h1 c1 hF hwn
    subst hpo
    subst hwo
    by_cases hprune : (prune && r && ({ w with acquiredLocks := c1 } : RowLockInfo).IsEmpty) = true
    · have hrmo : Dict.find (Dict.Remove p.rowLocks w.object) w.object = none := by
        simp [Dict.find_Remove]
      by_cases hpe : ({ p with rowLocks := Dict.Remove p.rowLocks w.object } : PageLockInfo).IsEmpty
          = true
      · have hrm : Dict.find (Dict.Remove t.pageLocks p.object) p.object = none := by
          simp [Dict.find_Remove]
        have hres : (liftRow F prune h a t p w).map (writeBackRow p.object w.object) =
            some (r, h1, { t with pageLocks := Dict.Remove t.pageLocks p.object }) := by
          simp only [liftRow, hF, Option.map_some', hprune, if_true, hpe,
            writeBackRow, writeBackPage, Dict.Store_none _ _ _ hrm]
        rw [hres] at hx
        cases hx
        intro k q hk
        simp only [Dict.find_Remove] at hk
        split at hk
        · cases hk
        · next hne => exact ht k q hne hk
      · have hres : (liftRow F prune h a t p w).map (writeBackRow p.object w.object) =
            some (r, h1,
              { t with pageLocks := (Dict.Store t.pageLocks p.object
                  { p with rowLocks := Dict.Remove p.rowLocks w.object }) }) := by
          simp only [liftRow, hF, Option.map_some', hprune, if_true, hpe,
            writeBackRow, writeBackPage, Dict.Store_none _ _ _ hrmo]
          simp
        rw [hres] at hx
        cases hx
        intro k q hk
        simp only [Dict.find_Store, hp, Option.map_some'] at hk
        split at hk
        · cases hk
          refine ⟨hpn, by simpa using hpe, ?_⟩
          intro k2 w2 hk2
          simp only [Dict.find_Remove] at hk2
          split at hk2
          · cases hk2
          · next hne => exact hrows k2 w2 hne hk2
        · next hne => exact ht k q hne hk
    · have hres : (liftRow F prune h a t p w).map (writeBackRow p.object w.object) =
          some (r, h1,
            { t with pageLocks := (Dict.Store t.pageLocks p.object
                ⟨p.object, p.acquiredLocks, Dict.Store p.rowLocks w.object ⟨w.object, c1⟩⟩) }) := by
        simp only [liftRow, hF, Option.map_some', writeBackRow, writeBackPage]
        rw [if_neg hprune]
      rw [hres] at hx
      cases hx
      intro k q hk
      simp only [Dict.find_Store, hp, Option.map_some'] at hk
      split at hk
      · cases hk
        have hfo : Dict.find (Dict.Store p.rowLocks w.object ⟨w.object, c1⟩)
            w.object = some ⟨w.object, c1⟩ := by
          rw [Dict.find_Store, if_pos rfl, hw]
          rfl
        refine ⟨hpn, ?_, ?_⟩
        · simp [PageLockInfo.IsEmpty, isEmpty_false_of_find _ _ _ hfo]
        · intro k2 w2 hk2
          simp only [Dict.find_Store, hw, Option.map_some'] at hk2
          split at hk2
          · cases hk2
            refine ⟨kn, ?_⟩
            cases hz : c1.IsZero with
            | false => rfl
            | true =>
              exfalso
              rcases kz hz with hb | hb
              · simp [hb, RowLockInfo.IsEmpty, hz] at hprune
              · rcases hw0 with h0 | ⟨h0, hfill⟩
                · rw [hb] at h0
                  cases h0
                · rw [h0] at hF
                  have := hfill h a r h1 c1 hF
                  rw [hz] at this
                  cases this
          · next hne => exact hrows k2 w2 hne hk2
      · next hne => exact ht k q hne hk

/-! ## Pruning: the dispatcher -/

theorem find_Store_Add {K V : Type} [DecidableEq K] (m : Dict K V) (k k2 : K) (v0 v : V)
    (h : Dict.find m k = none) :
    Dict.find (Dict.Store (Dict.Add m k v0) k v) k2 = if k2 = k then some v else Dict.find m k2 := by
  rw [Dict.find_Store, Dict.find_Add, h]
  by_cases e : k2 = k
  · subst e
    simp
  · rw [if_neg e, if_neg e, Dict.find_Add]
    cases h2 : Dict.find m k2 with
    | none =>
      have e2 : ¬ k = k2 := fun h3 => e h3.symm
      simp [e2]
    | some x => rfl

theorem NonNeg_zero : LockCounts.NonNeg LockCounts.zero := fun _ => Int.le_refl 0

theorem operateRow_pruned {TArgs : Type} (F : CountsOp TArgs) (prune : Bool) (h : HandlerState)
    (a : TArgs) (create : Bool) (t : TableLockInfo) (p : PageLockInfo) (page : BufferPage)
    (o : Nat) (hK : Keeps F prune) (hFill : create = true → Fills F)
    (hp : Dict.find t.pageLocks page = some p) (hpo : p.object = page) (hpwf : p.WF)
    (ht : ∀ k q, k ≠ page → Dict.find t.pageLocks k = some q → q.Kept)
    (hpn : p.acquiredLocks.NonNeg) (hpr : p.Pruned)
    (hkeep : create = false → t.Pruned) :
    ∀ x, operateRow h a (liftRow F prune) create t p page o = some x → x.2.2.Pruned := by
  intro x hx
  unfold operateRow at hx
  cases hw : Dict.find p.rowLocks o with
  | none =>
    simp only [hw] at hx
    cases hc : create with
    | false =>
      simp only [hc, Bool.not_false, if_true, Option.some.injEq] at hx
      rw [← hx]
      exact hkeep hc
    | true =>
      simp only [hc, Bool.not_true, Bool.false_eq_true, if_false] at hx
      refine rowCore_pruned F prune h a
        { t with
          pageLocks := (Dict.Store t.pageLocks page
            ⟨p.object, p.acquiredLocks, Dict.Add p.rowLocks o ⟨o, LockCounts.zero⟩⟩) }
        ⟨p.object, p.acquiredLocks, Dict.Add p.rowLocks o ⟨o, LockCounts.zero⟩⟩
        ⟨o, LockCounts.zero⟩ page o hK ?_ ?_ hpo rfl ?_ hpn ?_
        NonNeg_zero (Or.inr ⟨rfl, hFill hc⟩) x hx
      · simp only [Dict.find_Store, if_true, hp, Option.map_some']
      · simp only [Dict.find_Add, hw, if_true]
      · intro k q hne hk
        simp only [Dict.find_Store, if_neg hne] at hk
        exact ht k q hne hk
      · intro k w2 hne hk
        simp only [Dict.find_Add] at hk
        cases hk2 : Dict.find p.rowLocks k with
        | none =>
          rw [hk2] at hk
          have e2 : ¬ o = k := fun h3 => hne h3.symm
          simp only [e2, if_false] at hk
          cases hk
        | some w3 =>
          rw [hk2] at hk
          cases hk
          exact hpr k _ hk2
  | some w =>
    simp only [hw] at hx
    obtain ⟨wn, wz⟩ := hpr o w hw
    exact rowCore_pruned F prune h a t p w page o hK hp hw hpo (hpwf o w hw) ht hpn
      (fun k w2 _ hk => hpr k w2 hk) wn (Or.inl wz) x hx

theorem operatePage_pruned {TArgs : Type} (F : CountsOp TArgs) (prune : Bool) (h : HandlerState)
    (a : TArgs) (create : Bool) (t : TableLockInfo) (page : BufferPage) (off : Option Nat)
    (hK : Keeps F prune) (hFill : create = true → Fills F) (hwf : t.WF) (hpr : t.Pruned) :
    ∀ x, operatePage h a (liftPage F prune) (liftRow F prune) create t page off = some x →
      x.2.2.Pruned := by
  intro x hx
  unfold operatePage at hx
  cases hp : Dict.find t.pageLocks page with
  | none =>
    simp only [hp] at hx
    cases hc : create with
    | false =>
      simp only [hc, Bool.not_false, if_true, Option.some.injEq] at hx
      rw [← hx]
      exact hpr
    | true =>
      simp only [hc, Bool.not_true, Bool.false_eq_true, if_false] at hx
      have hf0 : Dict.find (Dict.Add t.pageLocks page ⟨page, LockCounts.zero, []⟩) page =
          some ⟨page, LockCounts.zero, []⟩ := by
        simp [Dict.find_Add, hp]
      have ht0 : ∀ k q, k ≠ page →
          Dict.find (Dict.Add t.pageLocks page ⟨page, LockCounts.zero, []⟩) k = some q →
          q.Kept := by
        intro k q hne hk
        simp only [Dict.find_Add] at hk
        cases hk2 : Dict.find t.pageLocks k with
        | none =>
          rw [hk2] at hk
          have e2 : ¬ page = k := fun h3 => hne h3.symm
          simp only [e2, if_false] at hk
          cases hk
        | some q2 =>
          rw [hk2] at hk
          cases hk
          exact hpr k _ hk2
      have hpr0 : PageLockInfo.Pruned ⟨page, LockCounts.zero, []⟩ := by
        intro k w hk
        simp [Dict.find] at hk
      cases off with
      | none =>
        simp only at hx
        exact pageCore_pruned F prune h a _ ⟨page, LockCounts.zero, []⟩ page hK hf0 rfl ht0
          NonNeg_zero hpr0 (Or.inr ⟨rfl, hFill hc⟩) x hx
      | some o =>
        simp only at hx
        rw [← hc] at hx
        refine operateRow_pruned F prune h a create _ ⟨page, LockCounts.zero, []⟩ page o hK hFill
          hf0 rfl ?_ ht0 NonNeg_zero hpr0 (fun e => ?_) x hx
        · intro k w hk
          simp [Dict.find] at hk
        · rw [hc] at e
          cases e
  | some p =>
    simp only [hp] at hx
    obtain ⟨kn, ke, kp⟩ := hpr page p hp
    cases off with
    | none =>
      simp only at hx
      exact pageCore_pruned F prune h a t p page hK hp (hwf page p hp).1
        (fun k q _ hk => hpr k q hk) kn kp (Or.inl ke) x hx
    | some o =>
      simp only at hx
      exact operateRow_pruned F prune h a create t p page o hK hFill hp (hwf page p hp).1
        (hwf page p hp).2 (fun k q _ hk => hpr k q hk) kn kp (fun _ => hpr) x hx

theorem operateSub_pruned {TArgs : Type} (F : CountsOp TArgs) (prune : Bool) (h : HandlerState)
    (a : TArgs) (create : Bool) (t : TableLockInfo) (s : Option (BufferPage × Option Nat))
    (hK : Keeps F prune) (hFill : create = true → Fills F) (hwf : t.WF) (hpr : t.Pruned) :
    ∀ x, operateSub F prune h a create t s = some x → x.2.2.Pruned := by
  intro x hx
  cases s with
  | none =>
    simp only [operateSub, liftTable] at hx
    cases hF : F h a t.acquiredLocks with
    | none => simp [hF] at hx
    | some y =>
      simp only [hF, Option.map_some', Option.some.injEq] at hx
      rw [← hx]
      exact hpr
  | some po =>
    obtain ⟨page, off⟩ := po
    exact operatePage_pruned F prune h a create t page off hK hFill hwf hpr x hx

/-! ## Pruning: the array of tables -/

/-- The shape of the result of the part of `OperateObjectLock` from "Find
TableLock" on, for a decodable target: nothing happens, or the dispatcher
below the table runs on the slot of the table (a fresh one when the slot was
empty and lock state is created) and its result is stored in the slot. -/
theorem operateTableLocks_shape {TArgs : Type} (F : CountsOp TArgs) (prune : Bool)
    (bm : BufferManager) (tl : List (Option TableLockInfo)) (h : HandlerState) (a : TArgs)
    (target : LockTarget) (create : Bool) (o : LockObject) (ho : objectOf bm target = some o) :
    operateTableLocks bm tl h a target (liftTable F) (liftPage F prune) (liftRow F prune)
      create = some (false, h, tl) ∨
    ∃ (tl1 : List (Option TableLockInfo)) (t : TableLockInfo),
      (∀ j, tl1.getD j none = tl.getD j none) ∧ o.path.1 < tl1.length ∧
      (tl.getD o.path.1 none = some t ∨
        (create = true ∧ t = ⟨target.table, LockCounts.zero, []⟩)) ∧
      operateTableLocks bm tl h a target (liftTable F) (liftPage F prune) (liftRow F prune)
        create =
        (operateSub F prune h a create t o.path.2).map
          (fun x => (x.1, x.2.1, tl1.set o.path.1 (some x.2.2))) := by
  rw [operateTableLocks_eq F prune bm tl h a target create o ho]
  by_cases hlen : tl.length ≤ o.path.1
  · have hslot := getD_none_of_le tl _ hlen
    cases create with
    | false =>
      left
      simp [hlen]
    | true =>
      right
      have hslot1 : (resizeTableLocks tl (o.path.1 + 1)).getD o.path.1 none = none := by
        rw [getD_resize]; exact hslot
      have hi : o.path.1 < (resizeTableLocks tl (o.path.1 + 1)).length := by
        rw [length_resize tl _ (by omega)]; omega
      refine ⟨resizeTableLocks tl (o.path.1 + 1), ⟨target.table, LockCounts.zero, []⟩,
        fun j => getD_resize tl _ j, hi, Or.inr ⟨rfl, rfl⟩, ?_⟩
      simp only [hlen, decide_True, decide_False, Bool.false_and, Bool.true_and, Bool.not_true,
        Bool.not_false, Bool.and_false, Bool.and_true, if_true, if_false, Bool.false_eq_true,
        hslot1, Option.getD_none, Option.getD_some, ↓reduceIte]
  · have hi : o.path.1 < tl.length := Nat.lt_of_not_le hlen
    cases hslot : tl.getD o.path.1 none with
    | none =>
      cases create with
      | false =>
        left
        simp only [hlen, decide_True, decide_False, Bool.false_and, Bool.true_and, Bool.not_true,
          Bool.not_false, Bool.and_false, Bool.and_true, if_true, if_false, Bool.false_eq_true,
          hslot, Option.getD_none, Option.getD_some, ↓reduceIte]
      | true =>
        right
        refine ⟨tl, ⟨target.table, LockCounts.zero, []⟩, fun _ => rfl, hi, Or.inr ⟨rfl, rfl⟩, ?_⟩
        simp only [hlen, decide_True, decide_False, Bool.false_and, Bool.true_and, Bool.not_true,
          Bool.not_false, Bool.and_false, Bool.and_true, if_true, if_false, Bool.false_eq_true,
          hslot, Option.getD_none, Option.getD_some, ↓reduceIte]
    | some t =>
      right
      refine ⟨tl, t, fun _ => rfl, hi, Or.inl rfl, ?_⟩
      simp only [hlen, decide_True, decide_False, Bool.false_and, Bool.true_and, Bool.not_true,
        Bool.not_false, Bool.and_false, Bool.and_true, if_true, if_false, Bool.false_eq_true,
        hslot, Option.getD_none, Option.getD_some, ↓reduceIte]

theorem Pruned_operateTableLocks {TArgs : Type} (F : CountsOp TArgs) (prune : Bool)
    (bm : BufferManager) (tl : List (Option TableLockInfo)) (h : HandlerState) (a : TArgs)
    (target : LockTarget) (create : Bool) (hK : Keeps F prune) (hFill : create = true → Fills F)
    (hwf : LocksWF tl) (hpr : Pruned tl) :
    ∀ x, operateTableLocks bm tl h a target (liftTable F) (liftPage F prune) (liftRow F prune)
      create = some x → LocksWF x.2.2 ∧ Pruned x.2.2 := by
  intro x hx
  cases ho : objectOf bm target with
  | none =>
    rcases operateTableLocks_undecodable bm tl h a target (liftTable F) (liftPage F prune)
      (liftRow F prune) create ho with e | ⟨-, e⟩
    · rw [e] at hx
      cases hx
    · rw [e] at hx
      cases hx
      exact ⟨hwf, hpr⟩
  | some o =>
    constructor
    · rcases operateTableLocks_effect F prune bm tl h a target create o ho hwf with
        ⟨-, -, e⟩ | ⟨-, ⟨-, e⟩ | ⟨r, h1, c1, tl2, -, e, k, -⟩⟩
      · rw [e] at hx
        cases hx
        exact hwf
      · rw [e] at hx
        cases hx
      · rw [e] at hx
        cases hx
        exact k
    · rcases operateTableLocks_shape F prune bm tl h a target create o ho with
        e | ⟨tl1, t, h1, h2, h3, e⟩
      · rw [e] at hx
        cases hx
        exact hpr
      · rw [e] at hx
        have htw : t.WF ∧ t.Pruned := by
          rcases h3 with h3 | ⟨-, h3⟩
          · exact ⟨hwf _ t h3, hpr _ t h3⟩
          · subst h3
            constructor
            · intro k p hk
              simp [Dict.find] at hk
            · intro k p hk
              simp [Dict.find] at hk
        cases hs : operateSub F prune h a create t o.path.2 with
        | none => rw [hs] at hx; cases hx
        | some y =>
          rw [hs] at hx
          simp only [Option.map_some', Option.some.injEq] at hx
          rw [← hx]
          have hy := operateSub_pruned F prune h a create t o.path.2 hK hFill htw.1 htw.2 y hs
          intro j t2 hj
          rw [getD_set_locks _ _ _ _ h2] at hj
          split at hj
          · cases hj
            exact hy
          · rw [h1] at hj
            exact hpr j t2 hj

/-! ## Pruning: the counter-level operations -/

theorem isZero_false_of_pos (c : LockCounts) (m : LockTargetAccess) (h : 0 < c m) :
    c.IsZero = false := by
  cases hz : c.IsZero with
  | false => rfl
  | true =>
    rw [LockCounts.isZero_iff] at hz
    rw [hz] at h
    exact absurd h (by simp [LockCounts.zero])

theorem AcquireObjectLockUnsafe_counts (c : LockCounts) (owner : TransInfo) (target : LockTarget)
    (hn : c.NonNeg) :
    (AcquireObjectLockUnsafe c owner target).2.1.NonNeg ∧
    (AcquireObjectLockUnsafe c owner target).2.1.IsZero = false := by
  by_cases hg : Grantable c target.access
  · rw [AcquireObjectLockUnsafe_grant c owner target hg]
    constructor
    · intro m
      by_cases e : m = target.access
      · show 0 ≤ Function.update c target.access (c target.access + 1) m
        rw [e, Function.update_same]
        have := hn target.access
        omega
      · show 0 ≤ Function.update c target.access (c target.access + 1) m
        rw [Function.update_noteq e]
        exact hn m
    · refine isZero_false_of_pos _ target.access ?_
      show 0 < Function.update c target.access (c target.access + 1) target.access
      rw [Function.update_same]
      have := hn target.access
      omega
  · rw [AcquireObjectLockUnsafe_block c owner target hg]
    refine ⟨hn, ?_⟩
    unfold Grantable at hg
    push_neg at hg
    obtain ⟨m, hm, -⟩ := hg
    exact isZero_false_of_pos c m hm

theorem AcquireGeneralLock_counts (h : HandlerState) (a : AcquireLockArgs) (c : LockCounts) :
    (AcquireGeneralLock h a c).2.2 = (AcquireObjectLockUnsafe c h.owner a.1).2.1 := by
  unfold AcquireGeneralLock
  simp only
  split <;> [split; skip] <;> rfl

theorem Keeps_acquireOp : Keeps acquireOp false := by
  intro h a c r h1 c1 hF hn
  simp only [acquireOp, Option.some.injEq] at hF
  have e : c1 = (AcquireGeneralLock h a c).2.2 := by rw [hF]
  rw [AcquireGeneralLock_counts] at e
  obtain ⟨k1, k2⟩ := AcquireObjectLockUnsafe_counts c h.owner a.1 hn
  rw [← e] at k1 k2
  refine ⟨k1, fun hz => ?_⟩
  rw [hz] at k2
  cases k2

theorem Fills_acquireOp : Fills acquireOp := by
  intro h a r h1 c1 hF
  simp only [acquireOp, Option.some.injEq] at hF
  have e : c1 = (AcquireGeneralLock h a LockCounts.zero).2.2 := by rw [hF]
  rw [AcquireGeneralLock_counts] at e
  rw [e]
  exact (AcquireObjectLockUnsafe_counts _ h.owner a.1 NonNeg_zero).2

theorem ReleaseObjectLockUnsafe_counts (c : LockCounts) (owner : TransInfo) (target : LockTarget)
    (r : Bool) (c1 : LockCounts) (o1 : TransInfo) (hn : c.NonNeg)
    (h : ReleaseObjectLockUnsafe c owner target = some (r, c1, o1)) :
    c1.NonNeg ∧ (r = false → c1 = c) := by
  unfold ReleaseObjectLockUnsafe at h
  simp only at h
  split at h
  · simp only [Option.some.injEq, Prod.mk.injEq] at h
    obtain ⟨-, rfl, -⟩ := h
    exact ⟨hn, fun _ => rfl⟩
  · split at h
    · cases h
    · next hlt =>
      simp only [Option.some.injEq, Prod.mk.injEq] at h
      obtain ⟨rfl, rfl, -⟩ := h
      refine ⟨?_, fun e => by cases e⟩
      intro m
      by_cases e : m = target.access
      · show 0 ≤ Function.update c target.access (c target.access - 1) m
        rw [e, Function.update_same]
        omega
      · show 0 ≤ Function.update c target.access (c target.access - 1) m
        rw [Function.update_noteq e]
        exact hn m

theorem Keeps_releaseOp : Keeps releaseOp true := by
  intro h a c r h1 c1 hF hn
  simp only [releaseOp] at hF
  cases hR : ReleaseObjectLockUnsafe c h.owner a with
  | none => rw [hR] at hF; cases hF
  | some y =>
    obtain ⟨r2, c2, o2⟩ := y
    rw [hR] at hF
    simp only [Option.map_some', Option.some.injEq, Prod.mk.injEq] at hF
    obtain ⟨rfl, -, rfl⟩ := hF
    obtain ⟨k1, k2⟩ := ReleaseObjectLockUnsafe_counts c h.owner a r2 c2 o2 hn hR
    refine ⟨k1, fun hz => ?_⟩
    cases r2 with
    | true => exact Or.inl rfl
    | false =>
      right
      rw [← k2 rfl]
      exact hz

theorem Keeps_UpgradeGeneralLock : Keeps UpgradeGeneralLock false := by
  intro h a c r h1 c1 hF hn
  unfold UpgradeGeneralLock at hF
  simp only at hF
  cases hR : ReleaseObjectLockUnsafe c h.owner a.1 with
  | none => rw [hR] at hF; cases hF
  | some y =>
    obtain ⟨r2, c2, o2⟩ := y
    rw [hR] at hF
    obtain ⟨k1, k2⟩ := ReleaseObjectLockUnsafe_counts c h.owner a.1 r2 c2 o2 hn hR
    cases r2 with
    | false =>
      simp only [Option.map_some', Bool.not_false, if_true, Option.some.injEq,
        Prod.mk.injEq] at hF
      obtain ⟨-, -, rfl⟩ := hF
      rw [k2 rfl]
      exact ⟨hn, fun hz => Or.inr hz⟩
    | true =>
      simp only [Option.map_some', Bool.not_true, Bool.false_eq_true, if_false,
        Option.some.injEq] at hF
      have e : c1 = (AcquireGeneralLock { h with owner := o2 }
          ({ a.1 with access := a.2 }, true) c2).2.2 := by rw [hF]
      rw [AcquireGeneralLock_counts] at e
      obtain ⟨k3, k4⟩ := AcquireObjectLockUnsafe_counts c2 o2 { a.1 with access := a.2 } k1
      rw [e]
      refine ⟨k3, fun hz => ?_⟩
      rw [hz] at k4
      cases k4

/-! ## Pruning: the operations of the manager -/

theorem Pruned_OperateObjectLock {TArgs : Type} (F : CountsOp TArgs) (prune : Bool)
    (bm : BufferManager) (lm : LockManager) (owner : BufferTransaction) (a : TArgs)
    (target : LockTarget) (result : LockResult) (pre : Option (PreLockHandler TArgs))
    (create check : Bool) (hK : Keeps F prune) (hFill : create = true → Fills F)
    (hwf : LocksWF lm.tableLocks) (hpr : Pruned lm.tableLocks) :
    ∀ x, lm.OperateObjectLock bm owner a target result pre (liftTable F) (liftPage F prune)
      (liftRow F prune) create check = some x →
      LocksWF x.2.1.tableLocks ∧ Pruned x.2.1.tableLocks := by
  intro x hx
  unfold LockManager.OperateObjectLock at hx
  cases hti : lm.CheckInputUnsafe owner target with
  | none =>
    simp only [hti, Option.some.injEq] at hx
    rw [← hx]
    exact ⟨hwf, hpr⟩
  | some ti =>
    simp only [hti] at hx
    split at hx
    · simp only [Option.some.injEq] at hx
      rw [← hx]
      exact ⟨hwf, hpr⟩
    · have tail : ∀ (ob : Option Bool) (h1 : HandlerState),
          (match (ob, h1) with
            | (some success, h1) => some (success, lm.commit owner h1, h1.result)
            | (none, h1) =>
              (operateTableLocks bm lm.tableLocks h1 a target (liftTable F) (liftPage F prune)
                (liftRow F prune) create).map
                fun (r, h2, tableLocks2) =>
                  (r, ({ lm with tableLocks := tableLocks2 }).commit owner h2, h2.result)) =
            some x → LocksWF x.2.1.tableLocks ∧ Pruned x.2.1.tableLocks := by
        intro ob h1 hx
        cases ob with
        | some success =>
          simp only [Option.some.injEq] at hx
          rw [← hx]
          exact ⟨hwf, hpr⟩
        | none =>
          simp only at hx
          cases ho : operateTableLocks bm lm.tableLocks h1 a target (liftTable F)
              (liftPage F prune) (liftRow F prune) create with
          | none => rw [ho] at hx; cases hx
          | some y =>
            rw [ho] at hx
            simp only [Option.map_some', Option.some.injEq] at hx
            rw [← hx]
            exact Pruned_operateTableLocks F prune bm lm.tableLocks h1 a target create hK hFill
              hwf hpr y ho
      cases pre with
      | none => exact tail none _ hx
      | some handler => exact tail _ _ hx

theorem Pruned_AcquireLockUnsafe (bm : BufferManager) (lm : LockManager)
    (owner : BufferTransaction) (target : LockTarget) (result : LockResult) (pp : Bool)
    (hwf : LocksWF lm.tableLocks) (hpr : Pruned lm.tableLocks) :
    ∀ x, lm.AcquireLockUnsafe bm owner target result pp = some x →
      LocksWF x.2.1.tableLocks ∧ Pruned x.2.1.tableLocks := by
  rw [AcquireLockUnsafe_eq]
  exact Pruned_OperateObjectLock acquireOp false bm lm owner _ target result none true pp
    Keeps_acquireOp (fun _ => Fills_acquireOp) hwf hpr

theorem Pruned_ReleaseLockUnsafe (bm : BufferManager) (lm : LockManager)
    (owner : BufferTransaction) (target : LockTarget)
    (hwf : LocksWF lm.tableLocks) (hpr : Pruned lm.tableLocks) :
    ∀ x, lm.ReleaseLockUnsafe bm owner target = some x →
      LocksWF x.2.tableLocks ∧ Pruned x.2.tableLocks := by
  intro x hx
  rw [ReleaseLockUnsafe_eq] at hx
  cases ho : lm.OperateObjectLock bm owner target target ⟨false⟩ (some ReleasePreLock)
      (liftTable releaseOp) (liftPage releaseOp true) (liftRow releaseOp true) false false with
  | none => rw [ho] at hx; cases hx
  | some y =>
    rw [ho] at hx
    simp only [Option.map_some', Option.some.injEq] at hx
    rw [← hx]
    exact Pruned_OperateObjectLock releaseOp true bm lm owner _ target ⟨false⟩ _ false false
      Keeps_releaseOp (fun e => by cases e) hwf hpr y ho

theorem Pruned_UpgradeLockUnsafe (bm : BufferManager) (lm : LockManager)
    (owner : BufferTransaction) (old : LockTarget) (newAccess : LockTargetAccess)
    (result : LockResult) (hwf : LocksWF lm.tableLocks) (hpr : Pruned lm.tableLocks) :
    ∀ x, lm.UpgradeLockUnsafe bm owner old newAccess result = some x →
      LocksWF x.2.1.tableLocks ∧ Pruned x.2.1.tableLocks := by
  rw [UpgradeLockUnsafe_eq]
  exact Pruned_OperateObjectLock UpgradeGeneralLock false bm lm owner _ old result none false true
    Keeps_UpgradeGeneralLock (fun e => by cases e) hwf hpr

/-- One round of the loop of `pickInBucket` that does not fail: the pending
lock of a queued transaction is requested in a manager with the same lock
tree, and the result is the manager after that request (up to the registry
and the queue), or the result of the remaining rounds. -/
theorem pickInBucket_round (bm : BufferManager) (i : Nat) (stop : Int) (fuel : Nat)
    (lm : LockManager) (result : LockResult)
    (r : LockManager × LockResult × Option BufferTransaction)
    (h : pickInBucket bm i stop (fuel + 1) lm result = Outcome.ok r) :
    ∃ (lm1 : LockManager) (owner : BufferTransaction) (target : LockTarget) (s : Bool)
      (lm2 : LockManager) (result2 : LockResult),
      lm1.tableLocks = lm.tableLocks ∧
      lm1.AcquireLockUnsafe bm owner target result false = some (s, lm2, result2) ∧
      (r.1.tableLocks = lm2.tableLocks ∨
        pickInBucket bm i stop fuel lm2 result2 = Outcome.ok r) := by
  rw [pickInBucket] at h
  split at h
  · cases h
  · next key pendingInfo hg =>
    split at h
    · cases h
    · simp only at h
      split at h
      · cases h
      · split at h
        · cases h
        · next queued hq =>
          split at h
          · cases h
          · next transInfo hf =>
            split at h
            · cases h
            · split at h
              · cases h
              · next success lm2 result2 ha =>
                refine ⟨_, _, _, success, lm2, result2, ?_, ha, ?_⟩
                · rfl
                split at h
                · cases h
                · split at h
                  · simp only [Outcome.ok.injEq] at h
                    left
                    rw [← h]
                  · split at h
                    · exact Or.inr h
                    · simp only [Outcome.ok.injEq] at h
                      left
                      rw [← h]

theorem Pruned_pickInBucket (bm : BufferManager) (i : Nat) (stop : Int) :
    ∀ (fuel : Nat) (lm : LockManager) (result : LockResult)
      (r : LockManager × LockResult × Option BufferTransaction),
      LocksWF lm.tableLocks → Pruned lm.tableLocks →
      pickInBucket bm i stop fuel lm result = Outcome.ok r →
      LocksWF r.1.tableLocks ∧ Pruned r.1.tableLocks := by
  intro fuel
  induction fuel with
  | zero =>
    intro lm result r _ _ h
    simp [pickInBucket] at h
  | succ fuel ih =>
    intro lm result r hwf hpr h
    obtain ⟨lm1, owner, target, s, lm2, result2, e1, e2, e3⟩ :=
      pickInBucket_round bm i stop fuel lm result r h
    have k := Pruned_AcquireLockUnsafe bm lm1 owner target result false (by rw [e1]; exact hwf)
      (by rw [e1]; exact hpr) _ e2
    rcases e3 with e3 | e3
    · rw [e3]
      exact k
    · exact ih lm2 result2 r k.1 k.2 e3

theorem Pruned_pickFromBuckets (bm : BufferManager) (fuel : Nat) :
    ∀ (n : Nat) (lm : LockManager) (result : LockResult)
      (r : LockManager × LockResult × BufferTransaction),
      LocksWF lm.tableLocks → Pruned lm.tableLocks →
      pickFromBuckets bm fuel n lm result = Outcome.ok r →
      LocksWF r.1.tableLocks ∧ Pruned r.1.tableLocks := by
  intro n
  induction n with
  | zero =>
    intro lm result r hwf hpr h
    simp only [pickFromBuckets, Outcome.ok.injEq] at h
    rw [← h]
    exact ⟨hwf, hpr⟩
  | succ n ih =>
    intro lm result r hwf hpr h
    rw [pickFromBuckets] at h
    split at h
    · cases h
    · simp only at h
      split at h
      · next lm1 result1 picked hp =>
        simp only [Outcome.ok.injEq] at h
        rw [← h]
        exact Pruned_pickInBucket bm _ _ fuel lm result _ hwf hpr hp
      · next lm1 result1 hp =>
        have k := Pruned_pickInBucket bm _ _ fuel lm result _ hwf hpr hp
        exact ih lm1 result1 r k.1 k.2 h
      · cases h
      · cases h

theorem Pruned_rollbackLocks (bm : BufferManager) (trans : BufferTransaction) :
    ∀ (n : Nat) (lm lm2 : LockManager), LocksWF lm.tableLocks → Pruned lm.tableLocks →
      rollbackLocks bm trans n lm = some lm2 →
      LocksWF lm2.tableLocks ∧ Pruned lm2.tableLocks := by
  intro n
  induction n with
  | zero =>
    intro lm lm2 hwf hpr h
    simp only [rollbackLocks, Option.some.injEq] at h
    rw [← h]
    exact ⟨hwf, hpr⟩
  | succ n ih =>
    intro lm lm2 hwf hpr h
    rw [rollbackLocks] at h
    split at h
    · cases h
    · split at h
      · cases h
      · split at h
        · cases h
        · next success lm1 hr =>
          split at h
          · cases h
          · have k := Pruned_ReleaseLockUnsafe bm lm trans _ hwf hpr _ hr
            exact ih lm1 lm2 k.1 k.2 h

theorem Pruned_Rollback (bm : BufferManager) (lm : LockManager) (trans : BufferTransaction)
    (hwf : LocksWF lm.tableLocks) (hpr : Pruned lm.tableLocks) :
    ∀ x, lm.Rollback bm trans = some x → LocksWF x.2.tableLocks ∧ Pruned x.2.tableLocks := by
  intro x h
  unfold LockManager.Rollback at h
  split at h
  · simp only [Option.some.injEq] at h
    rw [← h]
    exact ⟨hwf, hpr⟩
  · split at h
    · simp only [Option.some.injEq] at h
      rw [← h]
      exact ⟨hwf, hpr⟩
    · split at h
      · cases h
      · next success lm1 hr =>
        have k := Pruned_ReleaseLockUnsafe bm lm trans _ hwf hpr _ hr
        split at h
        · cases h
        · split at h
          · cases h
          · next ti1 hf =>
            cases hl : rollbackLocks bm trans ti1.acquiredLocks.length lm1 with
            | none => rw [hl] at h; cases h
            | some lm2 =>
              rw [hl] at h
              simp only [Option.map_some', Option.some.injEq] at h
              rw [← h]
              exact Pruned_rollbackLocks bm trans _ lm1 lm2 k.1 k.2 hl

theorem Pruned_step (bm : BufferManager) (lm lm2 : LockManager) (op : Op)
    (hwf : LocksWF lm.tableLocks) (hpr : Pruned lm.tableLocks)
    (h : lm.step bm op = some lm2) : LocksWF lm2.tableLocks ∧ Pruned lm2.tableLocks := by
  cases op with
  | RegisterTable table source =>
    simp only [LockManager.step, Option.some.injEq] at h
    rw [← h]
    unfold LockManager.RegisterTable
    repeat' split
    all_goals exact ⟨hwf, hpr⟩
  | UnregisterTable table =>
    simp only [LockManager.step, Option.some.injEq] at h
    rw [← h]
    unfold LockManager.UnregisterTable
    split <;> exact ⟨hwf, hpr⟩
  | RegisterTransaction t importance =>
    simp only [LockManager.step, Option.some.injEq] at h
    rw [← h]
    unfold LockManager.RegisterTransaction
    split <;> exact ⟨hwf, hpr⟩
  | UnregisterTransaction t =>
    simp only [LockManager.step, Option.some.injEq] at h
    rw [← h]
    unfold LockManager.UnregisterTransaction
    repeat' split
    all_goals exact ⟨hwf, hpr⟩
  | AcquireLock owner target =>
    simp only [LockManager.step, LockManager.AcquireLock, Option.map_eq_some'] at h
    obtain ⟨x, h1, h2⟩ := h
    rw [← h2]
    exact Pruned_AcquireLockUnsafe bm lm owner target _ true hwf hpr x h1
  | ReleaseLock owner target =>
    simp only [LockManager.step, LockManager.ReleaseLock, Option.map_eq_some'] at h
    obtain ⟨x, h1, h2⟩ := h
    rw [← h2]
    exact Pruned_ReleaseLockUnsafe bm lm owner target hwf hpr x h1
  | UpgradeLock owner old newAccess =>
    simp only [LockManager.step, LockManager.UpgradeLock, Option.map_eq_some'] at h
    obtain ⟨x, h1, h2⟩ := h
    rw [← h2]
    exact Pruned_UpgradeLockUnsafe bm lm owner old newAccess _ hwf hpr x h1
  | PickTransaction fuel =>
    simp only [LockManager.step] at h
    split at h
    · next r hr =>
      simp only [Option.some.injEq] at h
      rw [← h]
      exact Pruned_pickFromBuckets bm fuel _ lm _ r hwf hpr hr
    · cases h
  | DetectDeadlock fuel =>
    simp only [LockManager.step] at h
    split at h
    · simp only [Option.some.injEq] at h
      rw [← h]
      exact ⟨hwf, hpr⟩
    · cases h
  | Rollback t =>
    simp only [LockManager.step, Option.map_eq_some'] at h
    obtain ⟨x, h1, h2⟩ := h
    rw [← h2]
    exact Pruned_Rollback bm lm t hwf hpr x h1

theorem Pruned_run (bm : BufferManager) (ops : List Op) :
    ∀ (lm lm2 : LockManager), LocksWF lm.tableLocks → Pruned lm.tableLocks →
      LockManager.run bm lm ops = some lm2 → Pruned lm2.tableLocks := by
  induction ops with
  | nil =>
    intro lm lm2 _ hpr h
    simp only [LockManager.run, Option.some.injEq] at h
    subst h
    exact hpr
  | cons op ops ih =>
    intro lm lm2 hwf hpr h
    rw [LockManager.run] at h
    cases hs : lm.step bm op with
    | none => simp only [hs] at h; cases h
    | some lm1 =>
      simp only [hs] at h
      have k := Pruned_step bm lm lm1 op hwf hpr hs
      exact ih lm1 lm2 k.1 k.2 h

/-- In every reachable state the lock tree holds no empty page info and no
empty row info. -/
theorem Reachable_Pruned (bm : BufferManager) (lm : LockManager) (h : Reachable bm lm) :
    Pruned lm.tableLocks := by
  obtain ⟨ops, h⟩ := h
  refine Pruned_run bm ops LockManager.empty lm ?_ ?_ h
  · intro i t hi
    simp [LockManager.empty] at hi
  · intro i t hi
    simp [LockManager.empty] at hi

/-! ## Pruning: what a reachable lock tree holds -/

theorem pos_of_not_isZero (c : LockCounts) (hn : c.NonNeg) (hz : c.IsZero = false) :
    ∃ m, 0 < c m := by
  by_contra hcon
  push_neg at hcon
  have : c.IsZero = true := by
    rw [LockCounts.isZero_iff]
    funext m
    have h1 := hn m
    have h2 := hcon m
    show c m = 0
    omega
  rw [this] at hz
  cases hz

theorem row_has_holder (tl : List (Option TableLockInfo)) (hpr : Pruned tl) (i : Nat)
    (page : BufferPage) (off : Nat)
    (h : hasLockInfo tl (LockObject.Row i page off) = true) :
    ∃ a, 0 < holders tl (LockObject.Row i page off) a := by
  unfold hasLockInfo at h
  unfold holders
  simp only [LockObject.path] at h ⊢
  cases hs : tl.getD i none with
  | none => rw [hs] at h; cases h
  | some t =>
    rw [hs] at h
    simp only [TableLockInfo.has] at h
    simp only [TableLockInfo.holders]
    cases hp : Dict.find t.pageLocks page with
    | none => rw [hp] at h; cases h
    | some p =>
      rw [hp] at h
      simp only at h
      cases hw : Dict.find p.rowLocks off with
      | none => rw [hw] at h; cases h
      | some w =>
        obtain ⟨k1, k2⟩ := (hpr i t hs page p hp).2.2 off w hw
        simp only [Option.map_some', Option.getD_some, PageLockInfo.holders, hw]
        exact pos_of_not_isZero _ k1 k2

theorem page_has_holder_or_row (tl : List (Option TableLockInfo)) (hpr : Pruned tl) (i : Nat)
    (page : BufferPage) (h : hasLockInfo tl (LockObject.Page i page) = true) :
    (∃ a, 0 < holders tl (LockObject.Page i page) a) ∨
      ∃ off, hasLockInfo tl (LockObject.Row i page off) = true := by
  unfold hasLockInfo at h ⊢
  unfold holders
  simp only [LockObject.path] at h ⊢
  cases hs : tl.getD i none with
  | none => rw [hs] at h; cases h
  | some t =>
    rw [hs] at h
    simp only [TableLockInfo.has] at h ⊢
    simp only [TableLockInfo.holders]
    cases hp : Dict.find t.pageLocks page with
    | none => rw [hp] at h; cases h
    | some p =>
      obtain ⟨k1, k2, -⟩ := hpr i t hs page p hp
      simp only [Option.map_some', Option.getD_some]
      cases hz : p.acquiredLocks.IsZero with
      | false => exact Or.inl (pos_of_not_isZero _ k1 hz)
      | true =>
        right
        simp only [PageLockInfo.IsEmpty, hz, Bool.true_and] at k2
        obtain ⟨off, w, hw⟩ := find_of_isEmpty_false _ k2
        exact ⟨off, by rw [hw]; rfl⟩

/-- The lock tree after `OperateObjectLock`: untouched, or the result of the
part from "Find TableLock" on. -/
theorem OperateObjectLock_tableLocks {TArgs : Type} (bm : BufferManager) (lm : LockManager)
    (owner : BufferTransaction) (a : TArgs) (target : LockTarget) (result : LockResult)
    (pre : Option (PreLockHandler TArgs)) (tH : TableLockHandler TArgs)
    (pH : PageLockHandler TArgs) (rH : RowLockHandler TArgs) (create check : Bool) :
    ∀ x, lm.OperateObjectLock bm owner a target result pre tH pH rH create check = some x →
      x.2.1.tableLocks = lm.tableLocks ∨
      ∃ h1 y, operateTableLocks bm lm.tableLocks h1 a target tH pH rH create = some y ∧
        x.2.1.tableLocks = y.2.2 := by
  intro x hx
  unfold LockManager.OperateObjectLock at hx
  cases hti : lm.CheckInputUnsafe owner target with
  | none =>
    simp only [hti, Option.some.injEq] at hx
    rw [← hx]
    exact Or.inl rfl
  | some ti =>
    simp only [hti] at hx
    split at hx
    · simp only [Option.some.injEq] at hx
      rw [← hx]
      exact Or.inl rfl
    · have tail : ∀ (ob : Option Bool) (h1 : HandlerState),
          (match (ob, h1) with
            | (some success, h1) => some (success, lm.commit owner h1, h1.result)
            | (none, h1) =>
              (operateTableLocks bm lm.tableLocks h1 a target tH pH rH create).map
                fun (r, h2, tableLocks2) =>
                  (r, ({ lm with tableLocks := tableLocks2 }).commit owner h2, h2.result)) =
            some x →
          x.2.1.tableLocks = lm.tableLocks ∨
          ∃ h1 y, operateTableLocks bm lm.tableLocks h1 a target tH pH rH create = some y ∧
            x.2.1.tableLocks = y.2.2 := by
        intro ob h1 hx
        cases ob with
        | some success =>
          simp only [Option.some.injEq] at hx
          rw [← hx]
          exact Or.inl rfl
        | none =>
          simp only at hx
          cases ho : operateTableLocks bm lm.tableLocks h1 a target tH pH rH create with
          | none => rw [ho] at hx; cases hx
          | some y =>
            rw [ho] at hx
            simp only [Option.map_some', Option.some.injEq] at hx
            rw [← hx]
            exact Or.inr ⟨h1, y, ho, rfl⟩
      cases pre with
      | none => exact tail none _ hx
      | some handler => exact tail _ _ hx

theorem hasLockInfo_Table (tl : List (Option TableLockInfo)) (i : Nat) :
    hasLockInfo tl (LockObject.Table i) = (tl.getD i none).isSome := by
  unfold hasLockInfo
  simp only [LockObject.path]
  cases tl.getD i none <;> rfl

theorem slots_operateTableLocks {TArgs : Type} (F : CountsOp TArgs) (prune : Bool)
    (bm : BufferManager) (tl : List (Option TableLockInfo)) (h : HandlerState) (a : TArgs)
    (target : LockTarget) (create : Bool) :
    ∀ x, operateTableLocks bm tl h a target (liftTable F) (liftPage F prune) (liftRow F prune)
      create = some x →
      ∀ i, hasLockInfo tl (LockObject.Table i) = true →
        hasLockInfo x.2.2 (LockObject.Table i) = true := by
  intro x hx i hi
  cases ho : objectOf bm target with
  | none =>
    rcases operateTableLocks_undecodable bm tl h a target (liftTable F) (liftPage F prune)
      (liftRow F prune) create ho with e | ⟨-, e⟩
    · rw [e] at hx
      cases hx
    · rw [e] at hx
      cases hx
      exact hi
  | some o =>
    rcases operateTableLocks_shape F prune bm tl h a target create o ho with
      e | ⟨tl1, t, h1, h2, -, e⟩
    · rw [e] at hx
      cases hx
      exact hi
    · rw [e] at hx
      cases hs : operateSub F prune h a create t o.path.2 with
      | none => rw [hs] at hx; cases hx
      | some y =>
        rw [hs] at hx
        simp only [Option.map_some', Option.some.injEq] at hx
        rw [← hx]
        rw [hasLockInfo_Table] at hi ⊢
        show ((tl1.set o.path.1 (some y.2.2)).getD i none).isSome = true
        rw [getD_set_locks _ _ _ _ h2]
        split
        · rfl
        · rw [h1]
          exact hi

theorem slots_ReleaseLockUnsafe (bm : BufferManager) (lm : LockManager)
    (owner : BufferTransaction) (target : LockTarget) :
    ∀ x, lm.ReleaseLockUnsafe bm owner target = some x →
      ∀ i, hasLockInfo lm.tableLocks (LockObject.Table i) = true →
        hasLockInfo x.2.tableLocks (LockObject.Table i) = true := by
  intro x hx i hi
  rw [ReleaseLockUnsafe_eq] at hx
  cases ho : lm.OperateObjectLock bm owner target target ⟨false⟩ (some ReleasePreLock)
      (liftTable releaseOp) (liftPage releaseOp true) (liftRow releaseOp true) false false with
  | none => rw [ho] at hx; cases hx
  | some y =>
    rw [ho] at hx
    simp only [Option.map_some', Option.some.injEq] at hx
    rw [← hx]
    rcases OperateObjectLock_tableLocks bm lm owner target target ⟨false⟩ _ _ _ _ false false
      y ho with e | ⟨h1, z, e1, e2⟩
    · show hasLockInfo y.2.1.tableLocks (LockObject.Table i) = true
      rw [e]
      exact hi
    · show hasLockInfo y.2.1.tableLocks (LockObject.Table i) = true
      rw [e2]
      exact slots_operateTableLocks releaseOp true bm lm.tableLocks h1 target target false z e1
        i hi

theorem Reachable_step (bm : BufferManager) (lm lm2 : LockManager) (op : Op)
    (hr : Reachable bm lm) (h : lm.step bm op = some lm2) : Reachable bm lm2 := by
  obtain ⟨ops, ho⟩ := hr
  refine ⟨ops ++ [op], ?_⟩
  have key : ∀ (l : List Op) (s s1 : LockManager), LockManager.run bm s l = some s1 →
      LockManager.run bm s (l ++ [op]) = s1.step bm op := by
    intro l
    induction l with
    | nil =>
      intro s s1 hs
      simp only [LockManager.run, Option.some.injEq] at hs
      subst hs
      simp only [List.nil_append, LockManager.run]
      cases s.step bm op <;> rfl
    | cons o l ih =>
      intro s s1 hs
      simp only [List.cons_append]
      rw [LockManager.run] at hs ⊢
      cases hst : s.step bm o with
      | none => rw [hst] at hs; cases hs
      | some s2 =>
        rw [hst] at hs
        exact ih s2 s1 hs
  rw [key ops _ lm ho, h]

/-! ## Pruning on release, and `TableHasLocks` -/

/-- C15 (amended).  In a reachable state, after a `ReleaseLock` that
returned true: a row whose six counters are all zero has no entry in the row
map of its page; a page whose six counters are all zero and that has no row
entry has no entry in the page map of its table; every slot of `tableLocks`
that was present is still present, and so is the slot of the table of a
released held lock. -/
theorem release_prunes (bm : BufferManager) (lm : LockManager) (hr : Reachable bm lm)
    (t : BufferTransaction) (L : LockTarget)
    (h : (lm.ReleaseLock bm t L).map Prod.fst = some true) :
    ∃ lm2, lm.ReleaseLock bm t L = some (true, lm2) ∧
      (∀ i page off, (∀ a, holders lm2.tableLocks (LockObject.Row i page off) a = 0) →
        hasLockInfo lm2.tableLocks (LockObject.Row i page off) = false) ∧
      (∀ i page, (∀ a, holders lm2.tableLocks (LockObject.Page i page) a = 0) →
        (∀ off, hasLockInfo lm2.tableLocks (LockObject.Row i page off) = false) →
        hasLockInfo lm2.tableLocks (LockObject.Page i page) = false) ∧
      (∀ i, hasLockInfo lm.tableLocks (LockObject.Table i) = true →
        hasLockInfo lm2.tableLocks (LockObject.Table i) = true) ∧
      (∀ ti o, Dict.find lm.transactions t = some ti → ti.pendingLock ≠ L →
        objectOf bm L = some o →
        hasLockInfo lm2.tableLocks (LockObject.Table o.path.1) = true) := by
  cases hR : lm.ReleaseLock bm t L with
  | none => rw [hR] at h; cases h
  | some x =>
    obtain ⟨r, lm2⟩ := x
    rw [hR] at h
    simp only [Option.map_some', Option.some.injEq] at h
    subst h
    have hinv := Reachable_Inv bm lm hr
    have hr2 : Reachable bm lm2 := Reachable_step bm lm lm2 (Op.ReleaseLock t L) hr (by
      simp only [LockManager.step, hR, Option.map_some'])
    have hpr2 := Reachable_Pruned bm lm2 hr2
    have hslots := slots_ReleaseLockUnsafe bm lm t L (true, lm2) hR
    refine ⟨lm2, rfl, ?_, ?_, hslots, ?_⟩
    · intro i page off hz
      cases hh : hasLockInfo lm2.tableLocks (LockObject.Row i page off) with
      | false => rfl
      | true =>
        obtain ⟨a, ha⟩ := row_has_holder _ hpr2 i page off hh
        rw [hz a] at ha
        exact absurd ha (by decide)
    · intro i page hz hrows
      cases hh : hasLockInfo lm2.tableLocks (LockObject.Page i page) with
      | false => rfl
      | true =>
        rcases page_has_holder_or_row _ hpr2 i page hh with ⟨a, ha⟩ | ⟨off, ho⟩
        · rw [hz a] at ha
          exact absurd ha (by decide)
        · rw [hrows off] at ho
          cases ho
    · intro ti o hf hne ho
      refine hslots o.path.1 ?_
      unfold LockManager.ReleaseLock at hR
      cases hti : lm.CheckInputUnsafe t L with
      | none =>
        rw [ReleaseLockUnsafe_reject bm lm t L hti] at hR
        cases hR
      | some ti2 =>
        obtain ⟨hf2, -⟩ := CheckInputUnsafe_find lm t L ti2 hti
        rw [hf] at hf2
        cases hf2
        obtain ⟨-, s2⟩ := ReleaseLockUnsafe_spec bm lm t L ti o hinv hti (Or.inr hne) ho
        have hmem : L ∈ ti.acquiredLocks := by
          by_contra hcon
          rw [s2 hcon] at hR
          cases hR
        have hpos := CountsInv_held_pos bm _ _ t ti L o hinv.2.2.1 hf hmem ho
        rw [hasLockInfo_Table]
        cases hs : lm.tableLocks.getD o.path.1 none with
        | some t0 => rfl
        | none =>
          rw [holders_of_slot_none _ o hs] at hpos
          simp [LockCounts.zero] at hpos

theorem release_prunes_witness :
    Reachable sampleBuffers (stateAfter rowOnly) ∧
    ∃ lm2, (stateAfter rowOnly).ReleaseLock sampleBuffers (some 1) (rowTarget 0 0 7005) =
        some (true, lm2) ∧
      (∀ i page off, (∀ a, holders lm2.tableLocks (LockObject.Row i page off) a = 0) →
        hasLockInfo lm2.tableLocks (LockObject.Row i page off) = false) ∧
      (∀ i page, (∀ a, holders lm2.tableLocks (LockObject.Page i page) a = 0) →
        (∀ off, hasLockInfo lm2.tableLocks (LockObject.Row i page off) = false) →
        hasLockInfo lm2.tableLocks (LockObject.Page i page) = false) ∧
      (∀ i, hasLockInfo (stateAfter rowOnly).tableLocks (LockObject.Table i) = true →
        hasLockInfo lm2.tableLocks (LockObject.Table i) = true) ∧
      (∀ ti o, Dict.find (stateAfter rowOnly).transactions (some 1) = some ti →
        ti.pendingLock ≠ rowTarget 0 0 7005 →
        objectOf sampleBuffers (rowTarget 0 0 7005) = some o →
        hasLockInfo lm2.tableLocks (LockObject.Table o.path.1) = true) :=
  ⟨Reachable_stateAfter rowOnly (by decide),
    release_prunes sampleBuffers (stateAfter rowOnly) (Reachable_stateAfter rowOnly (by decide))
      (some 1) (rowTarget 0 0 7005) (by decide)⟩

/-- C15 (as stated, refuted).  A transaction holds the mode 0 lock of a page
and of a row of that page (`pageAndRow`) and releases the page lock: the call
returns true and all six counters of the page are zero afterwards, yet the
page keeps its entry in the page map of the table, because it still has a
row entry. -/
theorem release_keeps_page_with_rows :
    Reachable sampleBuffers (stateAfter pageAndRow) ∧
    ((stateAfter pageAndRow).ReleaseLock sampleBuffers (some 1) (pageTarget 0 0 7)).map
      Prod.fst = some true ∧
    (∀ a, holders
      (stateAfter (pageAndRow ++ [Op.ReleaseLock (some 1) (pageTarget 0 0 7)])).tableLocks
      (LockObject.Page 0 (some 7)) a = 0) ∧
    hasLockInfo
      (stateAfter (pageAndRow ++ [Op.ReleaseLock (some 1) (pageTarget 0 0 7)])).tableLocks
      (LockObject.Page 0 (some 7)) = true :=
  ⟨Reachable_stateAfter pageAndRow (by decide), by decide, by decide, by decide⟩

/-- With counters that are not negative and a pruned lock tree,
`TableHasLocks` of a valid handle is true exactly when some object of the
table of that index has a positive counter. -/
theorem TableHasLocks_iff_holders (lm : LockManager)
    (hnn : ∀ o a, 0 ≤ holders lm.tableLocks o a) (hpr : Pruned lm.tableLocks)
    (table : BufferTable) (hv : Handle.IsValid table = true) :
    lm.TableHasLocks table = true ↔
      ∃ o a, o.path.1 = BufferTable.index table ∧ 0 < holders lm.tableLocks o a := by
  constructor
  · intro h
    unfold LockManager.TableHasLocks at h
    simp only [hv, Bool.not_true, Bool.false_eq_true, if_false] at h
    split at h
    · cases h
    · cases hs : lm.tableLocks.getD (BufferTable.index table) none with
      | none => rw [hs] at h; cases h
      | some t =>
        rw [hs] at h
        simp only [Bool.not_eq_true', TableLockInfo.IsEmpty, Bool.and_eq_false_iff] at h
        have hT : ∀ a, holders lm.tableLocks (LockObject.Table (BufferTable.index table)) a =
            t.acquiredLocks a := by
          intro a
          unfold holders
          simp only [LockObject.path, hs, TableLockInfo.holders]
        rcases h with h | h
        · have hn : t.acquiredLocks.NonNeg := by
            intro a
            rw [← hT a]
            exact hnn _ a
          obtain ⟨a, ha⟩ := pos_of_not_isZero _ hn h
          refine ⟨LockObject.Table (BufferTable.index table), a, rfl, ?_⟩
          rw [hT a]
          exact ha
        · obtain ⟨page, p, hp⟩ := find_of_isEmpty_false _ h
          have hh : hasLockInfo lm.tableLocks
              (LockObject.Page (BufferTable.index table) page) = true := by
            unfold hasLockInfo
            simp only [LockObject.path, hs, TableLockInfo.has, hp, Option.isSome_some]
          rcases page_has_holder_or_row _ hpr _ page hh with ⟨a, ha⟩ | ⟨off, ho⟩
          · exact ⟨LockObject.Page (BufferTable.index table) page, a, rfl, ha⟩
          · obtain ⟨a, ha⟩ := row_has_holder _ hpr _ page off ho
            exact ⟨LockObject.Row (BufferTable.index table) page off, a, rfl, ha⟩
  · rintro ⟨o, a, ho, hpos⟩
    unfold LockManager.TableHasLocks
    simp only [hv, Bool.not_true, Bool.false_eq_true, if_false]
    cases hs : lm.tableLocks.getD (BufferTable.index table) none with
    | none =>
      rw [holders_of_slot_none _ o (by rw [ho]; exact hs)] at hpos
      simp [LockCounts.zero] at hpos
    | some t =>
      have hlen : ¬ lm.tableLocks.length ≤ BufferTable.index table := by
        intro hle
        rw [getD_none_of_le _ _ hle] at hs
        cases hs
      simp only [hlen, if_false, Bool.not_eq_true', TableLockInfo.IsEmpty,
        Bool.and_eq_false_iff]
      unfold holders at hpos
      rw [ho, hs] at hpos
      simp only at hpos
      rcases hsub : o.path.2 with _ | ⟨page, off⟩
      · rw [hsub] at hpos
        simp only [TableLockInfo.holders] at hpos
        exact Or.inl (isZero_false_of_pos _ a hpos)
      · rw [hsub] at hpos
        right
        cases hp : Dict.find t.pageLocks page with
        | some p => exact isEmpty_false_of_find _ _ _ hp
        | none =>
          cases off <;> simp [TableLockInfo.holders, hp, LockCounts.zero] at hpos

/-- C18 (amended).  In a reachable state `TableHasLocks` returns false for
an invalid handle, and for a valid handle it returns true exactly when some
registered transaction holds a lock on the table of that index or on one of
its pages or rows, whether or not the table is registered. -/
theorem tableHasLocks_spec (bm : BufferManager) (lm : LockManager) (hr : Reachable bm lm)
    (table : BufferTable) :
    (Handle.IsValid table = false → lm.TableHasLocks table = false) ∧
    (Handle.IsValid table = true →
      (lm.TableHasLocks table = true ↔
        ∃ o a, o.path.1 = BufferTable.index table ∧ 0 < heldBy bm lm o a)) := by
  have hinv := Reachable_Inv bm lm hr
  have hpr := Reachable_Pruned bm lm hr
  have hcount : ∀ o a, holders lm.tableLocks o a = (heldBy bm lm o a : Int) := hinv.2.2.1.1
  constructor
  · intro hv
    unfold LockManager.TableHasLocks
    simp [hv]
  · intro hv
    rw [TableHasLocks_iff_holders lm
      (fun o a => by rw [hcount]; exact Int.natCast_nonneg _) hpr table hv]
    constructor
    · rintro ⟨o, a, ho, ha⟩
      rw [hcount] at ha
      exact ⟨o, a, ho, by exact_mod_cast ha⟩
    · rintro ⟨o, a, ho, ha⟩
      refine ⟨o, a, ho, ?_⟩
      rw [hcount]
      exact_mod_cast ha

theorem tableHasLocks_spec_witness :
    Reachable sampleBuffers (stateAfter heldThenUnregistered) ∧
    (Handle.IsValid (some 0) = false →
      (stateAfter heldThenUnregistered).TableHasLocks (some 0) = false) ∧
    (Handle.IsValid (some 0) = true →
      ((stateAfter heldThenUnregistered).TableHasLocks (some 0) = true ↔
        ∃ o a, o.path.1 = BufferTable.index (some 0) ∧
          0 < heldBy sampleBuffers (stateAfter heldThenUnregistered) o a)) :=
  ⟨Reachable_stateAfter heldThenUnregistered (by decide),
    tableHasLocks_spec sampleBuffers (stateAfter heldThenUnregistered)
      (Reachable_stateAfter heldThenUnregistered (by decide)) (some 0)⟩

/-! ## Held locks designate objects -/

theorem HeldDecodable_Store (bm : BufferManager) (tr : Dict BufferTransaction TransInfo)
    (k : BufferTransaction) (ti : TransInfo) (h : HeldDecodable bm tr)
    (hti : ∀ e, e ∈ ti.acquiredLocks → (objectOf bm e).isSome = true) :
    HeldDecodable bm (Dict.Store tr k ti) := by
  intro t ti2 hf e he
  rw [Dict.find_Store] at hf
  split at hf
  · cases hk : Dict.find tr k with
    | none => rw [hk] at hf; cases hf
    | some ti0 =>
      rw [hk] at hf
      cases hf
      exact hti e he
  · exact h t ti2 hf e he

theorem objectOf_access (bm : BufferManager) (target : LockTarget) (a : LockTargetAccess) :
    objectOf bm { target with access := a } = objectOf bm target := rfl

theorem HeldDecodable_AcquireLockUnsafe (bm : BufferManager) (lm lm2 : LockManager)
    (owner : BufferTransaction) (target : LockTarget) (result res : LockResult) (pp r : Bool)
    (hinv : Inv bm lm) (hd : HeldDecodable bm lm.transactions)
    (h : lm.AcquireLockUnsafe bm owner target result pp = some (r, lm2, res)) :
    HeldDecodable bm lm2.transactions := by
  cases hti : lm.CheckInputUnsafe owner target with
  | none =>
    rw [AcquireLockUnsafe_reject bm lm owner target result pp (Or.inl hti)] at h
    cases h
    exact hd
  | some ti =>
    obtain ⟨hfind, -, hvt, -⟩ := CheckInputUnsafe_find lm owner target ti hti
    cases hp : (pp && ti.pendingLock.IsValid) with
    | true =>
      rw [AcquireLockUnsafe_reject bm lm owner target result pp (Or.inr ⟨ti, hti, hp⟩)] at h
      cases h
      exact hd
    | false =>
      cases ho : objectOf bm target with
      | none =>
        rw [AcquireLockUnsafe_undecodable bm lm owner target result pp ti hti hp ho] at h
        cases h
      | some o =>
        obtain ⟨s1, s2, s3⟩ := AcquireLockUnsafe_spec bm lm owner target result pp ti o hinv hti hp ho
        by_cases hg : Grantable (holders lm.tableLocks o) target.access
        · obtain ⟨lm3, e, hG⟩ := s1 hg
          rw [e] at h
          cases h
          rw [hG.2.2.1]
          refine HeldDecodable_Store bm _ _ _ hd ?_
          intro e2 he2
          rcases List.mem_append.mp he2 with h1 | h1
          · exact hd owner ti hfind e2 h1
          · rw [List.mem_singleton.mp h1, ho]
            rfl
        · cases pp with
          | true =>
            obtain ⟨lm3, e, hE⟩ := s2 hg rfl
            rw [e] at h
            cases h
            rw [hE.2.1]
            exact HeldDecodable_Store bm _ _ _ hd (fun e2 he2 => hd owner ti hfind e2 he2)
          | false =>
            obtain ⟨lm3, e, hS, -⟩ := s3 hg rfl
            rw [e] at h
            cases h
            rw [hS.2.1]
            exact hd

theorem HeldDecodable_ReleaseLockUnsafe (bm : BufferManager) (lm lm2 : LockManager)
    (owner : BufferTransaction) (target : LockTarget) (r : Bool) (hinv : Inv bm lm)
    (hd : HeldDecodable bm lm.transactions)
    (h : lm.ReleaseLockUnsafe bm owner target = some (r, lm2)) :
    HeldDecodable bm lm2.transactions := by
  cases hti : lm.CheckInputUnsafe owner target with
  | none =>
    rw [ReleaseLockUnsafe_reject bm lm owner target hti] at h
    cases h
    exact hd
  | some ti =>
    obtain ⟨hfind, -, hvt, -⟩ := CheckInputUnsafe_find lm owner target ti hti
    by_cases hpend : ti.pendingLock.IsValid = true ∧ ti.pendingLock = target
    · obtain ⟨q0, lm3, hq0, -, e, hD⟩ :=
        ReleaseLockUnsafe_pending bm lm owner target ti hinv hti hpend.1 hpend.2
      rw [e] at h
      cases h
      rw [hD.2.2.1]
      exact HeldDecodable_Store bm _ _ _ hd (fun e2 he2 => hd owner ti hfind e2 he2)
    · have hmiss : ti.pendingLock.IsValid = false ∨ ti.pendingLock ≠ target := by
        by_cases hv : ti.pendingLock.IsValid = true
        · exact Or.inr (fun e => hpend ⟨hv, e⟩)
        · exact Or.inl (by simpa using hv)
      cases ho : objectOf bm target with
      | none =>
        rcases ReleaseLockUnsafe_undecodable bm lm owner target ti hti hmiss ho with e | e
        · rw [e] at h; cases h
        · rw [e] at h; cases h; exact hd
      | some o =>
        obtain ⟨s1, s2⟩ := ReleaseLockUnsafe_spec bm lm owner target ti o hinv hti hmiss ho
        by_cases hmem : target ∈ ti.acquiredLocks
        · obtain ⟨lm3, e, hR⟩ := s1 hmem
          rw [e] at h
          cases h
          rw [hR.2.2.1]
          exact HeldDecodable_Store bm _ _ _ hd
            (fun e2 he2 => hd owner ti hfind e2 (mem_of_mem_removeFirst _ _ _ he2))
        · rw [s2 hmem] at h
          cases h
          exact hd

theorem HeldDecodable_UpgradeLockUnsafe (bm : BufferManager) (lm lm2 : LockManager)
    (owner : BufferTransaction) (old : LockTarget) (newAccess : LockTargetAccess)
    (result res : LockResult) (r : Bool) (hinv : Inv bm lm)
    (hd : HeldDecodable bm lm.transactions)
    (h : lm.UpgradeLockUnsafe bm owner old newAccess result = some (r, lm2, res)) :
    HeldDecodable bm lm2.transactions := by
  cases hti : lm.CheckInputUnsafe owner old with
  | none =>
    rw [UpgradeLockUnsafe_reject bm lm owner old newAccess result (Or.inl hti)] at h
    cases h
    exact hd
  | some ti =>
    obtain ⟨hfind, -, hvt, -⟩ := CheckInputUnsafe_find lm owner old ti hti
    cases hv : ti.pendingLock.IsValid with
    | true =>
      rw [UpgradeLockUnsafe_reject bm lm owner old newAccess result (Or.inr ⟨ti, hti, hv⟩)] at h
      cases h
      exact hd
    | false =>
      cases ho : objectOf bm old with
      | none =>
        rcases UpgradeLockUnsafe_undecodable bm lm owner old newAccess result ti hti hv ho
          with e | e
        · rw [e] at h; cases h
        · rw [e] at h; cases h; exact hd
      | some o =>
        obtain ⟨s1, s2, s3⟩ :=
          UpgradeLockUnsafe_spec bm lm owner old newAccess result ti o hinv hti hv ho
        by_cases hmem : old ∈ ti.acquiredLocks
        · by_cases hg : Grantable (afterRelease (holders lm.tableLocks o) old.access) newAccess
          · obtain ⟨lm3, e, hU⟩ := s2 hmem hg
            rw [e] at h
            cases h
            rw [hU.2.2.1]
            refine HeldDecodable_Store bm _ _ _ hd ?_
            intro e2 he2
            rcases List.mem_append.mp he2 with h1 | h1
            · exact hd owner ti hfind e2 (mem_of_mem_removeFirst _ _ _ h1)
            · rw [List.mem_singleton.mp h1, objectOf_access, ho]
              rfl
          · obtain ⟨lm3, e, hU⟩ := s3 hmem hg
            rw [e] at h
            cases h
            rw [hU.2.1]
            exact HeldDecodable_Store bm _ _ _ hd
              (fun e2 he2 => hd owner ti hfind e2 (mem_of_mem_removeFirst _ _ _ he2))
        · rw [s1 hmem] at h
          cases h
          exact hd

theorem HeldDecodable_rollbackLocks (bm : BufferManager) (trans : BufferTransaction) :
    ∀ (n : Nat) (lm lm2 : LockManager), Inv bm lm → HeldDecodable bm lm.transactions →
      rollbackLocks bm trans n lm = some lm2 → HeldDecodable bm lm2.transactions := by
  intro n
  induction n with
  | zero =>
    intro lm lm2 _ hd h
    simp only [rollbackLocks, Option.some.injEq] at h
    rw [← h]
    exact hd
  | succ n ih =>
    intro lm lm2 hinv hd h
    rw [rollbackLocks] at h
    split at h
    · cases h
    · split at h
      · cases h
      · split at h
        · cases h
        · next success lm1 hr =>
          split at h
          · cases h
          · exact ih lm1 lm2 (Inv_ReleaseLockUnsafe bm lm lm1 trans _ success hinv hr)
              (HeldDecodable_ReleaseLockUnsafe bm lm lm1 trans _ success hinv hd hr) h

theorem HeldDecodable_Rollback (bm : BufferManager) (lm lm2 : LockManager)
    (trans : BufferTransaction) (r : Bool) (hinv : Inv bm lm)
    (hd : HeldDecodable bm lm.transactions) (h : lm.Rollback bm trans = some (r, lm2)) :
    HeldDecodable bm lm2.transactions := by
  unfold LockManager.Rollback at h
  split at h
  · simp only [Option.some.injEq, Prod.mk.injEq] at h
    rw [← h.2]
    exact hd
  · split at h
    · simp only [Option.some.injEq, Prod.mk.injEq] at h
      rw [← h.2]
      exact hd
    · split at h
      · cases h
      · next success lm1 hr =>
        split at h
        · cases h
        · split at h
          · cases h
          · next ti1 hf =>
            cases hl : rollbackLocks bm trans ti1.acquiredLocks.length lm1 with
            | none => rw [hl] at h; cases h
            | some lm3 =>
              rw [hl] at h
              simp only [Option.map_some', Option.some.injEq, Prod.mk.injEq] at h
              rw [← h.2]
              exact HeldDecodable_rollbackLocks bm trans _ lm1 lm3
                (Inv_ReleaseLockUnsafe bm lm lm1 trans _ success hinv hr)
                (HeldDecodable_ReleaseLockUnsafe bm lm lm1 trans _ success hinv hd hr) hl

theorem HeldDecodable_step (bm : BufferManager) (lm lm2 : LockManager) (op : Op)
    (hinv : Inv bm lm) (hd : HeldDecodable bm lm.transactions)
    (h : lm.step bm op = some lm2) : HeldDecodable bm lm2.transactions := by
  cases op with
  | RegisterTable table source =>
    simp only [LockManager.step, Option.some.injEq] at h
    rw [← h]
    unfold LockManager.RegisterTable
    repeat' split
    all_goals exact hd
  | UnregisterTable table =>
    simp only [LockManager.step, Option.some.injEq] at h
    rw [← h]
    unfold LockManager.UnregisterTable
    split <;> exact hd
  | RegisterTransaction t importance =>
    simp only [LockManager.step, Option.some.injEq] at h
    rw [← h]
    unfold LockManager.RegisterTransaction
    split
    · exact hd
    · intro t2 ti2 hf e he
      simp only [Dict.find_Add] at hf
      cases hk : Dict.find lm.transactions t2 with
      | some ti0 =>
        rw [hk] at hf
        cases hf
        exact hd t2 _ hk e he
      | none =>
        rw [hk] at hf
        simp only at hf
        split at hf
        · cases hf
          cases he
        · cases hf
  | UnregisterTransaction t =>
    simp only [LockManager.step, Option.some.injEq] at h
    rw [← h]
    unfold LockManager.UnregisterTransaction
    repeat' split
    all_goals first
      | exact hd
      | (intro t2 ti2 hf e he
         simp only [Dict.find_Remove] at hf
         split at hf
         · cases hf
         · exact hd t2 ti2 hf e he)
  | AcquireLock owner target =>
    simp only [LockManager.step, LockManager.AcquireLock, Option.map_eq_some'] at h
    obtain ⟨⟨r, lm3, res⟩, h1, h2⟩ := h
    simp only at h2
    subst h2
    exact HeldDecodable_AcquireLockUnsafe bm lm lm3 owner target _ res true r hinv hd h1
  | ReleaseLock owner target =>
    simp only [LockManager.step, LockManager.ReleaseLock, Option.map_eq_some'] at h
    obtain ⟨⟨r, lm3⟩, h1, h2⟩ := h
    simp only at h2
    subst h2
    exact HeldDecodable_ReleaseLockUnsafe bm lm lm3 owner target r hinv hd h1
  | UpgradeLock owner old newAccess =>
    simp only [LockManager.step, LockManager.UpgradeLock, Option.map_eq_some'] at h
    obtain ⟨⟨r, lm3, res⟩, h1, h2⟩ := h
    simp only at h2
    subst h2
    exact HeldDecodable_UpgradeLockUnsafe bm lm lm3 owner old newAccess _ res r hinv hd h1
  | PickTransaction fuel =>
    simp only [LockManager.step] at h
    split at h
    · next x hx =>
      simp only [Option.some.injEq] at h
      subst h
      obtain ⟨lm3, res, t⟩ := x
      unfold LockManager.PickTransaction at hx
      rcases pickFromBuckets_spec bm fuel _ lm _ hinv lm3 res t hx with ⟨-, e, -⟩ |
          ⟨-, -, i, key, q, -, -, e, -⟩
      · show HeldDecodable bm lm3.transactions
        rw [e.2.1]
        exact hd
      · obtain ⟨ti, o, q2, hf, -, -, ho, -, -, -, -, htr, -⟩ := e
        show HeldDecodable bm lm3.transactions
        rw [htr]
        refine HeldDecodable_Store bm _ _ _ hd ?_
        intro e2 he2
        rcases List.mem_append.mp he2 with h1 | h1
        · exact hd t ti hf e2 h1
        · rw [List.mem_singleton.mp h1, ho]
          rfl
    · cases h
  | DetectDeadlock fuel =>
    simp only [LockManager.step] at h
    split at h
    · simp only [Option.some.injEq] at h
      rw [← h]
      exact hd
    · cases h
  | Rollback t =>
    simp only [LockManager.step, Option.map_eq_some'] at h
    obtain ⟨⟨r, lm3⟩, h1, h2⟩ := h
    simp only at h2
    subst h2
    exact HeldDecodable_Rollback bm lm lm3 t r hinv hd h1

theorem HeldDecodable_run (bm : BufferManager) (ops : List Op) :
    ∀ (lm lm2 : LockManager), Inv bm lm → HeldDecodable bm lm.transactions →
      LockManager.run bm lm ops = some lm2 → HeldDecodable bm lm2.transactions := by
  induction ops with
  | nil =>
    intro lm lm2 _ hd h
    simp only [LockManager.run, Option.some.injEq] at h
    subst h
    exact hd
  | cons op ops ih =>
    intro lm lm2 hinv hd h
    rw [LockManager.run] at h
    cases hs : lm.step bm op with
    | none => simp only [hs] at h; cases h
    | some lm1 =>
      simp only [hs] at h
      exact ih lm1 lm2 (Inv_step bm lm lm1 op hinv hs) (HeldDecodable_step bm lm lm1 op hinv hd hs) h

/-- In every reachable state every held lock designates an object. -/
theorem Reachable_HeldDecodable (bm : BufferManager) (lm : LockManager) (h : Reachable bm lm) :
    HeldDecodable bm lm.transactions := by
  obtain ⟨ops, h⟩ := h
  refine HeldDecodable_run bm ops LockManager.empty lm (Inv_empty bm) ?_ h
  intro t ti hf
  simp [LockManager.empty, Dict.find] at hf

/-! ## Repeated held locks -/

/-- C16 (amended).  In every reachable state, two entries of the
`acquiredLocks` of one transaction are equal only if they are the same entry
or their access is compatible with itself, which holds for the modes 0, 1 and
3 only: a target with access 2, 4 or 5 occurs at most once. -/
theorem acquiredLocks_repeat_only_self_compatible (bm : BufferManager) (lm : LockManager)
    (hr : Reachable bm lm) (t : BufferTransaction) (ti : TransInfo) (i j : Nat)
    (e : LockTarget) (hf : Dict.find lm.transactions t = some ti)
    (hi : ti.acquiredLocks.get? i = some e) (hj : ti.acquiredLocks.get? j = some e) :
    i = j ∨
      (lockCompatibility e.access e.access = true ∧
        (e.access = 0 ∨ e.access = 1 ∨ e.access = 3)) := by
  by_cases hij : i = j
  · exact Or.inl hij
  · right
    have hinv := Reachable_Inv bm lm hr
    have hd := Reachable_HeldDecodable bm lm hr t ti hf e (List.get?_mem hi)
    cases ho : objectOf bm e with
    | none => rw [ho] at hd; cases hd
    | some o =>
      have h2 := heldIn_two bm o e.access ti.acquiredLocks i j e e hi hj hij ho ho rfl rfl
      have h3 := heldIn_le_heldAll bm lm.transactions t ti o e.access hf
      have hc := hinv.2.2.1
      have hpos : 2 ≤ holders lm.tableLocks o e.access := by
        rw [hc.1]
        exact_mod_cast (Nat.le_trans h2 h3)
      have key : lockCompatibility e.access e.access = true :=
        hc.2 o e.access e.access (by omega) (by omega) (Or.inr hpos)
      refine ⟨key, ?_⟩
      revert key
      generalize e.access = a
      revert a
      decide

theorem acquiredLocks_repeat_only_self_compatible_witness :
    Reachable sampleBuffers (stateAfter heldTwice) ∧
    ((0 : Nat) = 1 ∨
      (lockCompatibility (tableTarget 3 0).access (tableTarget 3 0).access = true ∧
        ((tableTarget 3 0).access = 0 ∨ (tableTarget 3 0).access = 1 ∨
          (tableTarget 3 0).access = 3))) :=
  ⟨Reachable_stateAfter heldTwice (by decide),
    acquiredLocks_repeat_only_self_compatible sampleBuffers (stateAfter heldTwice)
      (Reachable_stateAfter heldTwice (by decide)) (some 1)
      ⟨some 1, 1, [tableTarget 3 0, tableTarget 3 0], LockTarget.Invalid⟩ 0 1 (tableTarget 3 0)
      (by decide) (by decide) (by decide)⟩

/-! ## `ReduceGraph`: the largest closed set of nodes -/

/-- The nodes that share a cycle with `a` form a closed set. -/
theorem closed_of_cycle (g : Graph) (P : Nat → Prop) (a : Nat)
    (ha : Relation.TransGen (g.ArcOn P) a a) :
    g.Closed (fun x => Relation.TransGen (g.ArcOn P) a x ∧ Relation.TransGen (g.ArcOn P) x a) ∧
    ∀ x, Relation.TransGen (g.ArcOn P) a x ∧ Relation.TransGen (g.ArcOn P) x a → P x := by
  constructor
  · rintro x ⟨h1, h2⟩
    constructor
    · obtain ⟨y, hxy, hya⟩ := Relation.TransGen.head'_iff.mp h2
      refine ⟨y, ⟨Relation.TransGen.tail h1 hxy, ?_⟩, hxy.2.2⟩
      rcases Relation.reflTransGen_iff_eq_or_transGen.mp hya with e | e
      · rw [← e]; exact ha
      · exact e
    · obtain ⟨y, hay, hyx⟩ := Relation.TransGen.tail'_iff.mp h1
      refine ⟨y, ⟨?_, Relation.TransGen.head hyx h2⟩, hyx.2.2⟩
      rcases Relation.reflTransGen_iff_eq_or_transGen.mp hay with e | e
      · rw [e]; exact ha
      · exact e
  · rintro x ⟨h1, -⟩
    obtain ⟨y, -, hyx⟩ := Relation.TransGen.tail'_iff.mp h1
    exact hyx.2.1

theorem ne_nil_of_not_reducible (g : Graph) (n : Nat) (h : ¬ Reducible g n) :
    (g.node n).ins ≠ [] ∧ (g.node n).outs ≠ [] := by
  unfold Reducible at h
  constructor
  · intro e
    rw [e] at h
    simp at h
  · intro e
    rw [e] at h
    simp at h

/-- C21.  On a graph whose lists `ins` and `outs` are consistent with the
list `nodes`, `ReduceGraph` returns with fuel `2n + 1` (it neither raises
"Deadlock graph corrupted" nor runs on), and the edges are untouched.  The
nodes it leaves are nodes of the input; each has a non-empty `ins` and a
non-empty `outs`, whose edges join it to remaining nodes, so each has a
successor and a predecessor among the remaining nodes; every set of input
nodes in which each node has a successor and a predecessor within the set
is left in place, so the remaining set is the largest such set; and no node
on a directed cycle of the input is removed. -/
theorem reduceGraph_keeps_largest_closed_set (fuel : Nat) (g : Graph) (nodes : List Nat)
    (hinv : GInv g nodes) (hf : 2 * nodes.length + 1 ≤ fuel) :
    ∃ g2 nodes2, ReduceGraph fuel g nodes = Outcome.ok (g2, nodes2) ∧
      g2.edges = g.edges ∧ GInv g2 nodes2 ∧ nodes2.Sublist nodes ∧
      (∀ n ∈ nodes2, (g2.node n).ins ≠ [] ∧ (g2.node n).outs ≠ [] ∧
        (∀ e ∈ (g2.node n).outs, (g.edge e).fromNode = n ∧ (g.edge e).toNode ∈ nodes2) ∧
        (∀ e ∈ (g2.node n).ins, (g.edge e).toNode = n ∧ (g.edge e).fromNode ∈ nodes2)) ∧
      g.Closed (fun x => x ∈ nodes2) ∧
      (∀ S : Nat → Prop, g.Closed S → (∀ x, S x → x ∈ nodes) → ∀ x, S x → x ∈ nodes2) ∧
      (∀ x, Relation.TransGen (g.ArcOn fun y => y ∈ nodes) x x → x ∈ nodes2) := by
  obtain ⟨g2, nodes2, r1, r2, r3, r4, r5, r6, r7, r8⟩ := ReduceGraph_spec fuel g nodes hinv hf
  have hedge : ∀ e, g2.edge e = g.edge e := Graph.edge_eq_of_edges g g2 r3
  have houts : ∀ n ∈ nodes2, ∀ e ∈ (g2.node n).outs,
      e < g.edges.length ∧ (g.edge e).fromNode = n ∧ (g.edge e).toNode ∈ nodes2 := by
    intro n hn e he
    have := r2.outs_ok n hn e he
    rw [hedge, r3] at this
    exact this
  have hins : ∀ n ∈ nodes2, ∀ e ∈ (g2.node n).ins,
      e < g.edges.length ∧ (g.edge e).toNode = n ∧ (g.edge e).fromNode ∈ nodes2 := by
    intro n hn e he
    have := r2.ins_ok n hn e he
    rw [hedge, r3] at this
    exact this
  refine ⟨g2, nodes2, r1, r3, r2, r6, ?_, ?_, r8, ?_⟩
  · intro n hn
    obtain ⟨k1, k2⟩ := ne_nil_of_not_reducible g2 n (r7 n hn)
    exact ⟨k1, k2, fun e he => (houts n hn e he).2, fun e he => (hins n hn e he).2⟩
  · intro x hx
    obtain ⟨k1, k2⟩ := ne_nil_of_not_reducible g2 x (r7 x hx)
    constructor
    · obtain ⟨e, he⟩ := List.exists_mem_of_ne_nil _ k2
      obtain ⟨h1, h2, h3⟩ := houts x hx e he
      exact ⟨(g.edge e).toNode, h3, e, h1, h2, rfl⟩
    · obtain ⟨e, he⟩ := List.exists_mem_of_ne_nil _ k1
      obtain ⟨h1, h2, h3⟩ := hins x hx e he
      exact ⟨(g.edge e).fromNode, h3, e, h1, rfl, h2⟩
  · intro x hx
    obtain ⟨c1, c2⟩ := closed_of_cycle g (fun y => y ∈ nodes) x hx
    exact r8 _ c1 c2 x ⟨hx, hx⟩

theorem reduceGraph_keeps_largest_closed_set_witness :
    ∃ g2 nodes2, ReduceGraph 5 twoCycle [0, 1] = Outcome.ok (g2, nodes2) ∧
      g2.edges = twoCycle.edges ∧ GInv g2 nodes2 ∧ nodes2.Sublist [0, 1] ∧
      (∀ n ∈ nodes2, (g2.node n).ins ≠ [] ∧ (g2.node n).outs ≠ [] ∧
        (∀ e ∈ (g2.node n).outs,
          (twoCycle.edge e).fromNode = n ∧ (twoCycle.edge e).toNode ∈ nodes2) ∧
        (∀ e ∈ (g2.node n).ins,
          (twoCycle.edge e).toNode = n ∧ (twoCycle.edge e).fromNode ∈ nodes2)) ∧
      twoCycle.Closed (fun x => x ∈ nodes2) ∧
      (∀ S : Nat → Prop, twoCycle.Closed S → (∀ x, S x → x ∈ [0, 1]) →
        ∀ x, S x → x ∈ nodes2) ∧
      (∀ x, Relation.TransGen (twoCycle.ArcOn fun y => y ∈ [0, 1]) x x → x ∈ nodes2) :=
  reduceGraph_keeps_largest_closed_set 5 twoCycle [0, 1] GInv_twoCycle (by decide)

/-! ## `FindCycle`: the node it returns -/

/-- C22.  On a consistent graph in which every node of `nodes` has an outgoing
edge, `FindCycle` returns with fuel `n` for `n` nodes (it neither raises
"Failed to find a cycle" nor runs on), and it returns null exactly when
`nodes` is empty.  The node `v` it returns otherwise is a node of `nodes`;
following `previous` from `v` leads through distinct nodes of `nodes` other
than `v` (the list `pre`) back to `v`, after at least one step, and every step
`previous(x) -> x` is an edge: `v` lies on a directed cycle of the graph.  The
edges and the lists `ins` and `outs` are untouched. -/
theorem findCycle_returns_cycle (fuel : Nat) (g : Graph) (nodes : List Nat)
    (hinv : GInv g nodes) (hout : ∀ m ∈ nodes, (g.node m).outs ≠ [])
    (hfuel : nodes.length ≤ fuel) :
    ∃ g2 r, FindCycle fuel g nodes = Outcome.ok (g2, r) ∧ SameLinks g g2 ∧
      (r = none ↔ nodes = []) ∧
      ∀ v, r = some v →
        v ∈ nodes ∧
        ∃ pre, (∀ y ∈ pre, y ∈ nodes ∧ y ≠ v) ∧ pre.Nodup ∧
          List.Chain' (fun x y => (g2.node x).previous = some y ∧ g.Arc y x)
            (v :: pre ++ [v]) ∧
          Relation.TransGen (g.ArcOn fun x => x ∈ nodes) v v := by
  by_cases hne : nodes = []
  · subst hne
    refine ⟨g, none, FindCycle_nil fuel g, SameLinks_refl g, ⟨fun _ => rfl, fun _ => rfl⟩, ?_⟩
    intro v hv
    cases hv
  · obtain ⟨g2, target, pre, c1, c2, c3, c4, c5, c6⟩ :=
      FindCycle_walk fuel g nodes hinv hout hne hfuel
    refine ⟨g2, some target, c1, c2, ⟨fun h => Option.noConfusion h, fun h => absurd h hne⟩, ?_⟩
    intro v hv
    cases hv
    have hch : List.Chain' (fun x y => (g2.node x).previous = some y ∧ g.Arc y x)
        (target :: pre ++ [target]) := by
      refine List.Chain'.imp ?_ c6
      intro x y hxy
      exact ⟨hxy.1, (Graph.Arc_congr g g2 c2.1 _ _).mp hxy.2⟩
    refine ⟨c3, pre, c4, c5, hch, ?_⟩
    apply transGen_of_chain pre target target
    have hc := chain_with_mem (fun x => x ∈ nodes) _ hch (by
      intro x hx
      rw [List.cons_append] at hx
      rcases List.mem_cons.mp hx with h | h
      · rw [h]; exact c3
      · rcases List.mem_append.mp h with h | h
        · exact (c4 x h).1
        · rw [List.mem_singleton.mp h]; exact c3)
    refine List.Chain'.imp ?_ hc
    intro x y hxy
    exact ⟨hxy.2.1, hxy.1, hxy.2.2.2⟩

theorem findCycle_returns_cycle_witness :
    ∃ g2 r, FindCycle 2 twoCycle [0, 1] = Outcome.ok (g2, r) ∧ SameLinks twoCycle g2 ∧
      (r = none ↔ [0, 1] = ([] : List Nat)) ∧
      ∀ v, r = some v →
        v ∈ [0, 1] ∧
        ∃ pre, (∀ y ∈ pre, y ∈ [0, 1] ∧ y ≠ v) ∧ pre.Nodup ∧
          List.Chain' (fun x y => (g2.node x).previous = some y ∧ twoCycle.Arc y x)
            (v :: pre ++ [v]) ∧
          Relation.TransGen (twoCycle.ArcOn fun x => x ∈ [0, 1]) v v :=
  findCycle_returns_cycle 2 twoCycle [0, 1] GInv_twoCycle (by decide) (by decide)

/-! ## Entries of the lock tree and `TableHasLocks` -/

theorem heldIn_pos_iff (bm : BufferManager) (o : LockObject) (a : LockTargetAccess)
    (l : List LockTarget) :
    0 < heldIn bm o a l ↔ ∃ e, e ∈ l ∧ objectOf bm e = some o ∧ e.access = a := by
  unfold heldIn
  rw [List.countP_pos_iff]
  simp only [Bool.and_eq_true, decide_eq_true_eq]

theorem heldAll_pos_iff (bm : BufferManager) (o : LockObject) (a : LockTargetAccess) :
    ∀ (tr : Dict BufferTransaction TransInfo), (tr.map Prod.fst).Nodup →
      (0 < heldAll bm tr o a ↔
        ∃ t ti e, Dict.find tr t = some ti ∧ e ∈ ti.acquiredLocks ∧
          objectOf bm e = some o ∧ e.access = a) := by
  intro tr
  induction tr with
  | nil =>
    intro _
    simp [heldAll, Dict.find]
  | cons kv m ih =>
    obtain ⟨k0, v0⟩ := kv
    intro hnd
    simp only [List.map_cons, List.nodup_cons] at hnd
    have hsum : heldAll bm ((k0, v0) :: m) o a =
        heldIn bm o a v0.acquiredLocks + heldAll bm m o a := by
      simp [heldAll]
    rw [hsum]
    constructor
    · intro hpos
      by_cases h0 : 0 < heldIn bm o a v0.acquiredLocks
      · obtain ⟨e, he, h1, h2⟩ := (heldIn_pos_iff bm o a _).mp h0
        exact ⟨k0, v0, e, by simp [Dict.find], he, h1, h2⟩
      · have h1 : 0 < heldAll bm m o a := by omega
        obtain ⟨t, ti, e, hf, he, h2, h3⟩ := (ih hnd.2).mp h1
        refine ⟨t, ti, e, ?_, he, h2, h3⟩
        have hne : ¬ k0 = t := by
          intro e0
          subst e0
          have := (Dict.find_none_iff m k0).mpr hnd.1
          rw [this] at hf
          cases hf
        simp only [Dict.find, hne, if_false]
        exact hf
    · rintro ⟨t, ti, e, hf, he, h2, h3⟩
      by_cases hk : k0 = t
      · subst hk
        simp only [Dict.find, if_true, Option.some.injEq] at hf
        subst hf
        have := (heldIn_pos_iff bm o a _).mpr ⟨e, he, h2, h3⟩
        omega
      · simp only [Dict.find, hk, if_false] at hf
        have := (ih hnd.2).mpr ⟨t, ti, e, hf, he, h2, h3⟩
        omega

/-- C24.  In every reachable state, every page info stored in the page map
of a table has a positive counter or a row info, every row info stored in the
row map of a page has a positive counter, and for every valid table handle
`TableHasLocks` is true exactly when some registered transaction holds a lock
that designates the table of that index, one of its pages or one of its
rows. -/
theorem lock_tree_entries_nonempty (bm : BufferManager) (lm : LockManager)
    (hr : Reachable bm lm) :
    (∀ i t page p, lm.tableLocks.getD i none = some t →
      Dict.find t.pageLocks page = some p →
      ((∃ a, 0 < p.acquiredLocks a) ∨ ∃ off w, Dict.find p.rowLocks off = some w) ∧
      ∀ off w, Dict.find p.rowLocks off = some w → ∃ a, 0 < w.acquiredLocks a) ∧
    (∀ table, Handle.IsValid table = true →
      (lm.TableHasLocks table = true ↔
        ∃ t ti e o, Dict.find lm.transactions t = some ti ∧ e ∈ ti.acquiredLocks ∧
          objectOf bm e = some o ∧ o.path.1 = BufferTable.index table)) := by
  have hinv := Reachable_Inv bm lm hr
  have hpr := Reachable_Pruned bm lm hr
  have hcount : ∀ o a, holders lm.tableLocks o a = (heldAll bm lm.transactions o a : Int) :=
    hinv.2.2.1.1
  constructor
  · intro i t page p hs hp
    obtain ⟨k1, k2, k3⟩ := hpr i t hs page p hp
    constructor
    · cases hz : p.acquiredLocks.IsZero with
      | false => exact Or.inl (pos_of_not_isZero _ k1 hz)
      | true =>
        right
        simp only [PageLockInfo.IsEmpty, hz, Bool.true_and] at k2
        exact find_of_isEmpty_false _ k2
    · intro off w hw
      obtain ⟨w1, w2⟩ := k3 off w hw
      exact pos_of_not_isZero _ w1 w2
  · intro table hv
    rw [TableHasLocks_iff_holders lm
      (fun o a => by rw [hcount]; exact Int.natCast_nonneg _) hpr table hv]
    constructor
    · rintro ⟨o, a, ho, ha⟩
      rw [hcount] at ha
      have ha2 : 0 < heldAll bm lm.transactions o a := by exact_mod_cast ha
      obtain ⟨t, ti, e, hf, he, h1, -⟩ := (heldAll_pos_iff bm o a _ hinv.2.1.1).mp ha2
      exact ⟨t, ti, e, o, hf, he, h1, ho⟩
    · rintro ⟨t, ti, e, o, hf, he, h1, ho⟩
      refine ⟨o, e.access, ho, ?_⟩
      rw [hcount]
      have := (heldAll_pos_iff bm o e.access _ hinv.2.1.1).mpr ⟨t, ti, e, hf, he, h1, rfl⟩
      exact_mod_cast this

theorem lock_tree_entries_nonempty_witness :
    (∀ i t page p, (stateAfter pageAndRow).tableLocks.getD i none = some t →
      Dict.find t.pageLocks page = some p →
      ((∃ a, 0 < p.acquiredLocks a) ∨ ∃ off w, Dict.find p.rowLocks off = some w) ∧
      ∀ off w, Dict.find p.rowLocks off = some w → ∃ a, 0 < w.acquiredLocks a) ∧
    (∀ table, Handle.IsValid table = true →
      ((stateAfter pageAndRow).TableHasLocks table = true ↔
        ∃ t ti e o, Dict.find (stateAfter pageAndRow).transactions t = some ti ∧
          e ∈ ti.acquiredLocks ∧ objectOf sampleBuffers e = some o ∧
          o.path.1 = BufferTable.index table)) :=
  lock_tree_entries_nonempty sampleBuffers (stateAfter pageAndRow)
    (Reachable_stateAfter pageAndRow (by decide))

/-! ## The deadlock detector: the involved nodes -/

/-- Every node of a closed walk reaches the end of the walk and is reached
from it. -/
theorem transGen_of_mem_chain {A : Nat → Nat → Prop} (target : Nat) (pre : List Nat)
    (h : List.Chain' (fun x y => A y x) (target :: pre ++ [target])) (x : Nat) (hx : x ∈ pre) :
    Relation.TransGen A x target ∧ Relation.TransGen A target x := by
  obtain ⟨pa, pb, hsplit⟩ := List.append_of_mem hx
  subst hsplit
  constructor
  · apply transGen_of_chain pa target x
    have e : target :: (pa ++ x :: pb) ++ [target] = (target :: pa ++ [x]) ++ (pb ++ [target]) := by
      simp
    rw [e] at h
    exact h.left_of_append
  · apply transGen_of_chain pb x target
    have e : target :: (pa ++ x :: pb) ++ [target] = (target :: pa) ++ (x :: pb ++ [target]) := by
      simp
    rw [e] at h
    exact h.right_of_append

/-- The loop of `DetectDeadlock` on a consistent graph, with fuel `2n + 1`:
the nodes it adds to `involved` are the victims and the nodes that share a
cycle with a victim. -/
theorem detectLoop_involved :
    ∀ (fuel : Nat) (g : Graph) (nodes involved : List Nat) (rollbacks : List BufferTransaction),
      GInv g nodes → 2 * nodes.length + 1 ≤ fuel →
      ∃ (g2 : Graph) (nodes2 involved2 victims : List Nat),
        detectLoop fuel g nodes involved rollbacks =
          Outcome.ok (g2, nodes2, involved2,
            rollbacks ++ victims.map fun v => (g.node v).transInfo.trans) ∧
        g2.edges = g.edges ∧ g2.nodes.length = g.nodes.length ∧
        (∀ m, (g2.node m).transInfo = (g.node m).transInfo) ∧
        (∀ v ∈ victims, v ∈ nodes ∧ v ∈ involved2) ∧
        (∀ x ∈ involved, x ∈ involved2) ∧
        (∀ x ∈ involved2, x ∈ involved ∨ (x ∈ nodes ∧ ∃ v ∈ victims,
          Relation.TransGen (g.ArcOn fun y => y ∈ nodes) x v ∧
          Relation.TransGen (g.ArcOn fun y => y ∈ nodes) v x)) ∧
        (involved.Nodup → involved2.Nodup) := by
  intro fuel
  induction fuel with
  | zero =>
    intro g nodes involved rollbacks _ hf
    omega
  | succ fuel ih =>
    intro g nodes involved rollbacks hinv hf
    obtain ⟨g1, nodes1, r1, r2, r3, r4, r5, r6, r7, r8⟩ :=
      ReduceGraph_spec (fuel + 1) g nodes hinv hf
    have hlen1 := r6.length_le
    rw [detectLoop]
    simp only [r1]
    by_cases hne : nodes1 = []
    · subst hne
      simp only [FindCycle_nil]
      refine ⟨g1, [], involved, [], by simp, r3, r4, r5, ?_, fun x hx => hx,
        fun x hx => Or.inl hx, fun h => h⟩
      intro v hv
      cases hv
    · obtain ⟨g2, target, pre, c1, c2, c3, c4, c5, c6⟩ :=
        FindCycle_spec (fuel + 1) g1 nodes1 r2 r7 hne (by omega)
      simp only [c1]
      have hprelen : pre.length + 1 ≤ nodes1.length :=
        length_lt_of_nodup_sub nodes1 pre target
          (List.nodup_cons.mpr ⟨fun h => (c4 target h).2 rfl, c5⟩)
          (by
            intro x hx
            rcases List.mem_cons.mp hx with h | h
            · rw [h]; exact c3
            · exact (c4 x h).1)
      obtain ⟨involved1, s1, s2, s3⟩ := SaveCycle_spec g2 target pre (fuel + 1) involved c6
        (fun y hy => (c4 y hy).2) (by omega)
      simp only [s1, ChooseVictim_eq]
      have hinv2 : GInv g2 nodes1 := GInv_SameLinks g1 g2 nodes1 c2 r2
      have hinv3 := GInv_cutNode g2 nodes1 target hinv2 c3
      obtain ⟨l1, l2, l3, l4⟩ := cutNode_links g2 nodes1 target hinv2 c3
      have hlen3 : (removeFirst nodes1 target).length + 1 = nodes1.length :=
        length_removeFirst nodes1 target c3
      have hedges : (cutNode g2 target).edges = g.edges := l1.trans (c2.1.trans r3)
      have hinfo : ∀ m, ((cutNode g2 target).node m).transInfo = (g.node m).transInfo :=
        fun m => (l3 m).1.trans ((c2.2.2 m).2.2.trans (r5 m))
      have hmem3 : ∀ m, m ∈ removeFirst nodes1 target ↔ m ∈ nodes1 ∧ m ≠ target :=
        fun m => mem_removeFirst_iff nodes1 target m r2.nodup
      obtain ⟨g4, nodes4, involved4, victims, d1, d2, d3, d4, d5, d6, d7, d8⟩ :=
        ih (cutNode g2 target) (removeFirst nodes1 target) involved1
          (rollbacks ++ [((cutNode g2 target).node target).transInfo.trans]) hinv3 (by omega)
      have harc : ∀ a b, (cutNode g2 target).Arc a b ↔ g.Arc a b :=
        Graph.Arc_congr g _ hedges
      have hchain : List.Chain' (fun x y => (g.ArcOn fun z => z ∈ nodes) y x)
          (target :: pre ++ [target]) := by
        have hc := chain_with_mem (fun x => x ∈ nodes1) _ c6 (by
          intro x hx
          rw [List.cons_append] at hx
          rcases List.mem_cons.mp hx with h | h
          · rw [h]; exact c3
          · rcases List.mem_append.mp h with h | h
            · exact (c4 x h).1
            · rw [List.mem_singleton.mp h]; exact c3)
        refine List.Chain'.imp ?_ hc
        intro x y hxy
        exact ⟨r6.subset hxy.2.1, r6.subset hxy.1,
          (Graph.Arc_congr g g2 (c2.1.trans r3) _ _).mp hxy.2.2.2⟩
      have hcyc : Relation.TransGen (g.ArcOn fun x => x ∈ nodes) target target :=
        transGen_of_chain pre target target hchain
      refine ⟨g4, nodes4, involved4, target :: victims, ?_, d2.trans hedges,
        d3.trans (l2.trans (c2.2.1.trans r4)), fun m => (d4 m).trans (hinfo m), ?_, ?_, ?_,
        fun h => d8 (s3 h)⟩
      · rw [d1]
        simp only [List.map_cons, hinfo, List.append_assoc, List.singleton_append]
      · intro v hv
        rcases List.mem_cons.mp hv with h | h
        · rw [h]
          exact ⟨r6.subset c3, d6 target ((s2 target).mpr (Or.inr (Or.inl rfl)))⟩
        · exact ⟨r6.subset ((hmem3 v).mp (d5 v h).1).1, (d5 v h).2⟩
      · intro x hx
        exact d6 x ((s2 x).mpr (Or.inl hx))
      · intro x hx
        rcases d7 x hx with h | ⟨h1, v, hv, h2, h3⟩
        · rcases (s2 x).mp h with h | h | h
          · exact Or.inl h
          · right
            rw [h]
            exact ⟨r6.subset c3, target, List.mem_cons_self _ _, hcyc, hcyc⟩
          · right
            obtain ⟨k1, k2⟩ := transGen_of_mem_chain target pre hchain x h
            exact ⟨r6.subset (c4 x h).1, target, List.mem_cons_self _ _, k1, k2⟩
        · right
          have hmono : ∀ a b, ((cutNode g2 target).ArcOn fun y => y ∈ removeFirst nodes1 target) a b →
              (g.ArcOn fun y => y ∈ nodes) a b := by
            intro a b hab
            exact ⟨r6.subset ((hmem3 a).mp hab.1).1, r6.subset ((hmem3 b).mp hab.2.1).1,
              (harc a b).mp hab.2.2⟩
          exact ⟨r6.subset ((hmem3 x).mp h1).1, v, List.mem_cons_of_mem _ hv,
            Relation.TransGen.mono hmono h2, Relation.TransGen.mono hmono h3⟩

/-! ## The deadlock detector: the report -/

/-- The inner loop of the report adds each index once. -/
theorem insertFold_spec (l : List Nat) :
    ∀ acc : List Nat,
      (∀ i, i ∈ l.foldl (fun acc i => if i ∈ acc then acc else sortedAdd i acc) acc ↔
        i ∈ acc ∨ i ∈ l) ∧
      (acc.Nodup →
        (l.foldl (fun acc i => if i ∈ acc then acc else sortedAdd i acc) acc).Nodup) := by
  induction l with
  | nil =>
    intro acc
    exact ⟨fun i => by simp, fun h => h⟩
  | cons a l ih =>
    intro acc
    rw [List.foldl_cons]
    by_cases ha : a ∈ acc
    · rw [if_pos ha]
      refine ⟨fun i => ?_, (ih acc).2⟩
      rw [(ih acc).1 i, List.mem_cons]
      constructor
      · rintro (h | h)
        · exact Or.inl h
        · exact Or.inr (Or.inr h)
      · rintro (h | h | h)
        · exact Or.inl h
        · exact Or.inl (h ▸ ha)
        · exact Or.inr h
    · rw [if_neg ha]
      refine ⟨fun i => ?_, fun h => (ih _).2 (nodup_sortedAdd a acc ha h)⟩
      rw [(ih _).1 i, mem_sortedAdd, List.mem_cons]
      constructor
      · rintro ((h | h) | h)
        · exact Or.inr (Or.inl h)
        · exact Or.inl h
        · exact Or.inr (Or.inr h)
      · rintro (h | h | h)
        · exact Or.inl (Or.inr h)
        · exact Or.inl (Or.inl h)
        · exact Or.inr h

theorem gatherAcquired_spec (g : Graph) (involved : List Nat) (acc : List Nat) (e : Nat) :
    (∀ i, i ∈ gatherAcquired g involved acc e ↔
      i ∈ acc ∨ ((g.edge e).fromNode ∈ involved ∧ i ∈ (g.edge e).toNodeAcquired)) ∧
    (acc.Nodup → (gatherAcquired g involved acc e).Nodup) := by
  unfold gatherAcquired
  by_cases h : (g.edge e).fromNode ∈ involved
  · rw [if_pos h]
    refine ⟨fun i => ?_, (insertFold_spec _ acc).2⟩
    rw [(insertFold_spec _ acc).1 i]
    simp [h]
  · rw [if_neg h]
    exact ⟨fun i => by simp [h], fun h2 => h2⟩

/-- The indices that the report gathers for one node: those of the edges
that come from an involved node, each once. -/
theorem gathered_spec (g : Graph) (involved : List Nat) (incoming : List Nat) :
    ∀ acc : List Nat,
      (∀ i, i ∈ incoming.foldl (gatherAcquired g involved) acc ↔
        i ∈ acc ∨ ∃ e ∈ incoming, (g.edge e).fromNode ∈ involved ∧
          i ∈ (g.edge e).toNodeAcquired) ∧
      (acc.Nodup → (incoming.foldl (gatherAcquired g involved) acc).Nodup) := by
  induction incoming with
  | nil =>
    intro acc
    exact ⟨fun i => by simp, fun h => h⟩
  | cons e incoming ih =>
    intro acc
    rw [List.foldl_cons]
    refine ⟨fun i => ?_, fun h => (ih _).2 ((gatherAcquired_spec g involved acc e).2 h)⟩
    rw [(ih _).1 i, (gatherAcquired_spec g involved acc e).1 i]
    constructor
    · rintro ((h | h) | ⟨e2, h1, h2⟩)
      · exact Or.inl h
      · exact Or.inr ⟨e, List.mem_cons_self _ _, h⟩
      · exact Or.inr ⟨e2, List.mem_cons_of_mem _ h1, h2⟩
    · rintro (h | ⟨e2, h1, h2⟩)
      · exact Or.inl (Or.inl h)
      · rcases List.mem_cons.mp h1 with h3 | h3
        · rw [h3] at h2
          exact Or.inl (Or.inr h2)
        · exact Or.inr ⟨e2, h3, h2⟩

theorem mapM_get?_eq {α : Type} (l : List α) :
    ∀ (idx : List Nat) (ys : List α), (idx.mapM fun i => l.get? i) = some ys →
      ys = idx.filterMap fun i => l.get? i := by
  intro idx
  induction idx with
  | nil =>
    intro ys h
    rw [List.mapM_nil] at h
    cases h
    rfl
  | cons i idx ih =>
    intro ys h
    rw [List.mapM_cons] at h
    cases hi : l.get? i with
    | none =>
      rw [hi] at h
      cases h
    | some a =>
      rw [hi] at h
      cases hm : (idx.mapM fun i => l.get? i) with
      | none =>
        rw [hm] at h
        cases h
      | some zs =>
        rw [hm] at h
        cases h
        rw [List.filterMap_cons, hi, ← ih zs hm]

/-- The output loop of `DetectDeadlock`, exactly: one `pending` entry for each
node of the list, and for each node one `acquired` entry for each gathered
index, in the order of the list. -/
theorem reportInvolved_exact (g : Graph) (allEdges : Dict Nat (List Nat)) (involved : List Nat) :
    ∀ (todo : List Nat) (info info2 : DeadlockInfo),
      reportInvolved g allEdges involved todo info = some info2 →
      info2.rollbacks = info.rollbacks ∧
      info2.pending = info.pending ++
        todo.map (fun x => ((g.node x).transInfo.trans, (g.node x).transInfo.pendingLock)) ∧
      info2.acquired = info.acquired ++
        todo.flatMap (fun x =>
          ((((Dict.find allEdges x).getD []).foldl (gatherAcquired g involved) []).filterMap
            fun i => (g.node x).transInfo.acquiredLocks.get? i).map
              fun a => ((g.node x).transInfo.trans, a)) := by
  intro todo
  induction todo with
  | nil =>
    intro info info2 h
    rw [reportInvolved] at h
    cases h
    simp
  | cons x todo ih =>
    intro info info2 h
    rw [reportInvolved] at h
    simp only at h
    split at h
    · cases h
    · cases hfind : Dict.find allEdges x with
      | none =>
        rw [hfind] at h
        cases h
      | some incoming =>
        rw [hfind] at h
        simp only at h
        cases hm : (incoming.foldl (gatherAcquired g involved) []).mapM
            fun i => (g.node x).transInfo.acquiredLocks.get? i with
        | none =>
          rw [hm] at h
          cases h
        | some targets =>
          rw [hm] at h
          simp only at h
          obtain ⟨r1, r2, r3⟩ := ih _ _ h
          have ht := mapM_get?_eq _ _ _ hm
          refine ⟨r1, ?_, ?_⟩
          · rw [r2]
            simp [Dict.Add]
          · rw [r3, ht]
            simp [hfind]

theorem flatMap_map_congr {α β γ : Type} (f : α → β) (F : α → List γ) (G : β → List γ) :
    ∀ l : List α, (∀ x ∈ l, F x = G (f x)) → l.flatMap F = (l.map f).flatMap G := by
  intro l
  induction l with
  | nil =>
    intro _
    rfl
  | cons a l ih =>
    intro h
    rw [List.map_cons, List.flatMap_cons, List.flatMap_cons, h a (List.mem_cons_self _ _),
      ih (fun x hx => h x (List.mem_cons_of_mem _ hx))]

theorem IndexOf_of_get? {α : Type} [DecidableEq α] (l : List α) (hnd : l.Nodup) (i : Nat) (x : α)
    (h : l.get? i = some x) : IndexOf l x = i :=
  get?_inj_of_nodup l hnd _ _ x (get?_IndexOf l x (List.get?_mem h)) h

/-- The indices that the report gathers for node `x` of the graph of
`BuildGraph`: the indices of the locks of `x` that block the pending lock of
an involved node. -/
theorem gathered_of_BuildInv (g0 g g1 : Graph) (grp : Dict Nat (List Nat))
    (hb : BuildInv g0 g grp (fun a b => a < g0.nodes.length ∧ b < g0.nodes.length))
    (he : g1.edges = g.edges) (involved : List Nat)
    (hin : ∀ y ∈ involved, y < g0.nodes.length) (x : Nat) (hx : x < g0.nodes.length) (i : Nat) :
    i ∈ ((Dict.find grp x).getD []).foldl (gatherAcquired g1 involved) [] ↔
      ∃ y ∈ involved, i ∈ edgeJustification (g0.node y).transInfo.pendingLock
        (g0.node x).transInfo.acquiredLocks := by
  rw [(gathered_spec g1 involved _ []).1 i]
  simp only [List.not_mem_nil, false_or]
  constructor
  · rintro ⟨e, h1, h2, h3⟩
    cases hfind : Dict.find grp x with
    | none =>
      rw [hfind] at h1
      cases h1
    | some incoming =>
      rw [hfind] at h1
      obtain ⟨k1, k2⟩ := ((hb.group_some x incoming hfind).2 e).mp h1
      obtain ⟨-, -, -, j4, -⟩ := hb.edge_ok e k1
      rw [Graph.edge_eq_of_edges g g1 he e] at h2 h3
      rw [j4, k2] at h3
      exact ⟨_, h2, h3⟩
  · rintro ⟨y, hy, hi⟩
    obtain ⟨e, e1, e2, e3⟩ := hb.complete y x ⟨hin y hy, hx⟩ (List.ne_nil_of_mem hi)
    obtain ⟨-, -, -, j4, -⟩ := hb.edge_ok e e1
    cases hfind : Dict.find grp x with
    | none => exact absurd e3 (hb.group_none x hfind e e1)
    | some incoming =>
      refine ⟨e, ((hb.group_some x incoming hfind).2 e).mpr ⟨e1, e3⟩, ?_, ?_⟩
      · rw [Graph.edge_eq_of_edges g g1 he e, e2]
        exact hy
      · rw [Graph.edge_eq_of_edges g g1 he e, j4, e2, e3]
        exact hi

/-- The report of `DetectDeadlock` on a manager that satisfies the invariant,
started with an empty `DeadlockInfo`, with fuel `2n + 1` for `n` queued
transactions. -/
theorem DetectDeadlock_report (bm : BufferManager) (lm : LockManager) (hinv : Inv bm lm)
    (fuel : Nat) (hf : 2 * lm.queued.length + 1 ≤ fuel) :
    ∃ (info : DeadlockInfo) (g : Graph) (grp : Dict Nat (List Nat)) (g1 : Graph)
        (nodes1 involvedN : List Nat) (involved : List BufferTransaction)
        (idx : BufferTransaction → List Nat),
      BuildGraph lm = some (g, grp) ∧
      detectLoop fuel g (List.range g.nodes.length) [] [] =
        Outcome.ok (g1, nodes1, involvedN, info.rollbacks) ∧
      involved = involvedN.map (fun x => (g.node x).transInfo.trans) ∧
      lm.DetectDeadlock fuel ⟨[], [], []⟩ = Outcome.ok info ∧
      involved.Nodup ∧
      (∀ t ∈ info.rollbacks, t ∈ involved) ∧
      (∀ t ∈ involved, t ∈ lm.queued ∧ ∃ v ∈ info.rollbacks,
        Relation.TransGen (WaitsFor lm) t v ∧ Relation.TransGen (WaitsFor lm) v t) ∧
      info.pending.map Prod.fst = involved ∧
      (∀ t L, (t, L) ∈ info.pending →
        ∃ ti, Dict.find lm.transactions t = some ti ∧ ti.pendingLock = L) ∧
      (∀ t, (idx t).Nodup) ∧
      (∀ t ∈ involved, ∀ ti, Dict.find lm.transactions t = some ti → ∀ i,
        (i ∈ idx t ↔ ∃ A s si, ti.acquiredLocks.get? i = some A ∧ s ∈ involved ∧
          Dict.find lm.transactions s = some si ∧ Blocks si.pendingLock A)) ∧
      info.acquired = involved.flatMap (fun t => (idx t).filterMap fun i =>
        ((Dict.find lm.transactions t).bind fun ti => ti.acquiredLocks.get? i).map
          fun A => (t, A)) := by
  obtain ⟨hqnd, hqmem⟩ := queued_props bm lm hinv
  obtain ⟨g, grp, g0, b1, b2, b3, b4, b5⟩ := BuildGraph_nodes bm lm hinv
  have hginv := GInv_of_BuildInv g0 g grp b2
  obtain ⟨g1, nodes1, involved1, victims, d1, d2, d3, d4, d5, d6, d7, d8⟩ :=
    detectLoop_involved fuel g (List.range g.nodes.length) [] [] hginv
      (by rw [List.length_range, b3]; exact hf)
  have hrange : ∀ i, i ∈ List.range g.nodes.length ↔ i < lm.queued.length := by
    intro i
    rw [List.mem_range, b3]
  have F1 : ∀ i, i < lm.queued.length →
      lm.queued.get? i = some (g.node i).transInfo.trans := by
    intro i hi
    obtain ⟨ti, -, h2, -, h4⟩ := b5 i _ (List.get?_eq_get hi)
    rw [h2, h4]
    exact List.get?_eq_get hi
  have F3 : ∀ i j, i < lm.queued.length → j < lm.queued.length →
      (g.node i).transInfo.trans = (g.node j).transInfo.trans → i = j := by
    intro i j hi hj e
    exact get?_inj_of_nodup lm.queued hqnd i j _ (F1 i hi) (by rw [e]; exact F1 j hj)
  have F4 : ∀ i, i < lm.queued.length →
      Dict.find lm.transactions (g.node i).transInfo.trans = some (g.node i).transInfo := by
    intro i hi
    obtain ⟨ti, h1, h2, -, h4⟩ := b5 i _ (F1 i hi)
    subst h2
    exact h1
  have harc : ∀ a b, a < lm.queued.length → b < lm.queued.length →
      (g.Arc a b ↔ WaitsFor lm (g.node a).transInfo.trans (g.node b).transInfo.trans) :=
    fun a b ha hb => Arc_iff_WaitsFor lm g g0 grp b2 b4 b5 a b _ _ (F1 a ha) (F1 b hb)
  have hlift : ∀ a b, Relation.TransGen (g.ArcOn fun y => y ∈ List.range g.nodes.length) a b →
      Relation.TransGen (WaitsFor lm) (g.node a).transInfo.trans (g.node b).transInfo.trans := by
    intro a b h
    refine Relation.TransGen.lift (fun i => (g.node i).transInfo.trans) ?_ h
    intro x y hxy
    exact (harc x y ((hrange x).mp hxy.1) ((hrange y).mp hxy.2.1)).mp hxy.2.2
  have hinvd : ∀ x ∈ involved1, x < lm.queued.length ∧ (∃ y, g.Arc y x) ∧
      ∃ v ∈ victims,
        Relation.TransGen (g.ArcOn fun y => y ∈ List.range g.nodes.length) x v ∧
        Relation.TransGen (g.ArcOn fun y => y ∈ List.range g.nodes.length) v x := by
    intro x hx
    rcases d7 x hx with h | ⟨h1, v, hv, h2, h3⟩
    · cases h
    · refine ⟨(hrange x).mp h1, ?_, v, hv, h2, h3⟩
      cases h3 with
      | single h => exact ⟨_, h.2.2⟩
      | tail _ h => exact ⟨_, h.2.2⟩
  have p1 : ∀ x ∈ involved1, ∃ incoming, Dict.find grp x = some incoming ∧
      ∀ e ∈ incoming, ∀ i ∈ (g1.edge e).toNodeAcquired,
        i < (g1.node x).transInfo.acquiredLocks.length := by
    intro x hx
    obtain ⟨hx1, ⟨y, e, he, hf1, ht1⟩, -⟩ := hinvd x hx
    cases hfind : Dict.find grp x with
    | none => exact absurd ht1 (b2.group_none x hfind e he)
    | some incoming =>
      refine ⟨incoming, rfl, ?_⟩
      intro e2 he2 i hi
      obtain ⟨k1, k2⟩ := ((b2.group_some x incoming hfind).2 e2).mp he2
      obtain ⟨-, -, -, j4, -⟩ := b2.edge_ok e2 k1
      rw [Graph.edge_eq_of_edges g g1 d2 e2, j4, k2] at hi
      rw [d4 x, b2.info x]
      exact edgeJustification_lt _ _ i hi
  have p2 : (involved1.map fun x => (g1.node x).transInfo.trans).Nodup := by
    have : (involved1.map fun x => (g1.node x).transInfo.trans) =
        involved1.map fun x => (g.node x).transInfo.trans := by
      apply List.map_congr_left
      intro x _
      rw [d4 x]
    rw [this]
    refine List.Nodup.map_on ?_ (d8 List.nodup_nil)
    intro x hx y hy e
    exact F3 x y (hinvd x hx).1 (hinvd y hy).1 e
  obtain ⟨info2, hr1, -⟩ := reportInvolved_some g1 grp involved1 involved1
    ⟨[] ++ victims.map (fun v => (g.node v).transInfo.trans), [], []⟩ p1 p2 (fun x _ => rfl)
  obtain ⟨x1, x2, x3⟩ := reportInvolved_exact g1 grp involved1 involved1 _ info2 hr1
  simp only [List.nil_append] at x1 x2 x3
  have hidx : ∀ x ∈ involved1,
      IndexOf lm.queued (g.node x).transInfo.trans = x :=
    fun x hx => IndexOf_of_get? lm.queued hqnd x _ (F1 x (hinvd x hx).1)
  have hmemT : ∀ s, s ∈ involved1.map (fun x => (g.node x).transInfo.trans) →
      ∃ y ∈ involved1, (g.node y).transInfo.trans = s := fun s hs => List.mem_map.mp hs
  refine ⟨info2, g, grp, g1, nodes1, involved1,
    involved1.map (fun x => (g.node x).transInfo.trans),
    fun t => ((Dict.find grp (IndexOf lm.queued t)).getD []).foldl
      (gatherAcquired g1 involved1) [],
    b1, ?_, rfl, ?_, ?_, ?_, ?_, ?_, ?_, ?_, ?_, ?_⟩
  · rw [d1, x1, List.nil_append]
  · unfold LockManager.DetectDeadlock
    simp only [b1, d1, hr1]
  · refine List.Nodup.map_on ?_ (d8 List.nodup_nil)
    intro x hx y hy e
    exact F3 x y (hinvd x hx).1 (hinvd y hy).1 e
  · intro t ht
    rw [x1] at ht
    obtain ⟨v, hv, rfl⟩ := List.mem_map.mp ht
    exact List.mem_map.mpr ⟨v, (d5 v hv).2, rfl⟩
  · intro t ht
    obtain ⟨x, hx, rfl⟩ := List.mem_map.mp ht
    obtain ⟨k1, -, v, hv, k3, k4⟩ := hinvd x hx
    refine ⟨List.get?_mem (F1 x k1), (g.node v).transInfo.trans, ?_, hlift x v k3, hlift v x k4⟩
    rw [x1]
    exact List.mem_map.mpr ⟨v, hv, rfl⟩
  · rw [x2, List.map_map]
    apply List.map_congr_left
    intro x _
    simp only [Function.comp, d4 x]
  · intro t L h
    rw [x2] at h
    obtain ⟨x, hx, e⟩ := List.mem_map.mp h
    simp only [Prod.mk.injEq, d4 x] at e
    refine ⟨(g.node x).transInfo, ?_, e.2⟩
    rw [← e.1]
    exact F4 x (hinvd x hx).1
  · intro t
    exact (gathered_spec g1 involved1 _ []).2 List.nodup_nil
  · intro t ht ti hti i
    obtain ⟨x, hx, rfl⟩ := List.mem_map.mp ht
    have hx1 := (hinvd x hx).1
    rw [F4 x hx1] at hti
    cases hti
    beta_reduce
    rw [hidx x hx, gathered_of_BuildInv g0 g g1 grp b2 d2 involved1
      (fun y hy => by rw [b4]; exact (hinvd y hy).1) x (by rw [b4]; exact hx1) i]
    constructor
    · rintro ⟨y, hy, hi⟩
      rw [← b2.info y, ← b2.info x] at hi
      obtain ⟨A, a1, a2⟩ := (mem_edgeJustification _ _ i).mp hi
      exact ⟨A, (g.node y).transInfo.trans, (g.node y).transInfo, a1,
        List.mem_map.mpr ⟨y, hy, rfl⟩, F4 y (hinvd y hy).1, a2⟩
    · rintro ⟨A, s, si, a1, a2, a3, a4⟩
      obtain ⟨y, hy, rfl⟩ := List.mem_map.mp a2
      rw [F4 y (hinvd y hy).1] at a3
      cases a3
      refine ⟨y, hy, ?_⟩
      rw [← b2.info y, ← b2.info x]
      exact (mem_edgeJustification _ _ i).mpr ⟨A, a1, a4⟩
  · rw [x3]
    apply flatMap_map_congr
    intro x hx
    simp only [hidx x hx, F4 x (hinvd x hx).1, d4 x, Option.some_bind, List.map_filterMap]

/-- C23 (as stated, refuted).  After `selfWait` the only queued transaction is
transaction 1, which waits for itself.  `DetectDeadlock`, started with an
empty `DeadlockInfo`, reports it as the only involved transaction and emits
the lock it holds in `info.acquired`, although no other involved transaction
is blocked by that lock: the edge that justifies the entry comes from the
transaction itself. -/
theorem detectDeadlock_reports_self_wait :
    Reachable sampleBuffers (stateAfter selfWait) ∧
    ∃ info, (stateAfter selfWait).DetectDeadlock 3 ⟨[], [], []⟩ = Outcome.ok info ∧
      info.rollbacks = [some 1] ∧
      info.pending = [(some 1, tableTarget 5 0)] ∧
      (some 1, tableTarget 3 0) ∈ info.acquired ∧
      ¬ ∃ s si, s ≠ some 1 ∧ s ∈ info.pending.map Prod.fst ∧
        Dict.find (stateAfter selfWait).transactions s = some si ∧
        Blocks si.pendingLock (tableTarget 3 0) := by
  refine ⟨Reachable_stateAfter selfWait (by decide),
    ⟨[some 1], [(some 1, tableTarget 5 0)], [(some 1, tableTarget 3 0)]⟩, by rfl, rfl, rfl,
    List.mem_singleton.mpr rfl, ?_⟩
  rintro ⟨s, si, h1, h2, -⟩
  exact h1 (List.mem_singleton.mp h2)


/-- C23 (amended).  In every reachable state, `DetectDeadlock` started with an
empty `DeadlockInfo` returns (with fuel `2n + 1` for `n` queued transactions).
With `involved` the transactions of the nodes that its loop collects in
`involved`: `involved` has no repetition, contains every transaction of
`info.rollbacks`, and each of its members is queued and shares a wait-for
cycle with a transaction of `info.rollbacks`; the keys of `info.pending` are
exactly `involved`, each mapped to its pending lock; and `(t, A)` is in
`info.acquired` if and only if `t` is involved and `A = t.acquiredLocks[i]`
for an index `i` whose lock blocks the pending lock of an involved
transaction `s`, where `s` may be `t` itself.  Each such index is emitted
once: `info.acquired` lists, for each involved `t` in turn, the locks at the
indices `idx t`, a list without repetition of exactly these indices. -/
theorem detectDeadlock_reports_involved (bm : BufferManager) (lm : LockManager)
    (hr : Reachable bm lm) (fuel : Nat) (hf : 2 * lm.queued.length + 1 ≤ fuel) :
    ∃ (info : DeadlockInfo) (g : Graph) (grp : Dict Nat (List Nat)) (g1 : Graph)
        (nodes1 involvedN : List Nat) (involved : List BufferTransaction)
        (idx : BufferTransaction → List Nat),
      BuildGraph lm = some (g, grp) ∧
      detectLoop fuel g (List.range g.nodes.length) [] [] =
        Outcome.ok (g1, nodes1, involvedN, info.rollbacks) ∧
      involved = involvedN.map (fun x => (g.node x).transInfo.trans) ∧
      lm.DetectDeadlock fuel ⟨[], [], []⟩ = Outcome.ok info ∧
      involved.Nodup ∧
      (∀ t ∈ info.rollbacks, t ∈ involved) ∧
      (∀ t ∈ involved, t ∈ lm.queued ∧ ∃ v ∈ info.rollbacks,
        Relation.TransGen (WaitsFor lm) t v ∧ Relation.TransGen (WaitsFor lm) v t) ∧
      info.pending.map Prod.fst = involved ∧
      (∀ t L, (t, L) ∈ info.pending →
        ∃ ti, Dict.find lm.transactions t = some ti ∧ ti.pendingLock = L) ∧
      (∀ t A, (t, A) ∈ info.acquired ↔
        t ∈ involved ∧ ∃ ti i s si, Dict.find lm.transactions t = some ti ∧
          ti.acquiredLocks.get? i = some A ∧ s ∈ involved ∧
          Dict.find lm.transactions s = some si ∧ Blocks si.pendingLock A) ∧
      (∀ t, (idx t).Nodup) ∧
      (∀ t ∈ involved, ∀ ti, Dict.find lm.transactions t = some ti → ∀ i,
        (i ∈ idx t ↔ ∃ A s si, ti.acquiredLocks.get? i = some A ∧ s ∈ involved ∧
          Dict.find lm.transactions s = some si ∧ Blocks si.pendingLock A)) ∧
      info.acquired = involved.flatMap (fun t => (idx t).filterMap fun i =>
        ((Dict.find lm.transactions t).bind fun ti => ti.acquiredLocks.get? i).map
          fun A => (t, A)) := by
  obtain ⟨info, g, grp, g1, nodes1, involvedN, involved, idx, h1, h2, h3, h4, h5, h6, h7, h8,
    h9, h10, h11, h12⟩ := DetectDeadlock_report bm lm (Reachable_Inv bm lm hr) fuel hf
  refine ⟨info, g, grp, g1, nodes1, involvedN, involved, idx, h1, h2, h3, h4, h5, h6, h7, h8,
    h9, ?_, h10, h11, h12⟩
  intro t A
  rw [h12, List.mem_flatMap]
  constructor
  · rintro ⟨t2, ht2, hm⟩
    obtain ⟨i, hi, he⟩ := List.mem_filterMap.mp hm
    cases hfind : Dict.find lm.transactions t2 with
    | none =>
      rw [hfind] at he
      cases he
    | some ti =>
      rw [hfind, Option.some_bind] at he
      cases hget : ti.acquiredLocks.get? i with
      | none =>
        rw [hget] at he
        cases he
      | some A2 =>
        rw [hget] at he
        simp only [Option.map_some', Option.some.injEq, Prod.mk.injEq] at he
        obtain ⟨e1, e2⟩ := he
        subst e1
        subst e2
        obtain ⟨A3, s, si, k1, k2, k3, k4⟩ := (h11 t2 ht2 ti hfind i).mp hi
        rw [hget] at k1
        cases k1
        exact ⟨ht2, ti, i, s, si, hfind, hget, k2, k3, k4⟩
  · rintro ⟨ht, ti, i, s, si, k1, k2, k3, k4, k5⟩
    refine ⟨t, ht, List.mem_filterMap.mpr ⟨i, ?_, ?_⟩⟩
    · exact (h11 t ht ti k1 i).mpr ⟨A, s, si, k2, k3, k4, k5⟩
    · rw [k1, Option.some_bind, k2]
      rfl

theorem detectDeadlock_reports_involved_witness :
    Reachable sampleBuffers (stateAfter crossWaiters) ∧
    2 * (stateAfter crossWaiters).queued.length + 1 ≤ 5 ∧
    ∃ (info : DeadlockInfo) (g : Graph) (grp : Dict Nat (List Nat)) (g1 : Graph)
        (nodes1 involvedN : List Nat) (involved : List BufferTransaction)
        (idx : BufferTransaction → List Nat),
      BuildGraph (stateAfter crossWaiters) = some (g, grp) ∧
      detectLoop 5 g (List.range g.nodes.length) [] [] =
        Outcome.ok (g1, nodes1, involvedN, info.rollbacks) ∧
      involved = involvedN.map (fun x => (g.node x).transInfo.trans) ∧
      (stateAfter crossWaiters).DetectDeadlock 5 ⟨[], [], []⟩ = Outcome.ok info ∧
      involved.Nodup ∧
      (∀ t ∈ info.rollbacks, t ∈ involved) ∧
      (∀ t ∈ involved, t ∈ (stateAfter crossWaiters).queued ∧ ∃ v ∈ info.rollbacks,
        Relation.TransGen (WaitsFor (stateAfter crossWaiters)) t v ∧
        Relation.TransGen (WaitsFor (stateAfter crossWaiters)) v t) ∧
      info.pending.map Prod.fst = involved ∧
      (∀ t L, (t, L) ∈ info.pending →
        ∃ ti, Dict.find (stateAfter crossWaiters).transactions t = some ti ∧
          ti.pendingLock = L) ∧
      (∀ t A, (t, A) ∈ info.acquired ↔
        t ∈ involved ∧ ∃ ti i s si,
          Dict.find (stateAfter crossWaiters).transactions t = some ti ∧
          ti.acquiredLocks.get? i = some A ∧ s ∈ involved ∧
          Dict.find (stateAfter crossWaiters).transactions s = some si ∧
          Blocks si.pendingLock A) ∧
      (∀ t, (idx t).Nodup) ∧
      (∀ t ∈ involved, ∀ ti,
        Dict.find (stateAfter crossWaiters).transactions t = some ti → ∀ i,
        (i ∈ idx t ↔ ∃ A s si, ti.acquiredLocks.get? i = some A ∧ s ∈ involved ∧
          Dict.find (stateAfter crossWaiters).transactions s = some si ∧
          Blocks si.pendingLock A)) ∧
      info.acquired = involved.flatMap (fun t => (idx t).filterMap fun i =>
        ((Dict.find (stateAfter crossWaiters).transactions t).bind
          fun ti => ti.acquiredLocks.get? i).map fun A => (t, A)) :=
  ⟨Reachable_stateAfter crossWaiters (by decide), by decide,
    detectDeadlock_reports_involved sampleBuffers (stateAfter crossWaiters)
      (Reachable_stateAfter crossWaiters (by decide)) 5 (by decide)⟩

end herodb
